import Mathlib

/-!
# Graph algorithms of the `roby_bgl` extension

Shallow embedding of `ext/roby_bgl/algorithm.cc` (and of the Boost Graph Library
procedures it instantiates) together with the properties of the component
analyzer (`components`) and of the reachability grouper (`generated_subgraphs`).

Conventions of the embedding:

* a vertex descriptor is a natural number, `0` being the `NULL` descriptor;
  a vertex is identified with the Ruby value it carries, so `g[u]` is `u`;
* a `ValueSet` is the list of its elements in iteration order, without
  repetition;
* the visitor and terminator of a traversal act on an explicit state `σ`.
-/

namespace RobyBGL

/-! ## Data model -/

/-- Vertex colour of the Boost colour maps. -/
inductive default_color_type where
  | white_color
  | gray_color
  | black_color
deriving DecidableEq, Repr

open default_color_type

/-- A stored edge: its identity, its end points and its payload. In a derived
view the end points are the ones seen through the view, identity and payload
are those of the stored edge. -/
structure Edge where
  id : Nat
  source : Nat
  target : Nat
  payload : Nat
deriving DecidableEq, Repr

/-- The stored graph (`RubyGraph`): its vertices in iteration order and its edges. -/
structure RubyGraph where
  vertices : List Nat
  edges : List Edge

/-- Well-formed stored graph: no vertex is the `NULL` descriptor and every
edge joins two vertices of the graph. -/
def RubyGraph.WF (g : RubyGraph) : Prop :=
  0 ∉ g.vertices ∧ ∀ e ∈ g.edges, e.source ∈ g.vertices ∧ e.target ∈ g.vertices

instance (g : RubyGraph) : Decidable g.WF := by
  unfold RubyGraph.WF; infer_instance

/-- What the algorithm templates consume of their `Graph` argument:
`vertices(g)`, `out_edges(u, g)` and the range
`details::vertex_range<Graph, false>::get(u, g)`. -/
structure View where
  vertices : List Nat
  out_edges : Nat → List Edge
  vertex_range_false : Nat → List Nat

/-- Every out-edge of a vertex leads to a vertex, and `NULL` is no vertex. -/
def View.WF (g : View) : Prop :=
  0 ∉ g.vertices ∧ ∀ u ∈ g.vertices, ∀ e ∈ g.out_edges u, e.target ∈ g.vertices

instance (g : View) : Decidable g.WF := by
  unfold View.WF; infer_instance

/-- The edge seen from its other end point. -/
def Edge.flip (e : Edge) : Edge :=
  { id := e.id, source := e.target, target := e.source, payload := e.payload }

/-- Out-edges of `u` in the stored graph. -/
def RubyGraph.out_edges (g : RubyGraph) (u : Nat) : List Edge :=
  g.edges.filter (fun e => e.source = u)

/-- In-edges of `u` in the stored graph. -/
def RubyGraph.in_edges (g : RubyGraph) (u : Nat) : List Edge :=
  g.edges.filter (fun e => e.target = u)

/-- The stored graph itself as a view (`graph_wrapped(self)`); its
`vertex_range<Graph, false>` is `inv_adjacent_vertices`. -/
def direct_graph (g : RubyGraph) : View :=
  { vertices := g.vertices
    out_edges := fun u => g.out_edges u
    vertex_range_false := fun u => (g.in_edges u).map Edge.source }

/-- View `make_reverse_graph(g)`: the out-edges of `u` are the stored in-edges
of `u` seen from their target; `vertex_range<reverse_graph, false>` is
`adjacent_vertices(v, graph.m_g)` (algorithm.cc, lines 41-61). -/
def make_reverse_graph (g : RubyGraph) : View :=
  { vertices := g.vertices
    out_edges := fun u => (g.in_edges u).map Edge.flip
    vertex_range_false := fun u => (g.out_edges u).map Edge.target }

/-- Modelled from the spec: the adapter `utilmm::make_undirected_graph` of
`undirected_graph.hh`, which is not part of the sources at hand. "Undirected
view, for vertex v, returns edges incident to v in either direction, reporting
the other endpoint as neighbor": the stored out-edges, then the stored in-edges
seen from their target. -/
def make_undirected_graph (g : RubyGraph) : View :=
  { vertices := g.vertices
    out_edges := fun u => g.out_edges u ++ (g.in_edges u).map Edge.flip
    vertex_range_false := fun u =>
      (g.in_edges u).map Edge.source ++ (g.out_edges u).map Edge.target }

/-- The colour map `ColorMap`: a map with default value white. -/
abbrev ColorMap := Nat → default_color_type

/-- A freshly constructed `ColorMap`: every key reads white. -/
def ColorMap.empty : ColorMap := fun _ => white_color

/-- The property-map write `put(color, u, c)`. -/
def put (color : ColorMap) (u : Nat) (c : default_color_type) : ColorMap :=
  fun x => if x = u then c else color x

/-- A `ValueSet`, as the list of its elements. -/
abbrev ValueSet := List Nat

/-- The insertion `set.insert(v)`: no effect when `v` is already an element. -/
def ValueSet.insert (s : ValueSet) (v : Nat) : ValueSet :=
  if v ∈ s then s else s ++ [v]

/-! ## Depth-first visit -/

/-- A DFS visitor acting on a state `σ`: the event points of the Boost
`DFSVisitor` concept. -/
structure DFSVisitor (σ : Type) where
  start_vertex : Nat → σ → σ
  discover_vertex : Nat → σ → σ
  examine_edge : Edge → σ → σ
  tree_edge : Edge → σ → σ
  back_edge : Edge → σ → σ
  forward_or_cross_edge : Edge → σ → σ
  finish_vertex : Nat → σ → σ

/-- The visitor `default_dfs_visitor`: no event point does anything. -/
def default_dfs_visitor (σ : Type) : DFSVisitor σ :=
  { start_vertex := fun _ s => s
    discover_vertex := fun _ s => s
    examine_edge := fun _ s => s
    tree_edge := fun _ s => s
    back_edge := fun _ s => s
    forward_or_cross_edge := fun _ s => s
    finish_vertex := fun _ s => s }

/-- The terminator `nontruth2`: never stops the search. -/
def nontruth2 {σ : Type} : Nat → σ → Bool × σ := fun _ s => (false, s)

/-- The main loop of `depth_first_visit_impl`, the explicit-stack walk that
`undir_dfv_impl_term` of `undirected_dfs.hh` copies: `u` is the vertex being
expanded, `ei` its out-edges still to examine, `stack` the suspended frames.
The first argument bounds the number of iterations. -/
def depth_first_visit_loop {σ : Type} (g : View) (vis : DFSVisitor σ)
    (func : Nat → σ → Bool × σ) :
    Nat → Nat → List Edge → List (Nat × List Edge) → ColorMap → σ → ColorMap × σ
  | 0, _, _, _, color, s => (color, s)
  | fuel + 1, u, [], stack, color, s =>
    let color1 := put color u black_color
    let s1 := vis.finish_vertex u s
    match stack with
    | [] => (color1, s1)
    | back :: rest => depth_first_visit_loop g vis func fuel back.1 back.2 rest color1 s1
  | fuel + 1, u, e :: ei, stack, color, s =>
    let v := e.target
    let s1 := vis.examine_edge e s
    match color v with
    | white_color =>
      let s2 := vis.tree_edge e s1
      let color1 := put color v gray_color
      let s3 := vis.discover_vertex v s2
      let t := func v s3
      depth_first_visit_loop g vis func fuel v (if t.1 then [] else g.out_edges v)
        ((u, ei) :: stack) color1 t.2
    | gray_color =>
      depth_first_visit_loop g vis func fuel u ei stack color (vis.back_edge e s1)
    | black_color =>
      depth_first_visit_loop g vis func fuel u ei stack color
        (vis.forward_or_cross_edge e s1)

/-- Number of loop iterations that no visit of `g` exceeds: two per vertex and
one per out-edge, plus one. -/
def dfs_fuel (g : View) : Nat :=
  (g.vertices.map (fun v => 2 + (g.out_edges v).length)).sum + 1

/-- The procedure `depth_first_visit_impl(g, u, vis, color, func)`: `u` is
painted gray and discovered, then the loop runs until the stack is empty. -/
def depth_first_visit_impl {σ : Type} (g : View) (u : Nat) (vis : DFSVisitor σ)
    (color : ColorMap) (func : Nat → σ → Bool × σ) (s : σ) : ColorMap × σ :=
  let color1 := put color u gray_color
  let s1 := vis.discover_vertex u s
  let t := func u s1
  depth_first_visit_loop g vis func (dfs_fuel g) u
    (if t.1 then [] else g.out_edges u) [] color1 t.2

/-- The four-argument Boost `depth_first_visit(g, u, vis, color)`: the visitor
is told the start vertex, then the visit runs with the terminator `nontruth2`. -/
def depth_first_visit {σ : Type} (g : View) (u : Nat) (vis : DFSVisitor σ)
    (color : ColorMap) (s : σ) : ColorMap × σ :=
  depth_first_visit_impl g u vis color nontruth2 (vis.start_vertex u s)

/-! ## Reachability grouper: `generated_subgraphs` -/

/-- The visitor `vertex_recorder`: each discovered vertex is inserted into the
component. -/
def vertex_recorder : DFSVisitor ValueSet :=
  { default_dfs_visitor ValueSet with
    discover_vertex := fun u component => ValueSet.insert component u }

/-- Modelled from the spec: `rb_to_vertex` of `graph.hh`, which is not part of
the sources at hand, the lookup "resolve(vertexValue) -> (descriptor, exists)". -/
def rb_to_vertex (v : Nat) (g : View) : Nat × Bool :=
  if v ∈ g.vertices then (v, true) else (0, false)

/-- Modelled from the spec: `vertex_has_adjacent_i<Graph, false>` of `graph.hh`,
which is not part of the sources at hand; it selects the root vertices, "a
vertex with no inbound adjacency under the active view". -/
def vertex_has_adjacent_i (v : Nat) (g : View) : Bool :=
  (g.vertex_range_false v).isEmpty

/-- The loop of `graph_components_i`. The iterator is the list of the items
left, `deref` is its dereference `*it`, which may change `result` (the
transform iterator of `graph_do_generated_subgraphs` calls
`graph_components_root_descriptor` at each dereference). The front of `result`
is the component being filled. -/
def graph_components_i_loop {ι : Type} (g : View)
    (deref : ι → List ValueSet → Nat × List ValueSet) (include_singletons : Bool) :
    List ι → ColorMap → List ValueSet → List ValueSet
  | [], _, result => result
  | it :: rest, colors, result =>
    let d1 := deref it result
    if d1.1 = 0 then
      graph_components_i_loop g deref include_singletons rest colors d1.2
    else
      let d2 := deref it d1.2
      if colors d2.1 ≠ white_color then
        graph_components_i_loop g deref include_singletons rest colors d2.2
      else
        let d3 := deref it d2.2
        let r := depth_first_visit g d3.1 vertex_recorder colors d3.2.headI
        if r.2.length > 1 ∨ include_singletons then
          graph_components_i_loop g deref include_singletons rest r.1
            ([] :: r.2 :: d3.2.tail)
        else
          graph_components_i_loop g deref include_singletons rest r.1
            ([] :: d3.2.tail)

/-- The procedure `graph_components_i(result, g, it, end, include_singletons)`. -/
def graph_components_i {ι : Type} (result : List ValueSet) (g : View)
    (deref : ι → List ValueSet → Nat × List ValueSet) (items : List ι)
    (include_singletons : Bool) : List ValueSet :=
  (graph_components_i_loop g deref include_singletons items ColorMap.empty
    ([] :: result)).tail

/-- The function `graph_components_root_descriptor(result, v, g, include_singletons)`:
the descriptor of `v`, or `NULL` after a singleton component was appended to
`result`. -/
def graph_components_root_descriptor (g : View) (include_singletons : Bool)
    (v : Nat) (result : List ValueSet) : Nat × List ValueSet :=
  let r := rb_to_vertex v g
  if !r.2 then
    if include_singletons then (0, result ++ [ValueSet.insert [] v])
    else (0, result)
  else (r.1, result)

/-- The template `graph_do_generated_subgraphs(argc, argv, g, self)`: `roots` is
the first argument (`none` for `nil`), `include_singletons` the optional second
one (`none` when it is not given). -/
def graph_do_generated_subgraphs (g : View) (roots : Option ValueSet)
    (include_singletons : Option Bool) : List ValueSet :=
  let with_singletons := include_singletons.getD true
  match roots with
  | none =>
    graph_components_i [] g (fun v result => (v, result))
      (g.vertices.filter (fun v => vertex_has_adjacent_i v g)) with_singletons
  | some root_set =>
    graph_components_i [] g (graph_components_root_descriptor g with_singletons)
      root_set with_singletons

/-- The method `Graph#generated_subgraphs`. -/
def graph_generated_subgraphs (g : RubyGraph) (roots : Option ValueSet)
    (include_singletons : Option Bool) : List ValueSet :=
  graph_do_generated_subgraphs (direct_graph g) roots include_singletons

/-- The method `Graph::Reverse#generated_subgraphs`. -/
def graph_reverse_generated_subgraphs (g : RubyGraph) (roots : Option ValueSet)
    (include_singletons : Option Bool) : List ValueSet :=
  graph_do_generated_subgraphs (make_reverse_graph g) roots include_singletons

/-! ## Component analyzer: `components` -/

/-- The map `std::map<vertex_descriptor, int>`, as the list of its entries in
key order. -/
abbrev ComponentMap := List (Nat × Nat)

/-- The write `put(component_map, v, c)`, that is `component_map[v] = c`. -/
def ComponentMap.put : ComponentMap → Nat → Nat → ComponentMap
  | [], v, c => [(v, c)]
  | (k, x) :: m, v, c =>
    if v < k then (v, c) :: (k, x) :: m
    else if v = k then (k, c) :: m
    else (k, x) :: ComponentMap.put m v c

/-- The lookup `component_map.find(v)`. -/
def ComponentMap.find (m : ComponentMap) (v : Nat) : Option Nat :=
  (m.find? (fun p => p.1 = v)).map Prod.snd

/-- The access `component_map[v]`: the value at `v`, which is first set to `0`
when `v` is no key. -/
def ComponentMap.index (m : ComponentMap) (v : Nat) : Nat × ComponentMap :=
  match m.find v with
  | some c => (c, m)
  | none => (0, m.put v 0)

/-- The visitor `components_recorder` of Boost `connected_components`. Its
state is the counter `c_count` and the component map; the counter starts at
the sentinel `numeric_limits<int>::max()`, which is `none` here. Each
`start_vertex` opens the next component, each discovered vertex is put into the
current one. -/
def components_recorder : DFSVisitor (Option Nat × ComponentMap) :=
  { default_dfs_visitor (Option Nat × ComponentMap) with
    start_vertex := fun _ s =>
      (match s.1 with
        | none => some 0
        | some n => some (n + 1), s.2)
    discover_vertex := fun u s => (s.1, s.2.put u (s.1.getD 0)) }

/-- The second loop of Boost `depth_first_search`: a visit is started at each
vertex that is still white when its turn comes. -/
def depth_first_search_loop {σ : Type} (g : View) (vis : DFSVisitor σ) :
    List Nat → ColorMap → σ → ColorMap × σ
  | [], color, s => (color, s)
  | u :: rest, color, s =>
    if color u = white_color then
      let r := depth_first_visit_impl g u vis color nontruth2 (vis.start_vertex u s)
      depth_first_search_loop g vis rest r.1 r.2
    else depth_first_search_loop g vis rest color s

/-- Boost `depth_first_search(g, vis, color)` with the default start vertex:
every vertex is painted white, then the vertices are taken in iteration order. -/
def depth_first_search {σ : Type} (g : View) (vis : DFSVisitor σ) (color : ColorMap)
    (s : σ) : ColorMap × σ :=
  depth_first_search_loop g vis g.vertices
    (g.vertices.foldl (fun c u => put c u white_color) color) s

/-- Boost `connected_components(g, component_map, color_map)`: the number of
components, the component map and the colour map. -/
def connected_components (g : View) (c : ComponentMap) (color : ColorMap) :
    Nat × ComponentMap × ColorMap :=
  if g.vertices.length = 0 then (0, c, color)
  else
    let r := depth_first_search g components_recorder color (none, c)
    (match r.2.1 with
      | none => 0
      | some n => n + 1, r.2.2, r.1)

/-- A Ruby array created by `graph_components`: `components[i]`, made by
`rb_ary_new()`, or the array `rb_ary_new3(1, rb_vertex)` of a seed. -/
inductive RubyArrayRef where
  | component (i : Nat)
  | singleton (v : Nat)
deriving DecidableEq, Repr

/-- The call `rb_ary_store(ary, idx, val)` on an array of `nil` (`none`) and
objects: the slot `idx` is overwritten, the array being extended with `nil`
when it is too short. -/
def rb_ary_store {α : Type} (ary : List (Option α)) (idx : Nat) (val : Option α) :
    List (Option α) :=
  if idx < ary.length then ary.set idx val
  else ary ++ List.replicate (idx - ary.length) none ++ [val]

/-- The call `compact!`: the `nil` slots are removed. -/
def rb_ary_compact {α : Type} (ary : List (Option α)) : List α :=
  ary.filterMap id

/-- State of the seed loop of `graph_components`. -/
structure SeedState where
  enabled_components : List Bool
  ret : List (Option RubyArrayRef)
  component_map : ComponentMap

/-- One iteration of the seed loop of `graph_components` (lines 292-305). -/
def graph_components_seed (g : View) (include_singletons : Bool) (st : SeedState)
    (rb_vertex : Nat) : SeedState :=
  let r := rb_to_vertex rb_vertex g
  if r.2 then
    let v_c := st.component_map.index r.1
    { st with
      enabled_components := st.enabled_components.set v_c.1 true
      component_map := v_c.2 }
  else if include_singletons then
    { st with ret := st.ret ++ [some (RubyArrayRef.singleton rb_vertex)] }
  else st

/-- The loop "add empty array for all enabled components" (lines 309-314). -/
def graph_components_slots (count : Nat) (enabled : List Bool)
    (ret : List (Option RubyArrayRef)) : List (Option RubyArrayRef) :=
  (List.range count).foldl
    (fun ret i =>
      if !(enabled.getD i false) then ret
      else rb_ary_store ret i (some (RubyArrayRef.component i)))
    ret

/-- The loop "add the vertices to their corresponding Ruby component" (lines
317-324): the contents of the arrays `components[c]`. -/
def graph_components_fill (enabled : List Bool) (component_map : ComponentMap) :
    Nat → List Nat :=
  component_map.foldl
    (fun components p =>
      if !(enabled.getD p.2 false) then components
      else fun i => if i = p.2 then components i ++ [p.1] else components i)
    (fun _ => [])

/-- The loop "remove the remaining singletons" (lines 329-335). -/
def graph_components_unsingle (count : Nat) (enabled : List Bool)
    (components : Nat → List Nat) (ret : List (Option RubyArrayRef)) :
    List (Option RubyArrayRef) :=
  (List.range count).foldl
    (fun ret i =>
      if !(enabled.getD i false) then ret
      else if (components i).length = 1 then rb_ary_store ret i none
      else ret)
    ret

/-- The method `Graph#components`, `graph_components(argc, argv, self)`:
`seeds` is `none` when no argument is given (`argc == 0`), and
`include_singletons` is `none` when there is no second argument. -/
def graph_components (g : RubyGraph) (seeds : Option ValueSet)
    (include_singletons : Option Bool) : List (List Nat) :=
  let with_singletons := include_singletons.getD true
  let cc := connected_components (make_undirected_graph g) [] ColorMap.empty
  let count := cc.1
  let st : SeedState :=
    match seeds with
    | none =>
      { enabled_components := List.replicate count true, ret := [],
        component_map := cc.2.1 }
    | some seed_set =>
      seed_set.foldl (graph_components_seed (direct_graph g) with_singletons)
        { enabled_components := List.replicate count false, ret := [],
          component_map := cc.2.1 }
  let ret1 := graph_components_slots count st.enabled_components st.ret
  let components := graph_components_fill st.enabled_components st.component_map
  let ret2 :=
    if seeds.isSome ∧ !with_singletons then
      graph_components_unsingle count st.enabled_components components ret1
    else ret1
  (rb_ary_compact ret2).map
    (fun a =>
      match a with
      | RubyArrayRef.component i => components i
      | RubyArrayRef.singleton v => [v])

/-! ## Edge enumeration: `each_dfs`, `reachable?` -/

/-- The five-argument Boost `depth_first_visit(g, u, vis, color, func)`: the
visitor is told the start vertex, then the visit runs with the terminator
`func`. -/
def depth_first_visit_term {σ : Type} (g : View) (u : Nat) (vis : DFSVisitor σ)
    (color : ColorMap) (func : Nat → σ → Bool × σ) (s : σ) : ColorMap × σ :=
  depth_first_visit_impl g u vis color func (vis.start_vertex u s)

/-- The constant `VISIT_TREE_EDGES`. -/
def VISIT_TREE_EDGES : Nat := 1

/-- The constant `VISIT_BACK_EDGES`. -/
def VISIT_BACK_EDGES : Nat := 2

/-- The constant `VISIT_FORWARD_OR_CROSS_EDGES`. -/
def VISIT_FORWARD_OR_CROSS_EDGES : Nat := 4

/-- The constant `VISIT_NON_TREE_EDGES`. -/
def VISIT_NON_TREE_EDGES : Nat := 6

/-- The constant `VISIT_ALL_EDGES`. -/
def VISIT_ALL_EDGES : Nat := 7

/-- The four values that `rb_yield_values(4, source, target, info, kind)` hands
to the block. -/
structure Yield where
  source : Nat
  target : Nat
  info : Nat
  kind : Nat
deriving DecidableEq, Repr

/-- What the Ruby side holds during an enumeration: the thread-local `@prune`
and the state of the block. -/
structure Thread (β : Type) where
  prune : Bool
  user : β

/-- A block given to an enumeration. It runs on the thread state, so that it
can call `prune`, `reset_prune_flag` and `pruned?`. -/
abbrev Block (β : Type) := Yield → Thread β → Thread β

/-- The method `graph_prune`: the thread-local `@prune` is set. -/
def graph_prune {β : Type} (s : Thread β) : Thread β :=
  { s with prune := true }

/-- The method `graph_reset_prune_flag`. -/
def graph_reset_prune_flag {β : Type} (s : Thread β) : Thread β :=
  { s with prune := false }

/-- The method `graph_pruned_p`. -/
def graph_pruned_p {β : Type} (s : Thread β) : Bool :=
  s.prune

/-- The member `yield_edge(e, graph, what)` of `ruby_dfs_visitor` and of
`ruby_bfs_visitor`: nothing when `what & m_mode` is zero, otherwise the block
is called with source, target, info and kind. The mode is the bit pattern of
the `int`. -/
def yield_edge {β : Type} (m_mode : Nat) (block : Block β) (e : Edge) (what : Nat)
    (s : Thread β) : Thread β :=
  if what &&& m_mode = 0 then s
  else block { source := e.source, target := e.target, info := e.payload, kind := what } s

/-- The visitor `ruby_dfs_visitor(mode)`, yielding to `block`. -/
def ruby_dfs_visitor {β : Type} (m_mode : Nat) (block : Block β) : DFSVisitor (Thread β) :=
  { default_dfs_visitor (Thread β) with
    tree_edge := fun e s => yield_edge m_mode block e VISIT_TREE_EDGES s
    back_edge := fun e s => yield_edge m_mode block e VISIT_BACK_EDGES s
    forward_or_cross_edge := fun e s =>
      yield_edge m_mode block e VISIT_FORWARD_OR_CROSS_EDGES s }

/-- The terminator `search_terminator(u, g)`: the value of `@prune`, which is
reset when it was set. -/
def search_terminator {β : Type} : Nat → Thread β → Bool × Thread β :=
  fun _ s =>
    let result := s.prune
    if result then (result, { s with prune := false }) else (result, s)

/-- The template `graph_each_dfs(self, graph, root, mode)`. The colour map of
the visit is returned next to the thread state. -/
def graph_each_dfs {β : Type} (g : View) (root mode : Nat) (block : Block β)
    (s : Thread β) : ColorMap × Thread β :=
  let s0 : Thread β := { s with prune := false }
  let r := rb_to_vertex root g
  if !r.2 then (ColorMap.empty, s0)
  else
    depth_first_visit_term g r.1 (ruby_dfs_visitor mode block) ColorMap.empty
      search_terminator s0

/-- The method `Graph#each_dfs`. -/
def graph_direct_each_dfs {β : Type} (g : RubyGraph) (root mode : Nat) (block : Block β)
    (s : Thread β) : ColorMap × Thread β :=
  graph_each_dfs (direct_graph g) root mode block s

/-- The visitor `ruby_reachable_visitor(found, target)`; its state is `m_found`. -/
def ruby_reachable_visitor (m_target : Nat) : DFSVisitor Bool :=
  { default_dfs_visitor Bool with
    tree_edge := fun e m_found => if m_target = e.target then true else m_found }

/-- The terminator `ruby_reachable_terminator(found)`. -/
def ruby_reachable_terminator : Nat → Bool → Bool × Bool :=
  fun _ found => (found, found)

/-- The method `graph_reachable_p(self, source, target)`; the constructor of
the visitor sets `found` to false. -/
def graph_reachable_p (g : RubyGraph) (source target : Nat) : Bool :=
  let graph := direct_graph g
  let rs := rb_to_vertex source graph
  if !rs.2 then false
  else
    let rt := rb_to_vertex target graph
    if !rt.2 then false
    else
      (depth_first_visit_term graph rs.1 (ruby_reachable_visitor rt.1) ColorMap.empty
        ruby_reachable_terminator false).2

/-! ## Breadth-first enumeration: `each_bfs` -/

/-- A BFS visitor acting on a state `σ`: the event points of the Boost
`BFSVisitor` concept. -/
structure BFSVisitor (σ : Type) where
  initialize_vertex : Nat → σ → σ
  discover_vertex : Nat → σ → σ
  examine_vertex : Nat → σ → σ
  examine_edge : Edge → σ → σ
  tree_edge : Edge → σ → σ
  non_tree_edge : Edge → σ → σ
  gray_target : Edge → σ → σ
  black_target : Edge → σ → σ
  finish_vertex : Nat → σ → σ

/-- The visitor `default_bfs_visitor`: no event point does anything. -/
def default_bfs_visitor (σ : Type) : BFSVisitor σ :=
  { initialize_vertex := fun _ s => s
    discover_vertex := fun _ s => s
    examine_vertex := fun _ s => s
    examine_edge := fun _ s => s
    tree_edge := fun _ s => s
    non_tree_edge := fun _ s => s
    gray_target := fun _ s => s
    black_target := fun _ s => s
    finish_vertex := fun _ s => s }

/-- The inner loop of Boost `breadth_first_visit` over the out-edges of the
vertex taken from the queue `Q`: a white target is discovered and pushed, any
other target gives a non-tree edge. -/
def breadth_first_visit_edges {σ : Type} (vis : BFSVisitor σ) :
    List Edge → List Nat → ColorMap → σ → List Nat × ColorMap × σ
  | [], Q, color, s => (Q, color, s)
  | e :: ei, Q, color, s =>
    let v := e.target
    let s1 := vis.examine_edge e s
    match color v with
    | white_color =>
      let s2 := vis.tree_edge e s1
      let color1 := put color v gray_color
      let s3 := vis.discover_vertex v s2
      breadth_first_visit_edges vis ei (Q ++ [v]) color1 s3
    | gray_color =>
      let s2 := vis.non_tree_edge e s1
      breadth_first_visit_edges vis ei Q color (vis.gray_target e s2)
    | black_color =>
      let s2 := vis.non_tree_edge e s1
      breadth_first_visit_edges vis ei Q color (vis.black_target e s2)

/-- The outer loop of Boost `breadth_first_visit`: while the queue is not
empty its top is taken, its out-edges are examined and it is finished. The
first argument bounds the number of iterations. -/
def breadth_first_visit_loop {σ : Type} (g : View) (vis : BFSVisitor σ) :
    Nat → List Nat → ColorMap → σ → ColorMap × σ
  | 0, _, color, s => (color, s)
  | _ + 1, [], color, s => (color, s)
  | fuel + 1, u :: Q, color, s =>
    let s1 := vis.examine_vertex u s
    let r := breadth_first_visit_edges vis (g.out_edges u) Q color s1
    let color1 := put r.2.1 u black_color
    let s2 := vis.finish_vertex u r.2.2
    breadth_first_visit_loop g vis fuel r.1 color1 s2

/-- Number of iterations that no breadth-first visit of `g` exceeds: one per
vertex, plus one. -/
def bfs_fuel (g : View) : Nat :=
  g.vertices.length + 1

/-- Boost `breadth_first_visit(g, s, Q, vis, color)` with an empty queue. -/
def breadth_first_visit {σ : Type} (g : View) (s : Nat) (vis : BFSVisitor σ)
    (color : ColorMap) (st : σ) : ColorMap × σ :=
  let color1 := put color s gray_color
  let st1 := vis.discover_vertex s st
  breadth_first_visit_loop g vis (bfs_fuel g) [s] color1 st1

/-- Boost `breadth_first_search(g, s, Q, vis, color)`: every vertex is
initialised and painted white, then the visit starts at `s`. No terminator is
among its arguments. -/
def breadth_first_search {σ : Type} (g : View) (s : Nat) (vis : BFSVisitor σ)
    (color : ColorMap) (st : σ) : ColorMap × σ :=
  let init := g.vertices.foldl
    (fun (a : ColorMap × σ) u => (put a.1 u white_color, vis.initialize_vertex u a.2))
    (color, st)
  breadth_first_visit g s vis init.1 init.2

/-- The visitor `ruby_bfs_visitor(mode)`, yielding to `block`. -/
def ruby_bfs_visitor {β : Type} (m_mode : Nat) (block : Block β) : BFSVisitor (Thread β) :=
  { default_bfs_visitor (Thread β) with
    tree_edge := fun e s => yield_edge m_mode block e VISIT_TREE_EDGES s
    non_tree_edge := fun e s => yield_edge m_mode block e VISIT_NON_TREE_EDGES s }

/-- The template `graph_each_bfs(self, graph, root, mode)`: the outcome is the
message of the `ArgumentError` that `rb_raise` raises, or the colour map of the
search; the thread state after the call comes with it. The mode is the bit
pattern of the `int`. -/
def graph_each_bfs {β : Type} (g : View) (root mode : Nat) (block : Block β)
    (s : Thread β) : Except String ColorMap × Thread β :=
  let intmode := mode
  if (intmode &&& VISIT_NON_TREE_EDGES) ≠ 0
      ∧ (intmode &&& VISIT_NON_TREE_EDGES) ≠ VISIT_NON_TREE_EDGES then
    (Except.error "cannot use FORWARD_OR_CROSS and BACK", s)
  else
    let r := rb_to_vertex root g
    if !r.2 then (Except.ok ColorMap.empty, s)
    else
      let s0 : Thread β := { s with prune := false }
      let res := breadth_first_search g r.1 (ruby_bfs_visitor intmode block)
        ColorMap.empty s0
      (Except.ok res.1, res.2)

/-- The method `Graph#each_bfs`. -/
def graph_direct_each_bfs {β : Type} (g : RubyGraph) (root mode : Nat) (block : Block β)
    (s : Thread β) : Except String ColorMap × Thread β :=
  graph_each_bfs (direct_graph g) root mode block s

/-! ## Topological order: `topological_sort` -/

/-- The visitor `topo_sort_visitor` of Boost `topological_sort`: a back edge
throws `not_a_dag`, a finished vertex is written to the output iterator. The
state is the output so far, or `none` once the exception is thrown; the
exception leaves the search at once and its output is dropped, so the state
stays `none`. -/
def topo_sort_visitor : DFSVisitor (Option (List Nat)) :=
  { default_dfs_visitor (Option (List Nat)) with
    back_edge := fun _ _ => none
    finish_vertex := fun u s => s.map (fun result => result ++ [u]) }

/-- Boost `topological_sort(g, back_inserter(result), color_map(colors))`: a
depth-first search of the whole graph with `topo_sort_visitor`. -/
def topological_sort (g : View) (color : ColorMap) : Option (List Nat) :=
  (depth_first_search g topo_sort_visitor color (some [])).2

/-- What a call of `graph_topological_sort` leaves: the array returned, or the
message of the `ArgumentError` raised, and the contents of the array given by
the caller, if one was given. -/
structure TopologicalSort where
  outcome : Except String (List Nat)
  argument : Option (List Nat)

/-- The method `graph_topological_sort(argc, argv, self)`: `argv` is the
optional array. It is emptied (or a new array is made), the vertices of the
sort are pushed from the last to the first; `not_a_dag` gives the
`ArgumentError`. -/
def graph_topological_sort (g : RubyGraph) (argv : Option (List Nat)) : TopologicalSort :=
  let rb_result : List Nat := []
  match topological_sort (direct_graph g) ColorMap.empty with
  | some result =>
    let filled := result.reverse.foldl (fun ary v => ary ++ [v]) rb_result
    { outcome := Except.ok filled, argument := argv.map (fun _ => filled) }
  | none =>
    { outcome := Except.error "the graph is not a DAG"
      argument := argv.map (fun _ => rb_result) }

/-! ## Undirected depth-first visit: `undirected_dfs.hh` -/

/-- The edge colour map of the undirected visit: the colour of each stored
edge, `EdgeProperty::color`, by the identity of the edge. Modelled from the
spec: `make_undirected_edge_map` of `undirected_graph.hh` is not part of the
sources at hand; the colour is "shared with the underlying edge, not
duplicated", so both directions of an edge of the undirected view read and
write the same entry. -/
abbrev EdgeColorMap := Nat → default_color_type

/-- The loop of `undir_dfv_impl_term`: `u` is the vertex being expanded, `ei`
its out-edges still to examine, `stack` the suspended frames. An examined edge
is painted black; on a gray target the visitor is told of a back edge only if
the edge was white. The first argument bounds the number of iterations. -/
def undir_dfv_loop {σ : Type} (g : View) (vis : DFSVisitor σ)
    (func : Nat → σ → Bool × σ) :
    Nat → Nat → List Edge → List (Nat × List Edge) → ColorMap → EdgeColorMap → σ →
      ColorMap × EdgeColorMap × σ
  | 0, _, _, _, vertex_color, edge_color, s => (vertex_color, edge_color, s)
  | fuel + 1, u, [], stack, vertex_color, edge_color, s =>
    let vertex_color1 := put vertex_color u black_color
    let s1 := vis.finish_vertex u s
    match stack with
    | [] => (vertex_color1, edge_color, s1)
    | back :: rest =>
      undir_dfv_loop g vis func fuel back.1 back.2 rest vertex_color1 edge_color s1
  | fuel + 1, u, e :: ei, stack, vertex_color, edge_color, s =>
    let v := e.target
    let s1 := vis.examine_edge e s
    let v_color := vertex_color v
    let uv_color := edge_color e.id
    let edge_color1 := put edge_color e.id black_color
    match v_color with
    | white_color =>
      let s2 := vis.tree_edge e s1
      let vertex_color1 := put vertex_color v gray_color
      let s3 := vis.discover_vertex v s2
      let t := func v s3
      undir_dfv_loop g vis func fuel v (if t.1 then [] else g.out_edges v)
        ((u, ei) :: stack) vertex_color1 edge_color1 t.2
    | gray_color =>
      undir_dfv_loop g vis func fuel u ei stack vertex_color edge_color1
        (if uv_color = white_color then vis.back_edge e s1 else s1)
    | black_color =>
      undir_dfv_loop g vis func fuel u ei stack vertex_color edge_color1
        (vis.forward_or_cross_edge e s1)

/-- The procedure `undir_dfv_impl_term(g, u, vis, vertex_color, edge_color, func)`:
`u` is painted gray and discovered, its frame is empty if the terminator says
so, then the loop runs until the stack is empty. -/
def undir_dfv_impl_term {σ : Type} (g : View) (u : Nat) (vis : DFSVisitor σ)
    (vertex_color : ColorMap) (edge_color : EdgeColorMap) (func : Nat → σ → Bool × σ)
    (s : σ) : ColorMap × EdgeColorMap × σ :=
  let vertex_color1 := put vertex_color u gray_color
  let s1 := vis.discover_vertex u s
  let t := func u s1
  undir_dfv_loop g vis func (dfs_fuel g) u (if t.1 then [] else g.out_edges u) []
    vertex_color1 edge_color t.2

/-- The procedure `undirected_depth_first_visit(g, u, vis, vertex_color, edge_color, func)`. -/
def undirected_depth_first_visit {σ : Type} (g : View) (u : Nat) (vis : DFSVisitor σ)
    (vertex_color : ColorMap) (edge_color : EdgeColorMap) (func : Nat → σ → Bool × σ)
    (s : σ) : ColorMap × EdgeColorMap × σ :=
  undir_dfv_impl_term g u vis vertex_color edge_color func s

/-- The method `graph_undirected_each_dfs(self, root, mode)`. The edge colours
are those that earlier calls left in the graph; they come back next to the
vertex colours of the visit and the thread state. -/
def graph_undirected_each_dfs {β : Type} (g : RubyGraph) (root mode : Nat) (block : Block β)
    (edge_color : EdgeColorMap) (s : Thread β) : ColorMap × EdgeColorMap × Thread β :=
  let undirected := make_undirected_graph g
  let r := rb_to_vertex root undirected
  if !r.2 then (ColorMap.empty, edge_color, s)
  else
    let colors := ColorMap.empty
    let edge_color1 := g.edges.foldl (fun c e => put c e.id white_color) edge_color
    let s0 : Thread β := { s with prune := false }
    undirected_depth_first_visit undirected r.1 (ruby_dfs_visitor mode block) colors
      edge_color1 search_terminator s0

/-- The constants that `Init_graph_algorithms` defines in `BGL::Graph`, with
their values. -/
def Init_graph_algorithms : List (String × Nat) :=
  [("TREE", VISIT_TREE_EDGES),
   ("FORWARD_OR_CROSS", VISIT_FORWARD_OR_CROSS_EDGES),
   ("BACK", VISIT_BACK_EDGES),
   ("NON_TREE", VISIT_NON_TREE_EDGES),
   ("ALL", VISIT_ALL_EDGES)]

/-! ## A record of the event points -/

/-- An event point of the DFS visitor that a walk passes: a vertex is
discovered or finished, an edge is classified. -/
inductive Event where
  | discover_vertex (u : Nat)
  | tree_edge (e : Edge)
  | back_edge (e : Edge)
  | forward_or_cross_edge (e : Edge)
  | finish_vertex (u : Nat)
deriving DecidableEq, Repr

/-- The visitor `vis` next to a record of the event points passed. The visitor
acts as before, on the first component. -/
def DFSVisitor.observed {σ : Type} (vis : DFSVisitor σ) : DFSVisitor (σ × List Event) :=
  { start_vertex := fun u s => (vis.start_vertex u s.1, s.2)
    discover_vertex := fun u s => (vis.discover_vertex u s.1, s.2 ++ [Event.discover_vertex u])
    examine_edge := fun e s => (vis.examine_edge e s.1, s.2)
    tree_edge := fun e s => (vis.tree_edge e s.1, s.2 ++ [Event.tree_edge e])
    back_edge := fun e s => (vis.back_edge e s.1, s.2 ++ [Event.back_edge e])
    forward_or_cross_edge := fun e s =>
      (vis.forward_or_cross_edge e s.1, s.2 ++ [Event.forward_or_cross_edge e])
    finish_vertex := fun u s => (vis.finish_vertex u s.1, s.2 ++ [Event.finish_vertex u]) }

/-- The terminator `func` next to the record, which it leaves as it is. -/
def observed_func {σ : Type} (func : Nat → σ → Bool × σ) :
    Nat → σ × List Event → Bool × (σ × List Event) :=
  fun u s => ((func u s.1).1, ((func u s.1).2, s.2))

/-- The record agrees with the colours: replayed from the colours `c`, where a
discovered vertex turns gray and a finished vertex black, every tree edge of
the record leads to a white vertex, every back edge to a gray one and every
forward-or-cross edge to a black one. -/
def Classified : ColorMap → List Event → Prop
  | _, [] => True
  | c, Event.discover_vertex v :: T => Classified (put c v gray_color) T
  | c, Event.finish_vertex v :: T => Classified (put c v black_color) T
  | c, Event.tree_edge e :: T => c e.target = white_color ∧ Classified c T
  | c, Event.back_edge e :: T => c e.target = gray_color ∧ Classified c T
  | c, Event.forward_or_cross_edge e :: T => c e.target = black_color ∧ Classified c T

/-- What `ruby_dfs_visitor` yields under the mask `ALL` at the event points of
a record. -/
def events_of : List Event → List Yield
  | [] => []
  | Event.tree_edge e :: T =>
    { source := e.source, target := e.target, info := e.payload, kind := VISIT_TREE_EDGES }
      :: events_of T
  | Event.back_edge e :: T =>
    { source := e.source, target := e.target, info := e.payload, kind := VISIT_BACK_EDGES }
      :: events_of T
  | Event.forward_or_cross_edge e :: T =>
    { source := e.source, target := e.target, info := e.payload,
      kind := VISIT_FORWARD_OR_CROSS_EDGES } :: events_of T
  | Event.discover_vertex _ :: T => events_of T
  | Event.finish_vertex _ :: T => events_of T

/-- The visitor of the undirected visit seen as a visitor of the directed one:
its state carries the edge colours and the colour that the edge examined last
had before it was painted black; a back edge is passed on only if that colour
is white. -/
def DFSVisitor.with_edge_color {σ : Type} (vis : DFSVisitor σ) :
    DFSVisitor (EdgeColorMap × default_color_type × σ) :=
  { start_vertex := fun u s => (s.1, s.2.1, vis.start_vertex u s.2.2)
    discover_vertex := fun u s => (s.1, s.2.1, vis.discover_vertex u s.2.2)
    examine_edge := fun e s => (put s.1 e.id black_color, s.1 e.id, vis.examine_edge e s.2.2)
    tree_edge := fun e s => (s.1, s.2.1, vis.tree_edge e s.2.2)
    back_edge := fun e s =>
      (s.1, s.2.1, if s.2.1 = white_color then vis.back_edge e s.2.2 else s.2.2)
    forward_or_cross_edge := fun e s => (s.1, s.2.1, vis.forward_or_cross_edge e s.2.2)
    finish_vertex := fun u s => (s.1, s.2.1, vis.finish_vertex u s.2.2) }

/-- The terminator `func` next to the edge colours, which it leaves as they are. -/
def edge_color_func {σ : Type} (func : Nat → σ → Bool × σ) :
    Nat → EdgeColorMap × default_color_type × σ →
      Bool × (EdgeColorMap × default_color_type × σ) :=
  fun u s => ((func u s.2.2).1, (s.1, s.2.1, (func u s.2.2).2))

/-- A step of a walk: an event point of the visitor, or the answer "stop" of
the terminator at a vertex. -/
inductive Step where
  | discover (u : Nat)
  | examine (e : Edge)
  | tree (e : Edge)
  | back (e : Edge)
  | forward_or_cross (e : Edge)
  | finish (u : Nat)
  | stop (u : Nat)
deriving DecidableEq, Repr

/-- The visitor `vis` next to the list of the steps taken. The visitor acts as
before, on the first component. -/
def DFSVisitor.traced {σ : Type} (vis : DFSVisitor σ) : DFSVisitor (σ × List Step) :=
  { start_vertex := fun u s => (vis.start_vertex u s.1, s.2)
    discover_vertex := fun u s => (vis.discover_vertex u s.1, s.2 ++ [Step.discover u])
    examine_edge := fun e s => (vis.examine_edge e s.1, s.2 ++ [Step.examine e])
    tree_edge := fun e s => (vis.tree_edge e s.1, s.2 ++ [Step.tree e])
    back_edge := fun e s => (vis.back_edge e s.1, s.2 ++ [Step.back e])
    forward_or_cross_edge := fun e s =>
      (vis.forward_or_cross_edge e s.1, s.2 ++ [Step.forward_or_cross e])
    finish_vertex := fun u s => (vis.finish_vertex u s.1, s.2 ++ [Step.finish u]) }

/-- The terminator `func` next to the list of steps, where its answer "stop" is
written down. -/
def traced_func {σ : Type} (func : Nat → σ → Bool × σ) :
    Nat → σ × List Step → Bool × (σ × List Step) :=
  fun u s =>
    ((func u s.1).1, ((func u s.1).2, if (func u s.1).1 then s.2 ++ [Step.stop u] else s.2))

/-- The vertex colours after the steps `T`: a discovered vertex is gray, a
finished vertex black. -/
def vertex_colors_after : ColorMap → List Step → ColorMap
  | c, [] => c
  | c, Step.discover v :: T => vertex_colors_after (put c v gray_color) T
  | c, Step.finish v :: T => vertex_colors_after (put c v black_color) T
  | c, _ :: T => vertex_colors_after c T

/-- The edge colours after the steps `T`: an examined edge is black. -/
def edge_colors_after : EdgeColorMap → List Step → EdgeColorMap
  | c, [] => c
  | c, Step.examine e :: T => edge_colors_after (put c e.id black_color) T
  | c, _ :: T => edge_colors_after c T

/-- The steps `T` are a history of the colours `vc` and `ec`: a vertex is
discovered when it is white and finished when it is gray; an examined edge
turns black, and `last` keeps its identity and the colour it had until it is
classified; a tree edge leads to a white vertex, a forward-or-cross edge to a
black one, and a back edge leads to a gray vertex and was white when it was
examined. -/
def Walk : ColorMap → EdgeColorMap → Option (Nat × default_color_type) → List Step → Prop
  | _, _, _, [] => True
  | vc, ec, _, Step.discover v :: T =>
    vc v = white_color ∧ Walk (put vc v gray_color) ec none T
  | vc, ec, _, Step.finish v :: T =>
    vc v = gray_color ∧ Walk (put vc v black_color) ec none T
  | vc, ec, _, Step.examine e :: T =>
    Walk vc (put ec e.id black_color) (some (e.id, ec e.id)) T
  | vc, ec, last, Step.tree e :: T =>
    (∃ c, last = some (e.id, c)) ∧ vc e.target = white_color ∧ Walk vc ec none T
  | vc, ec, last, Step.back e :: T =>
    last = some (e.id, white_color) ∧ vc e.target = gray_color ∧ Walk vc ec none T
  | vc, ec, last, Step.forward_or_cross e :: T =>
    (∃ c, last = some (e.id, c)) ∧ vc e.target = black_color ∧ Walk vc ec none T
  | vc, ec, last, Step.stop _ :: T => Walk vc ec last T

/-- The vertices discovered in the steps `T`, in order. -/
def discovered : List Step → List Nat
  | [] => []
  | Step.discover v :: T => v :: discovered T
  | _ :: T => discovered T

/-- The identities of the edges reported as back edges in the steps `T`, in
order. -/
def back_edges : List Step → List Nat
  | [] => []
  | Step.back e :: T => e.id :: back_edges T
  | _ :: T => back_edges T

/-- The number of tree edges in the steps `T`. -/
def tree_edges : List Step → Nat
  | [] => 0
  | Step.tree _ :: T => tree_edges T + 1
  | _ :: T => tree_edges T

/-! ## Paths -/

/-- One step of the view: `b` is the target of an out-edge of `a`. -/
def View.adj (g : View) (a b : Nat) : Prop :=
  ∃ e ∈ g.out_edges a, e.target = b

/-- Directed path of length at least zero in the view. -/
def View.Reach (g : View) : Nat → Nat → Prop :=
  Relation.ReflTransGen g.adj

/-- Path of length at least zero in the stored graph that ignores the
direction of the edges. -/
def RubyGraph.Connected (g : RubyGraph) : Nat → Nat → Prop :=
  Relation.ReflTransGen
    (fun a b => ∃ e ∈ g.edges, (e.source = a ∧ e.target = b) ∨ (e.source = b ∧ e.target = a))

/-! ## Auxiliary notions for the proofs -/

/-- A visitor that acts at `start_vertex` and `discover_vertex` only, like
`vertex_recorder` and `components_recorder`. -/
structure DFSVisitor.Quiet {σ : Type} (vis : DFSVisitor σ) : Prop where
  examine_edge : ∀ e s, vis.examine_edge e s = s
  tree_edge : ∀ e s, vis.tree_edge e s = s
  back_edge : ∀ e s, vis.back_edge e s = s
  forward_or_cross_edge : ∀ e s, vis.forward_or_cross_edge e s = s
  finish_vertex : ∀ u s, vis.finish_vertex u s = s

/-- One step of the view into a vertex that is white in `color`. -/
def WStep (g : View) (color : ColorMap) (a b : Nat) : Prop :=
  g.adj a b ∧ color b = white_color

/-- Path of the view from `a` to `b` all of whose vertices are white in `color`. -/
def WhiteReach (g : View) (color : ColorMap) (a b : Nat) : Prop :=
  color a = white_color ∧ Relation.ReflTransGen (WStep g color) a b

/-- Weight of the white vertices of a list: the iterations their discovery and
expansion can still cost. -/
def wsum (g : View) (color : ColorMap) : List Nat → Nat
  | [] => 0
  | v :: l =>
    (if color v = white_color then 2 + (g.out_edges v).length else 0) + wsum g color l

/-- Weight of the suspended frames of the stack. -/
def stackWeight : List (Nat × List Edge) → Nat
  | [] => 0
  | f :: stack => f.2.length + 1 + stackWeight stack

/-- What a run of `depth_first_visit_loop` from a given state achieves, `D`
being the vertices it discovers, in order. -/
structure LoopPost {σ : Type} (g : View) (vis : DFSVisitor σ) (u : Nat) (es : List Edge)
    (stack : List (Nat × List Edge)) (color : ColorMap) (s : σ) (res : ColorMap × σ)
    (D : List Nat) : Prop where
  state : res.2 = D.foldl (fun s v => vis.discover_vertex v s) s
  nodup : D.Nodup
  white : ∀ v ∈ D, color v = white_color
  colors : ∀ v, res.1 v =
    if v ∈ D ∨ v = u ∨ v ∈ stack.map Prod.fst then black_color else color v
  edges_done : ∀ e ∈ es, res.1 e.target ≠ white_color
  stack_done : ∀ f ∈ stack, ∀ e ∈ f.2, res.1 e.target ≠ white_color
  closed : ∀ x ∈ D, ∀ e ∈ g.out_edges x, res.1 e.target ≠ white_color
  sound : ∀ v ∈ D, ∃ e, (e ∈ es ∨ ∃ f ∈ stack, e ∈ f.2) ∧ WhiteReach g color e.target v

/-- Some vertex of `prev` reaches `v` in the view. -/
def Visited (g : View) (prev : List Nat) (v : Nat) : Prop :=
  ∃ p ∈ prev, g.Reach p v

/-- The colour map after complete visits from the roots `prev`: black exactly
on what `prev` reaches, gray nowhere. -/
def ColorsOf (g : View) (prev : List Nat) (color : ColorMap) : Prop :=
  ∀ v, (color v = black_color ↔ Visited g prev v) ∧ color v ≠ gray_color

/-- The visits that a sequence of roots starts, `prev` being the roots taken
before: a root that an earlier root reaches starts nothing, any other root `r`
starts a visit that discovers the list `L` of the vertices `r` reaches and no
earlier root reaches. -/
inductive Forest (g : View) : List Nat → List Nat → List (Nat × List Nat) → Prop
  | nil (prev : List Nat) : Forest g prev [] []
  | skip {prev : List Nat} {r : Nat} {rest : List Nat} {F : List (Nat × List Nat)} :
      Visited g prev r → Forest g (r :: prev) rest F → Forest g prev (r :: rest) F
  | start {prev : List Nat} {r : Nat} {rest : List Nat} {F : List (Nat × List Nat)}
      {L : List Nat} :
      ¬ Visited g prev r → L.Nodup → (∀ v, v ∈ L ↔ g.Reach r v ∧ ¬ Visited g prev v) →
      Forest g (r :: prev) rest F → Forest g prev (r :: rest) ((r, L) :: F)

/-- The groups that `graph_components_i` keeps of the visits `F`: those of more
than one vertex, and all of them when singletons are included. -/
def groups_of (include_singletons : Bool) (F : List (Nat × List Nat)) : List ValueSet :=
  (F.filter (fun rL => decide (rL.2.length > 1 ∨ include_singletons = true))).map Prod.snd

/-- The singleton components that `graph_components_root_descriptor` appends for
the seeds that are no vertices. -/
def absent_singletons (g : View) (include_singletons : Bool) (seeds : List Nat) :
    List ValueSet :=
  if include_singletons then (seeds.filter (fun x => decide (x ∉ g.vertices))).map (fun x => [x])
  else []

/-- The value `c_count + 1` that the counter of `components_recorder` stands
for: the number of components opened so far. -/
def next_count (c : Option Nat) : Nat :=
  match c with
  | none => 0
  | some n => n + 1

/-- The entries that `components_recorder` writes for the visits `F`, the first
visit getting the label `base`. -/
def labelled : Nat → List (Nat × List Nat) → List (Nat × Nat)
  | _, [] => []
  | base, rL :: F => rL.2.map (fun v => (v, base)) ++ labelled (base + 1) F

/-- The vertices that the component map sends to the component `c`, in key
order. -/
def component_of (m : ComponentMap) (c : Nat) : List Nat :=
  (m.filter (fun p => decide (p.2 = c))).map Prod.fst

/-- The number of components that `graph_components` gets from
`connected_components`. -/
def component_count (g : RubyGraph) : Nat :=
  (connected_components (make_undirected_graph g) [] ColorMap.empty).1

/-- The component map that `graph_components` gets from `connected_components`. -/
def component_map (g : RubyGraph) : ComponentMap :=
  (connected_components (make_undirected_graph g) [] ColorMap.empty).2.1

/-- Two visitors with their terminators that keep the relation `R` between
their states and stop the walk at the same vertices. -/
structure DFSSim {σ τ : Type} (vis1 : DFSVisitor σ) (f1 : Nat → σ → Bool × σ)
    (vis2 : DFSVisitor τ) (f2 : Nat → τ → Bool × τ) (R : σ → τ → Prop) : Prop where
  start_vertex : ∀ u s t, R s t → R (vis1.start_vertex u s) (vis2.start_vertex u t)
  discover_vertex : ∀ u s t, R s t → R (vis1.discover_vertex u s) (vis2.discover_vertex u t)
  examine_edge : ∀ e s t, R s t → R (vis1.examine_edge e s) (vis2.examine_edge e t)
  tree_edge : ∀ e s t, R s t → R (vis1.tree_edge e s) (vis2.tree_edge e t)
  back_edge : ∀ e s t, R s t → R (vis1.back_edge e s) (vis2.back_edge e t)
  forward_or_cross_edge : ∀ e s t, R s t →
    R (vis1.forward_or_cross_edge e s) (vis2.forward_or_cross_edge e t)
  finish_vertex : ∀ u s t, R s t → R (vis1.finish_vertex u s) (vis2.finish_vertex u t)
  func : ∀ u s t, R s t → (f1 u s).1 = (f2 u t).1 ∧ R (f1 u s).2 (f2 u t).2

/-- Two BFS visitors that keep the relation `R` between their states. -/
structure BFSSim {σ τ : Type} (vis1 : BFSVisitor σ) (vis2 : BFSVisitor τ)
    (R : σ → τ → Prop) : Prop where
  initialize_vertex : ∀ u s t, R s t →
    R (vis1.initialize_vertex u s) (vis2.initialize_vertex u t)
  discover_vertex : ∀ u s t, R s t → R (vis1.discover_vertex u s) (vis2.discover_vertex u t)
  examine_vertex : ∀ u s t, R s t → R (vis1.examine_vertex u s) (vis2.examine_vertex u t)
  examine_edge : ∀ e s t, R s t → R (vis1.examine_edge e s) (vis2.examine_edge e t)
  tree_edge : ∀ e s t, R s t → R (vis1.tree_edge e s) (vis2.tree_edge e t)
  non_tree_edge : ∀ e s t, R s t → R (vis1.non_tree_edge e s) (vis2.non_tree_edge e t)
  gray_target : ∀ e s t, R s t → R (vis1.gray_target e s) (vis2.gray_target e t)
  black_target : ∀ e s t, R s t → R (vis1.black_target e s) (vis2.black_target e t)
  finish_vertex : ∀ u s t, R s t → R (vis1.finish_vertex u s) (vis2.finish_vertex u t)

/-- The view has a directed cycle; a self-loop is one. -/
def View.Cyclic (g : View) : Prop :=
  ∃ v, Relation.TransGen g.adj v v

/-- The output `L` of `topo_sort_visitor` so far, against the colours: it
holds the black vertices, each once, and every out-edge of a vertex of `L`
leads to a vertex that stands before it in `L`. -/
structure TopoInv (g : View) (color : ColorMap) (L : List Nat) : Prop where
  nodup : L.Nodup
  black : ∀ v, color v = black_color ↔ v ∈ L
  order : ∀ x ∈ L, ∀ e ∈ g.out_edges x, [e.target, x].Sublist L

/-- The suspended frames of a walk below the vertex `c`: each frame holds
out-edges of its vertex, the tree edge that left it leads to the vertex above,
and its out-edges already examined lead to that vertex or into `L`. -/
def Frames (g : View) (L : List Nat) : Nat → List (Nat × List Edge) → Prop
  | _, [] => True
  | c, f :: rest =>
    g.adj f.1 c ∧ (∀ e ∈ f.2, e ∈ g.out_edges f.1)
      ∧ (∀ e ∈ g.out_edges f.1, e ∈ f.2 ∨ e.target ∈ L ∨ e.target = c)
      ∧ Frames g L f.1 rest

/-- The source, the target and the info of an event delivered. -/
def Yield.values (y : Yield) : Nat × Nat × Nat :=
  (y.source, y.target, y.info)

/-- The source, the target and the info of a stored edge. -/
def Edge.values (e : Edge) : Nat × Nat × Nat :=
  (e.source, e.target, e.payload)

/-- The edges delivered with the source `x`, in the order of delivery. -/
def delivered_from (x : Nat) (N : List Yield) : List (Nat × Nat × Nat) :=
  (N.filter (fun y => decide (y.source = x))).map Yield.values

/-- Every out-edge of a vertex has this vertex as its source. -/
def View.Sourced (g : View) : Prop :=
  ∀ x, ∀ e ∈ g.out_edges x, e.source = x

/-- Path in the view every step of which leaves a vertex that is the source of
an event of `Y`. -/
def ReachVia (g : View) (Y : List Yield) : Nat → Nat → Prop :=
  Relation.ReflTransGen (fun a b => g.adj a b ∧ ∃ z ∈ Y, z.source = a)

/-- What a walk of `each_dfs` from a given state delivers, `N` being the new
events: where their sources come from, that a vertex pruned at its tree edge is
the source of none, and that the targets of tree edges were white and are not
at the end. -/
structure SourcesPost (g : View) (m : Nat) (p : List Yield → Yield → Bool) (r u : Nat)
    (es : List Edge) (stack : List (Nat × List Edge)) (color : ColorMap)
    (Y : List Yield) (res : ColorMap × Thread (List Yield)) (N : List Yield) : Prop where
  user : res.2.user = Y ++ N
  source : ∀ z ∈ N, (z.source = u ∧ es ≠ []) ∨ z.source ∈ stack.map Prod.fst
    ∨ color z.source = white_color
  pruned : ∀ A y B, N = A ++ y :: B → y.kind = VISIT_TREE_EDGES → p (Y ++ A) y = true →
    ∀ z ∈ N, z.source ≠ y.target
  tree_white : ∀ y ∈ N, y.kind = VISIT_TREE_EDGES → color y.target = white_color
  tree_visited : ∀ y ∈ N, y.kind = VISIT_TREE_EDGES → res.1 y.target ≠ white_color
  masked : ∀ z ∈ N, z.kind &&& m ≠ 0
  via : VISIT_TREE_EDGES &&& m ≠ 0 → ReachVia g Y r u →
    (∀ f ∈ stack, ReachVia g Y r f.1) → ∀ z ∈ N, ReachVia g (Y ++ N) r z.source

/-- What a walk of `each_dfs` under the mask `ALL` delivers from each vertex,
`N` being the new events: a vertex that ends black has delivered the out-edges
it had left, all of them if it was white at the start, unless it was pruned at
its tree edge; then it has delivered none. The block prunes at tree edges
only. -/
structure DeliveredPost (g : View) (p : List Yield → Yield → Bool) (u : Nat)
    (es : List Edge) (stack : List (Nat × List Edge)) (color : ColorMap)
    (Y : List Yield) (res : ColorMap × Thread (List Yield)) (N : List Yield) : Prop where
  user : res.2.user = Y ++ N
  prune : res.2.prune = false
  current : res.1 u = black_color → delivered_from u N = es.map Edge.values
  frames : ∀ f ∈ stack, res.1 f.1 = black_color → delivered_from f.1 N = f.2.map Edge.values
  fresh : ∀ x, color x = white_color → res.1 x = black_color →
    delivered_from x N = (g.out_edges x).map Edge.values
    ∨ ∃ A y B, N = A ++ y :: B ∧ y.kind = VISIT_TREE_EDGES ∧ y.target = x
      ∧ p (Y ++ A) y = true ∧ delivered_from x N = []
  visited : ∀ z ∈ N, res.1 z.source ≠ white_color
  tree_once : ∀ A y B, N = A ++ y :: B → y.kind = VISIT_TREE_EDGES →
    ∀ z ∈ A ++ B, z.kind = VISIT_TREE_EDGES → z.target ≠ y.target

/-- The events of a breadth-first enumeration agree with the colours: replayed
from the colours `c`, an event whose target is white has the kind TREE and
makes the target gray, and an event whose target is not white has the kind
NON_TREE. -/
def BFSClassified : ColorMap → List Yield → Prop
  | _, [] => True
  | c, y :: N =>
    (c y.target = white_color ∧ y.kind = VISIT_TREE_EDGES
        ∧ BFSClassified (put c y.target gray_color) N)
      ∨ (c y.target ≠ white_color ∧ y.kind = VISIT_NON_TREE_EDGES ∧ BFSClassified c N)

/-- Number of the white vertices of a list. -/
def white_count (color : ColorMap) : List Nat → Nat
  | [] => 0
  | v :: l => (if color v = white_color then 1 else 0) + white_count color l

/-- The events of the kind TREE. -/
def tree_events (N : List Yield) : List Yield :=
  N.filter (fun y => decide (y.kind = VISIT_TREE_EDGES))

/-- What a run of `breadth_first_visit_loop` from the queue `Q` achieves, `N`
being the events it delivers and `V` the vertices it takes from the queue, in
order. -/
structure BFSPost (g : View) (Q : List Nat) (color : ColorMap) (N : List Yield)
    (V : List Nat) : Prop where
  nodup : V.Nodup
  queue : ∀ q ∈ Q, q ∈ V
  fresh : ∀ v ∈ V, v ∈ Q ∨ color v = white_color
  delivered : ∀ x ∈ V, delivered_from x N = (g.out_edges x).map Edge.values
  sources : ∀ z ∈ N, z.source ∈ V
  closed : ∀ x ∈ V, ∀ e ∈ g.out_edges x, e.target ∈ V ∨ color e.target ≠ white_color
  sound : ∀ v ∈ V, ∃ q ∈ Q, g.Reach q v
  kinds : ∀ c : ColorMap, (∀ v, c v = white_color ↔ color v = white_color) →
    BFSClassified c N
  trees : (tree_events N).length + Q.length = V.length

/-- What `ruby_dfs_visitor` yields under the mask `ALL` at a step: a tree edge,
a back edge and a forward-or-cross edge give an event of their kind, any other
step gives nothing. -/
def Step.event : Step → Option Yield
  | Step.tree e =>
    some { source := e.source, target := e.target, info := e.payload,
           kind := VISIT_TREE_EDGES }
  | Step.back e =>
    some { source := e.source, target := e.target, info := e.payload,
           kind := VISIT_BACK_EDGES }
  | Step.forward_or_cross e =>
    some { source := e.source, target := e.target, info := e.payload,
           kind := VISIT_FORWARD_OR_CROSS_EDGES }
  | _ => none

/-- The events that the steps `T` yield under the mask `ALL`, in order. -/
def step_events (T : List Step) : List Yield :=
  T.filterMap Step.event

/-- The identities of the edges reported as tree edges or as back edges in the
steps `T`, in order. -/
def tree_back_edges (T : List Step) : List Nat :=
  T.filterMap (fun x => match x with
    | Step.tree e => some e.id
    | Step.back e => some e.id
    | _ => none)

/-- The identities of the edges reported as forward-or-cross edges in the
steps `T`, in order. -/
def forward_or_cross_edges (T : List Step) : List Nat :=
  T.filterMap (fun x => match x with
    | Step.forward_or_cross e => some e.id
    | _ => none)

/-- The vertex `y` is an end of the stored edge of identity `i`. -/
def RubyGraph.Ends (g : RubyGraph) (i y : Nat) : Prop :=
  ∃ e ∈ g.edges, e.id = i ∧ (y = e.source ∨ y = e.target)

/-- The edge `e` of a view joins the two ends that `E` gives to its identity. -/
def Joins (E : Nat → Nat → Prop) (e : Edge) : Prop :=
  E e.id e.source ∧ E e.id e.target ∧ ∀ y, E e.id y → y = e.source ∨ y = e.target

/-- Two edges of a list with one identity: the first one is a loop. -/
def LoopTwice (a b : Edge) : Prop :=
  a.id = b.id → a.source = a.target

/-- Stored edge from `s` to `t`. -/
def mkEdge (i s t : Nat) : Edge := { id := i, source := s, target := t, payload := 0 }

/-- The example graph of the spec: A=1, B=2, C=3, D=4, E=5 with edges
A->B, B->C, A->C, C->D and E isolated. -/
def exampleGraph : RubyGraph :=
  { vertices := [1, 2, 3, 4, 5]
    edges := [mkEdge 0 1 2, mkEdge 1 2 3, mkEdge 2 1 3, mkEdge 3 3 4] }

/-- Two vertices on a cycle, 1->2 and 2->1: no vertex is a root. -/
def cycleGraph : RubyGraph :=
  { vertices := [1, 2]
    edges := [mkEdge 0 1 2, mkEdge 1 2 1] }

/-- Two roots with a common successor: 1->3 and 2->3. -/
def forkGraph : RubyGraph :=
  { vertices := [1, 2, 3]
    edges := [mkEdge 0 1 3, mkEdge 1 2 3] }

/-- A single vertex and no edge. -/
def pointGraph : RubyGraph :=
  { vertices := [1]
    edges := [] }
/-- The path graph of the spec: A=1, B=2, C=3, D=4 with edges A->B, B->C, C->D. -/
def pathGraph : RubyGraph :=
  { vertices := [1, 2, 3, 4]
    edges := [mkEdge 0 1 2, mkEdge 1 2 3, mkEdge 2 3 4] }

/-- The cycle of the spec: A->B, B->C, C->A. -/
def triangleGraph : RubyGraph :=
  { vertices := [1, 2, 3]
    edges := [mkEdge 0 1 2, mkEdge 1 2 3, mkEdge 2 3 1] }

/-- A single vertex with a self-loop. -/
def loopGraph : RubyGraph :=
  { vertices := [1]
    edges := [mkEdge 0 1 1] }

/-- A cycle with a later sibling that has a successor: A->B, B->A, A->C, C->D. -/
def siblingGraph : RubyGraph :=
  { vertices := [1, 2, 3, 4]
    edges := [mkEdge 0 1 2, mkEdge 1 2 1, mkEdge 2 1 3, mkEdge 3 3 4] }

/-- A block that records what it is given and calls `prune` when `p` says so
of the record so far and the values given. -/
def record_block (p : List Yield → Yield → Bool) : Block (List Yield) :=
  fun y s => if p s.user y then graph_prune { s with user := s.user ++ [y] }
    else { s with user := s.user ++ [y] }

/-- The choice of a block that never calls `prune`. -/
def never : List Yield → Yield → Bool := fun _ _ => false

/-- The values that the enumeration `each_dfs(root, mode)` gives to a block
that never prunes, in order. -/
def each_dfs_events (g : RubyGraph) (root mode : Nat) : List Yield :=
  (graph_direct_each_dfs g root mode (record_block never) { prune := false, user := [] }).2.user

/-- The run of `each_dfs(root, mode)` with the block that records and prunes
as `p` says, from a thread with `@prune` unset and nothing recorded. -/
def each_dfs_run (g : RubyGraph) (root mode : Nat) (p : List Yield → Yield → Bool) :
    ColorMap × Thread (List Yield) :=
  graph_direct_each_dfs g root mode (record_block p) { prune := false, user := [] }

/-- The choice of a block that calls `prune` during the event of kind `k` for
the edge from `a` to `b`, and never else. -/
def prune_at (a b k : Nat) : List Yield → Yield → Bool :=
  fun _ y => decide (y.source = a ∧ y.target = b ∧ y.kind = k)

/-- Two ways to the same vertex: R->V, R->W, V->X, W->X. -/
def diamondGraph : RubyGraph :=
  { vertices := [1, 2, 3, 4]
    edges := [mkEdge 0 1 2, mkEdge 1 1 3, mkEdge 2 2 4, mkEdge 3 3 4] }

/-- The record of the event points of the run `each_dfs(root, mode)` with the
block that records and prunes as `p` says: the call of `graph_each_dfs` for a
root of the graph, the visitor being observed. -/
def each_dfs_trace (g : RubyGraph) (root mode : Nat) (p : List Yield → Yield → Bool) :
    List Event :=
  (depth_first_visit_term (direct_graph g) root
    (ruby_dfs_visitor mode (record_block p)).observed ColorMap.empty
    (observed_func search_terminator) ({ prune := false, user := [] }, [])).2.2

/-- The steps of the undirected visit of the stored graph `g` from `u`, with
the visitor `vis` and the terminator `func`, on fresh vertex colours. -/
def undirected_steps {σ : Type} (g : RubyGraph) (u : Nat) (vis : DFSVisitor σ)
    (edge_color : EdgeColorMap) (func : Nat → σ → Bool × σ) (s : σ) : List Step :=
  (undir_dfv_impl_term (make_undirected_graph g) u vis.traced ColorMap.empty edge_color
    (traced_func func) (s, [])).2.2.2

/-- The values that the enumeration `each_bfs(root, mode)` gives to a block
that never prunes, in order. -/
def each_bfs_events (g : RubyGraph) (root mode : Nat) : List Yield :=
  (graph_direct_each_bfs g root mode (record_block never) { prune := false, user := [] }).2.user

/-- The steps of the walk that the undirected `each_dfs(root, mode)` runs for a
root of the graph `g`, with the block that records and prunes as `p` says:
every edge colour of `edge_color` is reset and `@prune` is cleared first. -/
def undirected_each_dfs_steps (g : RubyGraph) (root mode : Nat)
    (p : List Yield → Yield → Bool) (edge_color : EdgeColorMap) : List Step :=
  undirected_steps g root (ruby_dfs_visitor mode (record_block p))
    (g.edges.foldl (fun c e => put c e.id white_color) edge_color) search_terminator
    { prune := false, user := [] }

/-! ## The depth-first visit discovers the white-reachable vertices -/

theorem wsum_put_le (g : View) (color : ColorMap) (u : Nat) (c : default_color_type)
    (hc : c ≠ white_color) (l : List Nat) :
    wsum g (put color u c) l ≤ wsum g color l := by
  induction l with
  | nil => simp [wsum]
  | cons v l ih =>
    simp only [wsum, put]
    by_cases hv : v = u
    · simp only [hv, if_true, if_neg hc]
      have := ih
      simp only [put] at this
      omega
    · simp only [if_neg hv]
      have := ih
      simp only [put] at this
      omega

theorem wsum_put_lt (g : View) (color : ColorMap) (v : Nat) (c : default_color_type)
    (hc : c ≠ white_color) (l : List Nat) (hv : v ∈ l) (hw : color v = white_color) :
    wsum g (put color v c) l + (2 + (g.out_edges v).length) ≤ wsum g color l := by
  induction l with
  | nil => simp at hv
  | cons x l ih =>
    by_cases hx : x = v
    · subst hx
      have h1 := wsum_put_le g color x c hc l
      simp only [wsum, put, if_true, if_neg hc, hw] at h1 ⊢
      omega
    · have hv1 : v ∈ l := by
        rcases List.mem_cons.1 hv with h | h
        · exact absurd h.symm hx
        · exact h
      have h1 := ih hv1
      simp only [wsum, put, if_neg hx] at h1 ⊢
      omega

theorem wsum_le_fuel (g : View) (color : ColorMap) (l : List Nat) :
    wsum g color l ≤ (l.map (fun v => 2 + (g.out_edges v).length)).sum := by
  induction l with
  | nil => simp [wsum]
  | cons x l ih =>
    simp only [wsum, List.map_cons, List.sum_cons]
    split <;> omega

theorem WhiteReach.mono {g : View} {c1 c2 : ColorMap}
    (h : ∀ v, c1 v = white_color → c2 v = white_color) {a b : Nat}
    (hr : WhiteReach g c1 a b) : WhiteReach g c2 a b := by
  refine ⟨h _ hr.1, ?_⟩
  exact Relation.ReflTransGen.mono (fun x y hxy => ⟨hxy.1, h _ hxy.2⟩) hr.2

theorem put_white_imp {color : ColorMap} {u : Nat} {c : default_color_type}
    (hc : c ≠ white_color) (v : Nat) (h : put color u c v = white_color) :
    color v = white_color := by
  unfold put at h
  split at h
  · exact absurd h hc
  · exact h

theorem colors_pop {res color : ColorMap} {D rest : List Nat} {u x : Nat}
    (h : ∀ v, res v = if v ∈ D ∨ v = x ∨ v ∈ rest then black_color
      else put color u black_color v) :
    ∀ v, res v = if v ∈ D ∨ v = u ∨ v ∈ x :: rest then black_color else color v := by
  intro v
  rw [h v]
  simp only [List.mem_cons, put]
  split_ifs <;> simp_all

theorem colors_push {res color : ColorMap} {D rest : List Nat} {u t : Nat}
    (h : ∀ v, res v = if v ∈ D ∨ v = t ∨ v ∈ u :: rest then black_color
      else put color t gray_color v) :
    ∀ v, res v = if v ∈ t :: D ∨ v = u ∨ v ∈ rest then black_color else color v := by
  intro v
  rw [h v]
  simp only [List.mem_cons, put]
  split_ifs <;> simp_all

theorem depth_first_visit_loop_spec {σ : Type} (g : View) (vis : DFSVisitor σ)
    (hq : vis.Quiet) (hwf : g.WF) :
    ∀ (fuel u : Nat) (es : List Edge) (stack : List (Nat × List Edge))
      (color : ColorMap) (s : σ),
      wsum g color g.vertices + es.length + 1 + stackWeight stack ≤ fuel →
      (∀ e ∈ es, e.target ∈ g.vertices) →
      (∀ f ∈ stack, ∀ e ∈ f.2, e.target ∈ g.vertices) →
      ∃ D, LoopPost g vis u es stack color s
        (depth_first_visit_loop g vis nontruth2 fuel u es stack color s) D := by
  intro fuel
  induction fuel with
  | zero => intro u es stack color s h; omega
  | succ n ih =>
    intro u es stack color s hfuel hes hst
    cases es with
    | nil =>
      cases stack with
      | nil =>
        refine ⟨[], ?_⟩
        simp only [depth_first_visit_loop]
        constructor
        · simp [hq.finish_vertex]
        · simp
        · simp
        · intro v; simp [put]
        · simp
        · simp
        · simp
        · simp
      | cons f rest =>
        simp only [depth_first_visit_loop]
        have hfuel2 : wsum g (put color u black_color) g.vertices + f.2.length + 1
            + stackWeight rest ≤ n := by
          have := wsum_put_le g color u black_color (by decide) g.vertices
          simp only [stackWeight, List.length_nil] at hfuel
          omega
        obtain ⟨D, hD⟩ := ih f.1 f.2 rest (put color u black_color)
          (vis.finish_vertex u s) hfuel2
          (fun e he => hst f (List.mem_cons_self _ _) e he)
          (fun f2 hf2 e he => hst f2 (List.mem_cons_of_mem _ hf2) e he)
        refine ⟨D, ?_⟩
        constructor
        · rw [hD.state, hq.finish_vertex]
        · exact hD.nodup
        · intro v hv; exact put_white_imp (by decide) v (hD.white v hv)
        · exact colors_pop hD.colors
        · simp
        · intro f2 hf2 e he
          rcases List.mem_cons.1 hf2 with h | h
          · subst h; exact hD.edges_done e he
          · exact hD.stack_done f2 h e he
        · exact hD.closed
        · intro v hv
          obtain ⟨e, he, hr⟩ := hD.sound v hv
          refine ⟨e, Or.inr ?_, hr.mono (fun x hx => put_white_imp (by decide) x hx)⟩
          rcases he with he | ⟨f2, hf2, he⟩
          · exact ⟨f, List.mem_cons_self _ _, he⟩
          · exact ⟨f2, List.mem_cons_of_mem _ hf2, he⟩
    | cons e ei =>
      have hmono : ∀ (res : ColorMap × σ) (D : List Nat) (u2 : Nat)
          (stack2 : List (Nat × List Edge)) (c2 : ColorMap),
          (∀ v, res.1 v = if v ∈ D ∨ v = u2 ∨ v ∈ stack2.map Prod.fst then black_color
            else c2 v) → ∀ v, c2 v ≠ white_color → res.1 v ≠ white_color := by
        intro res D u2 stack2 c2 h v hv
        rw [h v]
        split_ifs
        · decide
        · exact hv
      simp only [depth_first_visit_loop, hq.examine_edge]
      cases hc : color e.target with
      | white_color =>
        simp only [hq.tree_edge, nontruth2, Bool.false_eq_true, if_false]
        have hv : e.target ∈ g.vertices := hes e (List.mem_cons_self _ _)
        have hfuel2 : wsum g (put color e.target gray_color) g.vertices
            + (g.out_edges e.target).length + 1 + stackWeight ((u, ei) :: stack) ≤ n := by
          have := wsum_put_lt g color e.target gray_color (by decide) g.vertices hv hc
          simp only [stackWeight, List.length_cons] at hfuel ⊢
          omega
        obtain ⟨D, hD⟩ := ih e.target (g.out_edges e.target) ((u, ei) :: stack)
          (put color e.target gray_color) (vis.discover_vertex e.target s) hfuel2
          (fun e2 he2 => hwf.2 e.target hv e2 he2)
          (by
            intro f hf e2 he2
            rcases List.mem_cons.1 hf with h | h
            · subst h; exact hes e2 (List.mem_cons_of_mem _ he2)
            · exact hst f h e2 he2)
        have hnotin : e.target ∉ D := by
          intro h
          have := hD.white _ h
          simp [put] at this
        refine ⟨e.target :: D, ?_⟩
        constructor
        · rw [hD.state]; rfl
        · exact List.nodup_cons.2 ⟨hnotin, hD.nodup⟩
        · intro v hv2
          rcases List.mem_cons.1 hv2 with h | h
          · rw [h]; exact hc
          · exact put_white_imp (by decide) v (hD.white v h)
        · exact colors_push hD.colors
        · intro e2 he2
          rcases List.mem_cons.1 he2 with h | h
          · subst h
            rw [hD.colors]
            simp
          · exact hD.stack_done (u, ei) (List.mem_cons_self _ _) e2 h
        · intro f hf e2 he2
          exact hD.stack_done f (List.mem_cons_of_mem _ hf) e2 he2
        · intro x hx e2 he2
          rcases List.mem_cons.1 hx with h | h
          · subst h; exact hD.edges_done e2 he2
          · exact hD.closed x h e2 he2
        · intro v hv2
          rcases List.mem_cons.1 hv2 with h | h
          · subst h
            exact ⟨e, Or.inl (List.mem_cons_self _ _), hc, Relation.ReflTransGen.refl⟩
          · obtain ⟨e2, he2, hr⟩ := hD.sound v h
            have hr2 : WhiteReach g color e2.target v :=
              hr.mono (fun x hx => put_white_imp (by decide) x hx)
            rcases he2 with he2 | ⟨f, hf, he2⟩
            · refine ⟨e, Or.inl (List.mem_cons_self _ _), hc, ?_⟩
              exact Relation.ReflTransGen.head ⟨⟨e2, he2, rfl⟩, hr2.1⟩ hr2.2
            · rcases List.mem_cons.1 hf with h2 | h2
              · subst h2
                exact ⟨e2, Or.inl (List.mem_cons_of_mem _ he2), hr2⟩
              · exact ⟨e2, Or.inr ⟨f, h2, he2⟩, hr2⟩
      | gray_color =>
        simp only [hq.back_edge]
        have hfuel2 : wsum g color g.vertices + ei.length + 1 + stackWeight stack ≤ n := by
          simp only [List.length_cons] at hfuel
          omega
        obtain ⟨D, hD⟩ := ih u ei stack color s hfuel2
          (fun e2 he2 => hes e2 (List.mem_cons_of_mem _ he2)) hst
        refine ⟨D, ?_⟩
        constructor
        · exact hD.state
        · exact hD.nodup
        · exact hD.white
        · exact hD.colors
        · intro e2 he2
          rcases List.mem_cons.1 he2 with h | h
          · subst h
            exact hmono _ D u stack color hD.colors _ (by rw [hc]; decide)
          · exact hD.edges_done e2 h
        · exact hD.stack_done
        · exact hD.closed
        · intro v hv2
          obtain ⟨e2, he2, hr⟩ := hD.sound v hv2
          rcases he2 with he2 | he2
          · exact ⟨e2, Or.inl (List.mem_cons_of_mem _ he2), hr⟩
          · exact ⟨e2, Or.inr he2, hr⟩
      | black_color =>
        simp only [hq.forward_or_cross_edge]
        have hfuel2 : wsum g color g.vertices + ei.length + 1 + stackWeight stack ≤ n := by
          simp only [List.length_cons] at hfuel
          omega
        obtain ⟨D, hD⟩ := ih u ei stack color s hfuel2
          (fun e2 he2 => hes e2 (List.mem_cons_of_mem _ he2)) hst
        refine ⟨D, ?_⟩
        constructor
        · exact hD.state
        · exact hD.nodup
        · exact hD.white
        · exact hD.colors
        · intro e2 he2
          rcases List.mem_cons.1 he2 with h | h
          · subst h
            exact hmono _ D u stack color hD.colors _ (by rw [hc]; decide)
          · exact hD.edges_done e2 h
        · exact hD.stack_done
        · exact hD.closed
        · intro v hv2
          obtain ⟨e2, he2, hr⟩ := hD.sound v hv2
          rcases he2 with he2 | he2
          · exact ⟨e2, Or.inl (List.mem_cons_of_mem _ he2), hr⟩
          · exact ⟨e2, Or.inr he2, hr⟩

theorem depth_first_visit_impl_spec {σ : Type} (g : View) (vis : DFSVisitor σ)
    (hq : vis.Quiet) (hwf : g.WF) (r : Nat) (color : ColorMap) (s : σ)
    (hr : r ∈ g.vertices) (hw : color r = white_color) :
    ∃ D : List Nat,
      (depth_first_visit_impl g r vis color nontruth2 s).2
        = D.foldl (fun s v => vis.discover_vertex v s) s ∧
      D.Nodup ∧ (∀ v, v ∈ D ↔ WhiteReach g color r v) ∧
      (∀ v, (depth_first_visit_impl g r vis color nontruth2 s).1 v
        = if v ∈ D then black_color else color v) := by
  have hfuel : wsum g (put color r gray_color) g.vertices + (g.out_edges r).length + 1
      + stackWeight [] ≤ dfs_fuel g := by
    have h1 := wsum_put_lt g color r gray_color (by decide) g.vertices hr hw
    have h2 := wsum_le_fuel g color g.vertices
    simp only [stackWeight, dfs_fuel]
    omega
  obtain ⟨D, hD⟩ := depth_first_visit_loop_spec g vis hq hwf (dfs_fuel g) r
    (g.out_edges r) [] (put color r gray_color) (vis.discover_vertex r s) hfuel
    (fun e he => hwf.2 r hr e he) (by simp)
  have hres : depth_first_visit_impl g r vis color nontruth2 s
      = depth_first_visit_loop g vis nontruth2 (dfs_fuel g) r (g.out_edges r) []
          (put color r gray_color) (vis.discover_vertex r s) := by
    simp [depth_first_visit_impl, nontruth2]
  rw [hres]
  have hnotin : r ∉ D := by
    intro h
    have := hD.white _ h
    simp [put] at this
  have hcol : ∀ v, (depth_first_visit_loop g vis nontruth2 (dfs_fuel g) r (g.out_edges r) []
      (put color r gray_color) (vis.discover_vertex r s)).1 v
        = if v ∈ r :: D then black_color else color v := by
    intro v
    rw [hD.colors v]
    simp only [List.map_nil, List.mem_cons, put, List.not_mem_nil, or_false]
    split_ifs <;> simp_all
  have hnw : ∀ v, color v = white_color →
      (depth_first_visit_loop g vis nontruth2 (dfs_fuel g) r (g.out_edges r) []
        (put color r gray_color) (vis.discover_vertex r s)).1 v ≠ white_color →
      v ∈ r :: D := by
    intro v hv hne
    by_contra hcon
    rw [hcol v, if_neg hcon] at hne
    exact hne hv
  refine ⟨r :: D, ?_, ?_, ?_, hcol⟩
  · rw [hD.state]; rfl
  · exact List.nodup_cons.2 ⟨hnotin, hD.nodup⟩
  · intro v
    constructor
    · intro hv
      rcases List.mem_cons.1 hv with h | h
      · rw [h]; exact ⟨hw, Relation.ReflTransGen.refl⟩
      · obtain ⟨e, he, hre⟩ := hD.sound v h
        have hr2 : WhiteReach g color e.target v :=
          hre.mono (fun x hx => put_white_imp (by decide) x hx)
        rcases he with he | ⟨f, hf, _⟩
        · exact ⟨hw, Relation.ReflTransGen.head ⟨⟨e, he, rfl⟩, hr2.1⟩ hr2.2⟩
        · simp at hf
    · rintro ⟨_, hpath⟩
      induction hpath with
      | refl => exact List.mem_cons_self _ _
      | tail _ hbc ih =>
        obtain ⟨⟨e, he, het⟩, hcw⟩ := hbc
        apply hnw _ hcw
        rw [← het]
        rcases List.mem_cons.1 ih with h | h
        · rw [h] at he; exact hD.edges_done e he
        · exact hD.closed _ h e he

theorem Visited.step {g : View} {prev : List Nat} {u w : Nat} (h : Visited g prev u)
    (hadj : g.adj u w) : Visited g prev w := by
  obtain ⟨p, hp, hpu⟩ := h
  exact ⟨p, hp, Relation.ReflTransGen.tail hpu hadj⟩

theorem Visited.reach {g : View} {prev : List Nat} {u w : Nat} (h : Visited g prev u)
    (hr : g.Reach u w) : Visited g prev w := by
  obtain ⟨p, hp, hpu⟩ := h
  exact ⟨p, hp, Relation.ReflTransGen.trans hpu hr⟩

theorem Visited.cons_iff {g : View} {prev : List Nat} {r v : Nat} :
    Visited g (r :: prev) v ↔ g.Reach r v ∨ Visited g prev v := by
  unfold Visited
  simp

theorem ColorsOf.white_iff {g : View} {prev : List Nat} {color : ColorMap}
    (h : ColorsOf g prev color) (v : Nat) : color v = white_color ↔ ¬ Visited g prev v := by
  have h1 := (h v).1
  have h2 := (h v).2
  rw [← h1]
  cases hc : color v <;> simp_all

theorem ColorsOf.empty (g : View) : ColorsOf g [] ColorMap.empty := by
  intro v
  simp [ColorMap.empty, Visited]

theorem whiteReach_iff {g : View} {prev : List Nat} {color : ColorMap}
    (h : ColorsOf g prev color) (r v : Nat) (hr : color r = white_color) :
    WhiteReach g color r v ↔ g.Reach r v ∧ ¬ Visited g prev v := by
  constructor
  · rintro ⟨_, hpath⟩
    induction hpath with
    | refl => exact ⟨Relation.ReflTransGen.refl, (h.white_iff r).1 hr⟩
    | tail _ hbc ih => exact ⟨Relation.ReflTransGen.tail ih.1 hbc.1, (h.white_iff _).1 hbc.2⟩
  · rintro ⟨hpath, hnv⟩
    refine ⟨hr, ?_⟩
    induction hpath with
    | refl => exact Relation.ReflTransGen.refl
    | tail hab hbc ih =>
      have hb : ¬ Visited g prev _ := fun hvb => hnv (hvb.step hbc)
      exact Relation.ReflTransGen.tail (ih hb) ⟨hbc, (h.white_iff _).2 hnv⟩

theorem ColorsOf.skip {g : View} {prev : List Nat} {color : ColorMap}
    (h : ColorsOf g prev color) (r : Nat) (hr : color r ≠ white_color) :
    Visited g prev r ∧ ColorsOf g (r :: prev) color := by
  have hv : Visited g prev r := by
    by_contra hcon
    exact hr ((h.white_iff r).2 hcon)
  refine ⟨hv, fun v => ⟨?_, (h v).2⟩⟩
  rw [(h v).1, Visited.cons_iff]
  constructor
  · exact Or.inr
  · rintro (h1 | h1)
    · exact hv.reach h1
    · exact h1

theorem dfs_from_visited {σ : Type} (g : View) (vis : DFSVisitor σ)
    (hq : vis.Quiet) (hwf : g.WF) (prev : List Nat) (r : Nat) (color : ColorMap) (s : σ)
    (hc : ColorsOf g prev color) (hr : r ∈ g.vertices) (hw : color r = white_color) :
    ∃ D : List Nat,
      (depth_first_visit_impl g r vis color nontruth2 s).2
        = D.foldl (fun s v => vis.discover_vertex v s) s ∧
      D.Nodup ∧ (∀ v, v ∈ D ↔ g.Reach r v ∧ ¬ Visited g prev v) ∧
      ColorsOf g (r :: prev) (depth_first_visit_impl g r vis color nontruth2 s).1 := by
  obtain ⟨D, h1, h2, h3, h4⟩ := depth_first_visit_impl_spec g vis hq hwf r color s hr hw
  have h5 : ∀ v, v ∈ D ↔ g.Reach r v ∧ ¬ Visited g prev v := by
    intro v
    rw [h3 v, whiteReach_iff hc r v hw]
  refine ⟨D, h1, h2, h5, ?_⟩
  intro v
  rw [h4 v, Visited.cons_iff]
  by_cases hv : v ∈ D
  · simp only [if_pos hv, true_iff, ne_eq]
    exact ⟨Or.inl ((h5 v).1 hv).1, by decide⟩
  · simp only [if_neg hv]
    refine ⟨?_, (hc v).2⟩
    rw [(hc v).1]
    constructor
    · exact Or.inr
    · rintro (hrv | hvis)
      · by_contra hcon
        exact hv ((h5 v).2 ⟨hrv, hcon⟩)
      · exact hvis

/-! ## The loop of `graph_components_i` -/

theorem vertex_recorder_quiet : vertex_recorder.Quiet := by
  constructor <;> intros <;> rfl

theorem foldl_insert_fresh (D : List Nat) :
    ∀ acc : ValueSet, D.Nodup → (∀ x ∈ D, x ∉ acc) →
      D.foldl (fun s v => ValueSet.insert s v) acc = acc ++ D := by
  induction D with
  | nil => intro acc _ _; simp
  | cons x D ih =>
    intro acc hnd hfresh
    have hx : x ∉ acc := hfresh x (List.mem_cons_self _ _)
    have hnd2 := List.nodup_cons.1 hnd
    have hins : ValueSet.insert acc x = acc ++ [x] := by simp [ValueSet.insert, hx]
    rw [List.foldl_cons, hins, ih (acc ++ [x]) hnd2.2]
    · simp
    · intro y hy hmem
      rcases List.mem_append.1 hmem with h | h
      · exact hfresh y (List.mem_cons_of_mem _ hy) h
      · simp only [List.mem_singleton] at h
        subst h
        exact hnd2.1 hy

theorem root_descriptor_present (g : View) (incl : Bool) (x : Nat) (result : List ValueSet)
    (hx : x ∈ g.vertices) :
    graph_components_root_descriptor g incl x result = (x, result) := by
  simp [graph_components_root_descriptor, rb_to_vertex, hx]

theorem root_descriptor_absent (g : View) (incl : Bool) (x : Nat) (result : List ValueSet)
    (hx : x ∉ g.vertices) :
    graph_components_root_descriptor g incl x result
      = (0, result ++ absent_singletons g incl [x]) := by
  cases incl <;>
    simp [graph_components_root_descriptor, rb_to_vertex, hx, absent_singletons,
      ValueSet.insert]

theorem graph_components_i_loop_present (g : View) (hwf : g.WF) (incl : Bool) (x : Nat)
    (rest : List Nat) (color : ColorMap) (W : ValueSet) (res : List ValueSet)
    (hx : x ∈ g.vertices) :
    graph_components_i_loop g (graph_components_root_descriptor g incl) incl (x :: rest)
        color (W :: res)
      = if color x ≠ white_color then
          graph_components_i_loop g (graph_components_root_descriptor g incl) incl rest
            color (W :: res)
        else if (depth_first_visit g x vertex_recorder color W).2.length > 1 ∨ incl = true then
          graph_components_i_loop g (graph_components_root_descriptor g incl) incl rest
            (depth_first_visit g x vertex_recorder color W).1
            ([] :: (depth_first_visit g x vertex_recorder color W).2 :: res)
        else
          graph_components_i_loop g (graph_components_root_descriptor g incl) incl rest
            (depth_first_visit g x vertex_recorder color W).1 ([] :: res) := by
  have hx0 : x ≠ 0 := fun h => hwf.1 (h ▸ hx)
  rw [graph_components_i_loop]
  simp only [root_descriptor_present g incl x _ hx, if_neg hx0, List.headI_cons,
    List.tail_cons]

theorem graph_components_i_loop_absent (g : View) (incl : Bool) (x : Nat)
    (rest : List Nat) (color : ColorMap) (result : List ValueSet)
    (hx : x ∉ g.vertices) :
    graph_components_i_loop g (graph_components_root_descriptor g incl) incl (x :: rest)
        color result
      = graph_components_i_loop g (graph_components_root_descriptor g incl) incl rest
          color (result ++ absent_singletons g incl [x]) := by
  rw [graph_components_i_loop]
  simp only [root_descriptor_absent g incl x _ hx, if_true]

theorem depth_first_visit_recorder (g : View) (x : Nat) (color : ColorMap) (W : ValueSet) :
    depth_first_visit g x vertex_recorder color W
      = depth_first_visit_impl g x vertex_recorder color nontruth2 W := rfl

theorem graph_components_i_loop_spec (g : View) (hwf : g.WF) (incl : Bool) :
    ∀ (seeds prev : List Nat) (color : ColorMap) (res : List ValueSet),
      (∀ x ∈ seeds, x ∈ g.vertices) → ColorsOf g prev color →
      ∃ F, Forest g prev seeds F ∧
        graph_components_i_loop g (graph_components_root_descriptor g incl) incl seeds
            color ([] :: res)
          = [] :: ((groups_of incl F).reverse ++ res) := by
  intro seeds
  induction seeds with
  | nil =>
    intro prev color res _ _
    exact ⟨[], Forest.nil prev, by simp [graph_components_i_loop, groups_of]⟩
  | cons x rest ih =>
    intro prev color res hmem hc
    have hx : x ∈ g.vertices := hmem x (List.mem_cons_self _ _)
    have hrest : ∀ y ∈ rest, y ∈ g.vertices := fun y hy => hmem y (List.mem_cons_of_mem _ hy)
    rw [graph_components_i_loop_present g hwf incl x rest color [] res hx]
    by_cases hw : color x = white_color
    · rw [if_neg (by simpa using hw)]
      obtain ⟨D, h1, h2, h3, h4⟩ :=
        dfs_from_visited g vertex_recorder vertex_recorder_quiet hwf prev x color [] hc hx hw
      have hD : (depth_first_visit g x vertex_recorder color []).2 = D := by
        rw [depth_first_visit_recorder]
        rw [h1]
        have := foldl_insert_fresh D [] h2 (by simp)
        simpa [vertex_recorder] using this
      have hnv : ¬ Visited g prev x := (hc.white_iff x).1 hw
      rw [hD]
      by_cases hk : D.length > 1 ∨ incl = true
      · rw [if_pos hk]
        obtain ⟨F, hF, hloop⟩ := ih (x :: prev) _ (D :: res) hrest h4
        refine ⟨(x, D) :: F, Forest.start hnv h2 h3 hF, ?_⟩
        rw [depth_first_visit_recorder]
        rw [hloop]
        simp [groups_of, List.filter_cons, hk]
      · rw [if_neg hk]
        obtain ⟨F, hF, hloop⟩ := ih (x :: prev) _ res hrest h4
        refine ⟨(x, D) :: F, Forest.start hnv h2 h3 hF, ?_⟩
        rw [depth_first_visit_recorder]
        rw [hloop]
        simp [groups_of, List.filter_cons, hk]
    · rw [if_pos hw]
      obtain ⟨hv, hc2⟩ := hc.skip x hw
      obtain ⟨F, hF, hloop⟩ := ih (x :: prev) color res hrest hc2
      exact ⟨F, Forest.skip hv hF, hloop⟩

theorem graph_components_i_loop_append (g : View) (hwf : g.WF) (incl : Bool) :
    ∀ (seeds : List Nat) (color : ColorMap) (W : ValueSet) (res X : List ValueSet),
      (∀ x ∈ seeds, x ∈ g.vertices) →
      graph_components_i_loop g (graph_components_root_descriptor g incl) incl seeds
          color (W :: (res ++ X))
        = graph_components_i_loop g (graph_components_root_descriptor g incl) incl seeds
          color (W :: res) ++ X := by
  intro seeds
  induction seeds with
  | nil => intro color W res X _; simp [graph_components_i_loop]
  | cons x rest ih =>
    intro color W res X hmem
    have hx : x ∈ g.vertices := hmem x (List.mem_cons_self _ _)
    have hrest : ∀ y ∈ rest, y ∈ g.vertices := fun y hy => hmem y (List.mem_cons_of_mem _ hy)
    rw [graph_components_i_loop_present g hwf incl x rest color W _ hx,
      graph_components_i_loop_present g hwf incl x rest color W _ hx]
    split_ifs
    · exact ih color W res X hrest
    · exact ih _ [] (_ :: res) X hrest
    · exact ih _ [] res X hrest

theorem absent_singletons_cons_present (g : View) (incl : Bool) (x : Nat) (rest : List Nat)
    (hx : x ∈ g.vertices) :
    absent_singletons g incl (x :: rest) = absent_singletons g incl rest := by
  simp [absent_singletons, List.filter_cons, hx]

theorem absent_singletons_cons_absent (g : View) (incl : Bool) (x : Nat) (rest : List Nat)
    (hx : x ∉ g.vertices) :
    absent_singletons g incl (x :: rest)
      = absent_singletons g incl [x] ++ absent_singletons g incl rest := by
  cases incl <;> simp [absent_singletons, List.filter_cons, hx]

theorem graph_components_i_loop_filter (g : View) (hwf : g.WF) (incl : Bool) :
    ∀ (seeds : List Nat) (color : ColorMap) (W : ValueSet) (res : List ValueSet),
      graph_components_i_loop g (graph_components_root_descriptor g incl) incl seeds
          color (W :: res)
        = graph_components_i_loop g (graph_components_root_descriptor g incl) incl
            (seeds.filter (fun x => decide (x ∈ g.vertices))) color (W :: res)
          ++ absent_singletons g incl seeds := by
  intro seeds
  induction seeds with
  | nil => intro color W res; cases incl <;> simp [absent_singletons]
  | cons x rest ih =>
    intro color W res
    by_cases hx : x ∈ g.vertices
    · rw [List.filter_cons_of_pos (by simpa using hx),
        absent_singletons_cons_present g incl x rest hx,
        graph_components_i_loop_present g hwf incl x rest color W _ hx,
        graph_components_i_loop_present g hwf incl x _ color W _ hx]
      split_ifs
      · exact ih color W res
      · exact ih _ [] (_ :: res)
      · exact ih _ [] res
    · rw [List.filter_cons_of_neg (by simpa using hx),
        absent_singletons_cons_absent g incl x rest hx,
        graph_components_i_loop_absent g incl x rest color _ hx, List.cons_append, ih,
        graph_components_i_loop_append g hwf incl _ color W res _
          (fun y hy => by simpa using (List.mem_filter.1 hy).2),
        List.append_assoc]

theorem graph_components_i_loop_id (g : View) (incl : Bool) :
    ∀ (items : List Nat) (color : ColorMap) (result : List ValueSet),
      (∀ x ∈ items, x ∈ g.vertices) →
      graph_components_i_loop g (fun v result => (v, result)) incl items color result
        = graph_components_i_loop g (graph_components_root_descriptor g incl) incl items
            color result := by
  intro items
  induction items with
  | nil => intro color result _; simp [graph_components_i_loop]
  | cons x rest ih =>
    intro color result hmem
    have hx : x ∈ g.vertices := hmem x (List.mem_cons_self _ _)
    have hrest : ∀ y ∈ rest, y ∈ g.vertices := fun y hy => hmem y (List.mem_cons_of_mem _ hy)
    rw [graph_components_i_loop, graph_components_i_loop]
    simp only [root_descriptor_present g incl x _ hx, ih _ _ hrest]

theorem graph_components_i_loop_singletons (g : View) (hwf : g.WF) :
    ∀ (seeds : List Nat) (color : ColorMap) (res1 res2 : List ValueSet),
      (∀ x ∈ seeds, x ∈ g.vertices) →
      res1 = res2.filter (fun L => decide (2 ≤ L.length)) →
      graph_components_i_loop g (graph_components_root_descriptor g false) false seeds
          color ([] :: res1)
        = [] :: (graph_components_i_loop g (graph_components_root_descriptor g true) true
            seeds color ([] :: res2)).tail.filter (fun L => decide (2 ≤ L.length)) := by
  intro seeds
  induction seeds with
  | nil => intro color res1 res2 _ h; simp [graph_components_i_loop, h]
  | cons x rest ih =>
    intro color res1 res2 hmem hres
    have hx : x ∈ g.vertices := hmem x (List.mem_cons_self _ _)
    have hrest : ∀ y ∈ rest, y ∈ g.vertices := fun y hy => hmem y (List.mem_cons_of_mem _ hy)
    rw [graph_components_i_loop_present g hwf false x rest color [] _ hx,
      graph_components_i_loop_present g hwf true x rest color [] _ hx]
    by_cases hw : color x = white_color
    · have hw2 : ¬ (color x ≠ white_color) := by simpa using hw
      simp only [if_neg hw2]
      by_cases hk : (depth_first_visit g x vertex_recorder color []).2.length > 1
      · have h1 : (depth_first_visit g x vertex_recorder color []).2.length > 1
            ∨ false = true := Or.inl hk
        have h2 : (depth_first_visit g x vertex_recorder color []).2.length > 1
            ∨ true = true := Or.inl hk
        simp only [if_pos h1, or_true, if_true]
        apply ih _ _ _ hrest
        rw [List.filter_cons_of_pos (by simpa using hk), hres]
      · have h1 : ¬ ((depth_first_visit g x vertex_recorder color []).2.length > 1
            ∨ false = true) := by simpa using hk
        have h2 : (depth_first_visit g x vertex_recorder color []).2.length > 1
            ∨ true = true := Or.inr rfl
        simp only [if_neg h1, or_true, if_true]
        apply ih _ _ _ hrest
        rw [List.filter_cons_of_neg (by simp only [decide_eq_true_eq]; omega), hres]
    · have hw2 : color x ≠ white_color := hw
      simp only [if_pos hw2]
      exact ih color res1 res2 hrest hres

/-! ## Properties of a forest of visits -/

theorem reach_mem_vertices {g : View} (hwf : g.WF) {r v : Nat} (hr : r ∈ g.vertices)
    (h : g.Reach r v) : v ∈ g.vertices := by
  induction h with
  | refl => exact hr
  | tail _ hbc ih =>
    obtain ⟨e, he, het⟩ := hbc
    rw [← het]
    exact hwf.2 _ ih e he

theorem Visited.weaken {g : View} {prev : List Nat} {r v : Nat} (h : Visited g prev v) :
    Visited g (r :: prev) v :=
  Visited.cons_iff.2 (Or.inr h)

theorem Forest.mem_spec {g : View} {prev roots : List Nat} {F : List (Nat × List Nat)}
    (h : Forest g prev roots F) :
    ∀ rL ∈ F, rL.1 ∈ roots ∧ rL.2.Nodup ∧ rL.1 ∈ rL.2 ∧
      ∀ v ∈ rL.2, g.Reach rL.1 v ∧ ¬ Visited g prev v := by
  induction h with
  | nil prev => intro rL hrL; simp at hrL
  | skip _ _ ih =>
    intro rL hrL
    obtain ⟨h1, h2, h3, h4⟩ := ih rL hrL
    exact ⟨List.mem_cons_of_mem _ h1, h2, h3,
      fun v hv => ⟨(h4 v hv).1, fun hvis => (h4 v hv).2 hvis.weaken⟩⟩
  | start hnv hnd hL _ ih =>
    intro rL hrL
    rcases List.mem_cons.1 hrL with h | h
    · subst h
      exact ⟨List.mem_cons_self _ _, hnd, (hL _).2 ⟨Relation.ReflTransGen.refl, hnv⟩,
        fun v hv => (hL v).1 hv⟩
    · obtain ⟨h1, h2, h3, h4⟩ := ih rL h
      exact ⟨List.mem_cons_of_mem _ h1, h2, h3,
        fun v hv => ⟨(h4 v hv).1, fun hvis => (h4 v hv).2 hvis.weaken⟩⟩

theorem Forest.pairwise_disjoint {g : View} {prev roots : List Nat}
    {F : List (Nat × List Nat)} (h : Forest g prev roots F) :
    (F.map Prod.snd).Pairwise List.Disjoint := by
  induction h with
  | nil prev => simp
  | skip _ _ ih => exact ih
  | start _ _ hL hF ih =>
    rw [List.map_cons, List.pairwise_cons]
    refine ⟨?_, ih⟩
    intro L2 hL2 v hv hv2
    obtain ⟨rL, hrL, rfl⟩ := List.mem_map.1 hL2
    have h1 := (hF.mem_spec rL hrL).2.2.2 v hv2
    exact h1.2 (Visited.cons_iff.2 (Or.inl ((hL v).1 hv).1))

theorem Forest.union {g : View} {prev roots : List Nat} {F : List (Nat × List Nat)}
    (h : Forest g prev roots F) (v : Nat) :
    (∃ rL ∈ F, v ∈ rL.2) ↔ Visited g roots v ∧ ¬ Visited g prev v := by
  induction h with
  | nil prev => simp [Visited]
  | skip hvis _ ih =>
    rw [ih, Visited.cons_iff, Visited.cons_iff]
    constructor
    · rintro ⟨h1, h2⟩
      exact ⟨Or.inr h1, fun h3 => h2 (Or.inr h3)⟩
    · rintro ⟨h1, h2⟩
      have h3 : ¬ g.Reach _ v := fun h3 => h2 (hvis.reach h3)
      rcases h1 with h1 | h1
      · exact absurd h1 h3
      · exact ⟨h1, fun h4 => h4.elim h3 h2⟩
  | @start prev r rest F L _ _ hL _ ih =>
    simp only [List.exists_mem_cons_iff]
    rw [ih, hL v, Visited.cons_iff, Visited.cons_iff]
    constructor
    · rintro (⟨h1, h2⟩ | ⟨h1, h2⟩)
      · exact ⟨Or.inl h1, h2⟩
      · exact ⟨Or.inr h1, fun h3 => h2 (Or.inr h3)⟩
    · rintro ⟨h1, h2⟩
      by_cases h3 : g.Reach r v
      · exact Or.inl ⟨h3, h2⟩
      · rcases h1 with h1 | h1
        · exact absurd h1 h3
        · exact Or.inr ⟨h1, fun h4 => h4.elim h3 h2⟩

theorem Forest.first_reaching {g : View} {prev roots : List Nat}
    {F : List (Nat × List Nat)} (h : Forest g prev roots F) (s1 s2 : Nat) (post : List Nat)
    (hr : g.Reach s1 s2) :
    ∀ pre : List Nat, roots = pre ++ s1 :: post → (∀ p ∈ pre, ¬ g.Reach p s2) →
      ¬ Visited g prev s2 → ∃ L, (s1, L) ∈ F ∧ s1 ∈ L ∧ s2 ∈ L := by
  induction h with
  | nil prev => intro pre hpre; simp at hpre
  | skip hvis _ ih =>
    intro pre hroots hpre hnv
    cases pre with
    | nil =>
      simp only [List.nil_append, List.cons.injEq] at hroots
      rw [hroots.1] at hvis
      exact absurd (hvis.reach hr) hnv
    | cons p pre2 =>
      simp only [List.cons_append, List.cons.injEq] at hroots
      have hp : ¬ g.Reach p s2 := hpre p (List.mem_cons_self _ _)
      rw [← hroots.1] at hp
      exact ih pre2 hroots.2 (fun q hq => hpre q (List.mem_cons_of_mem _ hq))
        (fun h4 => (Visited.cons_iff.1 h4).elim hp hnv)
  | start hnvis _ hL _ ih =>
    intro pre hroots hpre hnv
    cases pre with
    | nil =>
      simp only [List.nil_append, List.cons.injEq] at hroots
      obtain ⟨h1, _⟩ := hroots
      subst h1
      exact ⟨_, List.mem_cons_self _ _, (hL _).2 ⟨Relation.ReflTransGen.refl, hnvis⟩,
        (hL _).2 ⟨hr, hnv⟩⟩
    | cons p pre2 =>
      simp only [List.cons_append, List.cons.injEq] at hroots
      have hp : ¬ g.Reach p s2 := hpre p (List.mem_cons_self _ _)
      rw [← hroots.1] at hp
      obtain ⟨L, hL1, hL2⟩ := ih pre2 hroots.2
        (fun q hq => hpre q (List.mem_cons_of_mem _ hq))
        (fun h4 => (Visited.cons_iff.1 h4).elim hp hnv)
      exact ⟨L, List.mem_cons_of_mem _ hL1, hL2⟩

theorem filter_mem_length_one (R : List (List Nat)) (s : Nat)
    (hp : R.Pairwise List.Disjoint) (he : ∃ L ∈ R, s ∈ L) :
    (R.filter (fun L => decide (s ∈ L))).length = 1 := by
  induction R with
  | nil => simp at he
  | cons L R ih =>
    rw [List.pairwise_cons] at hp
    by_cases hs : s ∈ L
    · rw [List.filter_cons_of_pos (by simpa using hs)]
      have : R.filter (fun L => decide (s ∈ L)) = [] := by
        rw [List.filter_eq_nil_iff]
        intro L2 hL2
        simp only [decide_eq_true_eq]
        exact fun h2 => hp.1 L2 hL2 hs h2
      simp [this]
    · rw [List.filter_cons_of_neg (by simpa using hs)]
      apply ih hp.2
      obtain ⟨L2, hL2, hs2⟩ := he
      rcases List.mem_cons.1 hL2 with h | h
      · subst h; exact absurd hs2 hs
      · exact ⟨L2, h, hs2⟩

/-! ## Results of `generated_subgraphs` -/

theorem generated_subgraphs_seeds_spec (g : View) (hwf : g.WF) (seeds : List Nat)
    (o : Option Bool) :
    ∃ F, Forest g [] (seeds.filter (fun x => decide (x ∈ g.vertices))) F ∧
      graph_do_generated_subgraphs g (some seeds) o
        = (groups_of (o.getD true) F).reverse ++ absent_singletons g (o.getD true) seeds := by
  obtain ⟨F, hF, hloop⟩ := graph_components_i_loop_spec g hwf (o.getD true)
    (seeds.filter (fun x => decide (x ∈ g.vertices))) [] ColorMap.empty []
    (fun x hx => by simpa using (List.mem_filter.1 hx).2) (ColorsOf.empty g)
  refine ⟨F, hF, ?_⟩
  simp only [graph_do_generated_subgraphs, graph_components_i]
  rw [graph_components_i_loop_filter g hwf, hloop]
  simp

theorem generated_subgraphs_roots_spec (g : View) (hwf : g.WF) (o : Option Bool) :
    ∃ F, Forest g [] (g.vertices.filter (fun v => vertex_has_adjacent_i v g)) F ∧
      graph_do_generated_subgraphs g none o = (groups_of (o.getD true) F).reverse := by
  have hmem : ∀ x ∈ g.vertices.filter (fun v => vertex_has_adjacent_i v g), x ∈ g.vertices :=
    fun x hx => (List.mem_filter.1 hx).1
  obtain ⟨F, hF, hloop⟩ := graph_components_i_loop_spec g hwf (o.getD true)
    (g.vertices.filter (fun v => vertex_has_adjacent_i v g)) [] ColorMap.empty []
    hmem (ColorsOf.empty g)
  refine ⟨F, hF, ?_⟩
  simp only [graph_do_generated_subgraphs, graph_components_i]
  rw [graph_components_i_loop_id g _ _ _ _ hmem, hloop]
  simp

theorem generated_subgraphs_split (g : View) (hwf : g.WF) (seeds : List Nat)
    (o : Option Bool) :
    graph_do_generated_subgraphs g (some seeds) o
      = graph_do_generated_subgraphs g
          (some (seeds.filter (fun x => decide (x ∈ g.vertices)))) o
        ++ absent_singletons g (o.getD true) seeds := by
  obtain ⟨F, _, hloop⟩ := graph_components_i_loop_spec g hwf (o.getD true)
    (seeds.filter (fun x => decide (x ∈ g.vertices))) [] ColorMap.empty []
    (fun x hx => by simpa using (List.mem_filter.1 hx).2) (ColorsOf.empty g)
  simp only [graph_do_generated_subgraphs, graph_components_i]
  rw [graph_components_i_loop_filter g hwf, hloop]
  simp

theorem groups_of_true (F : List (Nat × List Nat)) : groups_of true F = F.map Prod.snd := by
  simp [groups_of]

theorem mem_groups_of {incl : Bool} {F : List (Nat × List Nat)} {L : List Nat}
    (h : L ∈ groups_of incl F) : ∃ r, (r, L) ∈ F := by
  simp only [groups_of, List.mem_map, List.mem_filter] at h
  obtain ⟨rL, ⟨h1, _⟩, h2⟩ := h
  exact ⟨rL.1, by rw [← h2]; exact h1⟩

theorem groups_of_pairwise {g : View} {prev roots : List Nat} {F : List (Nat × List Nat)}
    (h : Forest g prev roots F) (incl : Bool) :
    (groups_of incl F).reverse.Pairwise List.Disjoint := by
  rw [List.pairwise_reverse]
  have h1 := h.pairwise_disjoint
  have h2 : (groups_of incl F).Pairwise List.Disjoint :=
    List.Pairwise.sublist (List.Sublist.map _ (List.filter_sublist _)) h1
  exact h2.imp (fun hab => hab.symm)

theorem exists_mem_snd_reverse (F : List (Nat × List Nat)) (v : Nat) :
    (∃ L ∈ (F.map Prod.snd).reverse, v ∈ L) ↔ ∃ rL ∈ F, v ∈ rL.2 := by
  constructor
  · rintro ⟨L, hL, hv⟩
    rw [List.mem_reverse, List.mem_map] at hL
    obtain ⟨rL, h, rfl⟩ := hL
    exact ⟨rL, h, hv⟩
  · rintro ⟨rL, h, hv⟩
    exact ⟨rL.2, by rw [List.mem_reverse]; exact List.mem_map_of_mem _ h, hv⟩

/-- C6 (counterexample): on the cycle 1->2, 2->1 no vertex is a root, so
`generated_subgraphs` without seeds returns no group at all and the union of
its groups is not the vertex set. -/
theorem generated_subgraphs_roots_cycle :
    cycleGraph.WF ∧
    graph_generated_subgraphs cycleGraph none (some true) = [] ∧
    ¬ (∀ v ∈ cycleGraph.vertices,
        ∃ L ∈ graph_generated_subgraphs cycleGraph none (some true), v ∈ L) := by
  decide

/-- C6 (amended): for every well-formed view and singletons included,
`generated_subgraphs` without seeds returns pairwise disjoint groups whose
union is the set of the vertices that some root (a vertex without inbound
adjacency) reaches; the union is the full vertex set exactly when every vertex
is reached from a root. -/
theorem generated_subgraphs_roots_partition (g : View) (hwf : g.WF) (o : Option Bool)
    (ho : o.getD true = true) :
    (graph_do_generated_subgraphs g none o).Pairwise List.Disjoint ∧
    (∀ v, (∃ L ∈ graph_do_generated_subgraphs g none o, v ∈ L) ↔
      ∃ r ∈ g.vertices, vertex_has_adjacent_i r g = true ∧ g.Reach r v) ∧
    ((∀ v, v ∈ g.vertices ↔ ∃ L ∈ graph_do_generated_subgraphs g none o, v ∈ L) ↔
      ∀ v ∈ g.vertices, ∃ r ∈ g.vertices, vertex_has_adjacent_i r g = true ∧ g.Reach r v) := by
  obtain ⟨F, hF, hR⟩ := generated_subgraphs_roots_spec g hwf o
  rw [hR, ho, groups_of_true]
  have hunion : ∀ v, (∃ L ∈ (F.map Prod.snd).reverse, v ∈ L) ↔
      ∃ r ∈ g.vertices, vertex_has_adjacent_i r g = true ∧ g.Reach r v := by
    intro v
    have h1 := hF.union v
    simp only [Visited, List.mem_filter, List.not_mem_nil, false_and, exists_false,
      not_false_eq_true, and_true] at h1
    rw [exists_mem_snd_reverse, h1]
    simp only [and_assoc]
  refine ⟨?_, hunion, ?_⟩
  · have := groups_of_pairwise hF true
    rwa [groups_of_true] at this
  · constructor
    · intro h v hv
      exact (hunion v).1 ((h v).1 hv)
    · intro h v
      constructor
      · intro hv
        exact (hunion v).2 (h v hv)
      · intro hv
        obtain ⟨r, hr, _, hrv⟩ := (hunion v).1 hv
        exact reach_mem_vertices hwf hr hrv

theorem direct_graph_wf (g : RubyGraph) (hwf : g.WF) : (direct_graph g).WF := by
  refine ⟨hwf.1, ?_⟩
  intro u _ e he
  simp only [direct_graph, RubyGraph.out_edges, List.mem_filter] at he
  exact (hwf.2 e he.1).2

theorem make_reverse_graph_wf (g : RubyGraph) (hwf : g.WF) : (make_reverse_graph g).WF := by
  refine ⟨hwf.1, ?_⟩
  intro u _ e he
  simp only [make_reverse_graph, RubyGraph.in_edges, List.mem_map, List.mem_filter] at he
  obtain ⟨e2, ⟨he2, _⟩, rfl⟩ := he
  exact (hwf.2 e2 he2).1

theorem root_reaches_of_acyclic (g : View)
    (hpred : ∀ v ∈ g.vertices, vertex_has_adjacent_i v g = false → ∃ u ∈ g.vertices, g.adj u v)
    (hacyc : ∀ v, ¬ Relation.TransGen g.adj v v) :
    ∀ v ∈ g.vertices, ∃ r ∈ g.vertices, vertex_has_adjacent_i r g = true ∧ g.Reach r v := by
  let rel : {x // x ∈ g.vertices} → {x // x ∈ g.vertices} → Prop :=
    fun a b => Relation.TransGen g.adj a.1 b.1
  haveI : IsTrans _ rel := ⟨fun _ _ _ hab hbc => Relation.TransGen.trans hab hbc⟩
  haveI : IsIrrefl _ rel := ⟨fun a => hacyc a.1⟩
  have hwf : WellFounded rel := Finite.wellFounded_of_trans_of_irrefl rel
  have key : ∀ x : {x // x ∈ g.vertices},
      ∃ r ∈ g.vertices, vertex_has_adjacent_i r g = true ∧ g.Reach r x.1 := by
    intro x
    induction x using hwf.induction with
    | _ x ih =>
      by_cases hroot : vertex_has_adjacent_i x.1 g = true
      · exact ⟨x.1, x.2, hroot, Relation.ReflTransGen.refl⟩
      · obtain ⟨u, hu, hadj⟩ := hpred x.1 x.2 (by simpa using hroot)
        obtain ⟨r0, hr0, hroot0, hreach⟩ := ih ⟨u, hu⟩ (Relation.TransGen.single hadj)
        exact ⟨r0, hr0, hroot0, Relation.ReflTransGen.tail hreach hadj⟩
  intro v hv
  exact key ⟨v, hv⟩

theorem direct_graph_pred (g : RubyGraph) (hwf : g.WF) :
    ∀ v ∈ (direct_graph g).vertices, vertex_has_adjacent_i v (direct_graph g) = false →
      ∃ u ∈ (direct_graph g).vertices, (direct_graph g).adj u v := by
  intro v _ hroot
  simp only [vertex_has_adjacent_i, direct_graph, RubyGraph.in_edges, List.isEmpty_eq_false,
    ne_eq, List.map_eq_nil_iff] at hroot
  obtain ⟨e, he⟩ := List.exists_mem_of_ne_nil _ hroot
  rw [List.mem_filter] at he
  refine ⟨e.source, (hwf.2 e he.1).1, e, ?_, by simpa using he.2⟩
  simp only [direct_graph, RubyGraph.out_edges, List.mem_filter]
  exact ⟨he.1, by simp⟩

/-- For an acyclic well-formed graph every vertex is reached from a root, so the
groups that `Graph#generated_subgraphs` returns without seeds cover the whole
vertex set. -/
theorem generated_subgraphs_roots_cover_acyclic (g : RubyGraph) (hwf : g.WF)
    (hacyc : ∀ v, ¬ Relation.TransGen (direct_graph g).adj v v) :
    ∀ v, v ∈ g.vertices ↔ ∃ L ∈ graph_generated_subgraphs g none none, v ∈ L := by
  have hview := direct_graph_wf g hwf
  obtain ⟨F, hF, hR⟩ := generated_subgraphs_roots_spec (direct_graph g) hview none
  have hreach := root_reaches_of_acyclic (direct_graph g) (direct_graph_pred g hwf) hacyc
  intro v
  unfold graph_generated_subgraphs
  rw [hR, Option.getD_none, groups_of_true, exists_mem_snd_reverse, hF.union v]
  constructor
  · intro hv
    obtain ⟨r, hr, hroot, hrv⟩ := hreach v hv
    exact ⟨⟨r, List.mem_filter.2 ⟨hr, hroot⟩, hrv⟩, by simp [Visited]⟩
  · rintro ⟨⟨r, hr, hrv⟩, _⟩
    exact reach_mem_vertices hview (List.mem_filter.1 hr).1 hrv

/-- C6 (witness): the roots partition on the example graph of the spec, called
without a second argument. -/
theorem generated_subgraphs_roots_partition_witness :
    (direct_graph exampleGraph).WF ∧ (none : Option Bool).getD true = true ∧
    (graph_do_generated_subgraphs (direct_graph exampleGraph) none none).Pairwise
      List.Disjoint :=
  ⟨by decide, rfl,
    (generated_subgraphs_roots_partition (direct_graph exampleGraph) (by decide) none rfl).1⟩

theorem absent_singletons_present (g : View) (incl : Bool) (seeds : List Nat)
    (hs : ∀ x ∈ seeds, x ∈ g.vertices) : absent_singletons g incl seeds = [] := by
  unfold absent_singletons
  split
  · rw [List.map_eq_nil_iff, List.filter_eq_nil_iff]
    intro x hx
    simpa using hs x hx
  · rfl

theorem filter_present (g : View) (seeds : List Nat) (hs : ∀ x ∈ seeds, x ∈ g.vertices) :
    seeds.filter (fun x => decide (x ∈ g.vertices)) = seeds := by
  rw [List.filter_eq_self]
  intro x hx
  simpa using hs x hx

/-- C7 (counterexample): on 1->3, 2->3 the seeds 1 and 2 both reach 3, yet
`generated_subgraphs([1, 2], true)` returns the groups [2] and [1, 3], none of
which holds both seeds. -/
theorem generated_subgraphs_no_merge :
    forkGraph.WF ∧ 1 ∈ forkGraph.vertices ∧ 2 ∈ forkGraph.vertices ∧
    (∃ v, (direct_graph forkGraph).Reach 1 v ∧ (direct_graph forkGraph).Reach 2 v) ∧
    graph_generated_subgraphs forkGraph (some [1, 2]) (some true) = [[2], [1, 3]] ∧
    ¬ (∃ L ∈ graph_generated_subgraphs forkGraph (some [1, 2]) (some true), 1 ∈ L ∧ 2 ∈ L) := by
  refine ⟨by decide, by decide, by decide, ⟨3, ?_, ?_⟩, by decide, by decide⟩
  · exact Relation.ReflTransGen.single ⟨mkEdge 0 1 3, by decide, rfl⟩
  · exact Relation.ReflTransGen.single ⟨mkEdge 1 2 3, by decide, rfl⟩

/-- C7 (amended): when the seed `s1` is a vertex and reaches `s2`, and no seed
iterated before `s1` reaches `s2`, then `generated_subgraphs(seeds, true)`
returns a group that holds both `s1` and `s2`. -/
theorem generated_subgraphs_merge (g : View) (hwf : g.WF) (pre post : List Nat)
    (s1 s2 : Nat) (h1 : s1 ∈ g.vertices) (hr : g.Reach s1 s2)
    (hpre : ∀ p ∈ pre, ¬ g.Reach p s2) :
    ∃ L ∈ graph_do_generated_subgraphs g (some (pre ++ s1 :: post)) (some true),
      s1 ∈ L ∧ s2 ∈ L := by
  obtain ⟨F, hF, hR⟩ := generated_subgraphs_seeds_spec g hwf (pre ++ s1 :: post) (some true)
  have hsplit : (pre ++ s1 :: post).filter (fun x => decide (x ∈ g.vertices))
      = pre.filter (fun x => decide (x ∈ g.vertices))
        ++ s1 :: post.filter (fun x => decide (x ∈ g.vertices)) := by
    rw [List.filter_append, List.filter_cons_of_pos (by simpa using h1)]
  obtain ⟨L, hL, hs1, hs2⟩ := hF.first_reaching s1 s2 _ hr _ hsplit
    (fun p hp => hpre p (List.mem_filter.1 hp).1) (by simp [Visited])
  refine ⟨L, ?_, hs1, hs2⟩
  rw [hR, Option.getD_some, groups_of_true, List.mem_append, List.mem_reverse]
  exact Or.inl (List.mem_map_of_mem Prod.snd hL)

/-- C7 (witness): on the example graph of the spec with seeds [1, 3], the seed
1 reaches the seed 3 and comes first. -/
theorem generated_subgraphs_merge_witness :
    (direct_graph exampleGraph).WF ∧ 1 ∈ (direct_graph exampleGraph).vertices ∧
    (direct_graph exampleGraph).Reach 1 3 ∧
    (∀ p ∈ ([] : List Nat), ¬ (direct_graph exampleGraph).Reach p 3) ∧
    ∃ L ∈ graph_do_generated_subgraphs (direct_graph exampleGraph)
        (some ([] ++ 1 :: [3])) (some true), 1 ∈ L ∧ 3 ∈ L :=
  ⟨by decide, by decide,
    Relation.ReflTransGen.single ⟨mkEdge 2 1 3, by decide, rfl⟩, by simp,
    generated_subgraphs_merge (direct_graph exampleGraph) (by decide) [] [3] 1 3 (by decide)
      (Relation.ReflTransGen.single ⟨mkEdge 2 1 3, by decide, rfl⟩) (by simp)⟩

/-- C8: for every well-formed view and every seed set of vertices of the
graph, the groups of `generated_subgraphs(S, true)` are pairwise disjoint, every
seed lies in exactly one group, and a vertex lies in some group exactly when
some seed reaches it by a directed path of the view. -/
theorem generated_subgraphs_partition (g : View) (hwf : g.WF) (seeds : List Nat)
    (hs : ∀ x ∈ seeds, x ∈ g.vertices) :
    (graph_do_generated_subgraphs g (some seeds) (some true)).Pairwise List.Disjoint ∧
    (∀ x ∈ seeds,
      ((graph_do_generated_subgraphs g (some seeds) (some true)).filter
        (fun L => decide (x ∈ L))).length = 1) ∧
    (∀ v, (∃ L ∈ graph_do_generated_subgraphs g (some seeds) (some true), v ∈ L) ↔
      ∃ x ∈ seeds, g.Reach x v) := by
  obtain ⟨F, hF, hR⟩ := generated_subgraphs_seeds_spec g hwf seeds (some true)
  rw [filter_present g seeds hs] at hF
  rw [absent_singletons_present g _ seeds hs, List.append_nil, Option.getD_some,
    groups_of_true] at hR
  rw [hR]
  have hpw : (F.map Prod.snd).reverse.Pairwise List.Disjoint := by
    have := groups_of_pairwise hF true
    rwa [groups_of_true] at this
  have hunion : ∀ v, (∃ L ∈ (F.map Prod.snd).reverse, v ∈ L) ↔ ∃ x ∈ seeds, g.Reach x v := by
    intro v
    rw [exists_mem_snd_reverse, hF.union v]
    simp [Visited]
  refine ⟨hpw, ?_, hunion⟩
  intro x hx
  exact filter_mem_length_one _ x hpw ((hunion x).2 ⟨x, hx, Relation.ReflTransGen.refl⟩)

/-- C8 (witness): the partition on the example graph of the spec with seeds
[3, 5, 1]. -/
theorem generated_subgraphs_partition_witness :
    (direct_graph exampleGraph).WF ∧
    (∀ x ∈ [3, 5, 1], x ∈ (direct_graph exampleGraph).vertices) ∧
    (graph_do_generated_subgraphs (direct_graph exampleGraph) (some [3, 5, 1])
      (some true)).Pairwise List.Disjoint :=
  ⟨by decide, by decide,
    (generated_subgraphs_partition (direct_graph exampleGraph) (by decide) [3, 5, 1]
      (by decide)).1⟩

theorem generated_subgraphs_mem_vertices (g : View) (hwf : g.WF) (seeds : List Nat)
    (hs : ∀ x ∈ seeds, x ∈ g.vertices) (o : Option Bool) :
    ∀ L ∈ graph_do_generated_subgraphs g (some seeds) o,
      L ≠ [] ∧ L.Nodup ∧ ∀ v ∈ L, v ∈ g.vertices := by
  obtain ⟨F, hF, hR⟩ := generated_subgraphs_seeds_spec g hwf seeds o
  rw [filter_present g seeds hs] at hF
  rw [absent_singletons_present g _ seeds hs, List.append_nil] at hR
  intro L hL
  rw [hR, List.mem_reverse] at hL
  obtain ⟨r, hrL⟩ := mem_groups_of hL
  obtain ⟨h1, h2, h3, h4⟩ := hF.mem_spec (r, L) hrL
  exact ⟨List.ne_nil_of_mem h3, h2, fun v hv => reach_mem_vertices hwf (hs r h1) (h4 v hv).1⟩

theorem filter_present_mem (g : View) (seeds : List Nat) :
    ∀ x ∈ seeds.filter (fun x => decide (x ∈ g.vertices)), x ∈ g.vertices :=
  fun x hx => by simpa using (List.mem_filter.1 hx).2

theorem singleton_filter_length (l : List Nat) (x : Nat) (hnd : l.Nodup) (hx : x ∈ l) :
    ((l.map (fun y => [y])).filter (fun L => decide (L = [x]))).length = 1 := by
  induction l with
  | nil => simp at hx
  | cons a l ih =>
    have hnd2 := List.nodup_cons.1 hnd
    by_cases ha : a = x
    · subst ha
      rw [List.map_cons, List.filter_cons_of_pos (by simp)]
      have : (l.map (fun y => [y])).filter (fun L => decide (L = [a])) = [] := by
        rw [List.filter_eq_nil_iff]
        intro L hL
        obtain ⟨y, hy, rfl⟩ := List.mem_map.1 hL
        simp only [List.cons.injEq, and_true, decide_eq_true_eq]
        intro hya
        exact hnd2.1 (hya ▸ hy)
      simp [this]
    · rw [List.map_cons, List.filter_cons_of_neg (by simpa using ha)]
      apply ih hnd2.2
      rcases List.mem_cons.1 hx with h | h
      · exact absurd h.symm ha
      · exact h

/-- C9: a seed `x` that is no vertex of the graph appears exactly once in the
result of `generated_subgraphs(S, true)`, as the group [x], and in no group of
`generated_subgraphs(S, false)`; for either flag the result is the result for
the seeds that are vertices, followed by the singleton groups of the absent
seeds when singletons are included. -/
theorem generated_subgraphs_absent_seed (g : View) (hwf : g.WF) (seeds : List Nat)
    (hnd : seeds.Nodup) (x : Nat) (hx : x ∈ seeds) (hxg : x ∉ g.vertices) :
    ((graph_do_generated_subgraphs g (some seeds) (some true)).filter
      (fun L => decide (L = [x]))).length = 1 ∧
    (∀ L ∈ graph_do_generated_subgraphs g (some seeds) (some true), x ∈ L → L = [x]) ∧
    (∀ L ∈ graph_do_generated_subgraphs g (some seeds) (some false), x ∉ L) ∧
    (∀ incl : Bool, graph_do_generated_subgraphs g (some seeds) (some incl)
      = graph_do_generated_subgraphs g
          (some (seeds.filter (fun y => decide (y ∈ g.vertices)))) (some incl)
        ++ (if incl then (seeds.filter (fun y => decide (y ∉ g.vertices))).map (fun y => [y])
            else [])) := by
  have hvert := fun o => generated_subgraphs_mem_vertices g hwf
    (seeds.filter (fun y => decide (y ∈ g.vertices))) (filter_present_mem g seeds) o
  have hnot : ∀ o, ∀ L ∈ graph_do_generated_subgraphs g
      (some (seeds.filter (fun y => decide (y ∈ g.vertices)))) o, x ∉ L :=
    fun o L hL hxL => hxg ((hvert o L hL).2.2 x hxL)
  refine ⟨?_, ?_, ?_, ?_⟩
  · rw [generated_subgraphs_split g hwf seeds (some true), List.filter_append,
      List.length_append]
    have h0 : (graph_do_generated_subgraphs g
        (some (seeds.filter (fun y => decide (y ∈ g.vertices)))) (some true)).filter
          (fun L => decide (L = [x])) = [] := by
      rw [List.filter_eq_nil_iff]
      intro L hL
      simp only [decide_eq_true_eq]
      intro hLx
      exact hnot _ L hL (by rw [hLx]; exact List.mem_singleton_self x)
    rw [h0, List.length_nil, Nat.zero_add]
    simp only [absent_singletons, Option.getD_some, if_true]
    exact singleton_filter_length _ x (hnd.filter _)
      (List.mem_filter.2 ⟨hx, by simpa using hxg⟩)
  · intro L hL hxL
    rw [generated_subgraphs_split g hwf seeds (some true), List.mem_append] at hL
    rcases hL with hL | hL
    · exact absurd hxL (hnot _ L hL)
    · simp only [absent_singletons, Option.getD_some, if_true, List.mem_map] at hL
      obtain ⟨y, _, rfl⟩ := hL
      rw [List.mem_singleton] at hxL
      rw [hxL]
  · intro L hL
    rw [generated_subgraphs_split g hwf seeds (some false)] at hL
    simp only [absent_singletons, Option.getD_some, Bool.false_eq_true, if_false,
      List.append_nil] at hL
    exact hnot _ L hL
  · intro incl
    rw [generated_subgraphs_split g hwf seeds (some incl)]
    rfl

/-- C9 (witness): the example graph of the spec with seeds [3, 5, 1, 9], the
seed 9 being no vertex. -/
theorem generated_subgraphs_absent_seed_witness :
    (direct_graph exampleGraph).WF ∧ [3, 5, 1, 9].Nodup ∧ 9 ∈ [3, 5, 1, 9] ∧
    9 ∉ (direct_graph exampleGraph).vertices ∧
    ((graph_do_generated_subgraphs (direct_graph exampleGraph) (some [3, 5, 1, 9])
      (some true)).filter (fun L => decide (L = [9]))).length = 1 :=
  ⟨by decide, by decide, by decide, by decide,
    (generated_subgraphs_absent_seed (direct_graph exampleGraph) (by decide) [3, 5, 1, 9]
      (by decide) 9 (by decide) (by decide)).1⟩

theorem absent_singletons_filter (g : View) (incl : Bool) (seeds : List Nat) :
    (absent_singletons g incl seeds).filter (fun L => decide (2 ≤ L.length)) = [] := by
  rw [List.filter_eq_nil_iff]
  intro L hL
  unfold absent_singletons at hL
  split at hL
  · obtain ⟨y, _, rfl⟩ := List.mem_map.1 hL
    simp
  · simp at hL

/-- C10: for every well-formed view and every seed set,
`generated_subgraphs(S, false)` returns no group of size one; for either value
of the flag no returned group is empty (and none repeats a vertex); and the
result for `false` is the result for `true` restricted to its groups of at least
two vertices, in the same order. -/
theorem generated_subgraphs_singletons (g : View) (hwf : g.WF) (seeds : List Nat) :
    (∀ L ∈ graph_do_generated_subgraphs g (some seeds) (some false), L.length ≠ 1) ∧
    (∀ incl : Bool, ∀ L ∈ graph_do_generated_subgraphs g (some seeds) (some incl),
      L ≠ [] ∧ L.Nodup) ∧
    graph_do_generated_subgraphs g (some seeds) (some false)
      = (graph_do_generated_subgraphs g (some seeds) (some true)).filter
          (fun L => decide (2 ≤ L.length)) := by
  have h3 : graph_do_generated_subgraphs g (some seeds) (some false)
      = (graph_do_generated_subgraphs g (some seeds) (some true)).filter
          (fun L => decide (2 ≤ L.length)) := by
    obtain ⟨F, _, hloop⟩ := graph_components_i_loop_spec g hwf true
      (seeds.filter (fun x => decide (x ∈ g.vertices))) [] ColorMap.empty []
      (filter_present_mem g seeds) (ColorsOf.empty g)
    have hs := graph_components_i_loop_singletons g hwf
      (seeds.filter (fun x => decide (x ∈ g.vertices))) ColorMap.empty [] []
      (filter_present_mem g seeds) rfl
    simp only [graph_do_generated_subgraphs, graph_components_i, Option.getD_some]
    rw [graph_components_i_loop_filter g hwf false, graph_components_i_loop_filter g hwf true,
      hs, hloop]
    simp only [List.tail_cons, List.cons_append, List.append_nil, List.filter_append,
      absent_singletons_filter]
    simp [absent_singletons]
  refine ⟨?_, ?_, h3⟩
  · intro L hL
    rw [h3] at hL
    have := (List.mem_filter.1 hL).2
    simp only [decide_eq_true_eq] at this
    omega
  · intro incl L hL
    obtain ⟨F, hF, hR⟩ := generated_subgraphs_seeds_spec g hwf seeds (some incl)
    rw [hR, List.mem_append, List.mem_reverse] at hL
    rcases hL with hL | hL
    · obtain ⟨r, hrL⟩ := mem_groups_of hL
      obtain ⟨_, h2, h3, _⟩ := hF.mem_spec (r, L) hrL
      exact ⟨List.ne_nil_of_mem h3, h2⟩
    · unfold absent_singletons at hL
      split at hL
      · obtain ⟨y, _, rfl⟩ := List.mem_map.1 hL
        simp
      · simp at hL

/-- C10 (witness): the example graph of the spec with seeds [3, 5, 1, 9]. -/
theorem generated_subgraphs_singletons_witness :
    (direct_graph exampleGraph).WF ∧
    graph_do_generated_subgraphs (direct_graph exampleGraph) (some [3, 5, 1, 9]) (some false)
      = (graph_do_generated_subgraphs (direct_graph exampleGraph) (some [3, 5, 1, 9])
          (some true)).filter (fun L => decide (2 ≤ L.length)) :=
  ⟨by decide,
    (generated_subgraphs_singletons (direct_graph exampleGraph) (by decide)
      [3, 5, 1, 9]).2.2⟩

/-! ## Boost `connected_components` -/

theorem components_recorder_quiet : components_recorder.Quiet := by
  constructor <;> intros <;> rfl

theorem depth_first_search_loop_spec {σ : Type} (g : View) (vis : DFSVisitor σ)
    (hq : vis.Quiet) (hwf : g.WF) :
    ∀ (roots prev : List Nat) (color : ColorMap) (s : σ),
      (∀ x ∈ roots, x ∈ g.vertices) → ColorsOf g prev color →
      ∃ F, Forest g prev roots F ∧
        (depth_first_search_loop g vis roots color s).2
          = F.foldl (fun s rL =>
              rL.2.foldl (fun s v => vis.discover_vertex v s) (vis.start_vertex rL.1 s)) s := by
  intro roots
  induction roots with
  | nil =>
    intro prev color s _ _
    exact ⟨[], Forest.nil prev, rfl⟩
  | cons x rest ih =>
    intro prev color s hmem hc
    have hx : x ∈ g.vertices := hmem x (List.mem_cons_self _ _)
    have hrest : ∀ y ∈ rest, y ∈ g.vertices := fun y hy => hmem y (List.mem_cons_of_mem _ hy)
    rw [depth_first_search_loop]
    by_cases hw : color x = white_color
    · rw [if_pos hw]
      obtain ⟨D, h1, h2, h3, h4⟩ :=
        dfs_from_visited g vis hq hwf prev x color (vis.start_vertex x s) hc hx hw
      obtain ⟨F, hF, hloop⟩ := ih (x :: prev) _
        (depth_first_visit_impl g x vis color nontruth2 (vis.start_vertex x s)).2 hrest h4
      refine ⟨(x, D) :: F, Forest.start ((hc.white_iff x).1 hw) h2 h3 hF, ?_⟩
      rw [hloop, h1]
      rfl
    · rw [if_neg hw]
      obtain ⟨hv, hc2⟩ := hc.skip x hw
      obtain ⟨F, hF, hloop⟩ := ih (x :: prev) color s hrest hc2
      exact ⟨F, Forest.skip hv hF, hloop⟩

theorem whiten_white (l : List Nat) :
    ∀ c : ColorMap, (∀ v, c v = white_color) →
      ∀ v, (l.foldl (fun c u => put c u white_color) c) v = white_color := by
  induction l with
  | nil => intro c hc v; exact hc v
  | cons x l ih =>
    intro c hc v
    apply ih
    intro w
    show put c x white_color w = white_color
    unfold put
    split
    · rfl
    · exact hc w

theorem ColorsOf.of_white (g : View) (c : ColorMap) (hc : ∀ v, c v = white_color) :
    ColorsOf g [] c := by
  intro v
  simp [hc v, Visited]

theorem ComponentMap.put_perm (m : ComponentMap) (v c : Nat) (h : v ∉ m.map Prod.fst) :
    (ComponentMap.put m v c).Perm ((v, c) :: m) := by
  induction m with
  | nil => exact List.Perm.refl _
  | cons kx m ih =>
    obtain ⟨k, x⟩ := kx
    have hk : v ≠ k := by
      intro hvk
      apply h
      simp [hvk]
    have hm : v ∉ m.map Prod.fst := by
      intro hv
      apply h
      simp only [List.map_cons, List.mem_cons]
      exact Or.inr hv
    unfold ComponentMap.put
    split_ifs with h1
    · exact List.Perm.refl _
    · exact ((ih hm).cons (k, x)).trans (List.Perm.swap _ _ _)

theorem record_group (L : List Nat) :
    ∀ (b : Option Nat) (m : ComponentMap), L.Nodup → (∀ v ∈ L, v ∉ m.map Prod.fst) →
      ∃ m2, L.foldl (fun s v => components_recorder.discover_vertex v s) (b, m) = (b, m2) ∧
        m2.Perm (m ++ L.map (fun v => (v, b.getD 0))) := by
  induction L with
  | nil => intro b m _ _; exact ⟨m, rfl, by simp⟩
  | cons x L ih =>
    intro b m hnd hfresh
    have hnd2 := List.nodup_cons.1 hnd
    have hp := ComponentMap.put_perm m x (b.getD 0) (hfresh x (List.mem_cons_self _ _))
    have hfresh2 : ∀ v ∈ L, v ∉ (ComponentMap.put m x (b.getD 0)).map Prod.fst := by
      intro v hv hmem
      have := (hp.map Prod.fst).mem_iff.1 hmem
      rcases List.mem_cons.1 this with h | h
      · simp only at h
        exact hnd2.1 (h ▸ hv)
      · exact hfresh v (List.mem_cons_of_mem _ hv) h
    obtain ⟨m2, h1, h2⟩ := ih b (ComponentMap.put m x (b.getD 0)) hnd2.2 hfresh2
    refine ⟨m2, ?_, ?_⟩
    · rw [List.foldl_cons]
      exact h1
    · refine h2.trans ?_
      rw [List.map_cons]
      refine (List.Perm.append_right _ hp).trans ?_
      simp only [List.cons_append]
      exact List.perm_middle.symm

theorem record_forest (F : List (Nat × List Nat)) :
    ∀ (cnt : Option Nat) (m : ComponentMap),
      (∀ rL ∈ F, rL.2.Nodup) → (F.map Prod.snd).Pairwise List.Disjoint →
      (∀ rL ∈ F, ∀ v ∈ rL.2, v ∉ m.map Prod.fst) →
      ∃ cnt2 m2,
        F.foldl (fun s rL =>
          rL.2.foldl (fun s v => components_recorder.discover_vertex v s)
            (components_recorder.start_vertex rL.1 s)) (cnt, m) = (cnt2, m2) ∧
        next_count cnt2 = next_count cnt + F.length ∧
        m2.Perm (m ++ labelled (next_count cnt) F) := by
  induction F with
  | nil => intro cnt m _ _ _; exact ⟨cnt, m, rfl, rfl, by simp [labelled]⟩
  | cons rL F ih =>
    intro cnt m hnd hpw hfresh
    rw [List.map_cons, List.pairwise_cons] at hpw
    have hstart : components_recorder.start_vertex rL.1 (cnt, m)
        = (some (next_count cnt), m) := by
      cases cnt <;> rfl
    obtain ⟨m1, h1, h2⟩ := record_group rL.2 (some (next_count cnt)) m
      (hnd rL (List.mem_cons_self _ _)) (hfresh rL (List.mem_cons_self _ _))
    have hfresh2 : ∀ rL2 ∈ F, ∀ v ∈ rL2.2, v ∉ m1.map Prod.fst := by
      intro rL2 hrL2 v hv hmem
      have := (h2.map Prod.fst).mem_iff.1 hmem
      rw [List.map_append, List.mem_append] at this
      rcases this with h | h
      · exact hfresh rL2 (List.mem_cons_of_mem _ hrL2) v hv h
      · simp only [List.map_map, List.mem_map, Function.comp] at h
        obtain ⟨w, hw, rfl⟩ := h
        exact hpw.1 rL2.2 (List.mem_map_of_mem _ hrL2) hw hv
    obtain ⟨cnt2, m2, h3, h4, h5⟩ := ih (some (next_count cnt)) m1
      (fun r hr => hnd r (List.mem_cons_of_mem _ hr)) hpw.2 hfresh2
    refine ⟨cnt2, m2, ?_, ?_, ?_⟩
    · rw [List.foldl_cons, hstart, h1]
      exact h3
    · rw [h4]
      simp only [next_count, List.length_cons]
      omega
    · refine h5.trans ?_
      simp only [labelled, next_count, Option.getD_some] at h2 ⊢
      refine (List.Perm.append_right _ h2).trans ?_
      rw [List.append_assoc]

theorem connected_components_spec (g : View) (hwf : g.WF) :
    ∃ F, Forest g [] g.vertices F ∧
      (connected_components g [] ColorMap.empty).1 = F.length ∧
      (connected_components g [] ColorMap.empty).2.1.Perm (labelled 0 F) := by
  have hwhite := whiten_white g.vertices ColorMap.empty (fun _ => rfl)
  obtain ⟨F, hF, hloop⟩ := depth_first_search_loop_spec g components_recorder
    components_recorder_quiet hwf g.vertices []
    (g.vertices.foldl (fun c u => put c u white_color) ColorMap.empty) (none, [])
    (fun x hx => hx) (ColorsOf.of_white g _ hwhite)
  obtain ⟨cnt2, m2, h1, h2, h3⟩ := record_forest F none []
    (fun rL hrL => (hF.mem_spec rL hrL).2.1) hF.pairwise_disjoint (by simp)
  refine ⟨F, hF, ?_⟩
  unfold connected_components
  by_cases hv : g.vertices.length = 0
  · have hnil : g.vertices = [] := List.length_eq_zero.1 hv
    rw [if_pos hv]
    rw [hnil] at hF
    cases hF
    exact ⟨rfl, List.Perm.refl _⟩
  · rw [if_neg hv]
    simp only [depth_first_search]
    rw [hloop, h1]
    refine ⟨?_, ?_⟩
    · have : next_count cnt2 = F.length := by simpa [next_count] using h2
      rw [← this]
      cases cnt2 <;> rfl
    · simpa [next_count] using h3

/-! ## The Ruby array of `graph_components` -/

theorem rb_ary_store_get {α : Type} (ary : List (Option α)) (i j : Nat) (val : Option α) :
    (rb_ary_store ary i val)[j]?.getD none = if j = i then val else ary[j]?.getD none := by
  unfold rb_ary_store
  split
  · rename_i h
    rw [List.getElem?_set]
    by_cases hji : j = i
    · subst hji; simp [h]
    · have : ¬ i = j := fun h => hji h.symm
      simp [hji, this]
  · rename_i h
    by_cases hji : j = i
    · subst hji
      have hlen : (ary ++ List.replicate (j - ary.length) none).length = j := by
        simp; omega
      rw [if_pos rfl, List.getElem?_append_right (by omega), hlen]
      simp
    · rw [if_neg hji]
      by_cases hj : j < ary.length
      · rw [List.append_assoc, List.getElem?_append_left hj]
      · rw [List.getElem?_eq_none (l := ary) (by omega)]
        by_cases hj2 : j < i
        · rw [List.getElem?_append_left (by simp; omega), List.getElem?_append_right (by omega),
            List.getElem?_replicate]
          split <;> rfl
        · rw [List.getElem?_eq_none (by simp; omega)]

theorem rb_ary_store_length {α : Type} (ary : List (Option α)) (i n : Nat) (val : Option α)
    (h : ary.length ≤ n) (hi : i < n) : (rb_ary_store ary i val).length ≤ n := by
  unfold rb_ary_store
  split
  · simpa using h
  · simp; omega

theorem rb_ary_compact_range {α : Type} (l : List (Option α)) :
    ∀ n, l.length ≤ n → rb_ary_compact l = (List.range n).filterMap (fun j => l[j]?.getD none) := by
  induction l with
  | nil =>
    intro n _
    simp [rb_ary_compact]
  | cons a l ih =>
    intro n hn
    cases n with
    | zero => simp at hn
    | succ m =>
      have hm : l.length ≤ m := by simpa using hn
      rw [List.range_succ_eq_map, List.filterMap_cons]
      have h1 := ih m hm
      simp only [rb_ary_compact] at h1 ⊢
      rw [List.filterMap_map]
      have hf : ((fun j => (a :: l)[j]?.getD none) ∘ Nat.succ)
          = (fun j => l[j]?.getD none) := by
        funext j
        simp
      rw [hf]
      cases a with
      | none =>
        simp only [List.filterMap_cons, id, List.getElem?_cons_zero, Option.getD_some]
        rw [h1]
      | some x =>
        simp only [List.filterMap_cons, id, List.getElem?_cons_zero, Option.getD_some]
        rw [h1]

theorem range_foldl_store {α : Type} (step : List (Option α) → Nat → List (Option α))
    (h : Nat → Option α → Option α)
    (hstep : ∀ ret i j, (step ret i)[j]?.getD none
      = if j = i then h i (ret[i]?.getD none) else ret[j]?.getD none)
    (hlen : ∀ ret i m, ret.length ≤ m → i < m → (step ret i).length ≤ m) :
    ∀ (n : Nat) (ret0 : List (Option α)),
      (∀ j, ((List.range n).foldl step ret0)[j]?.getD none
        = if j < n then h j (ret0[j]?.getD none) else ret0[j]?.getD none) ∧
      (∀ m, ret0.length ≤ m → n ≤ m → ((List.range n).foldl step ret0).length ≤ m) := by
  intro n
  induction n with
  | zero => intro ret0; simp
  | succ n ih =>
    intro ret0
    obtain ⟨ih1, ih2⟩ := ih ret0
    rw [List.range_succ, List.foldl_append, List.foldl_cons, List.foldl_nil]
    constructor
    · intro j
      rw [hstep, ih1 n, ih1 j]
      by_cases hj : j = n
      · subst hj; simp
      · by_cases hj2 : j < n
        · simp [hj, hj2, Nat.lt_succ_of_lt hj2]
        · have : ¬ j < n + 1 := by omega
          simp [hj, hj2, this]
    · intro m hm hn
      exact hlen _ n m (ih2 m hm (by omega)) (by omega)

theorem filterMap_ite_eq_map_filter {α : Type} (l : List Nat) (p : Nat → Bool) (f : Nat → α) :
    l.filterMap (fun j => if p j = true then some (f j) else none) = (l.filter p).map f := by
  induction l with
  | nil => rfl
  | cons a l ih =>
    by_cases ha : p a = true
    · simp [List.filterMap_cons, ha, ih]
    · simp [List.filterMap_cons, ha, ih]

theorem foldl_fill (en : Nat → Bool) (M : ComponentMap) :
    ∀ (c0 : Nat → List Nat) (i : Nat),
      (M.foldl
        (fun components p =>
          if !(en p.2) then components
          else fun i => if i = p.2 then components i ++ [p.1] else components i) c0) i
        = c0 i ++ (if en i = true then component_of M i else []) := by
  induction M with
  | nil => intro c0 i; simp [component_of]
  | cons p M ih =>
    intro c0 i
    rw [List.foldl_cons, ih]
    by_cases hE : en p.2 = true
    · by_cases hi : i = p.2
      · subst hi
        simp [hE, component_of, List.filter_cons]
      · have hi2 : ¬ p.2 = i := fun h => hi h.symm
        simp [hE, hi, hi2, component_of, List.filter_cons]
    · by_cases hi : i = p.2
      · subst hi
        simp [hE]
      · have hi2 : ¬ p.2 = i := fun h => hi h.symm
        simp [hE, hi2, component_of, List.filter_cons]

theorem graph_components_fill_spec (E : List Bool) (M : ComponentMap) (i : Nat) :
    graph_components_fill E M i = if E.getD i false = true then component_of M i else [] := by
  have := foldl_fill (fun c => E.getD c false) M (fun _ => []) i
  simpa [graph_components_fill] using this

theorem ComponentMap.find_of_mem (M : ComponentMap) (hnd : (M.map Prod.fst).Nodup)
    (s c : Nat) (h : (s, c) ∈ M) : M.find s = some c := by
  induction M with
  | nil => simp at h
  | cons kx M ih =>
    obtain ⟨k, x⟩ := kx
    rw [List.map_cons, List.nodup_cons] at hnd
    unfold ComponentMap.find
    by_cases hk : k = s
    · subst hk
      rw [List.find?_cons_of_pos _ (by simp)]
      rcases List.mem_cons.1 h with h1 | h1
      · simp only [Prod.mk.injEq, true_and] at h1
        simp [h1]
      · exact absurd (List.mem_map_of_mem Prod.fst h1) hnd.1
    · rw [List.find?_cons_of_neg _ (by simpa using hk)]
      rcases List.mem_cons.1 h with h1 | h1
      · simp only [Prod.mk.injEq] at h1
        exact absurd h1.1.symm hk
      · exact ih hnd.2 h1

theorem ComponentMap.mem_unique (M : ComponentMap) (hnd : (M.map Prod.fst).Nodup)
    (s c d : Nat) (h1 : (s, c) ∈ M) (h2 : (s, d) ∈ M) : c = d := by
  have e1 := ComponentMap.find_of_mem M hnd s c h1
  have e2 := ComponentMap.find_of_mem M hnd s d h2
  rw [e1] at e2
  exact Option.some.inj e2

theorem ComponentMap.index_of_mem (M : ComponentMap) (hnd : (M.map Prod.fst).Nodup)
    (s c : Nat) (h : (s, c) ∈ M) : M.index s = (c, M) := by
  unfold ComponentMap.index
  rw [ComponentMap.find_of_mem M hnd s c h]

theorem getD_set_true (E : List Bool) (i c : Nat) :
    (E.set i true).getD c false = true ↔ E.getD c false = true ∨ (c = i ∧ i < E.length) := by
  rw [List.getD_eq_getElem?_getD, List.getD_eq_getElem?_getD, List.getElem?_set]
  by_cases hic : i = c
  · subst hic
    by_cases hl : i < E.length
    · simp [hl]
    · simp [hl, List.getElem?_eq_none (Nat.le_of_not_lt hl)]
  · have : ¬ c = i := fun h => hic h.symm
    simp [hic, this]

theorem graph_components_seed_loop (g : View) (incl : Bool) (M : ComponentMap)
    (hnd : (M.map Prod.fst).Nodup) (hkeys : ∀ v ∈ g.vertices, v ∈ M.map Prod.fst) :
    ∀ (S : List Nat) (E : List Bool), (incl = false ∨ ∀ s ∈ S, s ∈ g.vertices) →
      (S.foldl (graph_components_seed g incl)
        { enabled_components := E, ret := [], component_map := M }).component_map = M ∧
      (S.foldl (graph_components_seed g incl)
        { enabled_components := E, ret := [], component_map := M }).ret = [] ∧
      (S.foldl (graph_components_seed g incl)
        { enabled_components := E, ret := [], component_map := M }).enabled_components.length
          = E.length ∧
      ∀ c, (S.foldl (graph_components_seed g incl)
          { enabled_components := E, ret := [], component_map := M }).enabled_components.getD
            c false = true ↔
        (E.getD c false = true ∨
          (c < E.length ∧ ∃ s ∈ S, s ∈ g.vertices ∧ (s, c) ∈ M)) := by
  intro S
  induction S with
  | nil => intro E _; simp
  | cons s S ih =>
    intro E hcond
    have hcond2 : incl = false ∨ ∀ t ∈ S, t ∈ g.vertices := by
      rcases hcond with h | h
      · exact Or.inl h
      · exact Or.inr (fun t ht => h t (List.mem_cons_of_mem _ ht))
    rw [List.foldl_cons]
    by_cases hs : s ∈ g.vertices
    · obtain ⟨p, hp, hps⟩ := List.mem_map.1 (hkeys s hs)
      obtain ⟨k, c0⟩ := p
      simp only at hps
      subst hps
      have hstep : graph_components_seed g incl
          { enabled_components := E, ret := [], component_map := M } k
          = { enabled_components := E.set c0 true, ret := [], component_map := M } := by
        simp [graph_components_seed, rb_to_vertex, hs, ComponentMap.index_of_mem M hnd k c0 hp]
      rw [hstep]
      obtain ⟨h1, h2, h3, h4⟩ := ih (E.set c0 true) hcond2
      refine ⟨h1, h2, by rw [h3, List.length_set], ?_⟩
      intro c
      rw [h4 c, getD_set_true, List.length_set]
      constructor
      · rintro ((h | ⟨h5, h6⟩) | ⟨h5, t, ht, h6⟩)
        · exact Or.inl h
        · subst h5
          exact Or.inr ⟨h6, k, List.mem_cons_self _ _, hs, hp⟩
        · exact Or.inr ⟨h5, t, List.mem_cons_of_mem _ ht, h6⟩
      · rintro (h | ⟨h5, t, ht, h6, h7⟩)
        · exact Or.inl (Or.inl h)
        · rcases List.mem_cons.1 ht with h8 | h8
          · subst h8
            have := ComponentMap.mem_unique M hnd t c c0 h7 hp
            subst this
            exact Or.inl (Or.inr ⟨rfl, h5⟩)
          · exact Or.inr ⟨h5, t, h8, h6, h7⟩
    · have hincl : incl = false := by
        rcases hcond with h | h
        · exact h
        · exact absurd (h s (List.mem_cons_self _ _)) hs
      have hstep : graph_components_seed g incl
          { enabled_components := E, ret := [], component_map := M } s
          = { enabled_components := E, ret := [], component_map := M } := by
        simp [graph_components_seed, rb_to_vertex, hs, hincl]
      rw [hstep]
      obtain ⟨h1, h2, h3, h4⟩ := ih E hcond2
      refine ⟨h1, h2, h3, ?_⟩
      intro c
      rw [h4 c]
      constructor
      · rintro (h | ⟨h5, t, ht, h6⟩)
        · exact Or.inl h
        · exact Or.inr ⟨h5, t, List.mem_cons_of_mem _ ht, h6⟩
      · rintro (h | ⟨h5, t, ht, h6, h7⟩)
        · exact Or.inl h
        · rcases List.mem_cons.1 ht with h8 | h8
          · subst h8
            exact absurd h6 hs
          · exact Or.inr ⟨h5, t, h8, h6, h7⟩

theorem graph_components_slots_spec (count : Nat) (E : List Bool)
    (ret0 : List (Option RubyArrayRef)) :
    (∀ j, (graph_components_slots count E ret0)[j]?.getD none
      = if j < count then
          (if E.getD j false = true then some (RubyArrayRef.component j)
            else ret0[j]?.getD none)
        else ret0[j]?.getD none) ∧
    (∀ m, ret0.length ≤ m → count ≤ m → (graph_components_slots count E ret0).length ≤ m) := by
  unfold graph_components_slots
  apply range_foldl_store _
    (fun j old => if E.getD j false = true then some (RubyArrayRef.component j) else old)
  · intro ret i j
    by_cases hE : E.getD i false = true
    · simp only [hE, Bool.not_true, Bool.false_eq_true, if_false, if_true]
      rw [rb_ary_store_get]
    · simp only [hE, Bool.not_eq_true] at hE ⊢
      simp only [hE, Bool.not_false, if_true, Bool.false_eq_true, if_false]
      by_cases hj : j = i
      · simp [hj]
      · simp [hj]
  · intro ret i m hm hi
    split
    · exact hm
    · exact rb_ary_store_length ret i m _ hm hi

theorem graph_components_unsingle_spec (count : Nat) (E : List Bool)
    (components : Nat → List Nat) (ret0 : List (Option RubyArrayRef)) :
    (∀ j, (graph_components_unsingle count E components ret0)[j]?.getD none
      = if j < count then
          (if E.getD j false = true ∧ (components j).length = 1 then none
            else ret0[j]?.getD none)
        else ret0[j]?.getD none) ∧
    (∀ m, ret0.length ≤ m → count ≤ m →
      (graph_components_unsingle count E components ret0).length ≤ m) := by
  unfold graph_components_unsingle
  apply range_foldl_store _
    (fun j old => if E.getD j false = true ∧ (components j).length = 1 then none else old)
  · intro ret i j
    by_cases hE : E.getD i false = true
    · by_cases hl : (components i).length = 1
      · simp only [hE, hl, Bool.not_true, Bool.false_eq_true, if_false, if_true, and_self]
        rw [rb_ary_store_get]
      · simp only [hE, hl, Bool.not_true, Bool.false_eq_true, if_false, and_false]
        by_cases hj : j = i
        · simp [hj]
        · simp [hj]
    · simp only [hE, Bool.not_eq_true] at hE ⊢
      simp only [hE, Bool.not_false, if_true, Bool.false_eq_true, if_false, false_and]
      by_cases hj : j = i
      · simp [hj]
      · simp [hj]
  · intro ret i m hm hi
    split
    · exact hm
    · split
      · exact rb_ary_store_length ret i m _ hm hi
      · exact hm

theorem graph_components_array (count : Nat) (E : List Bool) (components : Nat → List Nat)
    (P : Prop) [Decidable P] :
    (rb_ary_compact
      (if P then
        graph_components_unsingle count E components (graph_components_slots count E [])
      else graph_components_slots count E [])).map
      (fun a =>
        match a with
        | RubyArrayRef.component i => components i
        | RubyArrayRef.singleton v => [v])
    = ((List.range count).filter
        (fun c => E.getD c false && !(decide P && decide ((components c).length = 1)))).map
        components := by
  obtain ⟨hs1, hs2⟩ := graph_components_slots_spec count E []
  obtain ⟨hu1, hu2⟩ := graph_components_unsingle_spec count E components
    (graph_components_slots count E [])
  have hlen : (if P then
        graph_components_unsingle count E components (graph_components_slots count E [])
      else graph_components_slots count E []).length ≤ count := by
    split
    · exact hu2 count (hs2 count (by simp) (Nat.le_refl _)) (Nat.le_refl _)
    · exact hs2 count (by simp) (Nat.le_refl _)
  rw [rb_ary_compact_range _ count hlen]
  have hget : ∀ j ∈ List.range count,
      (if P then
        graph_components_unsingle count E components (graph_components_slots count E [])
      else graph_components_slots count E [])[j]?.getD none
      = if (E.getD j false && !(decide P && decide ((components j).length = 1))) = true
        then some (RubyArrayRef.component j) else none := by
    intro j hj
    have hj2 : j < count := List.mem_range.1 hj
    by_cases hP : P
    · rw [if_pos hP, hu1 j, hs1 j]
      by_cases hE : E.getD j false = true <;>
        by_cases hl : (components j).length = 1 <;> simp [hj2, hP, hE, hl]
    · rw [if_neg hP, hs1 j]
      by_cases hE : E.getD j false = true <;> simp [hj2, hP, hE]
  rw [List.filterMap_congr hget, filterMap_ite_eq_map_filter, List.map_map]
  rfl

/-! ## The component map of a stored graph -/

theorem labelled_bounds (F : List (Nat × List Nat)) :
    ∀ (base v c : Nat), (v, c) ∈ labelled base F →
      base ≤ c ∧ c < base + F.length ∧ ∃ rL ∈ F, v ∈ rL.2 := by
  induction F with
  | nil => intro base v c h; simp [labelled] at h
  | cons rL F ih =>
    intro base v c h
    simp only [labelled, List.mem_append, List.mem_map, Prod.mk.injEq] at h
    rcases h with ⟨w, hw, rfl, rfl⟩ | h
    · exact ⟨Nat.le_refl _, by simp, rL, List.mem_cons_self _ _, hw⟩
    · obtain ⟨h1, h2, r2, h3, h4⟩ := ih (base + 1) v c h
      refine ⟨by omega, by simp only [List.length_cons]; omega, r2,
        List.mem_cons_of_mem _ h3, h4⟩

theorem labelled_class (F : List (Nat × List Nat)) :
    ∀ (base c : Nat), base ≤ c → c < base + F.length →
      ∃ rL ∈ F, ∀ w, (w, c) ∈ labelled base F ↔ w ∈ rL.2 := by
  induction F with
  | nil => intro base c h1 h2; simp at h2; omega
  | cons rL F ih =>
    intro base c h1 h2
    by_cases hc : c = base
    · subst hc
      refine ⟨rL, List.mem_cons_self _ _, fun w => ?_⟩
      simp only [labelled, List.mem_append, List.mem_map, Prod.mk.injEq]
      constructor
      · rintro (⟨x, hx, rfl, _⟩ | h)
        · exact hx
        · have := (labelled_bounds F (c + 1) w c h).1
          omega
      · intro hw
        exact Or.inl ⟨w, hw, rfl, trivial⟩
    · obtain ⟨r2, hr2, hcl⟩ := ih (base + 1) c (by omega)
        (by simp only [List.length_cons] at h2; omega)
      refine ⟨r2, List.mem_cons_of_mem _ hr2, fun w => ?_⟩
      rw [← hcl w]
      simp only [labelled, List.mem_append, List.mem_map, Prod.mk.injEq]
      constructor
      · rintro (⟨x, _, _, h⟩ | h)
        · exact absurd h.symm hc
        · exact h
      · exact Or.inr

theorem labelled_keys_mem (F : List (Nat × List Nat)) :
    ∀ (base v : Nat), v ∈ (labelled base F).map Prod.fst ↔ ∃ rL ∈ F, v ∈ rL.2 := by
  induction F with
  | nil => intro base v; simp [labelled]
  | cons rL F ih =>
    intro base v
    simp only [labelled, List.map_append, List.mem_append, List.map_map,
      List.exists_mem_cons_iff]
    rw [ih (base + 1) v]
    have : List.map (Prod.fst ∘ fun v => (v, base)) rL.2 = rL.2 := by
      simp [Function.comp_def]
    rw [this]

theorem labelled_keys_nodup (F : List (Nat × List Nat)) :
    ∀ base : Nat, (∀ rL ∈ F, rL.2.Nodup) → (F.map Prod.snd).Pairwise List.Disjoint →
      ((labelled base F).map Prod.fst).Nodup := by
  induction F with
  | nil => intro base _ _; simp [labelled]
  | cons rL F ih =>
    intro base hnd hpw
    rw [List.map_cons, List.pairwise_cons] at hpw
    simp only [labelled, List.map_append, List.map_map]
    have : List.map (Prod.fst ∘ fun v => (v, base)) rL.2 = rL.2 := by
      simp [Function.comp_def]
    rw [this, List.nodup_append]
    refine ⟨hnd rL (List.mem_cons_self _ _),
      ih (base + 1) (fun r hr => hnd r (List.mem_cons_of_mem _ hr)) hpw.2, ?_⟩
    intro v hv hv2
    obtain ⟨r2, hr2, hv3⟩ := (labelled_keys_mem F (base + 1) v).1 hv2
    exact hpw.1 r2.2 (List.mem_map_of_mem _ hr2) hv hv3

theorem Forest.component_sym {g : View} {prev roots : List Nat} {F : List (Nat × List Nat)}
    (h : Forest g prev roots F) (hsym : ∀ a b, g.Reach a b → g.Reach b a) :
    ∀ rL ∈ F, ∀ w, w ∈ rL.2 ↔ g.Reach rL.1 w ∧ ¬ Visited g prev w := by
  induction h with
  | nil prev => intro rL hrL; simp at hrL
  | @skip prev r rest F hvis _ ih =>
    intro rL hrL w
    rw [ih rL hrL w, Visited.cons_iff]
    constructor
    · rintro ⟨h1, h2⟩
      exact ⟨h1, fun h3 => h2 (Or.inr h3)⟩
    · rintro ⟨h1, h2⟩
      exact ⟨h1, fun h3 => h3.elim (fun h4 => h2 (hvis.reach h4)) h2⟩
  | @start prev r rest F L _ _ hL hF ih =>
    intro rL hrL w
    rcases List.mem_cons.1 hrL with h | h
    · subst h
      exact hL w
    · rw [ih rL h w, Visited.cons_iff]
      have hroot := (hF.mem_spec rL h).2.2.1
      have hroot2 := ((hF.mem_spec rL h).2.2.2 _ hroot).2
      constructor
      · rintro ⟨h1, h2⟩
        exact ⟨h1, fun h3 => h2 (Or.inr h3)⟩
      · rintro ⟨h1, h2⟩
        refine ⟨h1, fun h3 => h3.elim (fun h4 => ?_) h2⟩
        exact hroot2 (Visited.cons_iff.2
          (Or.inl (Relation.ReflTransGen.trans h4 (hsym _ _ h1))))

theorem undirected_adj_iff (g : RubyGraph) (a b : Nat) :
    (make_undirected_graph g).adj a b ↔
      ∃ e ∈ g.edges, (e.source = a ∧ e.target = b) ∨ (e.source = b ∧ e.target = a) := by
  simp only [View.adj, make_undirected_graph, RubyGraph.out_edges, RubyGraph.in_edges,
    List.mem_append, List.mem_filter, List.mem_map, decide_eq_true_eq]
  constructor
  · rintro ⟨e, (⟨he, hs⟩ | ⟨e2, ⟨he2, ht⟩, rfl⟩), hb⟩
    · exact ⟨e, he, Or.inl ⟨hs, hb⟩⟩
    · exact ⟨e2, he2, Or.inr ⟨hb, ht⟩⟩
  · rintro ⟨e, he, (⟨hs, ht⟩ | ⟨hs, ht⟩)⟩
    · exact ⟨e, Or.inl ⟨he, hs⟩, ht⟩
    · exact ⟨e.flip, Or.inr ⟨e, ⟨he, ht⟩, rfl⟩, hs⟩

theorem undirected_reach_iff (g : RubyGraph) (a b : Nat) :
    (make_undirected_graph g).Reach a b ↔ g.Connected a b := by
  constructor
  · intro h
    exact Relation.ReflTransGen.mono (fun x y hxy => (undirected_adj_iff g x y).1 hxy) h
  · intro h
    exact Relation.ReflTransGen.mono (fun x y hxy => (undirected_adj_iff g x y).2 hxy) h

theorem connected_symm (g : RubyGraph) (a b : Nat) (h : g.Connected a b) :
    g.Connected b a := by
  apply Relation.ReflTransGen.symmetric _ h
  rintro x y ⟨e, he, h1⟩
  exact ⟨e, he, h1.symm⟩

theorem undirected_wf (g : RubyGraph) (hwf : g.WF) : (make_undirected_graph g).WF := by
  refine ⟨hwf.1, ?_⟩
  intro u _ e he
  simp only [make_undirected_graph, RubyGraph.out_edges, RubyGraph.in_edges,
    List.mem_append, List.mem_filter, List.mem_map] at he
  rcases he with ⟨he, _⟩ | ⟨e2, ⟨he2, _⟩, rfl⟩
  · exact (hwf.2 e he).2
  · exact (hwf.2 e2 he2).1

theorem connected_mem_vertices (g : RubyGraph) (hwf : g.WF) (a b : Nat)
    (ha : a ∈ g.vertices) (h : g.Connected a b) : b ∈ g.vertices :=
  reach_mem_vertices (undirected_wf g hwf) ha ((undirected_reach_iff g a b).2 h)

theorem component_map_facts (g : RubyGraph) (hwf : g.WF) :
    (((connected_components (make_undirected_graph g) [] ColorMap.empty).2.1).map
      Prod.fst).Nodup ∧
    (∀ v, v ∈ ((connected_components (make_undirected_graph g) [] ColorMap.empty).2.1).map
      Prod.fst ↔ v ∈ g.vertices) ∧
    (∀ v c, (v, c) ∈ (connected_components (make_undirected_graph g) [] ColorMap.empty).2.1 →
      c < (connected_components (make_undirected_graph g) [] ColorMap.empty).1) ∧
    (∀ c, c < (connected_components (make_undirected_graph g) [] ColorMap.empty).1 →
      ∃ r ∈ g.vertices, ∀ w,
        (w, c) ∈ (connected_components (make_undirected_graph g) [] ColorMap.empty).2.1 ↔
          g.Connected r w) := by
  obtain ⟨F, hF, hcount, hperm⟩ :=
    connected_components_spec (make_undirected_graph g) (undirected_wf g hwf)
  have hsym : ∀ a b, (make_undirected_graph g).Reach a b → (make_undirected_graph g).Reach b a :=
    fun a b h => (undirected_reach_iff g b a).2
      (connected_symm g a b ((undirected_reach_iff g a b).1 h))
  rw [hcount]
  refine ⟨?_, ?_, ?_, ?_⟩
  · rw [(hperm.map Prod.fst).nodup_iff]
    exact labelled_keys_nodup F 0 (fun rL hrL => (hF.mem_spec rL hrL).2.1) hF.pairwise_disjoint
  · intro v
    rw [(hperm.map Prod.fst).mem_iff, labelled_keys_mem, hF.union v]
    constructor
    · rintro ⟨⟨p, hp, hpv⟩, _⟩
      exact reach_mem_vertices (undirected_wf g hwf) hp hpv
    · intro hv
      exact ⟨⟨v, hv, Relation.ReflTransGen.refl⟩, by simp [Visited]⟩
  · intro v c hvc
    have := (labelled_bounds F 0 v c (hperm.mem_iff.1 hvc)).2.1
    omega
  · intro c hc
    obtain ⟨rL, hrL, hcl⟩ := labelled_class F 0 c (Nat.zero_le _) (by omega)
    refine ⟨rL.1, (hF.mem_spec rL hrL).1, fun w => ?_⟩
    rw [hperm.mem_iff, hcl w, hF.component_sym hsym rL hrL w, undirected_reach_iff]
    simp [Visited]

theorem getD_replicate_false (n c : Nat) : (List.replicate n false).getD c false = false := by
  rw [List.getD_eq_getElem?_getD, List.getElem?_replicate]
  split <;> rfl

theorem getD_replicate_true (n c : Nat) (h : c < n) :
    (List.replicate n true).getD c false = true := by
  rw [List.getD_eq_getElem?_getD, List.getElem?_replicate, if_pos h]
  rfl

theorem graph_components_none_eq (g : RubyGraph) (o : Option Bool) :
    graph_components g none o
      = (List.range (component_count g)).map (component_of (component_map g)) := by
  unfold graph_components
  simp only [Option.isSome_none, Bool.false_eq_true, false_and]
  rw [graph_components_array]
  simp only [component_count, component_map]
  rw [List.filter_eq_self.2]
  · apply List.map_congr_left
    intro c hc
    rw [graph_components_fill_spec, getD_replicate_true _ _ (List.mem_range.1 hc), if_pos rfl]
  · intro c hc
    rw [getD_replicate_true _ _ (List.mem_range.1 hc)]
    simp

theorem graph_components_seeds_eq (g : RubyGraph) (hwf : g.WF) (S : List Nat)
    (o : Option Bool) (hcond : o.getD true = false ∨ ∀ s ∈ S, s ∈ g.vertices) :
    graph_components g (some S) o
      = ((List.range (component_count g)).filter
          (fun c => decide (∃ s ∈ S, s ∈ g.vertices ∧ (s, c) ∈ component_map g)
            && !(!(o.getD true) && decide ((component_of (component_map g) c).length = 1)))).map
          (component_of (component_map g)) := by
  obtain ⟨hnd, hkeys, _, _⟩ := component_map_facts g hwf
  obtain ⟨h1, h2, h3, h4⟩ := graph_components_seed_loop (direct_graph g) (o.getD true)
    (component_map g) hnd (fun v hv => (hkeys v).2 hv) S
    (List.replicate (component_count g) false) hcond
  unfold graph_components
  simp only [Option.isSome_some, true_and]
  simp only [component_count, component_map] at h1 h2 h3 h4 ⊢
  rw [h1, h2]
  rw [graph_components_array]
  generalize hE : (S.foldl (graph_components_seed (direct_graph g) (o.getD true))
    { enabled_components :=
        List.replicate (connected_components (make_undirected_graph g) [] ColorMap.empty).1 false,
      ret := [],
      component_map :=
        (connected_components (make_undirected_graph g) [] ColorMap.empty).2.1 }).enabled_components
    = E at h3 h4 ⊢
  have hEc : ∀ c ∈ List.range (connected_components (make_undirected_graph g) []
      ColorMap.empty).1,
      E.getD c false = decide (∃ s ∈ S, s ∈ g.vertices ∧
        (s, c) ∈ (connected_components (make_undirected_graph g) [] ColorMap.empty).2.1) := by
    intro c hc
    rw [Bool.eq_iff_iff, h4 c, getD_replicate_false, decide_eq_true_eq, List.length_replicate]
    constructor
    · rintro (h | ⟨_, h⟩)
      · exact absurd h (by decide)
      · exact h
    · intro h
      exact Or.inr ⟨List.mem_range.1 hc, h⟩
  have hp : ∀ c ∈ List.range (connected_components (make_undirected_graph g) []
      ColorMap.empty).1,
      (E.getD c false && !(decide ((!o.getD true) = true) && decide
        ((graph_components_fill E
          (connected_components (make_undirected_graph g) [] ColorMap.empty).2.1 c).length = 1)))
      = (decide (∃ s ∈ S, s ∈ g.vertices ∧
          (s, c) ∈ (connected_components (make_undirected_graph g) [] ColorMap.empty).2.1)
        && !(!(o.getD true) && decide ((component_of
          (connected_components (make_undirected_graph g) [] ColorMap.empty).2.1 c).length = 1))) := by
    intro c hc
    rw [← hEc c hc, graph_components_fill_spec]
    cases hb : E.getD c false
    · rfl
    · cases o.getD true <;> simp
  rw [List.filter_congr hp]
  apply List.map_congr_left
  intro c hc
  have hc2 := List.mem_filter.1 hc
  have hc3 : E.getD c false = true := by
    rw [hEc c hc2.1]
    exact (Bool.and_eq_true _ _ ▸ hc2.2).1
  rw [graph_components_fill_spec, if_pos hc3]

/-! ## Results of `components` -/

theorem mem_component_of (M : ComponentMap) (c v : Nat) :
    v ∈ component_of M c ↔ (v, c) ∈ M := by
  simp only [component_of, List.mem_map, List.mem_filter, decide_eq_true_eq]
  constructor
  · rintro ⟨p, ⟨hp, hc⟩, hv⟩
    obtain ⟨a, b⟩ := p
    simp only at hc hv
    rw [← hc, ← hv]
    exact hp
  · intro h
    exact ⟨(v, c), ⟨h, rfl⟩, rfl⟩

theorem component_of_nodup (M : ComponentMap) (hnd : (M.map Prod.fst).Nodup) (c : Nat) :
    (component_of M c).Nodup :=
  List.Nodup.sublist ((List.filter_sublist M).map Prod.fst) hnd

theorem component_of_disjoint (M : ComponentMap) (hnd : (M.map Prod.fst).Nodup) (c d : Nat)
    (hcd : c ≠ d) : List.Disjoint (component_of M c) (component_of M d) := by
  intro v h1 h2
  rw [mem_component_of] at h1 h2
  exact hcd (ComponentMap.mem_unique M hnd v c d h1 h2)

theorem component_facts (g : RubyGraph) (hwf : g.WF) :
    ((component_map g).map Prod.fst).Nodup ∧
    (∀ v, v ∈ (component_map g).map Prod.fst ↔ v ∈ g.vertices) ∧
    (∀ v c, (v, c) ∈ component_map g → c < component_count g) ∧
    (∀ c, c < component_count g →
      ∃ r ∈ g.vertices, ∀ w, w ∈ component_of (component_map g) c ↔ g.Connected r w) := by
  obtain ⟨h1, h2, h3, h4⟩ := component_map_facts g hwf
  refine ⟨h1, h2, h3, ?_⟩
  intro c hc
  obtain ⟨r, hr, hcl⟩ := h4 c hc
  exact ⟨r, hr, fun w => by rw [mem_component_of]; exact hcl w⟩

theorem component_class (g : RubyGraph) (hwf : g.WF) (c : Nat) (hc : c < component_count g) :
    component_of (component_map g) c ≠ [] ∧
    (∀ u ∈ component_of (component_map g) c, u ∈ g.vertices) ∧
    ∀ u ∈ component_of (component_map g) c,
      ∀ v, v ∈ component_of (component_map g) c ↔ g.Connected u v := by
  obtain ⟨r, hr, hcl⟩ := (component_facts g hwf).2.2.2 c hc
  have hrr : r ∈ component_of (component_map g) c := (hcl r).2 Relation.ReflTransGen.refl
  refine ⟨List.ne_nil_of_mem hrr, ?_, ?_⟩
  · intro u hu
    exact connected_mem_vertices g hwf r u hr ((hcl u).1 hu)
  · intro u hu v
    rw [hcl v]
    have hru := (hcl u).1 hu
    constructor
    · intro hrv
      exact Relation.ReflTransGen.trans (connected_symm g r u hru) hrv
    · intro huv
      exact Relation.ReflTransGen.trans hru huv

theorem range_map_pairwise (M : ComponentMap) (hnd : (M.map Prod.fst).Nodup) (n : Nat)
    (p : Nat → Bool) :
    (((List.range n).filter p).map (component_of M)).Pairwise List.Disjoint := by
  rw [List.pairwise_map]
  apply List.Pairwise.filter
  exact (List.pairwise_lt_range n).imp
    (fun hab => component_of_disjoint M hnd _ _ (Nat.ne_of_lt hab))

theorem headI_mem (L : List Nat) (h : L ≠ []) : L.headI ∈ L := by
  cases L with
  | nil => exact absurd rfl h
  | cons a t => exact List.mem_cons_self _ _

theorem components_cover (g : RubyGraph) (hwf : g.WF) :
    (graph_components g none none).Pairwise List.Disjoint ∧
    (∀ L ∈ graph_components g none none, L.Nodup) ∧
    (∀ v, v ∈ g.vertices ↔ ∃ L ∈ graph_components g none none, v ∈ L) := by
  obtain ⟨hnd, hkeys, hlt, _⟩ := component_facts g hwf
  rw [graph_components_none_eq]
  refine ⟨?_, ?_, ?_⟩
  · have := range_map_pairwise (component_map g) hnd (component_count g) (fun _ => true)
    rwa [List.filter_eq_self.2 (fun _ _ => rfl)] at this
  · intro L hL
    obtain ⟨c, _, rfl⟩ := List.mem_map.1 hL
    exact component_of_nodup _ hnd c
  · intro v
    rw [← hkeys v]
    constructor
    · intro hv
      obtain ⟨p, hp, hpv⟩ := List.mem_map.1 hv
      obtain ⟨a, c⟩ := p
      simp only at hpv
      subst hpv
      exact ⟨component_of (component_map g) c,
        List.mem_map_of_mem _ (List.mem_range.2 (hlt a c hp)), (mem_component_of _ c a).2 hp⟩
    · rintro ⟨L, hL, hv⟩
      obtain ⟨c, _, rfl⟩ := List.mem_map.1 hL
      exact List.mem_map_of_mem Prod.fst ((mem_component_of _ c v).1 hv)

theorem components_classes (g : RubyGraph) (hwf : g.WF) :
    ∀ L ∈ graph_components g none none,
      L ≠ [] ∧ (∀ u ∈ L, u ∈ g.vertices) ∧ ∀ u ∈ L, ∀ v, v ∈ L ↔ g.Connected u v := by
  intro L hL
  rw [graph_components_none_eq] at hL
  obtain ⟨c, hc, rfl⟩ := List.mem_map.1 hL
  exact component_class g hwf c (List.mem_range.1 hc)

theorem connected_isolated (g : RubyGraph) (v w : Nat)
    (hiso : ∀ e ∈ g.edges, e.source ≠ v ∧ e.target ≠ v) (h : g.Connected v w) : w = v := by
  induction h with
  | refl => rfl
  | tail _ hbc ih =>
    obtain ⟨e, he, h1⟩ := hbc
    rw [ih] at h1
    rcases h1 with ⟨h2, _⟩ | ⟨_, h2⟩
    · exact absurd h2 (hiso e he).1
    · exact absurd h2 (hiso e he).2

theorem eq_singleton_of_nodup (L : List Nat) (v : Nat) (hnd : L.Nodup) (hv : v ∈ L)
    (hall : ∀ w ∈ L, w = v) : L = [v] := by
  cases L with
  | nil => simp at hv
  | cons a t =>
    have ha : a = v := hall a (List.mem_cons_self _ _)
    cases t with
    | nil => rw [ha]
    | cons b t2 =>
      have hb : b = v := hall b (List.mem_cons_of_mem _ (List.mem_cons_self _ _))
      have := (List.nodup_cons.1 hnd).1
      rw [ha, hb] at this
      exact absurd (List.mem_cons_self _ _) this

/-- C1: for every well-formed graph, the sets returned by `components()`
are pairwise disjoint, none repeats a vertex, a value lies in some returned set
exactly when it is a vertex of the graph, and every isolated vertex is returned
as a singleton set. -/
theorem components_partition (g : RubyGraph) (hwf : g.WF) :
    (graph_components g none none).Pairwise List.Disjoint ∧
    (∀ L ∈ graph_components g none none, L.Nodup) ∧
    (∀ v, v ∈ g.vertices ↔ ∃ L ∈ graph_components g none none, v ∈ L) ∧
    (∀ v ∈ g.vertices, (∀ e ∈ g.edges, e.source ≠ v ∧ e.target ≠ v) →
      [v] ∈ graph_components g none none) := by
  obtain ⟨hpw, hnd, hcover⟩ := components_cover g hwf
  refine ⟨hpw, hnd, hcover, ?_⟩
  intro v hv hiso
  obtain ⟨L, hL, hvL⟩ := (hcover v).1 hv
  have hcl := (components_classes g hwf L hL).2.2 v hvL
  have : L = [v] := eq_singleton_of_nodup L v (hnd L hL) hvL
    (fun w hw => connected_isolated g v w hiso ((hcl w).1 hw))
  rw [← this]
  exact hL

/-- C1 (witness): on the example graph of the spec, edges A->B, B->C, A->C,
C->D and E isolated, `components()` returns {A,B,C,D} and {E}. -/
theorem components_partition_witness :
    exampleGraph.WF ∧
    graph_components exampleGraph none none = [[1, 2, 3, 4], [5]] ∧
    (graph_components exampleGraph none none).Pairwise List.Disjoint ∧
    (∀ v, v ∈ exampleGraph.vertices ↔ ∃ L ∈ graph_components exampleGraph none none, v ∈ L) :=
  ⟨by decide, by decide, (components_partition exampleGraph (by decide)).1,
    (components_partition exampleGraph (by decide)).2.2.1⟩

/-- C2: for every well-formed graph, two vertices lie in a common set
returned by `components()` exactly when a path that ignores edge direction joins
them; every returned set is non-empty and is the whole weakly-connected
component of each of its members; and the returned sets are as many as the
weakly-connected components: some list of vertices, one per returned set,
holds exactly one vertex of every weakly-connected component. -/
theorem components_weakly_connected (g : RubyGraph) (hwf : g.WF) :
    (∀ u ∈ g.vertices, ∀ v ∈ g.vertices,
      (∃ L ∈ graph_components g none none, u ∈ L ∧ v ∈ L) ↔ g.Connected u v) ∧
    (∀ L ∈ graph_components g none none,
      L ≠ [] ∧ ∀ u ∈ L, ∀ v, v ∈ L ↔ g.Connected u v) ∧
    (∃ reps : List Nat, reps.length = (graph_components g none none).length ∧
      (∀ r ∈ reps, r ∈ g.vertices) ∧
      reps.Pairwise (fun a b => ¬ g.Connected a b) ∧
      ∀ v ∈ g.vertices, ∃ r ∈ reps, g.Connected r v) := by
  obtain ⟨hpw, _, hcover⟩ := components_cover g hwf
  have hcl := components_classes g hwf
  refine ⟨?_, fun L hL => ⟨(hcl L hL).1, (hcl L hL).2.2⟩, ?_⟩
  · intro u hu v _
    constructor
    · rintro ⟨L, hL, huL, hvL⟩
      exact ((hcl L hL).2.2 u huL v).1 hvL
    · intro huv
      obtain ⟨L, hL, huL⟩ := (hcover u).1 hu
      exact ⟨L, hL, huL, ((hcl L hL).2.2 u huL v).2 huv⟩
  · refine ⟨(graph_components g none none).map List.headI, by simp, ?_, ?_, ?_⟩
    · intro r hr
      obtain ⟨L, hL, rfl⟩ := List.mem_map.1 hr
      exact (hcl L hL).2.1 _ (headI_mem L (hcl L hL).1)
    · rw [List.pairwise_map]
      refine hpw.imp_of_mem ?_
      intro L1 L2 h1 h2 hdis hconn
      have hm1 := headI_mem L1 (hcl L1 h1).1
      have hm2 := headI_mem L2 (hcl L2 h2).1
      exact hdis (((hcl L1 h1).2.2 _ hm1 _).2 hconn) hm2
    · intro v hv
      obtain ⟨L, hL, hvL⟩ := (hcover v).1 hv
      exact ⟨L.headI, List.mem_map_of_mem _ hL,
        ((hcl L hL).2.2 _ (headI_mem L (hcl L hL).1) v).1 hvL⟩

/-- C2 (witness): on the example graph of the spec the vertices A and D lie in
a common returned set exactly when they are connected. -/
theorem components_weakly_connected_witness :
    exampleGraph.WF ∧
    ((∃ L ∈ graph_components exampleGraph none none, 1 ∈ L ∧ 4 ∈ L) ↔
      exampleGraph.Connected 1 4) :=
  ⟨by decide,
    (components_weakly_connected exampleGraph (by decide)).1 1 (by decide) 4 (by decide)⟩

theorem mem_seeded (M : ComponentMap) (n : Nat) (p : Nat → Bool) (L : List Nat) :
    L ∈ ((List.range n).filter p).map (component_of M) ↔
      ∃ c, c < n ∧ p c = true ∧ component_of M c = L := by
  simp only [List.mem_map, List.mem_filter, List.mem_range, and_assoc]

theorem seeded_class (g : RubyGraph) (hwf : g.WF) (S : List Nat) (c : Nat)
    (hc : c < component_count g)
    (hs : ∃ s ∈ S, s ∈ g.vertices ∧ (s, c) ∈ component_map g) :
    ∃ s ∈ S, s ∈ component_of (component_map g) c ∧
      ∀ v, v ∈ component_of (component_map g) c ↔ g.Connected s v := by
  obtain ⟨s, hsS, _, hsc⟩ := hs
  have hmem : s ∈ component_of (component_map g) c := (mem_component_of _ c s).2 hsc
  exact ⟨s, hsS, hmem, (component_class g hwf c hc).2.2 s hmem⟩

/-- C3: for every well-formed graph and every seed set of vertices of the
graph, each set returned by `components(S, true)` holds a seed and is the whole
weakly-connected component of that seed, each seed lies in exactly one returned
set, and the returned sets are pairwise disjoint. -/
theorem components_of_seeds (g : RubyGraph) (hwf : g.WF) (S : List Nat)
    (hs : ∀ s ∈ S, s ∈ g.vertices) :
    (∀ L ∈ graph_components g (some S) (some true),
      ∃ s ∈ S, s ∈ L ∧ ∀ v, v ∈ L ↔ g.Connected s v) ∧
    (∀ s ∈ S,
      ((graph_components g (some S) (some true)).filter
        (fun L => decide (s ∈ L))).length = 1) ∧
    (graph_components g (some S) (some true)).Pairwise List.Disjoint := by
  obtain ⟨hnd, hkeys, hlt, _⟩ := component_facts g hwf
  rw [graph_components_seeds_eq g hwf S (some true) (Or.inr hs)]
  have hpw := range_map_pairwise (component_map g) hnd (component_count g)
    (fun c => decide (∃ s ∈ S, s ∈ g.vertices ∧ (s, c) ∈ component_map g)
      && !(!((some true : Option Bool).getD true)
        && decide ((component_of (component_map g) c).length = 1)))
  refine ⟨?_, ?_, hpw⟩
  · intro L hL
    obtain ⟨c, hc, hk, rfl⟩ := (mem_seeded _ _ _ L).1 hL
    simp only [Option.getD_some, Bool.not_true, Bool.false_and, Bool.not_false,
      Bool.and_true, decide_eq_true_eq] at hk
    exact seeded_class g hwf S c hc hk
  · intro s hsS
    apply filter_mem_length_one _ s hpw
    obtain ⟨p, hp, hps⟩ := List.mem_map.1 ((hkeys s).2 (hs s hsS))
    obtain ⟨a, c⟩ := p
    simp only at hps
    subst hps
    refine ⟨component_of (component_map g) c, ?_, (mem_component_of _ c a).2 hp⟩
    rw [mem_seeded]
    refine ⟨c, hlt a c hp, ?_, rfl⟩
    simp only [Option.getD_some, Bool.not_true, Bool.false_and, Bool.not_false,
      Bool.and_true, decide_eq_true_eq]
    exact ⟨a, hsS, hs a hsS, hp⟩

/-- C3 (witness): on the example graph of the spec with the seed set {C},
`components(S, true)` returns the component {A,B,C,D} alone. -/
theorem components_of_seeds_witness :
    exampleGraph.WF ∧ (∀ s ∈ [3], s ∈ exampleGraph.vertices) ∧
    graph_components exampleGraph (some [3]) (some true) = [[1, 2, 3, 4]] ∧
    (graph_components exampleGraph (some [3]) (some true)).Pairwise List.Disjoint :=
  ⟨by decide, by decide, by decide,
    (components_of_seeds exampleGraph (by decide) [3] (by decide)).2.2⟩

/-- C4 (failing input): on the graph of the single vertex 1, the seed set
{1, 2} holds the absent seed 2; `components(S, true)` returns the component [1]
alone, the singleton [2] that was pushed for the absent seed having been
overwritten by `rb_ary_store(ret, 0, ary)`. -/
theorem components_absent_seed_lost :
    pointGraph.WF ∧ 2 ∈ [1, 2] ∧ 2 ∉ pointGraph.vertices ∧
    graph_components pointGraph (some [1, 2]) (some true) = [[1]] ∧
    [2] ∉ graph_components pointGraph (some [1, 2]) (some true) := by
  decide

/-- C5: for every well-formed graph and every seed set, each set returned by
`components(S, false)` has at least two vertices, none repeated, holds a seed
and is the whole weakly-connected component of that seed; every seed that is a
vertex and is connected to another vertex lies in a returned set; the returned
sets are pairwise disjoint; and no seed that is absent from the graph lies in a
returned set. -/
theorem components_without_singletons (g : RubyGraph) (hwf : g.WF) (S : List Nat) :
    (∀ L ∈ graph_components g (some S) (some false),
      L.Nodup ∧ 2 ≤ L.length ∧ ∃ s ∈ S, s ∈ L ∧ ∀ v, v ∈ L ↔ g.Connected s v) ∧
    (∀ s ∈ S, s ∈ g.vertices → (∃ v, v ≠ s ∧ g.Connected s v) →
      ∃ L ∈ graph_components g (some S) (some false), s ∈ L) ∧
    (graph_components g (some S) (some false)).Pairwise List.Disjoint ∧
    (∀ x ∈ S, x ∉ g.vertices → ∀ L ∈ graph_components g (some S) (some false), x ∉ L) := by
  obtain ⟨hnd, hkeys, hlt, _⟩ := component_facts g hwf
  rw [graph_components_seeds_eq g hwf S (some false) (Or.inl rfl)]
  have hpw := range_map_pairwise (component_map g) hnd (component_count g)
    (fun c => decide (∃ s ∈ S, s ∈ g.vertices ∧ (s, c) ∈ component_map g)
      && !(!((some false : Option Bool).getD true)
        && decide ((component_of (component_map g) c).length = 1)))
  have hkeep : ∀ c, (decide (∃ s ∈ S, s ∈ g.vertices ∧ (s, c) ∈ component_map g)
      && !(!((some false : Option Bool).getD true)
        && decide ((component_of (component_map g) c).length = 1))) = true ↔
      (∃ s ∈ S, s ∈ g.vertices ∧ (s, c) ∈ component_map g) ∧
        (component_of (component_map g) c).length ≠ 1 := by
    intro c
    simp
  refine ⟨?_, ?_, hpw, ?_⟩
  · intro L hL
    obtain ⟨c, hc, hk, rfl⟩ := (mem_seeded _ _ _ L).1 hL
    obtain ⟨hen, hlen⟩ := (hkeep c).1 hk
    have hne := (component_class g hwf c hc).1
    have hpos : (component_of (component_map g) c).length ≠ 0 :=
      fun h => hne (List.length_eq_zero.1 h)
    exact ⟨component_of_nodup _ hnd c, by omega, seeded_class g hwf S c hc hen⟩
  · intro s hsS hsV ⟨v, hvs, hconn⟩
    obtain ⟨p, hp, hps⟩ := List.mem_map.1 ((hkeys s).2 hsV)
    obtain ⟨a, c⟩ := p
    simp only at hps
    subst hps
    have hc := hlt a c hp
    have hmem : a ∈ component_of (component_map g) c := (mem_component_of _ c a).2 hp
    have hv : v ∈ component_of (component_map g) c :=
      ((component_class g hwf c hc).2.2 a hmem v).2 hconn
    refine ⟨component_of (component_map g) c, ?_, hmem⟩
    rw [mem_seeded]
    refine ⟨c, hc, (hkeep c).2 ⟨⟨a, hsS, hsV, hp⟩, ?_⟩, rfl⟩
    intro hlen
    obtain ⟨b, hb⟩ := List.length_eq_one.1 hlen
    rw [hb, List.mem_singleton] at hmem hv
    exact hvs (hv.trans hmem.symm)
  · intro x _ hxV L hL hxL
    obtain ⟨c, hc, _, rfl⟩ := (mem_seeded _ _ _ L).1 hL
    exact hxV ((component_class g hwf c hc).2.1 x hxL)

/-- C5 (witness): on the example graph of the spec with the seed set {E} and
singletons excluded, `components` returns nothing. -/
theorem components_without_singletons_witness :
    exampleGraph.WF ∧
    graph_components exampleGraph (some [5]) (some false) = [] ∧
    (graph_components exampleGraph (some [5]) (some false)).Pairwise List.Disjoint :=
  ⟨by decide, by decide,
    (components_without_singletons exampleGraph (by decide) [5]).2.2.1⟩

/-! ## The mask test of `each_bfs` -/

/-- A mask below 8 only sees the last three bits. -/
theorem and_mod_eight (m k : Nat) (hk : k &&& 7 = k) : m &&& k = (m % 8) &&& k := by
  have h7 : m &&& 7 = m % 8 := Nat.and_pow_two_sub_one_eq_mod m 3
  rw [← h7, Nat.and_assoc, Nat.and_comm 7 k, hk]

/-- The test of `graph_each_bfs` on the mode, bit by bit. -/
theorem mask_check (m : Nat) :
    ((m &&& 6) ≠ 0 ∧ (m &&& 6) ≠ 6) ↔
      (((m &&& 2) ≠ 0 ∧ (m &&& 4) = 0) ∨ ((m &&& 2) = 0 ∧ (m &&& 4) ≠ 0)) := by
  rw [and_mod_eight m 6 (by decide), and_mod_eight m 2 (by decide),
    and_mod_eight m 4 (by decide)]
  have h : m % 8 < 8 := Nat.mod_lt _ (by decide)
  generalize m % 8 = k at h
  interval_cases k <;> decide

/-- C19: `each_bfs(root, m)` is rejected with the invalid-argument error
exactly when `m` holds one of the bits BACK (2) and FORWARD_OR_CROSS (4) and
not the other; this is so for every root, present or not, and every block; a
rejected call leaves the thread state as it was, the block is not called; the
masks 0, 1, 6 and 7 are accepted. -/
theorem each_bfs_mask_rejected {β : Type} (g : View) (root mode : Nat) (block : Block β)
    (s : Thread β) :
    ((graph_each_bfs g root mode block s).1
        = Except.error "cannot use FORWARD_OR_CROSS and BACK"
      ↔ (((mode &&& VISIT_BACK_EDGES) ≠ 0 ∧ (mode &&& VISIT_FORWARD_OR_CROSS_EDGES) = 0)
        ∨ ((mode &&& VISIT_BACK_EDGES) = 0 ∧ (mode &&& VISIT_FORWARD_OR_CROSS_EDGES) ≠ 0)))
    ∧ ((∃ r, (graph_each_bfs g root mode block s).1 = Except.ok r)
      ↔ ¬ (((mode &&& VISIT_BACK_EDGES) ≠ 0 ∧ (mode &&& VISIT_FORWARD_OR_CROSS_EDGES) = 0)
        ∨ ((mode &&& VISIT_BACK_EDGES) = 0 ∧ (mode &&& VISIT_FORWARD_OR_CROSS_EDGES) ≠ 0)))
    ∧ ((graph_each_bfs g root mode block s).1
        = Except.error "cannot use FORWARD_OR_CROSS and BACK" →
      (graph_each_bfs g root mode block s).2 = s)
    ∧ (mode ∈ [0, VISIT_TREE_EDGES, VISIT_NON_TREE_EDGES, VISIT_ALL_EDGES] →
      ∃ r, (graph_each_bfs g root mode block s).1 = Except.ok r) := by
  have hm := mask_check mode
  simp only [VISIT_BACK_EDGES, VISIT_FORWARD_OR_CROSS_EDGES, VISIT_NON_TREE_EDGES,
    VISIT_TREE_EDGES, VISIT_ALL_EDGES]
  rw [← hm]
  unfold graph_each_bfs
  simp only [VISIT_NON_TREE_EDGES]
  refine ⟨?_, ?_, ?_, ?_⟩
  · by_cases h : (mode &&& 6) ≠ 0 ∧ (mode &&& 6) ≠ 6
    · simp only [if_pos h, true_iff]; exact h
    · simp only [if_neg h]
      constructor
      · intro h2; split at h2 <;> cases h2
      · intro h2; exact absurd h2 h
  · by_cases h : (mode &&& 6) ≠ 0 ∧ (mode &&& 6) ≠ 6
    · simp only [if_pos h]
      constructor
      · rintro ⟨r, hr⟩; cases hr
      · intro h2; exact absurd h h2
    · simp only [if_neg h]
      constructor
      · intro _; exact h
      · intro _; split <;> exact ⟨_, rfl⟩
  · by_cases h : (mode &&& 6) ≠ 0 ∧ (mode &&& 6) ≠ 6
    · simp only [if_pos h]; intro _; trivial
    · simp only [if_neg h]
      intro h2; split at h2 <;> cases h2
  · intro hmem
    have h : ¬ ((mode &&& 6) ≠ 0 ∧ (mode &&& 6) ≠ 6) := by
      simp only [List.mem_cons, List.mem_singleton, List.mem_nil_iff, or_false] at hmem
      rcases hmem with h | h | h | h <;> subst h <;> decide
    simp only [if_neg h]
    split <;> exact ⟨_, rfl⟩

/-! ## `reachable?` on a single vertex -/

/-- A write of a colour other than white leaves no vertex whiter. -/
theorem put_ne_white {color : ColorMap} {u x : Nat} {c : default_color_type}
    (hc : c ≠ white_color) (h : color x ≠ white_color) : put color u c x ≠ white_color := by
  unfold put; split_ifs
  · exact hc
  · exact h

theorem reachable_visitor_examine (t : Nat) (e : Edge) (s : Bool) :
    (ruby_reachable_visitor t).examine_edge e s = s := rfl

theorem reachable_visitor_discover (t v : Nat) (s : Bool) :
    (ruby_reachable_visitor t).discover_vertex v s = s := rfl

theorem reachable_visitor_finish (t v : Nat) (s : Bool) :
    (ruby_reachable_visitor t).finish_vertex v s = s := rfl

theorem reachable_visitor_back (t : Nat) (e : Edge) (s : Bool) :
    (ruby_reachable_visitor t).back_edge e s = s := rfl

theorem reachable_visitor_forward (t : Nat) (e : Edge) (s : Bool) :
    (ruby_reachable_visitor t).forward_or_cross_edge e s = s := rfl

theorem reachable_visitor_tree (t : Nat) (e : Edge) (s : Bool) :
    (ruby_reachable_visitor t).tree_edge e s = if t = e.target then true else s := rfl

/-- While the target is not white, the walk leaves `m_found` as it is. -/
theorem reachable_loop_nonwhite (g : View) (t : Nat) (func : Nat → Bool → Bool × Bool)
    (hf : ∀ u s, (func u s).2 = s) :
    ∀ (fuel u : Nat) (es : List Edge) (stack : List (Nat × List Edge)) (color : ColorMap)
      (s : Bool), color t ≠ white_color →
      (depth_first_visit_loop g (ruby_reachable_visitor t) func fuel u es stack color s).2 = s := by
  intro fuel
  induction fuel with
  | zero => intro u es stack color s _; rfl
  | succ n ih =>
    intro u es stack color s hc
    cases es with
    | nil =>
      cases stack with
      | nil => rfl
      | cons f rest =>
        simp only [depth_first_visit_loop, reachable_visitor_finish]
        exact ih _ _ _ _ _ (put_ne_white (by decide) hc)
    | cons e ei =>
      simp only [depth_first_visit_loop]
      cases hv : color e.target with
      | white_color =>
        have hne : t ≠ e.target := by
          intro h; rw [h] at hc; exact hc hv
        simp only [reachable_visitor_examine, reachable_visitor_tree,
          reachable_visitor_discover, if_neg hne]
        rw [ih _ _ _ _ _ (put_ne_white (by decide) hc)]
        exact hf _ _
      | gray_color =>
        simp only [reachable_visitor_examine, reachable_visitor_back]
        exact ih _ _ _ _ _ hc
      | black_color =>
        simp only [reachable_visitor_examine, reachable_visitor_forward]
        exact ih _ _ _ _ _ hc

/-- The search of `reachable?(a, a)` never finds its target: the start vertex
is gray from the beginning, so no tree edge leads to it. -/
theorem reachable_self_false (g : RubyGraph) (a : Nat) : graph_reachable_p g a a = false := by
  unfold graph_reachable_p
  simp only []
  split_ifs
  · rfl
  · unfold depth_first_visit_term depth_first_visit_impl
    simp only []
    rw [reachable_loop_nonwhite _ _ _ (fun _ _ => rfl)]
    · rfl
    · simp [put]

/-- C12: on the graph whose only edge is the self-loop of A there is a path
of length one from A back to A, and `reachable?(A, A)` is false. -/
theorem reachable_self_loop :
    (direct_graph loopGraph).adj 1 1 ∧ graph_reachable_p loopGraph 1 1 = false :=
  ⟨⟨mkEdge 0 1 1, by decide, rfl⟩, by decide⟩

/-! ## Visitors that walk alike -/

/-- Related visitors walk alike: the colours agree and the states stay related. -/
theorem depth_first_visit_loop_sim {σ τ : Type} (g : View) {vis1 : DFSVisitor σ}
    {f1 : Nat → σ → Bool × σ} {vis2 : DFSVisitor τ} {f2 : Nat → τ → Bool × τ}
    {R : σ → τ → Prop} (h : DFSSim vis1 f1 vis2 f2 R) :
    ∀ (fuel u : Nat) (es : List Edge) (stack : List (Nat × List Edge)) (color : ColorMap)
      (s : σ) (t : τ), R s t →
      (depth_first_visit_loop g vis1 f1 fuel u es stack color s).1
        = (depth_first_visit_loop g vis2 f2 fuel u es stack color t).1
      ∧ R (depth_first_visit_loop g vis1 f1 fuel u es stack color s).2
        (depth_first_visit_loop g vis2 f2 fuel u es stack color t).2 := by
  intro fuel
  induction fuel with
  | zero => intro u es stack color s t hR; exact ⟨rfl, hR⟩
  | succ n ih =>
    intro u es stack color s t hR
    cases es with
    | nil =>
      cases stack with
      | nil => exact ⟨rfl, h.finish_vertex u s t hR⟩
      | cons f rest =>
        simp only [depth_first_visit_loop]
        exact ih _ _ _ _ _ _ (h.finish_vertex u s t hR)
    | cons e ei =>
      simp only [depth_first_visit_loop]
      have h1 := h.examine_edge e s t hR
      cases hv : color e.target with
      | white_color =>
        simp only []
        have h3 := h.discover_vertex e.target _ _ (h.tree_edge e _ _ h1)
        have h4 := h.func e.target _ _ h3
        rw [h4.1]
        exact ih _ _ _ _ _ _ h4.2
      | gray_color => exact ih _ _ _ _ _ _ (h.back_edge e _ _ h1)
      | black_color => exact ih _ _ _ _ _ _ (h.forward_or_cross_edge e _ _ h1)

/-- Related visitors and terminators: the five-argument visit. -/
theorem depth_first_visit_term_sim {σ τ : Type} (g : View) {vis1 : DFSVisitor σ}
    {f1 : Nat → σ → Bool × σ} {vis2 : DFSVisitor τ} {f2 : Nat → τ → Bool × τ}
    {R : σ → τ → Prop} (h : DFSSim vis1 f1 vis2 f2 R) (u : Nat) (color : ColorMap)
    (s : σ) (t : τ) (hR : R s t) :
    (depth_first_visit_term g u vis1 color f1 s).1
        = (depth_first_visit_term g u vis2 color f2 t).1
      ∧ R (depth_first_visit_term g u vis1 color f1 s).2
        (depth_first_visit_term g u vis2 color f2 t).2 := by
  unfold depth_first_visit_term depth_first_visit_impl
  simp only []
  have h3 := h.discover_vertex u _ _ (h.start_vertex u s t hR)
  have h4 := h.func u _ _ h3
  rw [h4.1]
  exact depth_first_visit_loop_sim g h _ _ _ _ _ _ _ h4.2

/-- Related BFS visitors: the loop over the out-edges. -/
theorem breadth_first_visit_edges_sim {σ τ : Type} {vis1 : BFSVisitor σ}
    {vis2 : BFSVisitor τ} {R : σ → τ → Prop} (h : BFSSim vis1 vis2 R) :
    ∀ (es : List Edge) (Q : List Nat) (color : ColorMap) (s : σ) (t : τ), R s t →
      (breadth_first_visit_edges vis1 es Q color s).1
        = (breadth_first_visit_edges vis2 es Q color t).1
      ∧ (breadth_first_visit_edges vis1 es Q color s).2.1
        = (breadth_first_visit_edges vis2 es Q color t).2.1
      ∧ R (breadth_first_visit_edges vis1 es Q color s).2.2
        (breadth_first_visit_edges vis2 es Q color t).2.2 := by
  intro es
  induction es with
  | nil => intro Q color s t hR; exact ⟨rfl, rfl, hR⟩
  | cons e ei ih =>
    intro Q color s t hR
    simp only [breadth_first_visit_edges]
    have h1 := h.examine_edge e s t hR
    cases hv : color e.target with
    | white_color => exact ih _ _ _ _ (h.discover_vertex _ _ _ (h.tree_edge e _ _ h1))
    | gray_color => exact ih _ _ _ _ (h.gray_target e _ _ (h.non_tree_edge e _ _ h1))
    | black_color => exact ih _ _ _ _ (h.black_target e _ _ (h.non_tree_edge e _ _ h1))

/-- Related BFS visitors: the loop over the queue. -/
theorem breadth_first_visit_loop_sim {σ τ : Type} (g : View) {vis1 : BFSVisitor σ}
    {vis2 : BFSVisitor τ} {R : σ → τ → Prop} (h : BFSSim vis1 vis2 R) :
    ∀ (fuel : Nat) (Q : List Nat) (color : ColorMap) (s : σ) (t : τ), R s t →
      (breadth_first_visit_loop g vis1 fuel Q color s).1
        = (breadth_first_visit_loop g vis2 fuel Q color t).1
      ∧ R (breadth_first_visit_loop g vis1 fuel Q color s).2
        (breadth_first_visit_loop g vis2 fuel Q color t).2 := by
  intro fuel
  induction fuel with
  | zero => intro Q color s t hR; exact ⟨rfl, hR⟩
  | succ n ih =>
    intro Q color s t hR
    cases Q with
    | nil => exact ⟨rfl, hR⟩
    | cons u Q =>
      simp only [breadth_first_visit_loop]
      have h1 := breadth_first_visit_edges_sim h (g.out_edges u) Q color _ _
        (h.examine_vertex u s t hR)
      rw [h1.1, h1.2.1]
      exact ih _ _ _ _ (h.finish_vertex u _ _ h1.2.2)

/-- Related BFS visitors: the whole search. -/
theorem breadth_first_search_sim {σ τ : Type} (g : View) {vis1 : BFSVisitor σ}
    {vis2 : BFSVisitor τ} {R : σ → τ → Prop} (h : BFSSim vis1 vis2 R) (r : Nat)
    (color : ColorMap) (s : σ) (t : τ) (hR : R s t) :
    (breadth_first_search g r vis1 color s).1 = (breadth_first_search g r vis2 color t).1
      ∧ R (breadth_first_search g r vis1 color s).2 (breadth_first_search g r vis2 color t).2 := by
  unfold breadth_first_search breadth_first_visit
  simp only []
  have hinit : ∀ (l : List Nat) (c : ColorMap) (s : σ) (t : τ), R s t →
      (l.foldl (fun (a : ColorMap × σ) u => (put a.1 u white_color, vis1.initialize_vertex u a.2))
        (c, s)).1
      = (l.foldl (fun (a : ColorMap × τ) u => (put a.1 u white_color, vis2.initialize_vertex u a.2))
        (c, t)).1
      ∧ R (l.foldl (fun (a : ColorMap × σ) u =>
          (put a.1 u white_color, vis1.initialize_vertex u a.2)) (c, s)).2
        (l.foldl (fun (a : ColorMap × τ) u =>
          (put a.1 u white_color, vis2.initialize_vertex u a.2)) (c, t)).2 := by
    intro l
    induction l with
    | nil => intro c s t hR; exact ⟨rfl, hR⟩
    | cons x l ih =>
      intro c s t hR
      simp only [List.foldl_cons]
      exact ih _ _ _ (h.initialize_vertex x s t hR)
  have h0 := hinit g.vertices color s t hR
  rw [h0.1]
  exact breadth_first_visit_loop_sim g h _ _ _ _ _ (h.discover_vertex r _ _ h0.2)

/-- The blocks that record, whatever they prune, stay related by their records
under the BFS visitor. -/
theorem ruby_bfs_visitor_sim (mode : Nat) (p q : List Yield → Yield → Bool) :
    BFSSim (ruby_bfs_visitor mode (record_block p)) (ruby_bfs_visitor mode (record_block q))
      (fun s t => s.user = t.user) := by
  have hy : ∀ (e : Edge) (what : Nat) (s t : Thread (List Yield)), s.user = t.user →
      (yield_edge mode (record_block p) e what s).user
        = (yield_edge mode (record_block q) e what t).user := by
    intro e what s t hst
    unfold yield_edge record_block graph_prune
    split_ifs <;> simp [hst]
  constructor
  · intro u s t hR; exact hR
  · intro u s t hR; exact hR
  · intro u s t hR; exact hR
  · intro u s t hR; exact hR
  · intro e s t hR; exact hy e _ s t hR
  · intro e s t hR; exact hy e _ s t hR
  · intro u s t hR; exact hR
  · intro u s t hR; exact hR
  · intro u s t hR; exact hR

/-! ## `prune` in `each_bfs` -/

/-- C20 as stated fails: on the path graph A->B->C->D the block calls
`prune` during the TREE event of (A, B), and `each_bfs` still examines the
out-edge of B and goes on to D. -/
theorem each_bfs_prune_examined :
    (graph_direct_each_bfs pathGraph 1 VISIT_ALL_EDGES
      (record_block (fun _ y => decide (y.source = 1 ∧ y.target = 2 ∧ y.kind = VISIT_TREE_EDGES)))
      { prune := false, user := [] }).2.user
      = [{ source := 1, target := 2, info := 0, kind := 1 },
         { source := 2, target := 3, info := 0, kind := 1 },
         { source := 3, target := 4, info := 0, kind := 1 }] := by
  decide

/-- C20, amended: a call of `prune` during `each_bfs` does not change the
search. Whatever the block prunes, the outcome, the colours at the end and the
events given to the block are those of the block that never prunes. -/
theorem each_bfs_prune_no_effect (g : RubyGraph) (root mode : Nat)
    (p : List Yield → Yield → Bool) (s : Thread (List Yield)) :
    (graph_direct_each_bfs g root mode (record_block p) s).1
        = (graph_direct_each_bfs g root mode (record_block never) s).1
      ∧ (graph_direct_each_bfs g root mode (record_block p) s).2.user
        = (graph_direct_each_bfs g root mode (record_block never) s).2.user := by
  unfold graph_direct_each_bfs graph_each_bfs
  simp only []
  split_ifs
  · exact ⟨rfl, rfl⟩
  · exact ⟨rfl, rfl⟩
  · have h := breadth_first_search_sim (direct_graph g) (ruby_bfs_visitor_sim mode p never)
      (rb_to_vertex root (direct_graph g)).1 ColorMap.empty
      { s with prune := false } { s with prune := false } rfl
    exact ⟨by rw [h.1], h.2⟩

/-! ## The mask of `each_dfs` only filters -/

/-- What `yield_edge` does with the block that records and never prunes. -/
theorem yield_edge_record_never (m : Nat) (e : Edge) (what : Nat) (s : Thread (List Yield)) :
    yield_edge m (record_block never) e what s
      = if what &&& m = 0 then s
        else { s with user := s.user ++
          [{ source := e.source, target := e.target, info := e.payload, kind := what }] } := by
  unfold yield_edge record_block never
  simp

/-- The terminator lets the walk go on when `@prune` is not set. -/
theorem search_terminator_false {β : Type} (u : Nat) (s : Thread β) (h : s.prune = false) :
    search_terminator u s = (false, s) := by
  unfold search_terminator
  simp [h]

/-- Under the mask `m` a block that never prunes is called with the events of
the mask `ALL` that `m` lets through, while the recording block sees them all. -/
theorem ruby_dfs_visitor_sim {β : Type} (m : Nat) (b : Block β)
    (hb : ∀ y s, s.prune = false → (b y s).prune = false) (s0 : Thread β) :
    DFSSim (ruby_dfs_visitor VISIT_ALL_EDGES (record_block never)) search_terminator
      (ruby_dfs_visitor m b) search_terminator
      (fun s7 sb => sb = (s7.user.filter (fun y => decide (y.kind &&& m ≠ 0))).foldl
          (fun s y => b y s) s0 ∧ s7.prune = false ∧ sb.prune = false) := by
  have hy : ∀ (e : Edge) (what : Nat), what &&& VISIT_ALL_EDGES ≠ 0 →
      ∀ (s7 : Thread (List Yield)) (sb : Thread β),
      (sb = (s7.user.filter (fun y => decide (y.kind &&& m ≠ 0))).foldl
          (fun s y => b y s) s0 ∧ s7.prune = false ∧ sb.prune = false) →
      (yield_edge m b e what sb
        = ((yield_edge VISIT_ALL_EDGES (record_block never) e what s7).user.filter
            (fun y => decide (y.kind &&& m ≠ 0))).foldl (fun s y => b y s) s0
        ∧ (yield_edge VISIT_ALL_EDGES (record_block never) e what s7).prune = false
        ∧ (yield_edge m b e what sb).prune = false) := by
    intro e what hw s7 sb ⟨h1, h2, h3⟩
    rw [yield_edge_record_never, if_neg hw]
    unfold yield_edge
    by_cases hm : what &&& m = 0
    · simp only [if_pos hm, List.filter_append, List.filter_cons, List.filter_nil]
      simp only [ne_eq, hm, not_true_eq_false, decide_False, Bool.false_eq_true, if_false,
        List.append_nil]
      exact ⟨h1, h2, h3⟩
    · simp only [if_neg hm, List.filter_append, List.filter_cons, List.filter_nil]
      simp only [ne_eq, hm, not_false_eq_true, decide_True, if_true, List.foldl_append,
        List.foldl_cons, List.foldl_nil]
      rw [← h1]
      exact ⟨rfl, h2, hb _ _ h3⟩
  constructor
  · intro u s t hR; exact hR
  · intro u s t hR; exact hR
  · intro e s t hR; exact hR
  · intro e s t hR; exact hy e _ (by decide) s t hR
  · intro e s t hR; exact hy e _ (by decide) s t hR
  · intro e s t hR; exact hy e _ (by decide) s t hR
  · intro u s t hR; exact hR
  · intro u s t ⟨h1, h2, h3⟩
    rw [search_terminator_false u s h2, search_terminator_false u t h3]
    exact ⟨rfl, h1, h2, h3⟩

/-- What `each_dfs` does with a block that never prunes, in terms of the events
that the recording block sees under the mask `ALL`. -/
theorem each_dfs_of_events {β : Type} (g : RubyGraph) (r m : Nat) (b : Block β)
    (hb : ∀ y s, s.prune = false → (b y s).prune = false) (s : Thread β) :
    (graph_direct_each_dfs g r VISIT_ALL_EDGES (record_block never)
        { prune := false, user := [] }).1 = (graph_direct_each_dfs g r m b s).1
    ∧ (graph_direct_each_dfs g r m b s).2
      = ((each_dfs_events g r VISIT_ALL_EDGES).filter
          (fun y => decide (y.kind &&& m ≠ 0))).foldl (fun s y => b y s)
          { s with prune := false } := by
  unfold each_dfs_events graph_direct_each_dfs graph_each_dfs
  simp only []
  split_ifs
  · exact ⟨rfl, rfl⟩
  · have h := depth_first_visit_term_sim (direct_graph g)
      (ruby_dfs_visitor_sim m b hb { s with prune := false })
      (rb_to_vertex r (direct_graph g)).1 ColorMap.empty
      { prune := false, user := [] } { s with prune := false } ⟨rfl, rfl, rfl⟩
    exact ⟨h.1, h.2.1⟩

/-- C16: for every graph, root and mask `m`, the events that `each_dfs(r, m)`
delivers to a visitor that never prunes are the events of `each_dfs(r, ALL)`
without those whose kind has no bit in common with `m`, in the same order: the
block is called on exactly these, one after the other; and the colours at the
end, hence the vertices visited, are those of the mask `ALL`. -/
theorem each_dfs_mask_filters {β : Type} (g : RubyGraph) (r m : Nat) (b : Block β)
    (hb : ∀ y s, s.prune = false → (b y s).prune = false) (s : Thread β) :
    each_dfs_events g r m
      = (each_dfs_events g r VISIT_ALL_EDGES).filter (fun y => decide (y.kind &&& m ≠ 0))
    ∧ (graph_direct_each_dfs g r m b s).2
      = (each_dfs_events g r m).foldl (fun s y => b y s) { s with prune := false }
    ∧ (graph_direct_each_dfs g r m b s).1
      = (graph_direct_each_dfs g r VISIT_ALL_EDGES b s).1 := by
  have hrec : ∀ (y : Yield) (s : Thread (List Yield)), s.prune = false →
      (record_block never y s).prune = false := by
    intro y s hs; simp [record_block, never, hs]
  have h1 := each_dfs_of_events g r m (record_block never) hrec { prune := false, user := [] }
  have hfold : ∀ (l : List Yield) (s : Thread (List Yield)), s.prune = false →
      l.foldl (fun s y => record_block never y s) s = { prune := false, user := s.user ++ l } := by
    intro l
    induction l with
    | nil => intro s hs; cases s; simp at hs; simp [hs]
    | cons y l ih =>
      intro s hs
      rw [List.foldl_cons, ih _ (hrec y s hs)]
      simp [record_block, never]
  have hev : each_dfs_events g r m
      = (each_dfs_events g r VISIT_ALL_EDGES).filter (fun y => decide (y.kind &&& m ≠ 0)) := by
    have h2 := h1.2
    rw [hfold _ _ rfl] at h2
    show (graph_direct_each_dfs g r m (record_block never) { prune := false, user := [] }).2.user
      = _
    rw [h2]; simp
  refine ⟨hev, ?_, ?_⟩
  · rw [hev]; exact (each_dfs_of_events g r m b hb s).2
  · rw [← (each_dfs_of_events g r m b hb s).1, ← (each_dfs_of_events g r VISIT_ALL_EDGES b hb s).1]

/-- Witness of C16 on the example graph, mask FORWARD_OR_CROSS, recording block. -/
theorem each_dfs_mask_filters_witness :
    (∀ (y : Yield) (s : Thread (List Yield)), s.prune = false →
        (record_block never y s).prune = false)
    ∧ each_dfs_events exampleGraph 1 VISIT_FORWARD_OR_CROSS_EDGES
      = (each_dfs_events exampleGraph 1 VISIT_ALL_EDGES).filter
        (fun y => decide (y.kind &&& VISIT_FORWARD_OR_CROSS_EDGES ≠ 0)) :=
  ⟨fun y s hs => by simp [record_block, never, hs],
    (each_dfs_mask_filters exampleGraph 1 VISIT_FORWARD_OR_CROSS_EDGES (record_block never)
      (fun y s hs => by simp [record_block, never, hs]) { prune := false, user := [] }).1⟩

/-! ## `reachable?` between two vertices -/

/-- Without a terminator the colours of a walk do not depend on the visitor. -/
theorem dfsSim_nontruth2 {σ τ : Type} (vis1 : DFSVisitor σ) (vis2 : DFSVisitor τ) :
    DFSSim vis1 nontruth2 vis2 nontruth2 (fun _ _ => True) := by
  constructor <;> intros <;> trivial

/-- Once `m_found` is set it stays set. -/
theorem reachable_loop_found (g : View) (t : Nat) :
    ∀ (fuel u : Nat) (es : List Edge) (stack : List (Nat × List Edge)) (color : ColorMap),
      (depth_first_visit_loop g (ruby_reachable_visitor t) ruby_reachable_terminator
        fuel u es stack color true).2 = true := by
  intro fuel
  induction fuel with
  | zero => intro u es stack color; rfl
  | succ n ih =>
    intro u es stack color
    cases es with
    | nil =>
      cases stack with
      | nil => rfl
      | cons f rest =>
        simp only [depth_first_visit_loop, reachable_visitor_finish]
        exact ih _ _ _ _
    | cons e ei =>
      simp only [depth_first_visit_loop]
      cases hv : color e.target with
      | white_color =>
        simp only [reachable_visitor_examine, reachable_visitor_tree,
          reachable_visitor_discover, ite_self, ruby_reachable_terminator, if_true]
        exact ih _ _ _ _
      | gray_color =>
        simp only [reachable_visitor_examine, reachable_visitor_back]
        exact ih _ _ _ _
      | black_color =>
        simp only [reachable_visitor_examine, reachable_visitor_forward]
        exact ih _ _ _ _

/-- The terminator of `reachable?` changes the walk only after the target is
found. -/
theorem reachable_loop_coincide (g : View) (t : Nat) :
    ∀ (fuel u : Nat) (es : List Edge) (stack : List (Nat × List Edge)) (color : ColorMap)
      (s : Bool),
      (depth_first_visit_loop g (ruby_reachable_visitor t) ruby_reachable_terminator
        fuel u es stack color s).2 = true
      ∨ depth_first_visit_loop g (ruby_reachable_visitor t) ruby_reachable_terminator
          fuel u es stack color s
        = depth_first_visit_loop g (ruby_reachable_visitor t) nontruth2
          fuel u es stack color s := by
  intro fuel
  induction fuel with
  | zero => intro u es stack color s; exact Or.inr rfl
  | succ n ih =>
    intro u es stack color s
    cases es with
    | nil =>
      cases stack with
      | nil => exact Or.inr rfl
      | cons f rest =>
        simp only [depth_first_visit_loop]
        exact ih _ _ _ _ _
    | cons e ei =>
      simp only [depth_first_visit_loop]
      cases hv : color e.target with
      | white_color =>
        simp only [reachable_visitor_examine, reachable_visitor_tree,
          reachable_visitor_discover]
        have hs3 : (if t = e.target then true else s) = true
            ∨ (if t = e.target then true else s) = false := by
          cases (if t = e.target then true else s) <;> simp
        rcases hs3 with hs3 | hs3
        · left
          simp only [ruby_reachable_terminator, hs3, if_true]
          exact reachable_loop_found g t _ _ _ _ _
        · simp only [ruby_reachable_terminator, nontruth2, hs3, Bool.false_eq_true, if_false]
          exact ih _ _ _ _ _
      | gray_color => exact ih _ _ _ _ _
      | black_color => exact ih _ _ _ _ _

/-- The target is found only if the start vertex reaches it. -/
theorem reachable_loop_sound (g : View) (a t : Nat) (func : Nat → Bool → Bool × Bool)
    (hf : ∀ u s, (func u s).2 = s) :
    ∀ (fuel u : Nat) (es : List Edge) (stack : List (Nat × List Edge)) (color : ColorMap)
      (s : Bool), (s = true → g.Reach a t) → g.Reach a u → (∀ e ∈ es, e ∈ g.out_edges u) →
      (∀ f ∈ stack, g.Reach a f.1 ∧ ∀ e ∈ f.2, e ∈ g.out_edges f.1) →
      (depth_first_visit_loop g (ruby_reachable_visitor t) func fuel u es stack color s).2
        = true → g.Reach a t := by
  intro fuel
  induction fuel with
  | zero => intro u es stack color s hs _ _ _ h; exact hs h
  | succ n ih =>
    intro u es stack color s hs hu hes hst
    cases es with
    | nil =>
      cases stack with
      | nil => intro h; exact hs h
      | cons f rest =>
        simp only [depth_first_visit_loop, reachable_visitor_finish]
        exact ih _ _ _ _ _ hs (hst f (List.mem_cons_self _ _)).1
          (hst f (List.mem_cons_self _ _)).2
          (fun f2 hf2 => hst f2 (List.mem_cons_of_mem _ hf2))
    | cons e ei =>
      simp only [depth_first_visit_loop]
      have hes2 : ∀ e2 ∈ ei, e2 ∈ g.out_edges u :=
        fun e2 he2 => hes e2 (List.mem_cons_of_mem _ he2)
      have hadj : g.Reach a e.target :=
        Relation.ReflTransGen.tail hu ⟨e, hes e (List.mem_cons_self _ _), rfl⟩
      cases hv : color e.target with
      | white_color =>
        simp only [reachable_visitor_examine, reachable_visitor_tree,
          reachable_visitor_discover]
        refine ih _ _ _ _ _ ?_ hadj ?_ ?_
        · rw [hf]
          intro h
          split_ifs at h with h2
          · rw [h2]; exact hadj
          · exact hs h
        · intro e2 he2
          by_cases hc : (func e.target (if t = e.target then true else s)).1 = true
          · rw [if_pos hc] at he2; cases he2
          · rw [if_neg hc] at he2; exact he2
        · intro f2 hf2
          rcases List.mem_cons.1 hf2 with h | h
          · subst h; exact ⟨hu, hes2⟩
          · exact hst f2 h
      | gray_color =>
        simp only [reachable_visitor_examine, reachable_visitor_back]
        exact ih _ _ _ _ _ hs hu hes2 hst
      | black_color =>
        simp only [reachable_visitor_examine, reachable_visitor_forward]
        exact ih _ _ _ _ _ hs hu hes2 hst

/-- Without a terminator the target is found as soon as it is not white. -/
theorem reachable_loop_complete (g : View) (t : Nat) :
    ∀ (fuel u : Nat) (es : List Edge) (stack : List (Nat × List Edge)) (color : ColorMap)
      (s : Bool), (color t ≠ white_color → s = true) → color u ≠ white_color →
      (∀ f ∈ stack, color f.1 ≠ white_color) →
      (depth_first_visit_loop g (ruby_reachable_visitor t) nontruth2 fuel u es stack
        color s).1 t ≠ white_color →
      (depth_first_visit_loop g (ruby_reachable_visitor t) nontruth2 fuel u es stack
        color s).2 = true := by
  intro fuel
  induction fuel with
  | zero => intro u es stack color s hs _ _ h; exact hs h
  | succ n ih =>
    intro u es stack color s hs hu hst
    have hput : ∀ (x : Nat) (c : default_color_type), color x ≠ white_color →
        put color x c t ≠ white_color → s = true := by
      intro x c hx h
      by_cases hxt : t = x
      · subst hxt; exact hs hx
      · apply hs; simpa [put, hxt] using h
    cases es with
    | nil =>
      cases stack with
      | nil =>
        simp only [depth_first_visit_loop, reachable_visitor_finish]
        exact hput u _ hu
      | cons f rest =>
        simp only [depth_first_visit_loop, reachable_visitor_finish]
        exact ih _ _ _ _ _ (hput u _ hu)
          (put_ne_white (by decide) (hst f (List.mem_cons_self _ _)))
          (fun f2 hf2 => put_ne_white (by decide) (hst f2 (List.mem_cons_of_mem _ hf2)))
    | cons e ei =>
      simp only [depth_first_visit_loop]
      cases hv : color e.target with
      | white_color =>
        simp only [reachable_visitor_examine, reachable_visitor_tree,
          reachable_visitor_discover, nontruth2, Bool.false_eq_true, if_false]
        refine ih _ _ _ _ _ ?_ (by simp [put]) ?_
        · intro h
          by_cases hxt : t = e.target
          · simp [hxt]
          · rw [if_neg hxt]; apply hs; simpa [put, hxt] using h
        · intro f2 hf2
          rcases List.mem_cons.1 hf2 with h | h
          · subst h; exact put_ne_white (by decide) hu
          · exact put_ne_white (by decide) (hst f2 h)
      | gray_color =>
        simp only [reachable_visitor_examine, reachable_visitor_back]
        exact ih _ _ _ _ _ hs hu hst
      | black_color =>
        simp only [reachable_visitor_examine, reachable_visitor_forward]
        exact ih _ _ _ _ _ hs hu hst

/-- C11: for every well-formed graph and two distinct vertices `a` and `b`
of it, `reachable?(a, b)` is true exactly when a directed path leads from `a`
to `b`; the terminator that stops the search early never hides a target. -/
theorem reachable_iff_path (g : RubyGraph) (hwf : g.WF) (a b : Nat) (ha : a ∈ g.vertices)
    (hb : b ∈ g.vertices) (hab : a ≠ b) :
    graph_reachable_p g a b = true ↔ (direct_graph g).Reach a b := by
  have hwf2 := direct_graph_wf g hwf
  have hva : a ∈ (direct_graph g).vertices := ha
  have hvb : b ∈ (direct_graph g).vertices := hb
  have hrun : graph_reachable_p g a b
      = (depth_first_visit_loop (direct_graph g) (ruby_reachable_visitor b)
          ruby_reachable_terminator (dfs_fuel (direct_graph g)) a
          ((direct_graph g).out_edges a) [] (put ColorMap.empty a gray_color) false).2 := by
    unfold graph_reachable_p
    simp only [rb_to_vertex, if_pos hva, if_pos hvb]
    rfl
  rw [hrun]
  constructor
  · intro h
    exact reachable_loop_sound (direct_graph g) a b ruby_reachable_terminator
      (fun _ _ => rfl) _ _ _ _ _ _ (by simp) Relation.ReflTransGen.refl
      (fun e he => he) (by simp) h
  · intro hreach
    rcases reachable_loop_coincide (direct_graph g) b (dfs_fuel (direct_graph g)) a
      ((direct_graph g).out_edges a) [] (put ColorMap.empty a gray_color) false with h | h
    · exact h
    · rw [h]
      apply reachable_loop_complete
      · intro hc
        exfalso; apply hc
        unfold put ColorMap.empty
        rw [if_neg (Ne.symm hab)]
      · simp [put]
      · simp
      · obtain ⟨D, -, -, -, hcol⟩ := dfs_from_visited (direct_graph g) vertex_recorder
          vertex_recorder_quiet hwf2 [] a ColorMap.empty [] (ColorsOf.empty _) hva rfl
        have hsim := (depth_first_visit_loop_sim (direct_graph g)
          (dfsSim_nontruth2 (ruby_reachable_visitor b) vertex_recorder)
          (dfs_fuel (direct_graph g)) a ((direct_graph g).out_edges a) []
          (put ColorMap.empty a gray_color) false (ValueSet.insert [] a) trivial).1
        rw [hsim]
        have hblack := ((hcol b).1).2 ⟨a, List.mem_singleton_self a, hreach⟩
        have : (depth_first_visit_impl (direct_graph g) a vertex_recorder ColorMap.empty
            nontruth2 []).1 b = black_color := hblack
        unfold depth_first_visit_impl at this
        simp only [nontruth2, Bool.false_eq_true, if_false] at this
        intro hw
        have h2 : (vertex_recorder.discover_vertex a ([] : ValueSet)) = ValueSet.insert [] a := rfl
        rw [h2] at this
        rw [this] at hw
        exact absurd hw (by decide)

/-- Witness of C11 on the path graph A->B->C->D: `reachable?(A, D)` is true
and `reachable?(D, A)` is false. -/
theorem reachable_iff_path_witness :
    (graph_reachable_p pathGraph 1 4 = true ↔ (direct_graph pathGraph).Reach 1 4)
    ∧ (graph_reachable_p pathGraph 4 1 = true ↔ (direct_graph pathGraph).Reach 4 1)
    ∧ graph_reachable_p pathGraph 1 4 = true ∧ graph_reachable_p pathGraph 4 1 = false :=
  ⟨reachable_iff_path pathGraph (by decide) 1 4 (by decide) (by decide) (by decide),
   reachable_iff_path pathGraph (by decide) 4 1 (by decide) (by decide) (by decide),
   by decide, by decide⟩

/-! ## Topological order -/

theorem topo_visitor_examine (e : Edge) (s : Option (List Nat)) :
    topo_sort_visitor.examine_edge e s = s := rfl

theorem topo_visitor_tree (e : Edge) (s : Option (List Nat)) :
    topo_sort_visitor.tree_edge e s = s := rfl

theorem topo_visitor_discover (v : Nat) (s : Option (List Nat)) :
    topo_sort_visitor.discover_vertex v s = s := rfl

theorem topo_visitor_start (v : Nat) (s : Option (List Nat)) :
    topo_sort_visitor.start_vertex v s = s := rfl

theorem topo_visitor_forward (e : Edge) (s : Option (List Nat)) :
    topo_sort_visitor.forward_or_cross_edge e s = s := rfl

theorem topo_visitor_back (e : Edge) (s : Option (List Nat)) :
    topo_sort_visitor.back_edge e s = none := rfl

theorem topo_visitor_finish (v : Nat) (s : Option (List Nat)) :
    topo_sort_visitor.finish_vertex v s = s.map (fun result => result ++ [v]) := rfl

/-- Once `not_a_dag` is thrown the output is lost. -/
theorem topo_loop_none (g : View) :
    ∀ (fuel u : Nat) (es : List Edge) (stack : List (Nat × List Edge)) (color : ColorMap),
      (depth_first_visit_loop g topo_sort_visitor nontruth2 fuel u es stack color none).2
        = none := by
  intro fuel
  induction fuel with
  | zero => intro u es stack color; rfl
  | succ n ih =>
    intro u es stack color
    cases es with
    | nil =>
      cases stack with
      | nil => rfl
      | cons f rest =>
        simp only [depth_first_visit_loop, topo_visitor_finish, Option.map_none']
        exact ih _ _ _ _
    | cons e ei =>
      simp only [depth_first_visit_loop]
      cases hv : color e.target with
      | white_color =>
        simp only [topo_visitor_examine, topo_visitor_tree, topo_visitor_discover, nontruth2]
        exact ih _ _ _ _
      | gray_color =>
        simp only [topo_visitor_examine, topo_visitor_back]
        exact ih _ _ _ _
      | black_color =>
        simp only [topo_visitor_examine, topo_visitor_forward]
        exact ih _ _ _ _

/-- The frames stay in order when the output grows. -/
theorem Frames.frames_mono {g : View} {L L2 : List Nat} (h : ∀ v ∈ L, v ∈ L2) :
    ∀ {c : Nat} {stack : List (Nat × List Edge)}, Frames g L c stack → Frames g L2 c stack := by
  intro c stack
  induction stack generalizing c with
  | nil => intro _; trivial
  | cons f rest ih =>
    intro hf
    obtain ⟨h1, h2, h3, h4⟩ := hf
    refine ⟨h1, h2, ?_, ih h4⟩
    intro e he
    rcases h3 e he with h5 | h5 | h5
    · exact Or.inl h5
    · exact Or.inr (Or.inl (h _ h5))
    · exact Or.inr (Or.inr h5)

/-- Every suspended vertex reaches the vertex on top. -/
theorem Frames.frames_reach {g : View} {L : List Nat} :
    ∀ {c : Nat} {stack : List (Nat × List Edge)}, Frames g L c stack →
      ∀ f ∈ stack, Relation.TransGen g.adj f.1 c := by
  intro c stack
  induction stack generalizing c with
  | nil => intro _ f hf; cases hf
  | cons f0 rest ih =>
    intro hf f hmem
    obtain ⟨h1, -, -, h4⟩ := hf
    rcases List.mem_cons.1 hmem with h | h
    · subst h; exact Relation.TransGen.single h1
    · exact Relation.TransGen.tail (ih h4 f h) h1

/-- A finished vertex joins the output. -/
theorem TopoInv.finish {g : View} {color : ColorMap} {L : List Nat} {u : Nat}
    (h : TopoInv g color L) (hu : color u ≠ black_color)
    (hes : ∀ e ∈ g.out_edges u, e.target ∈ L) :
    TopoInv g (put color u black_color) (L ++ [u]) := by
  have hnot : u ∉ L := fun hm => hu ((h.black u).2 hm)
  constructor
  · exact List.nodup_append.2 ⟨h.nodup, List.nodup_singleton u, by
      intro a ha hb
      rw [List.mem_singleton] at hb
      subst hb; exact hnot ha⟩
  · intro v
    unfold put
    by_cases hv : v = u
    · simp [hv]
    · simp [hv, h.black v]
  · intro x hx e he
    rcases List.mem_append.1 hx with hx | hx
    · exact (h.order x hx e he).trans (List.sublist_append_left L [u])
    · rw [List.mem_singleton] at hx
      subst hx
      have h1 : [e.target].Sublist L := List.singleton_sublist.2 (hes e he)
      exact List.Sublist.append h1 (List.Sublist.refl [x])

/-- A discovered vertex leaves the output as it is. -/
theorem TopoInv.discover {g : View} {color : ColorMap} {L : List Nat} {v : Nat}
    (h : TopoInv g color L) (hv : color v = white_color) :
    TopoInv g (put color v gray_color) L := by
  refine ⟨h.nodup, ?_, h.order⟩
  intro x
  unfold put
  by_cases hx : x = v
  · subst hx
    simp only [if_true]
    constructor
    · intro h2; cases h2
    · intro h2
      have := (h.black x).2 h2
      rw [hv] at this; cases this
  · simp only [if_neg hx]; exact h.black x

/-- The walk of `topological_sort` from a state in order: `not_a_dag` is
thrown only on a cycle, and otherwise the output is in order at the end. -/
theorem topo_loop_spec (g : View) :
    ∀ (fuel u : Nat) (es : List Edge) (stack : List (Nat × List Edge)) (color : ColorMap)
      (L : List Nat), TopoInv g color L → color u = gray_color →
      (∀ v, color v = gray_color → v = u ∨ v ∈ stack.map Prod.fst) →
      (∀ f ∈ stack, color f.1 = gray_color) → (u :: stack.map Prod.fst).Nodup →
      (∀ e ∈ es, e ∈ g.out_edges u) → (∀ e ∈ g.out_edges u, e ∈ es ∨ e.target ∈ L) →
      Frames g L u stack →
      ((depth_first_visit_loop g topo_sort_visitor nontruth2 fuel u es stack color
          (some L)).2 = none ∧ g.Cyclic)
      ∨ ∃ L2, (depth_first_visit_loop g topo_sort_visitor nontruth2 fuel u es stack color
          (some L)).2 = some L2
        ∧ TopoInv g (depth_first_visit_loop g topo_sort_visitor nontruth2 fuel u es stack
          color (some L)).1 L2 := by
  intro fuel
  induction fuel with
  | zero =>
    intro u es stack color L hinv _ _ _ _ _ _ _
    exact Or.inr ⟨L, rfl, hinv⟩
  | succ n ih =>
    intro u es stack color L hinv hu hgray hst hnd hsub hdone hfr
    have hub : color u ≠ black_color := by rw [hu]; decide
    cases es with
    | nil =>
      have hall : ∀ e ∈ g.out_edges u, e.target ∈ L := by
        intro e he
        rcases hdone e he with h | h
        · cases h
        · exact h
      have hinv2 := hinv.finish hub hall
      cases stack with
      | nil =>
        simp only [depth_first_visit_loop, topo_visitor_finish, Option.map_some']
        exact Or.inr ⟨L ++ [u], rfl, hinv2⟩
      | cons f rest =>
        simp only [depth_first_visit_loop, topo_visitor_finish, Option.map_some']
        obtain ⟨hf1, hf2, hf3, hf4⟩ := hfr
        have hnd2 : (f.1 :: rest.map Prod.fst).Nodup := by
          simp only [List.map_cons] at hnd
          exact (List.nodup_cons.1 hnd).2
        have hfu : f.1 ≠ u := by
          intro h
          simp only [List.map_cons] at hnd
          have := (List.nodup_cons.1 hnd).1
          apply this
          rw [← h]; exact List.mem_cons_self _ _
        have hrest_ne : ∀ f2 ∈ rest, f2.1 ≠ u := by
          intro f2 hf2mem h
          simp only [List.map_cons] at hnd
          have := (List.nodup_cons.1 hnd).1
          apply this
          rw [← h]
          exact List.mem_cons_of_mem _ (List.mem_map_of_mem Prod.fst hf2mem)
        apply ih
        · exact hinv2
        · unfold put; rw [if_neg hfu]; exact hst f (List.mem_cons_self _ _)
        · intro v hv
          unfold put at hv
          by_cases hvu : v = u
          · rw [if_pos hvu] at hv; cases hv
          · rw [if_neg hvu] at hv
            rcases hgray v hv with h | h
            · exact absurd h hvu
            · simpa using h
        · intro f2 hf2mem
          unfold put; rw [if_neg (hrest_ne f2 hf2mem)]
          exact hst f2 (List.mem_cons_of_mem _ hf2mem)
        · exact hnd2
        · exact hf2
        · intro e he
          rcases hf3 e he with h | h | h
          · exact Or.inl h
          · exact Or.inr (List.mem_append_left _ h)
          · exact Or.inr (by rw [h]; simp)
        · exact Frames.frames_mono (fun v hv => List.mem_append_left _ hv) hf4
    | cons e ei =>
      simp only [depth_first_visit_loop, topo_visitor_examine]
      have he : e ∈ g.out_edges u := hsub e (List.mem_cons_self _ _)
      have hsub2 : ∀ e2 ∈ ei, e2 ∈ g.out_edges u :=
        fun e2 he2 => hsub e2 (List.mem_cons_of_mem _ he2)
      cases hv : color e.target with
      | white_color =>
        simp only [topo_visitor_tree, topo_visitor_discover, nontruth2, Bool.false_eq_true,
          if_false]
        have hvu : e.target ≠ u := by
          intro h; rw [h, hu] at hv; cases hv
        have hvst : ∀ f ∈ stack, f.1 ≠ e.target := by
          intro f hf h
          have := hst f hf
          rw [h, hv] at this; cases this
        apply ih
        · exact hinv.discover hv
        · simp [put]
        · intro v hvg
          unfold put at hvg
          by_cases hve : v = e.target
          · exact Or.inl hve
          · rw [if_neg hve] at hvg
            right
            rcases hgray v hvg with h | h
            · simp [h]
            · simp only [List.map_cons, List.mem_cons]
              exact Or.inr h
        · intro f hf
          rcases List.mem_cons.1 hf with h | h
          · subst h
            unfold put; rw [if_neg (Ne.symm hvu)]; exact hu
          · unfold put; rw [if_neg (hvst f h)]; exact hst f h
        · simp only [List.map_cons]
          refine List.nodup_cons.2 ⟨?_, hnd⟩
          intro hmem
          rcases List.mem_cons.1 hmem with h | h
          · exact hvu h
          · obtain ⟨f, hf, hfe⟩ := List.mem_map.1 h
            exact hvst f hf hfe
        · intro e2 he2; exact he2
        · intro e2 he2; exact Or.inl he2
        · refine ⟨⟨e, he, rfl⟩, hsub2, ?_, hfr⟩
          intro e2 he2
          rcases hdone e2 he2 with h | h
          · rcases List.mem_cons.1 h with h2 | h2
            · exact Or.inr (Or.inr (by rw [h2]))
            · exact Or.inl h2
          · exact Or.inr (Or.inl h)
      | gray_color =>
        simp only [topo_visitor_back]
        left
        refine ⟨topo_loop_none g _ _ _ _ _, ?_⟩
        have hadj : g.adj u e.target := ⟨e, he, rfl⟩
        rcases hgray e.target hv with h | h
        · exact ⟨u, Relation.TransGen.single (by rw [h] at hadj; exact hadj)⟩
        · obtain ⟨f, hf, hfe⟩ := List.mem_map.1 h
          have := Frames.frames_reach hfr f hf
          rw [hfe] at this
          exact ⟨u, Relation.TransGen.head hadj this⟩
      | black_color =>
        simp only [topo_visitor_forward]
        apply ih _ _ _ _ _ hinv hu hgray hst hnd hsub2 _ hfr
        intro e2 he2
        rcases hdone e2 he2 with h | h
        · rcases List.mem_cons.1 h with h2 | h2
          · right; rw [h2]; exact (hinv.black _).1 hv
          · exact Or.inl h2
        · exact Or.inr h

/-- Related visitors and terminators: `depth_first_visit_impl`. -/
theorem depth_first_visit_impl_sim {σ τ : Type} (g : View) {vis1 : DFSVisitor σ}
    {f1 : Nat → σ → Bool × σ} {vis2 : DFSVisitor τ} {f2 : Nat → τ → Bool × τ}
    {R : σ → τ → Prop} (h : DFSSim vis1 f1 vis2 f2 R) (u : Nat) (color : ColorMap)
    (s : σ) (t : τ) (hR : R s t) :
    (depth_first_visit_impl g u vis1 color f1 s).1
        = (depth_first_visit_impl g u vis2 color f2 t).1
      ∧ R (depth_first_visit_impl g u vis1 color f1 s).2
        (depth_first_visit_impl g u vis2 color f2 t).2 := by
  unfold depth_first_visit_impl
  simp only []
  have h3 := h.discover_vertex u _ _ hR
  have h4 := h.func u _ _ h3
  rw [h4.1]
  exact depth_first_visit_loop_sim g h _ _ _ _ _ _ _ h4.2

/-- Once `not_a_dag` is thrown the search gives no output. -/
theorem topo_search_none (g : View) :
    ∀ (roots : List Nat) (color : ColorMap),
      (depth_first_search_loop g topo_sort_visitor roots color none).2 = none := by
  intro roots
  induction roots with
  | nil => intro color; rfl
  | cons x rest ih =>
    intro color
    rw [depth_first_search_loop]
    split_ifs
    · simp only [topo_visitor_start]
      have : (depth_first_visit_impl g x topo_sort_visitor color nontruth2 none).2 = none := by
        unfold depth_first_visit_impl
        exact topo_loop_none g _ _ _ _ _
      generalize depth_first_visit_impl g x topo_sort_visitor color nontruth2 none = r at this
      obtain ⟨c, s⟩ := r
      simp only at this
      subst this
      exact ih c
    · exact ih color

/-- The search of `topological_sort` over the roots: `not_a_dag` is thrown
only on a cycle; otherwise the output is in order and the colours are those of
complete visits from the roots. -/
theorem topo_search_spec (g : View) (hwf : g.WF) :
    ∀ (roots prev : List Nat) (color : ColorMap) (L : List Nat),
      (∀ x ∈ roots, x ∈ g.vertices) → ColorsOf g prev color → TopoInv g color L →
      ((depth_first_search_loop g topo_sort_visitor roots color (some L)).2 = none
          ∧ g.Cyclic)
      ∨ ∃ L2 prev2, (depth_first_search_loop g topo_sort_visitor roots color (some L)).2
            = some L2
          ∧ TopoInv g (depth_first_search_loop g topo_sort_visitor roots color (some L)).1 L2
          ∧ ColorsOf g prev2 (depth_first_search_loop g topo_sort_visitor roots color
            (some L)).1
          ∧ (∀ x, x ∈ prev2 ↔ x ∈ roots ∨ x ∈ prev) := by
  intro roots
  induction roots with
  | nil =>
    intro prev color L _ hc hinv
    exact Or.inr ⟨L, prev, rfl, hinv, hc, by simp⟩
  | cons x rest ih =>
    intro prev color L hmem hc hinv
    have hx : x ∈ g.vertices := hmem x (List.mem_cons_self _ _)
    have hrest : ∀ y ∈ rest, y ∈ g.vertices := fun y hy => hmem y (List.mem_cons_of_mem _ hy)
    have hpost : ∀ (c1 : ColorMap) (L1 : List Nat),
        TopoInv g c1 L1 → ColorsOf g (x :: prev) c1 →
        ((depth_first_search_loop g topo_sort_visitor rest c1 (some L1)).2 = none ∧ g.Cyclic)
        ∨ ∃ L2 prev2, (depth_first_search_loop g topo_sort_visitor rest c1 (some L1)).2
              = some L2
            ∧ TopoInv g (depth_first_search_loop g topo_sort_visitor rest c1 (some L1)).1 L2
            ∧ ColorsOf g prev2 (depth_first_search_loop g topo_sort_visitor rest c1
              (some L1)).1
            ∧ (∀ y, y ∈ prev2 ↔ y ∈ x :: rest ∨ y ∈ prev) := by
      intro c1 L1 h2 h3
      rcases ih (x :: prev) c1 L1 hrest h3 h2 with h | ⟨L2, prev2, h4, h5, h6, h7⟩
      · exact Or.inl h
      · refine Or.inr ⟨L2, prev2, h4, h5, h6, ?_⟩
        intro y
        rw [h7 y]
        simp only [List.mem_cons]
        tauto
    rw [depth_first_search_loop]
    by_cases hw : color x = white_color
    · rw [if_pos hw]
      simp only [topo_visitor_start]
      obtain ⟨D, -, -, -, hcol⟩ := dfs_from_visited g vertex_recorder
        vertex_recorder_quiet hwf prev x color [] hc hx hw
      have hsim := (depth_first_visit_impl_sim g
        (dfsSim_nontruth2 topo_sort_visitor vertex_recorder) x color (some L) [] trivial).1
      rw [← hsim] at hcol
      have hng : ∀ v, color v ≠ gray_color := fun v => (hc v).2
      have hloop := topo_loop_spec g (dfs_fuel g) x (g.out_edges x) []
        (put color x gray_color) L (hinv.discover hw) (by simp [put])
        (by
          intro v hv
          unfold put at hv
          by_cases hvx : v = x
          · exact Or.inl hvx
          · rw [if_neg hvx] at hv; exact absurd hv (hng v))
        (by simp) (by simp) (fun e he => he) (fun e he => Or.inl he) trivial
      have himpl : depth_first_visit_impl g x topo_sort_visitor color nontruth2 (some L)
          = depth_first_visit_loop g topo_sort_visitor nontruth2 (dfs_fuel g) x
            (g.out_edges x) [] (put color x gray_color) (some L) := rfl
      rw [← himpl] at hloop
      rcases hloop with ⟨h1, h2⟩ | ⟨L1, h1, h2⟩
      · left
        refine ⟨?_, h2⟩
        generalize depth_first_visit_impl g x topo_sort_visitor color nontruth2 (some L) = r
          at h1
        obtain ⟨c, s⟩ := r
        simp only at h1
        subst h1
        exact topo_search_none g rest c
      · generalize depth_first_visit_impl g x topo_sort_visitor color nontruth2 (some L) = r
          at h1 h2 hcol
        obtain ⟨c, s⟩ := r
        simp only at h1 h2 hcol
        subst h1
        exact hpost c L1 h2 hcol
    · rw [if_neg hw]
      exact hpost color L hinv (hc.skip x hw).2

/-- In a list without repetition, what stands before has the smaller index. -/
theorem indexOf_lt_of_sublist : ∀ (L : List Nat) (y x : Nat), L.Nodup → [y, x].Sublist L →
    L.indexOf y < L.indexOf x := by
  intro L
  induction L with
  | nil => intro y x _ h; cases h
  | cons a l ih =>
    intro y x hnd h
    have hal : a ∉ l := (List.nodup_cons.1 hnd).1
    have hl : l.Nodup := (List.nodup_cons.1 hnd).2
    have hxl : x ∈ l := by
      cases h with
      | cons _ h2 => exact h2.subset (by simp)
      | cons₂ _ h2 => exact h2.subset (by simp)
    have hxa : x ≠ a := fun h3 => hal (h3 ▸ hxl)
    rw [List.indexOf_cons_ne _ (Ne.symm hxa)]
    by_cases hya : y = a
    · subst hya
      rw [List.indexOf_cons_self]
      omega
    · rw [List.indexOf_cons_ne _ (Ne.symm hya)]
      cases h with
      | cons _ h2 => have := ih y x hl h2; omega
      | cons₂ _ h2 => exact absurd rfl hya

/-- An output in order rules out a cycle. -/
theorem finish_order_acyclic (g : View) (L : List Nat) (hnd : L.Nodup)
    (hsrc : ∀ v w, g.adj v w → v ∈ L)
    (hord : ∀ x ∈ L, ∀ e ∈ g.out_edges x, [e.target, x].Sublist L) : ¬ g.Cyclic := by
  have hstep : ∀ v w, g.adj v w → L.indexOf w < L.indexOf v := by
    intro v w hvw
    have hv := hsrc v w hvw
    obtain ⟨e, he, het⟩ := hvw
    have := hord v hv e he
    rw [het] at this
    exact indexOf_lt_of_sublist L w v hnd this
  have htrans : ∀ v w, Relation.TransGen g.adj v w → L.indexOf w < L.indexOf v := by
    intro v w h
    induction h with
    | single h1 => exact hstep _ _ h1
    | tail _ h2 ih => have := hstep _ _ h2; omega
  rintro ⟨v, hv⟩
  exact absurd (htrans v v hv) (lt_irrefl _)

/-- Boost `topological_sort` on fresh colours: `not_a_dag` on a cycle, or the
vertices in finish order, each once, every out-edge leading backwards. -/
theorem topological_sort_spec (g : View) (hwf : g.WF) :
    (topological_sort g ColorMap.empty = none ∧ g.Cyclic)
    ∨ ∃ L, topological_sort g ColorMap.empty = some L ∧ L.Nodup
        ∧ (∀ v, v ∈ L ↔ v ∈ g.vertices)
        ∧ (∀ x ∈ L, ∀ e ∈ g.out_edges x, [e.target, x].Sublist L) := by
  unfold topological_sort depth_first_search
  have hwhite := whiten_white g.vertices ColorMap.empty (fun _ => rfl)
  have hc := ColorsOf.of_white g _ hwhite
  have hinv : TopoInv g (g.vertices.foldl (fun c u => put c u white_color) ColorMap.empty)
      [] := by
    refine ⟨List.nodup_nil, ?_, ?_⟩
    · intro v; rw [hwhite v]; simp
    · intro x hx; cases hx
  rcases topo_search_spec g hwf g.vertices [] _ [] (fun x hx => hx) hc hinv with
    h | ⟨L, prev2, h1, h2, h3, h4⟩
  · exact Or.inl h
  · refine Or.inr ⟨L, h1, h2.nodup, ?_, h2.order⟩
    intro v
    rw [← h2.black v, (h3 v).1]
    constructor
    · rintro ⟨p, hp, hr⟩
      have hpv : p ∈ g.vertices := by
        rcases (h4 p).1 hp with h | h
        · exact h
        · cases h
      exact reach_mem_vertices hwf hpv hr
    · intro hv
      exact ⟨v, (h4 v).2 (Or.inl hv), Relation.ReflTransGen.refl⟩

/-- Pushing one by one appends. -/
theorem foldl_push (l : List Nat) : ∀ ary : List Nat,
    l.foldl (fun ary v => ary ++ [v]) ary = ary ++ l := by
  induction l with
  | nil => intro ary; simp
  | cons x l ih => intro ary; rw [List.foldl_cons, ih]; simp

/-- A step of the stored graph starts at a vertex. -/
theorem direct_adj_source (g : RubyGraph) (hwf : g.WF) (v w : Nat)
    (h : (direct_graph g).adj v w) : v ∈ g.vertices := by
  obtain ⟨e, he, -⟩ := h
  have he2 : e ∈ g.edges.filter (fun e => e.source = v) := he
  rw [List.mem_filter] at he2
  have := (hwf.2 e he2.1).1
  simpa using (by simpa using he2.2 : e.source = v) ▸ this

/-- The method `topological_sort` in full: the error on a cycle, the array
untouched by any vertex; or the vertices, each once, sources before targets. -/
theorem graph_topological_sort_spec (g : RubyGraph) (hwf : g.WF) (argv : Option (List Nat)) :
    ((graph_topological_sort g argv).outcome = Except.error "the graph is not a DAG"
        ∧ (graph_topological_sort g argv).argument = argv.map (fun _ => [])
        ∧ (direct_graph g).Cyclic)
    ∨ ∃ result, (graph_topological_sort g argv).outcome = Except.ok result
        ∧ (graph_topological_sort g argv).argument = argv.map (fun _ => result)
        ∧ ¬ (direct_graph g).Cyclic
        ∧ result.Nodup ∧ (∀ v, v ∈ result ↔ v ∈ g.vertices)
        ∧ (∀ e ∈ g.edges, result.indexOf e.source < result.indexOf e.target) := by
  unfold graph_topological_sort
  rcases topological_sort_spec (direct_graph g) (direct_graph_wf g hwf) with
    ⟨h1, h2⟩ | ⟨L, h1, h2, h3, h4⟩
  · left
    rw [h1]
    exact ⟨rfl, rfl, h2⟩
  · right
    rw [h1]
    simp only [foldl_push, List.nil_append]
    refine ⟨L.reverse, rfl, rfl, ?_, List.nodup_reverse.2 h2, ?_, ?_⟩
    · apply finish_order_acyclic (direct_graph g) L h2 _ h4
      intro v w hvw
      exact (h3 v).2 (direct_adj_source g hwf v w hvw)
    · intro v; rw [List.mem_reverse]; exact h3 v
    · intro e he
      have hsrc : e.source ∈ L := (h3 _).2 (hwf.2 e he).1
      have hout : e ∈ (direct_graph g).out_edges e.source := by
        show e ∈ g.edges.filter (fun e2 => e2.source = e.source)
        rw [List.mem_filter]; exact ⟨he, by simp⟩
      have hsub := (h4 e.source hsrc e hout).reverse
      exact indexOf_lt_of_sublist _ _ _ (List.nodup_reverse.2 h2) hsub

/-- The path graph has no cycle. -/
theorem pathGraph_acyclic : ¬ (direct_graph pathGraph).Cyclic := by
  apply finish_order_acyclic (direct_graph pathGraph) [4, 3, 2, 1] (by decide)
  · intro v w h
    have := direct_adj_source pathGraph (by decide) v w h
    simp only [pathGraph, List.mem_cons, List.mem_singleton, List.mem_nil_iff, or_false] at this ⊢
    omega
  · decide

/-- C13: for every well-formed graph without a directed cycle,
`topological_sort()` returns a sequence that holds every vertex of the graph
exactly once and in which, for every edge (u, v), the index of `u` is smaller
than the index of `v`. -/
theorem topological_sort_dag (g : RubyGraph) (hwf : g.WF)
    (hdag : ¬ (direct_graph g).Cyclic) (argv : Option (List Nat)) :
    ∃ result, (graph_topological_sort g argv).outcome = Except.ok result
      ∧ result.Nodup ∧ (∀ v, v ∈ result ↔ v ∈ g.vertices)
      ∧ (∀ e ∈ g.edges, result.indexOf e.source < result.indexOf e.target) := by
  rcases graph_topological_sort_spec g hwf argv with ⟨-, -, h⟩ | ⟨result, h1, -, -, h2, h3, h4⟩
  · exact absurd h hdag
  · exact ⟨result, h1, h2, h3, h4⟩

/-- Witness of C13: the path graph A->B->C->D yields [A, B, C, D]. -/
theorem topological_sort_dag_witness :
    (graph_topological_sort pathGraph none).outcome = Except.ok [1, 2, 3, 4]
    ∧ ∃ result, (graph_topological_sort pathGraph none).outcome = Except.ok result
      ∧ result.Nodup ∧ (∀ v, v ∈ result ↔ v ∈ pathGraph.vertices)
      ∧ (∀ e ∈ pathGraph.edges, result.indexOf e.source < result.indexOf e.target) :=
  ⟨rfl, topological_sort_dag pathGraph (by decide) pathGraph_acyclic none⟩

/-- C14: for every well-formed graph, `topological_sort()` fails with the
not-a-DAG error exactly when the graph has a directed cycle, a self-loop
included; and when it fails no vertex has been appended: an array given by the
caller is empty afterwards. -/
theorem topological_sort_cycle (g : RubyGraph) (hwf : g.WF) (argv : Option (List Nat)) :
    ((graph_topological_sort g argv).outcome = Except.error "the graph is not a DAG"
      ↔ (direct_graph g).Cyclic)
    ∧ ((graph_topological_sort g argv).outcome = Except.error "the graph is not a DAG" →
      (graph_topological_sort g argv).argument = argv.map (fun _ => [])) := by
  rcases graph_topological_sort_spec g hwf argv with ⟨h1, h2, h3⟩ | ⟨result, h1, -, h3, -⟩
  · exact ⟨⟨fun _ => h3, fun _ => h1⟩, fun _ => h2⟩
  · rw [h1]
    refine ⟨⟨fun h => ?_, fun h => absurd h h3⟩, fun h => ?_⟩ <;> cases h

/-- Witness of C14: A->B->C->A fails and leaves the array of the caller
empty; the self-loop fails as well. -/
theorem topological_sort_cycle_witness :
    (graph_topological_sort triangleGraph (some [7, 8])).outcome
        = Except.error "the graph is not a DAG"
    ∧ (graph_topological_sort triangleGraph (some [7, 8])).argument = some []
    ∧ (direct_graph triangleGraph).Cyclic
    ∧ (graph_topological_sort loopGraph none).outcome = Except.error "the graph is not a DAG" :=
  ⟨rfl, by decide,
    ((topological_sort_cycle triangleGraph (by decide) (some [7, 8])).1).1 rfl,
    ((topological_sort_cycle loopGraph (by decide) none).1).2
      ⟨1, Relation.TransGen.single ⟨mkEdge 0 1 1, by decide, rfl⟩⟩⟩

/-! ## Walks with a terminator come to an end -/

/-- No walk paints a vertex white: what is not white stays so. -/
theorem depth_first_visit_loop_nonwhite {σ : Type} (g : View) (vis : DFSVisitor σ)
    (func : Nat → σ → Bool × σ) (x : Nat) :
    ∀ (fuel u : Nat) (es : List Edge) (stack : List (Nat × List Edge)) (color : ColorMap)
      (s : σ), color x ≠ white_color →
      (depth_first_visit_loop g vis func fuel u es stack color s).1 x ≠ white_color := by
  intro fuel
  induction fuel with
  | zero => intro u es stack color s h; exact h
  | succ n ih =>
    intro u es stack color s h
    cases es with
    | nil =>
      cases stack with
      | nil =>
        simp only [depth_first_visit_loop]
        exact put_ne_white (by decide) h
      | cons f rest =>
        simp only [depth_first_visit_loop]
        exact ih _ _ _ _ _ (put_ne_white (by decide) h)
    | cons e ei =>
      simp only [depth_first_visit_loop]
      cases hv : color e.target with
      | white_color => exact ih _ _ _ _ _ (put_ne_white (by decide) h)
      | gray_color => exact ih _ _ _ _ _ h
      | black_color => exact ih _ _ _ _ _ h

/-- With the fuel of the model a walk ends with its stack empty, whatever the
visitor and the terminator do: no vertex is gray at the end. -/
theorem depth_first_visit_loop_no_gray {σ : Type} (g : View) (vis : DFSVisitor σ)
    (func : Nat → σ → Bool × σ) (hwf : g.WF) :
    ∀ (fuel u : Nat) (es : List Edge) (stack : List (Nat × List Edge)) (color : ColorMap)
      (s : σ), wsum g color g.vertices + es.length + 1 + stackWeight stack ≤ fuel →
      (∀ e ∈ es, e.target ∈ g.vertices) →
      (∀ f ∈ stack, ∀ e ∈ f.2, e.target ∈ g.vertices) →
      (∀ v, color v = gray_color → v = u ∨ v ∈ stack.map Prod.fst) →
      ∀ v, (depth_first_visit_loop g vis func fuel u es stack color s).1 v ≠ gray_color := by
  intro fuel
  induction fuel with
  | zero => intro u es stack color s h; omega
  | succ n ih =>
    intro u es stack color s hfuel hes hst hgray
    cases es with
    | nil =>
      have hgray2 : ∀ v, put color u black_color v = gray_color → v ∈ stack.map Prod.fst := by
        intro v hv
        unfold put at hv
        by_cases hvu : v = u
        · rw [if_pos hvu] at hv; cases hv
        · rw [if_neg hvu] at hv
          rcases hgray v hv with h | h
          · exact absurd h hvu
          · exact h
      cases stack with
      | nil =>
        simp only [depth_first_visit_loop]
        intro v hv
        have := hgray2 v hv
        simp at this
      | cons f rest =>
        simp only [depth_first_visit_loop]
        have hfuel2 : wsum g (put color u black_color) g.vertices + f.2.length + 1
            + stackWeight rest ≤ n := by
          have := wsum_put_le g color u black_color (by decide) g.vertices
          simp only [stackWeight, List.length_nil] at hfuel
          omega
        apply ih _ _ _ _ _ hfuel2
          (fun e he => hst f (List.mem_cons_self _ _) e he)
          (fun f2 hf2 e he => hst f2 (List.mem_cons_of_mem _ hf2) e he)
        intro v hv
        have := hgray2 v hv
        simpa using this
    | cons e ei =>
      simp only [depth_first_visit_loop]
      cases hc : color e.target with
      | white_color =>
        simp only []
        have hv : e.target ∈ g.vertices := hes e (List.mem_cons_self _ _)
        have hlen : (if (func e.target (vis.discover_vertex e.target
            (vis.tree_edge e (vis.examine_edge e s)))).1 = true then []
            else g.out_edges e.target).length ≤ (g.out_edges e.target).length := by
          split_ifs <;> simp
        have hfuel2 : wsum g (put color e.target gray_color) g.vertices
            + (if (func e.target (vis.discover_vertex e.target
                (vis.tree_edge e (vis.examine_edge e s)))).1 = true then []
                else g.out_edges e.target).length + 1
            + stackWeight ((u, ei) :: stack) ≤ n := by
          have := wsum_put_lt g color e.target gray_color (by decide) g.vertices hv hc
          simp only [stackWeight, List.length_cons] at hfuel ⊢
          omega
        apply ih _ _ _ _ _ hfuel2
        · intro e2 he2
          split_ifs at he2
          · cases he2
          · exact hwf.2 e.target hv e2 he2
        · intro f hf e2 he2
          rcases List.mem_cons.1 hf with h | h
          · subst h; exact hes e2 (List.mem_cons_of_mem _ he2)
          · exact hst f h e2 he2
        · intro v hvg
          unfold put at hvg
          by_cases hve : v = e.target
          · exact Or.inl hve
          · rw [if_neg hve] at hvg
            right
            rcases hgray v hvg with h | h
            · simp [h]
            · simp only [List.map_cons, List.mem_cons]; exact Or.inr h
      | gray_color =>
        have hfuel2 : wsum g color g.vertices + ei.length + 1 + stackWeight stack ≤ n := by
          simp only [List.length_cons] at hfuel
          omega
        exact ih _ _ _ _ _ hfuel2 (fun e2 he2 => hes e2 (List.mem_cons_of_mem _ he2)) hst hgray
      | black_color =>
        have hfuel2 : wsum g color g.vertices + ei.length + 1 + stackWeight stack ≤ n := by
          simp only [List.length_cons] at hfuel
          omega
        exact ih _ _ _ _ _ hfuel2 (fun e2 he2 => hes e2 (List.mem_cons_of_mem _ he2)) hst hgray

/-- A visit with a terminator from fresh colours leaves no vertex gray and
its start vertex black. -/
theorem depth_first_visit_term_no_gray {σ : Type} (g : View) (vis : DFSVisitor σ)
    (func : Nat → σ → Bool × σ) (hwf : g.WF) (r : Nat) (hr : r ∈ g.vertices) (s : σ) :
    ∀ v, (depth_first_visit_term g r vis ColorMap.empty func s).1 v ≠ gray_color := by
  unfold depth_first_visit_term depth_first_visit_impl
  simp only []
  have hlen : (if (func r (vis.discover_vertex r (vis.start_vertex r s))).1 = true then []
      else g.out_edges r).length ≤ (g.out_edges r).length := by
    split_ifs <;> simp
  apply depth_first_visit_loop_no_gray g vis func hwf
  · have h1 := wsum_put_lt g ColorMap.empty r gray_color (by decide) g.vertices hr rfl
    have h2 := wsum_le_fuel g ColorMap.empty g.vertices
    simp only [stackWeight, dfs_fuel]
    omega
  · intro e he
    split_ifs at he
    · cases he
    · exact hwf.2 r hr e he
  · simp
  · intro v hv
    unfold put ColorMap.empty at hv
    by_cases hvr : v = r
    · exact Or.inl hvr
    · rw [if_neg hvr] at hv; cases hv

/-! ## The events of `each_dfs` and their sources -/

theorem ruby_visitor_examine {β : Type} (m : Nat) (b : Block β) (e : Edge) (s : Thread β) :
    (ruby_dfs_visitor m b).examine_edge e s = s := rfl

theorem ruby_visitor_discover {β : Type} (m : Nat) (b : Block β) (v : Nat) (s : Thread β) :
    (ruby_dfs_visitor m b).discover_vertex v s = s := rfl

theorem ruby_visitor_finish {β : Type} (m : Nat) (b : Block β) (v : Nat) (s : Thread β) :
    (ruby_dfs_visitor m b).finish_vertex v s = s := rfl

theorem ruby_visitor_start {β : Type} (m : Nat) (b : Block β) (v : Nat) (s : Thread β) :
    (ruby_dfs_visitor m b).start_vertex v s = s := rfl

theorem ruby_visitor_tree {β : Type} (m : Nat) (b : Block β) (e : Edge) (s : Thread β) :
    (ruby_dfs_visitor m b).tree_edge e s = yield_edge m b e VISIT_TREE_EDGES s := rfl

theorem ruby_visitor_back {β : Type} (m : Nat) (b : Block β) (e : Edge) (s : Thread β) :
    (ruby_dfs_visitor m b).back_edge e s = yield_edge m b e VISIT_BACK_EDGES s := rfl

theorem ruby_visitor_forward {β : Type} (m : Nat) (b : Block β) (e : Edge) (s : Thread β) :
    (ruby_dfs_visitor m b).forward_or_cross_edge e s
      = yield_edge m b e VISIT_FORWARD_OR_CROSS_EDGES s := rfl

/-- What `yield_edge` leaves with a recording block: nothing new, or the event
at the end of the record, and `@prune` set if the block pruned. -/
theorem yield_edge_record (m : Nat) (p : List Yield → Yield → Bool) (e : Edge) (what : Nat)
    (s : Thread (List Yield)) :
    ∃ pre, (yield_edge m (record_block p) e what s).user = s.user ++ pre
      ∧ ((pre = [] ∧ what &&& m = 0 ∧ yield_edge m (record_block p) e what s = s)
        ∨ (pre = [{ source := e.source, target := e.target, info := e.payload, kind := what }]
          ∧ what &&& m ≠ 0
          ∧ (yield_edge m (record_block p) e what s).prune
            = (s.prune || p s.user
              { source := e.source, target := e.target, info := e.payload, kind := what }))) := by
  unfold yield_edge
  by_cases h : what &&& m = 0
  · exact ⟨[], by simp [h], Or.inl ⟨rfl, h, by simp [h]⟩⟩
  · refine ⟨[{ source := e.source, target := e.target, info := e.payload, kind := what }],
      ?_, Or.inr ⟨rfl, h, ?_⟩⟩
    · rw [if_neg h]; unfold record_block graph_prune; split_ifs <;> rfl
    · rw [if_neg h]; unfold record_block graph_prune
      split_ifs with h2
      · simp [h2]
      · simp [h2]

/-- What `yield_edge` leaves with a recording block, the event being named. -/
theorem yield_edge_record_event (m : Nat) (p : List Yield → Yield → Bool) (e : Edge)
    (what : Nat) (s : Thread (List Yield)) :
    ∃ pre y0, y0.source = e.source ∧ y0.target = e.target ∧ y0.kind = what
      ∧ y0.info = e.payload
      ∧ (yield_edge m (record_block p) e what s).user = s.user ++ pre
      ∧ ((pre = [] ∧ what &&& m = 0 ∧ yield_edge m (record_block p) e what s = s)
        ∨ (pre = [y0] ∧ what &&& m ≠ 0
          ∧ (yield_edge m (record_block p) e what s).prune = (s.prune || p s.user y0))) := by
  obtain ⟨pre, h1, h2⟩ := yield_edge_record m p e what s
  exact ⟨pre, _, rfl, rfl, rfl, rfl, h1, h2⟩

/-- The terminator of `each_dfs` leaves the record of the block as it is. -/
theorem search_terminator_user {β : Type} (u : Nat) (s : Thread β) :
    (search_terminator u s).2.user = s.user ∧ (search_terminator u s).1 = s.prune := by
  unfold search_terminator
  cases h : s.prune <;> simp [h]

/-- A path through sources of events stays one when events are added. -/
theorem ReachVia.via_mono {g : View} {Y Y2 : List Yield} (h : ∀ z ∈ Y, z ∈ Y2) {a b : Nat}
    (hr : ReachVia g Y a b) : ReachVia g Y2 a b := by
  unfold ReachVia at hr ⊢
  refine Relation.ReflTransGen.mono ?_ hr
  rintro x y ⟨h1, z, hz, h2⟩
  exact ⟨h1, z, h z hz, h2⟩

/-- Where an event stands in a record that begins with at most one event. -/
theorem split_pre {y0 : Yield} {pre N A B : List Yield} {y : Yield}
    (hpre : pre = [] ∨ pre = [y0]) (h : pre ++ N = A ++ y :: B) :
    (∃ A2, A = pre ++ A2 ∧ N = A2 ++ y :: B) ∨ (pre = [y0] ∧ A = [] ∧ y = y0 ∧ B = N) := by
  rcases hpre with rfl | rfl
  · exact Or.inl ⟨A, rfl, h⟩
  · cases A with
    | nil =>
      simp only [List.singleton_append, List.nil_append, List.cons.injEq] at h
      exact Or.inr ⟨rfl, rfl, h.1.symm, h.2.symm⟩
    | cons a A2 =>
      simp only [List.singleton_append, List.cons_append, List.cons.injEq] at h
      exact Or.inl ⟨A2, by rw [h.1]; rfl, h.2⟩

/-- The events of a walk after a back or a forward-or-cross edge. -/
theorem SourcesPost.sources_non_tree {g : View} {m : Nat} {p : List Yield → Yield → Bool}
    {r u : Nat} {e : Edge} {ei : List Edge} {stack : List (Nat × List Edge)}
    {color : ColorMap} {Y Y2 : List Yield} {res : ColorMap × Thread (List Yield)}
    {N pre : List Yield} {y0 : Yield}
    (hpost : SourcesPost g m p r u ei stack color Y2 res N)
    (hY : Y2 = Y ++ pre) (hpre : pre = [] ∨ pre = [y0])
    (hmask : ∀ z ∈ pre, z.kind &&& m ≠ 0)
    (hy0 : y0.source = u) (hk : y0.kind ≠ VISIT_TREE_EDGES) (hcu : color u ≠ white_color) :
    SourcesPost g m p r u (e :: ei) stack color Y res (pre ++ N) := by
  have hmem : ∀ z ∈ pre, z = y0 := by
    intro z hz
    rcases hpre with h | h
    · rw [h] at hz; cases hz
    · rw [h] at hz; simpa using hz
  subst hY
  constructor
  · rw [hpost.user, List.append_assoc]
  · intro z hz
    rcases List.mem_append.1 hz with h | h
    · rw [hmem z h]; exact Or.inl ⟨hy0, by simp⟩
    · rcases hpost.source z h with h2 | h2 | h2
      · exact Or.inl ⟨h2.1, by simp⟩
      · exact Or.inr (Or.inl h2)
      · exact Or.inr (Or.inr h2)
  · intro A y B hsplit hkind hp
    rcases split_pre hpre hsplit with ⟨A2, hA, hN⟩ | ⟨-, -, hy, -⟩
    · subst hA
      have h1 := hpost.pruned A2 y B hN hkind (by rw [List.append_assoc]; exact hp)
      have hyN : y ∈ N := by rw [hN]; simp
      have hw := hpost.tree_white y hyN hkind
      intro z hz
      rcases List.mem_append.1 hz with h | h
      · rw [hmem z h, hy0]
        intro h2; rw [h2] at hcu; exact hcu hw
      · exact h1 z h
    · rw [hy] at hkind; exact absurd hkind hk
  · intro y hy hkind
    rcases List.mem_append.1 hy with h | h
    · rw [hmem y h] at hkind; exact absurd hkind hk
    · exact hpost.tree_white y h hkind
  · intro y hy hkind
    rcases List.mem_append.1 hy with h | h
    · rw [hmem y h] at hkind; exact absurd hkind hk
    · exact hpost.tree_visited y h hkind
  · intro z hz
    rcases List.mem_append.1 hz with h | h
    · exact hmask z h
    · exact hpost.masked z h
  · intro hm hvu hvst z hz
    rcases List.mem_append.1 hz with h | h
    · rw [hmem z h, hy0]
      exact hvu.via_mono (fun z hz => List.mem_append_left _ hz)
    · have := hpost.via hm (hvu.via_mono (fun z hz => List.mem_append_left _ hz))
        (fun f hf => (hvst f hf).via_mono (fun z hz => List.mem_append_left _ hz)) z h
      rw [List.append_assoc] at this
      exact this

/-- The events of a walk after a tree edge into `v`. -/
theorem SourcesPost.sources_tree {g : View} {m : Nat} {p : List Yield → Yield → Bool}
    {r u v : Nat} {e : Edge} {ei es2 : List Edge} {stack : List (Nat × List Edge)}
    {color : ColorMap} {Y Y2 : List Yield} {res : ColorMap × Thread (List Yield)}
    {N pre : List Yield} {y0 : Yield}
    (hpost : SourcesPost g m p r v es2 ((u, ei) :: stack) (put color v gray_color) Y2 res N)
    (hY : Y2 = Y ++ pre) (hpre : (pre = [] ∧ VISIT_TREE_EDGES &&& m = 0) ∨ pre = [y0])
    (hmask : ∀ z ∈ pre, z.kind &&& m ≠ 0)
    (hy0 : y0.source = u) (hy1 : y0.target = v) (hcv : color v = white_color)
    (hcu : color u ≠ white_color) (hst : ∀ f ∈ stack, color f.1 ≠ white_color)
    (hadj : g.adj u v) (hprune : pre = [y0] → p Y y0 = true → es2 = [])
    (hres : res.1 v ≠ white_color) :
    SourcesPost g m p r u (e :: ei) stack color Y res (pre ++ N) := by
  have hpre2 : pre = [] ∨ pre = [y0] := by
    rcases hpre with h | h
    · exact Or.inl h.1
    · exact Or.inr h
  have hmem : ∀ z ∈ pre, z = y0 := by
    intro z hz
    rcases hpre2 with h | h
    · rw [h] at hz; cases hz
    · rw [h] at hz; simpa using hz
  have hvu : u ≠ v := by
    intro h; rw [h] at hcu; exact hcu hcv
  have hwhite : ∀ x, put color v gray_color x = white_color → color x = white_color ∧ x ≠ v := by
    intro x hx
    refine ⟨put_white_imp (by decide) x hx, ?_⟩
    intro h
    rw [h] at hx
    simp [put] at hx
  subst hY
  constructor
  · rw [hpost.user, List.append_assoc]
  · intro z hz
    rcases List.mem_append.1 hz with h | h
    · rw [hmem z h]; exact Or.inl ⟨hy0, by simp⟩
    · rcases hpost.source z h with h2 | h2 | h2
      · exact Or.inr (Or.inr (by rw [h2.1]; exact hcv))
      · simp only [List.map_cons, List.mem_cons] at h2
        rcases h2 with h2 | h2
        · exact Or.inl ⟨h2, by simp⟩
        · exact Or.inr (Or.inl h2)
      · exact Or.inr (Or.inr (hwhite _ h2).1)
  · intro A y B hsplit hkind hp
    rcases split_pre hpre2 hsplit with ⟨A2, hA, hN⟩ | ⟨hp0, hA, hy, hB⟩
    · subst hA
      have h1 := hpost.pruned A2 y B hN hkind (by rw [List.append_assoc]; exact hp)
      have hyN : y ∈ N := by rw [hN]; simp
      have hw := (hwhite _ (hpost.tree_white y hyN hkind)).1
      intro z hz
      rcases List.mem_append.1 hz with h | h
      · rw [hmem z h, hy0]
        intro h2; rw [h2] at hcu; exact hcu hw
      · exact h1 z h
    · subst hA hy hB
      simp only [List.append_nil] at hp
      have hes2 := hprune hp0 hp
      intro z hz0
      rw [hy1]
      rcases List.mem_append.1 hz0 with hz | hz
      · rw [hmem z hz, hy0]; exact hvu
      rcases hpost.source z hz with h2 | h2 | h2
      · exact absurd hes2 h2.2
      · simp only [List.map_cons, List.mem_cons] at h2
        rcases h2 with h2 | h2
        · rw [h2]; exact hvu
        · obtain ⟨f, hf, hfe⟩ := List.mem_map.1 h2
          intro h3
          have := hst f hf
          rw [hfe, h3] at this
          exact this hcv
      · exact (hwhite _ h2).2
  · intro y hy hkind
    rcases List.mem_append.1 hy with h | h
    · rw [hmem y h, hy1]; exact hcv
    · exact (hwhite _ (hpost.tree_white y h hkind)).1
  · intro y hy hkind
    rcases List.mem_append.1 hy with h | h
    · rw [hmem y h, hy1]; exact hres
    · exact hpost.tree_visited y h hkind
  · intro z hz
    rcases List.mem_append.1 hz with h | h
    · exact hmask z h
    · exact hpost.masked z h
  · intro hm hviau hvst z hz
    have hp0 : pre = [y0] := by
      rcases hpre with h | h
      · exact absurd h.2 hm
      · exact h
    have hu2 : ReachVia g (Y ++ pre) r u :=
      hviau.via_mono (fun z hz => List.mem_append_left _ hz)
    have hv2 : ReachVia g (Y ++ pre) r v :=
      Relation.ReflTransGen.tail hu2 ⟨hadj, y0, by rw [hp0]; simp, hy0⟩
    rcases List.mem_append.1 hz with h | h
    · rw [hmem z h, hy0]
      exact hviau.via_mono (fun z hz => List.mem_append_left _ hz)
    · have := hpost.via hm hv2 (by
        intro f hf
        rcases List.mem_cons.1 hf with h3 | h3
        · rw [h3]; exact hu2
        · exact (hvst f h3).via_mono (fun z hz => List.mem_append_left _ hz)) z h
      rw [List.append_assoc] at this
      exact this

/-- The events of a walk after a vertex is finished and the frame below it
is taken up again. -/
theorem SourcesPost.sources_pop {g : View} {m : Nat} {p : List Yield → Yield → Bool}
    {r u : Nat} {f : Nat × List Edge} {rest : List (Nat × List Edge)}
    {color : ColorMap} {Y : List Yield} {res : ColorMap × Thread (List Yield)}
    {N : List Yield}
    (hpost : SourcesPost g m p r f.1 f.2 rest (put color u black_color) Y res N) :
    SourcesPost g m p r u [] (f :: rest) color Y res N := by
  constructor
  · exact hpost.user
  · intro z hz
    rcases hpost.source z hz with h2 | h2 | h2
    · exact Or.inr (Or.inl (by rw [h2.1]; simp))
    · exact Or.inr (Or.inl (by simp only [List.map_cons, List.mem_cons]; exact Or.inr h2))
    · exact Or.inr (Or.inr (put_white_imp (by decide) _ h2))
  · exact hpost.pruned
  · intro y hy hkind
    exact put_white_imp (by decide) _ (hpost.tree_white y hy hkind)
  · exact hpost.tree_visited
  · exact hpost.masked
  · intro hm hviau hvst
    exact hpost.via hm (hvst f (List.mem_cons_self _ _))
      (fun f2 hf2 => hvst f2 (List.mem_cons_of_mem _ hf2))

/-- The events that a walk of `each_dfs` delivers to a recording block, from
any state of the loop. -/
theorem each_dfs_loop_sources (g : View) (hs : g.Sourced) (m : Nat)
    (p : List Yield → Yield → Bool) (r : Nat) :
    ∀ (fuel u : Nat) (es : List Edge) (stack : List (Nat × List Edge)) (color : ColorMap)
      (s : Thread (List Yield)), color u ≠ white_color →
      (∀ f ∈ stack, color f.1 ≠ white_color) → (∀ e ∈ es, e ∈ g.out_edges u) →
      (∀ f ∈ stack, ∀ e ∈ f.2, e ∈ g.out_edges f.1) →
      ∃ N, SourcesPost g m p r u es stack color s.user
        (depth_first_visit_loop g (ruby_dfs_visitor m (record_block p)) search_terminator
          fuel u es stack color s) N := by
  intro fuel
  induction fuel with
  | zero =>
    intro u es stack color s _ _ _ _
    refine ⟨[], ?_⟩
    constructor
    · simp [depth_first_visit_loop]
    · intro z hz; cases hz
    · intro A y B h; simp at h
    · intro y hy; cases hy
    · intro y hy; cases hy
    · intro z hz; cases hz
    · intro _ _ _ z hz; cases hz
  | succ n ih =>
    intro u es stack color s hcu hst hsub hfr
    cases es with
    | nil =>
      cases stack with
      | nil =>
        refine ⟨[], ?_⟩
        constructor
        · simp [depth_first_visit_loop, ruby_visitor_finish]
        · intro z hz; cases hz
        · intro A y B h; simp at h
        · intro y hy; cases hy
        · intro y hy; cases hy
        · intro z hz; cases hz
        · intro _ _ _ z hz; cases hz
      | cons f rest =>
        simp only [depth_first_visit_loop, ruby_visitor_finish]
        obtain ⟨N, hN⟩ := ih f.1 f.2 rest (put color u black_color) s
          (put_ne_white (by decide) (hst f (List.mem_cons_self _ _)))
          (fun f2 hf2 => put_ne_white (by decide) (hst f2 (List.mem_cons_of_mem _ hf2)))
          (hfr f (List.mem_cons_self _ _))
          (fun f2 hf2 => hfr f2 (List.mem_cons_of_mem _ hf2))
        exact ⟨N, hN.sources_pop⟩
    | cons e ei =>
      have he : e ∈ g.out_edges u := hsub e (List.mem_cons_self _ _)
      have hsrc : e.source = u := hs u e he
      have hsub2 : ∀ e2 ∈ ei, e2 ∈ g.out_edges u :=
        fun e2 he2 => hsub e2 (List.mem_cons_of_mem _ he2)
      simp only [depth_first_visit_loop, ruby_visitor_examine]
      cases hv : color e.target with
      | white_color =>
        simp only [ruby_visitor_tree, ruby_visitor_discover]
        obtain ⟨pre, y0, hy0s, hy0t, hy0k, -, hpu, hpre⟩ :=
          yield_edge_record_event m p e VISIT_TREE_EDGES s
        have hterm := search_terminator_user e.target
          (yield_edge m (record_block p) e VISIT_TREE_EDGES s)
        have hvu : e.target ≠ u := by
          intro h; rw [h] at hv; exact hcu hv
        obtain ⟨N, hN⟩ := ih e.target
          (if (search_terminator e.target
              (yield_edge m (record_block p) e VISIT_TREE_EDGES s)).1 = true then []
            else g.out_edges e.target)
          ((u, ei) :: stack) (put color e.target gray_color)
          (search_terminator e.target (yield_edge m (record_block p) e VISIT_TREE_EDGES s)).2
          (by simp [put])
          (by
            intro f hf
            rcases List.mem_cons.1 hf with h | h
            · subst h; exact put_ne_white (by decide) hcu
            · exact put_ne_white (by decide) (hst f h))
          (by
            intro e2 he2
            split_ifs at he2
            · cases he2
            · exact he2)
          (by
            intro f hf
            rcases List.mem_cons.1 hf with h | h
            · subst h; exact hsub2
            · exact hfr f h)
        refine ⟨pre ++ N, ?_⟩
        have hres := depth_first_visit_loop_nonwhite g
          (ruby_dfs_visitor m (record_block p)) search_terminator e.target n e.target
          (if (search_terminator e.target
              (yield_edge m (record_block p) e VISIT_TREE_EDGES s)).1 = true then []
            else g.out_edges e.target)
          ((u, ei) :: stack) (put color e.target gray_color)
          (search_terminator e.target (yield_edge m (record_block p) e VISIT_TREE_EDGES s)).2
          (by simp [put])
        have hpre2 : (pre = [] ∧ VISIT_TREE_EDGES &&& m = 0) ∨ pre = [y0] := by
          rcases hpre with h | h
          · exact Or.inl ⟨h.1, h.2.1⟩
          · exact Or.inr h.1
        have hmask : ∀ z ∈ pre, z.kind &&& m ≠ 0 := by
          intro z hz
          rcases hpre with h | h
          · rw [h.1] at hz; cases hz
          · rw [h.1] at hz
            simp only [List.mem_singleton] at hz
            rw [hz, hy0k]; exact h.2.1
        apply SourcesPost.sources_tree hN (by rw [hterm.1, hpu]) hpre2 hmask (hy0s.trans hsrc) hy0t hv
          hcu hst ⟨e, he, rfl⟩ _ hres
        intro hp0 hp
        rcases hpre with h | h
        · rw [h.1] at hp0; cases hp0
        · rw [hterm.2, h.2.2, hp]
          simp
      | gray_color =>
        simp only [ruby_visitor_back]
        obtain ⟨pre, y0, hy0s, -, hy0k, -, hpu, hpre⟩ :=
          yield_edge_record_event m p e VISIT_BACK_EDGES s
        obtain ⟨N, hN⟩ := ih u ei stack color
          (yield_edge m (record_block p) e VISIT_BACK_EDGES s) hcu hst hsub2 hfr
        refine ⟨pre ++ N, ?_⟩
        have hpre2 : pre = [] ∨ pre = [y0] := by
          rcases hpre with h | h
          · exact Or.inl h.1
          · exact Or.inr h.1
        have hmask : ∀ z ∈ pre, z.kind &&& m ≠ 0 := by
          intro z hz
          rcases hpre with h | h
          · rw [h.1] at hz; cases hz
          · rw [h.1] at hz
            simp only [List.mem_singleton] at hz
            rw [hz, hy0k]; exact h.2.1
        exact SourcesPost.sources_non_tree hN hpu hpre2 hmask (hy0s.trans hsrc)
          (by rw [hy0k]; decide) hcu
      | black_color =>
        simp only [ruby_visitor_forward]
        obtain ⟨pre, y0, hy0s, -, hy0k, -, hpu, hpre⟩ :=
          yield_edge_record_event m p e VISIT_FORWARD_OR_CROSS_EDGES s
        obtain ⟨N, hN⟩ := ih u ei stack color
          (yield_edge m (record_block p) e VISIT_FORWARD_OR_CROSS_EDGES s) hcu hst hsub2 hfr
        refine ⟨pre ++ N, ?_⟩
        have hpre2 : pre = [] ∨ pre = [y0] := by
          rcases hpre with h | h
          · exact Or.inl h.1
          · exact Or.inr h.1
        have hmask : ∀ z ∈ pre, z.kind &&& m ≠ 0 := by
          intro z hz
          rcases hpre with h | h
          · rw [h.1] at hz; cases hz
          · rw [h.1] at hz
            simp only [List.mem_singleton] at hz
            rw [hz, hy0k]; exact h.2.1
        exact SourcesPost.sources_non_tree hN hpu hpre2 hmask (hy0s.trans hsrc)
          (by rw [hy0k]; decide) hcu

/-! ## `prune` during a tree edge of `each_dfs` -/

/-- In the stored graph every out-edge of a vertex has it as its source. -/
theorem direct_graph_sourced (g : RubyGraph) : (direct_graph g).Sourced := by
  intro x e he
  have he2 : e ∈ g.edges.filter (fun e => e.source = x) := he
  rw [List.mem_filter] at he2
  simpa using he2.2

/-- The run of `each_dfs` from a vertex of the graph is the walk from it. -/
theorem each_dfs_run_eq (g : RubyGraph) (r mode : Nat) (p : List Yield → Yield → Bool)
    (hr : r ∈ g.vertices) :
    each_dfs_run g r mode p
      = depth_first_visit_loop (direct_graph g) (ruby_dfs_visitor mode (record_block p))
          search_terminator (dfs_fuel (direct_graph g)) r ((direct_graph g).out_edges r) []
          (put ColorMap.empty r gray_color) { prune := false, user := [] } := by
  have hva : r ∈ (direct_graph g).vertices := hr
  unfold each_dfs_run graph_direct_each_dfs graph_each_dfs
  simp only [rb_to_vertex, if_pos hva]
  rfl

/-- The events of a run of `each_dfs` from a vertex of the graph. -/
theorem each_dfs_run_sources (g : RubyGraph) (r mode : Nat) (p : List Yield → Yield → Bool)
    (hr : r ∈ g.vertices) :
    SourcesPost (direct_graph g) mode p r r ((direct_graph g).out_edges r) []
      (put ColorMap.empty r gray_color) [] (each_dfs_run g r mode p)
      (each_dfs_run g r mode p).2.user := by
  obtain ⟨N, hN⟩ := each_dfs_loop_sources (direct_graph g) (direct_graph_sourced g) mode p r
    (dfs_fuel (direct_graph g)) r ((direct_graph g).out_edges r) []
    (put ColorMap.empty r gray_color) { prune := false, user := [] }
    (by simp [put]) (by simp) (fun e he => he) (by simp)
  rw [each_dfs_run_eq g r mode p hr]
  have hu := hN.user
  simp only [List.nil_append] at hu
  rw [hu]
  exact hN

/-- A run of `each_dfs` on a well-formed graph leaves no vertex gray. -/
theorem each_dfs_run_no_gray (g : RubyGraph) (hwf : g.WF) (r mode : Nat)
    (p : List Yield → Yield → Bool) (hr : r ∈ g.vertices) :
    ∀ v, (each_dfs_run g r mode p).1 v ≠ gray_color := by
  have hva : r ∈ (direct_graph g).vertices := hr
  have h := depth_first_visit_term_no_gray (direct_graph g)
    (ruby_dfs_visitor mode (record_block p)) search_terminator (direct_graph_wf g hwf) r hva
    { prune := false, user := [] }
  have heq : each_dfs_run g r mode p
      = depth_first_visit_term (direct_graph g) r (ruby_dfs_visitor mode (record_block p))
          ColorMap.empty search_terminator { prune := false, user := [] } := by
    unfold each_dfs_run graph_direct_each_dfs graph_each_dfs
    simp only [rb_to_vertex, if_pos hva]
    rfl
  rw [heq]
  exact h

/-- C17: if the visitor calls `prune` while it handles the TREE event of the
edge (u, v) during `each_dfs`, then `v` is finished at once: two iterations of
the loop paint it gray and black, examine none of its out-edges and take up the
remaining out-edges of `u` again, with `@prune` reset. In the whole run no
event with the source `v` is delivered, every source of an event is reached
from the root by a path that never leaves `v`, and `v` is black at the end. -/
theorem each_dfs_prune_tree (β : Type) (g : RubyGraph) (hwf : g.WF) (r mode : Nat)
    (hr : r ∈ g.vertices) (p : List Yield → Yield → Bool) :
    (∀ (b : Block β) (fuel u : Nat) (e : Edge) (ei : List Edge)
        (stack : List (Nat × List Edge)) (color : ColorMap) (s : Thread β),
        color e.target = white_color →
        (yield_edge mode b e VISIT_TREE_EDGES s).prune = true →
        depth_first_visit_loop (direct_graph g) (ruby_dfs_visitor mode b) search_terminator
            (fuel + 2) u (e :: ei) stack color s
          = depth_first_visit_loop (direct_graph g) (ruby_dfs_visitor mode b)
              search_terminator fuel u ei stack
              (put (put color e.target gray_color) e.target black_color)
              (graph_reset_prune_flag (yield_edge mode b e VISIT_TREE_EDGES s)))
    ∧ ∀ A y B, (each_dfs_run g r mode p).2.user = A ++ y :: B →
        y.kind = VISIT_TREE_EDGES → p A y = true →
        (each_dfs_run g r mode p).1 y.target = black_color
        ∧ (∀ z ∈ (each_dfs_run g r mode p).2.user, z.source ≠ y.target)
        ∧ (∀ z ∈ (each_dfs_run g r mode p).2.user,
            Relation.ReflTransGen (fun a b => (direct_graph g).adj a b ∧ a ≠ y.target)
              r z.source) := by
  constructor
  · intro b fuel u e ei stack color s hw hp
    have ht : search_terminator e.target (yield_edge mode b e VISIT_TREE_EDGES s)
        = (true, graph_reset_prune_flag (yield_edge mode b e VISIT_TREE_EDGES s)) := by
      unfold search_terminator graph_reset_prune_flag
      simp [hp]
    rw [depth_first_visit_loop]
    simp only [hw, ruby_visitor_examine, ruby_visitor_tree, ruby_visitor_discover, ht,
      if_true]
    rw [depth_first_visit_loop]
    simp only [ruby_visitor_finish]
  · intro A y B hsplit hkind hp
    have hpost := each_dfs_run_sources g r mode p hr
    have hy : y ∈ (each_dfs_run g r mode p).2.user := by rw [hsplit]; simp
    have hno := hpost.pruned A y B hsplit hkind (by simpa using hp)
    refine ⟨?_, hno, ?_⟩
    · have h1 := hpost.tree_visited y hy hkind
      have h2 := each_dfs_run_no_gray g hwf r mode p hr y.target
      cases h : (each_dfs_run g r mode p).1 y.target with
      | white_color => exact absurd h h1
      | gray_color => exact absurd h h2
      | black_color => rfl
    · have hm : VISIT_TREE_EDGES &&& mode ≠ 0 := by
        have := hpost.masked y hy
        rw [hkind] at this; exact this
      intro z hz
      have hvia := hpost.via hm Relation.ReflTransGen.refl (by simp) z hz
      simp only [List.nil_append] at hvia
      unfold ReachVia at hvia
      refine Relation.ReflTransGen.mono ?_ hvia
      rintro a b ⟨hab, z2, hz2, hsrc⟩
      exact ⟨hab, by rw [← hsrc]; exact hno z2 hz2⟩

/-- Witness of C17 on the path graph A->B->C->D, the block pruning at the
TREE event of (A, B): this event is the only one and B ends black. -/
theorem each_dfs_prune_tree_witness :
    (each_dfs_run pathGraph 1 VISIT_ALL_EDGES (prune_at 1 2 VISIT_TREE_EDGES)).2.user
        = [{ source := 1, target := 2, info := 0, kind := 1 }]
    ∧ (each_dfs_run pathGraph 1 VISIT_ALL_EDGES (prune_at 1 2 VISIT_TREE_EDGES)).1 2
        = black_color
    ∧ (∀ z ∈ (each_dfs_run pathGraph 1 VISIT_ALL_EDGES
          (prune_at 1 2 VISIT_TREE_EDGES)).2.user, z.source ≠ 2) :=
  ⟨by decide,
    ((each_dfs_prune_tree Unit pathGraph (by decide) 1 VISIT_ALL_EDGES (by decide)
      (prune_at 1 2 VISIT_TREE_EDGES)).2 [] { source := 1, target := 2, info := 0, kind := 1 }
      [] (by decide) rfl (by decide)).1,
    ((each_dfs_prune_tree Unit pathGraph (by decide) 1 VISIT_ALL_EDGES (by decide)
      (prune_at 1 2 VISIT_TREE_EDGES)).2 [] { source := 1, target := 2, info := 0, kind := 1 }
      [] (by decide) rfl (by decide)).2.1⟩

/-! ## What `each_dfs` delivers from each vertex -/

/-- An event of the source `x` is delivered from `x`. -/
theorem delivered_from_cons_eq {x : Nat} {y : Yield} (N : List Yield) (h : y.source = x) :
    delivered_from x (y :: N) = y.values :: delivered_from x N := by
  unfold delivered_from
  simp [h]

/-- An event of another source is not delivered from `x`. -/
theorem delivered_from_cons_ne {x : Nat} {y : Yield} (N : List Yield) (h : y.source ≠ x) :
    delivered_from x (y :: N) = delivered_from x N := by
  unfold delivered_from
  simp [h]

/-- No event of the source `x`: nothing is delivered from `x`. -/
theorem delivered_from_nil_of {x : Nat} {N : List Yield} (h : ∀ z ∈ N, z.source ≠ x) :
    delivered_from x N = [] := by
  unfold delivered_from
  rw [List.map_eq_nil_iff, List.filter_eq_nil_iff]
  intro z hz
  simpa using h z hz

/-- The events of a walk, known by the record at its end. -/
theorem each_dfs_loop_sources_of (g : View) (hs : g.Sourced) (m : Nat)
    (p : List Yield → Yield → Bool) (r fuel u : Nat) (es : List Edge)
    (stack : List (Nat × List Edge)) (color : ColorMap) (s : Thread (List Yield))
    (hcu : color u ≠ white_color) (hst : ∀ f ∈ stack, color f.1 ≠ white_color)
    (hsub : ∀ e ∈ es, e ∈ g.out_edges u) (hfr : ∀ f ∈ stack, ∀ e ∈ f.2, e ∈ g.out_edges f.1)
    (N : List Yield)
    (hN : (depth_first_visit_loop g (ruby_dfs_visitor m (record_block p)) search_terminator
      fuel u es stack color s).2.user = s.user ++ N) :
    SourcesPost g m p r u es stack color s.user
      (depth_first_visit_loop g (ruby_dfs_visitor m (record_block p)) search_terminator
        fuel u es stack color s) N := by
  obtain ⟨N2, h2⟩ := each_dfs_loop_sources g hs m p r fuel u es stack color s hcu hst hsub hfr
  have := h2.user
  rw [hN] at this
  have h3 : N = N2 := List.append_cancel_left this
  rw [h3]; exact h2

/-- What is delivered after a vertex is finished and the frame below it is
taken up again. -/
theorem DeliveredPost.delivered_pop {g : View} {p : List Yield → Yield → Bool} {r u : Nat}
    {f : Nat × List Edge} {rest : List (Nat × List Edge)} {color : ColorMap}
    {Y : List Yield} {res : ColorMap × Thread (List Yield)} {N : List Yield}
    (hpost : DeliveredPost g p f.1 f.2 rest (put color u black_color) Y res N)
    (hsrc : SourcesPost g VISIT_ALL_EDGES p r f.1 f.2 rest (put color u black_color) Y res N)
    (hnd : (u :: (f :: rest).map Prod.fst).Nodup) (hcu : color u ≠ white_color) :
    DeliveredPost g p u [] (f :: rest) color Y res N := by
  have hnot : u ∉ (f :: rest).map Prod.fst := (List.nodup_cons.1 hnd).1
  constructor
  · exact hpost.user
  · exact hpost.prune
  · intro _
    rw [List.map_nil]
    apply delivered_from_nil_of
    intro z hz h
    rcases hsrc.source z hz with h2 | h2 | h2
    · apply hnot; rw [← h, h2.1]; simp
    · apply hnot; rw [← h]
      simp only [List.map_cons, List.mem_cons]; exact Or.inr h2
    · rw [h] at h2; simp [put] at h2
  · intro f2 hf2 hb
    rcases List.mem_cons.1 hf2 with h | h
    · rw [h]; rw [h] at hb; exact hpost.current hb
    · exact hpost.frames f2 h hb
  · intro x hx hb
    have hxu : x ≠ u := by
      intro h; rw [h] at hx; exact hcu hx
    exact hpost.fresh x (by unfold put; rw [if_neg hxu]; exact hx) hb
  · exact hpost.visited
  · exact hpost.tree_once

/-- What is delivered after a back or a forward-or-cross edge. -/
theorem DeliveredPost.delivered_non_tree {g : View} {p : List Yield → Yield → Bool} {u : Nat}
    {e : Edge} {ei : List Edge} {stack : List (Nat × List Edge)} {color : ColorMap}
    {Y : List Yield} {res : ColorMap × Thread (List Yield)} {N : List Yield} {y0 : Yield}
    (hpost : DeliveredPost g p u ei stack color (Y ++ [y0]) res N)
    (hy0 : y0.source = u) (hval : y0.values = e.values) (hk : y0.kind ≠ VISIT_TREE_EDGES)
    (hnd : (u :: stack.map Prod.fst).Nodup) (hcu : color u ≠ white_color)
    (hres : res.1 u ≠ white_color) :
    DeliveredPost g p u (e :: ei) stack color Y res (y0 :: N) := by
  have hnot : u ∉ stack.map Prod.fst := (List.nodup_cons.1 hnd).1
  constructor
  · rw [hpost.user]; simp
  · exact hpost.prune
  · intro hb
    rw [delivered_from_cons_eq N hy0, hpost.current hb, hval]; rfl
  · intro f hf hb
    have hfu : y0.source ≠ f.1 := by
      rw [hy0]; intro h; apply hnot; rw [h]; exact List.mem_map_of_mem Prod.fst hf
    rw [delivered_from_cons_ne N hfu]
    exact hpost.frames f hf hb
  · intro x hx hb
    have hxu : y0.source ≠ x := by
      rw [hy0]; intro h; rw [h] at hcu; exact hcu hx
    rw [delivered_from_cons_ne N hxu]
    rcases hpost.fresh x hx hb with h | ⟨A, y, B, h1, h2, h3, h4, h5⟩
    · exact Or.inl h
    · refine Or.inr ⟨y0 :: A, y, B, by rw [h1]; rfl, h2, h3, ?_, h5⟩
      rw [← h4]; simp
  · intro z hz
    rcases List.mem_cons.1 hz with h | h
    · rw [h, hy0]; exact hres
    · exact hpost.visited z h
  · intro A y B hsplit hkind z hz hzk
    cases A with
    | nil =>
      simp only [List.nil_append, List.cons.injEq] at hsplit
      rw [← hsplit.1] at hkind
      exact absurd hkind hk
    | cons a A2 =>
      simp only [List.cons_append, List.cons.injEq] at hsplit
      rw [List.cons_append] at hz
      rcases List.mem_cons.1 hz with h | h
      · rw [h, ← hsplit.1] at hzk
        exact absurd hzk hk
      · exact hpost.tree_once A2 y B hsplit.2 hkind z h hzk

/-- What is delivered after a tree edge into `v`. -/
theorem DeliveredPost.delivered_tree {g : View} {p : List Yield → Yield → Bool} {r u v : Nat}
    {e : Edge} {ei es2 : List Edge} {stack : List (Nat × List Edge)} {color : ColorMap}
    {Y : List Yield} {res : ColorMap × Thread (List Yield)} {N : List Yield} {y0 : Yield}
    (hpost : DeliveredPost g p v es2 ((u, ei) :: stack) (put color v gray_color)
      (Y ++ [y0]) res N)
    (hsrc : SourcesPost g VISIT_ALL_EDGES p r v es2 ((u, ei) :: stack)
      (put color v gray_color) (Y ++ [y0]) res N)
    (hy0 : y0.source = u) (hy1 : y0.target = v) (hval : y0.values = e.values)
    (hk : y0.kind = VISIT_TREE_EDGES) (hcv : color v = white_color)
    (hnd : (u :: stack.map Prod.fst).Nodup) (hcu : color u ≠ white_color)
    (hes2 : es2 = if p Y y0 = true then [] else g.out_edges v)
    (hres : res.1 u ≠ white_color) :
    DeliveredPost g p u (e :: ei) stack color Y res (y0 :: N) := by
  have hnot : u ∉ stack.map Prod.fst := (List.nodup_cons.1 hnd).1
  have hvu : u ≠ v := by
    intro h; rw [h] at hcu; exact hcu hcv
  have hwhite : ∀ x, put color v gray_color x = white_color → x ≠ v := by
    intro x hx h
    rw [h] at hx
    simp [put] at hx
  constructor
  · rw [hpost.user]; simp
  · exact hpost.prune
  · intro hb
    rw [delivered_from_cons_eq N hy0, hpost.frames (u, ei) (List.mem_cons_self _ _) hb, hval]
    rfl
  · intro f hf hb
    have hfu : y0.source ≠ f.1 := by
      rw [hy0]; intro h; apply hnot; rw [h]; exact List.mem_map_of_mem Prod.fst hf
    rw [delivered_from_cons_ne N hfu]
    exact hpost.frames f (List.mem_cons_of_mem _ hf) hb
  · intro x hx hb
    have hxu : y0.source ≠ x := by
      rw [hy0]; intro h; rw [h] at hcu; exact hcu hx
    rw [delivered_from_cons_ne N hxu]
    by_cases hxv : x = v
    · subst hxv
      have hcur := hpost.current hb
      by_cases hp : p Y y0 = true
      · rw [hes2, if_pos hp] at hcur
        exact Or.inr ⟨[], y0, N, rfl, hk, hy1, by simpa using hp, hcur⟩
      · rw [hes2, if_neg hp] at hcur
        exact Or.inl hcur
    · rcases hpost.fresh x (by unfold put; rw [if_neg hxv]; exact hx) hb with
        h | ⟨A, y, B, h1, h2, h3, h4, h5⟩
      · exact Or.inl h
      · refine Or.inr ⟨y0 :: A, y, B, by rw [h1]; rfl, h2, h3, ?_, h5⟩
        rw [← h4]; simp
  · intro z hz
    rcases List.mem_cons.1 hz with h | h
    · rw [h, hy0]; exact hres
    · exact hpost.visited z h
  · intro A y B hsplit hkind z hz hzk
    cases A with
    | nil =>
      simp only [List.nil_append, List.cons.injEq] at hsplit
      simp only [List.nil_append] at hz
      rw [← hsplit.1, hy1]
      rw [← hsplit.2] at hz
      exact hwhite _ (hsrc.tree_white z hz hzk)
    | cons a A2 =>
      simp only [List.cons_append, List.cons.injEq] at hsplit
      rw [List.cons_append] at hz
      have hyN : y ∈ N := by rw [hsplit.2]; simp
      rcases List.mem_cons.1 hz with h | h
      · rw [h, ← hsplit.1, hy1]
        exact Ne.symm (hwhite _ (hsrc.tree_white y hyN hkind))
      · exact hpost.tree_once A2 y B hsplit.2 hkind z h hzk

/-- What `yield_edge` does under the mask `ALL` with a recording block. -/
theorem yield_edge_all (p : List Yield → Yield → Bool) (e : Edge) (what : Nat)
    (hw : what &&& VISIT_ALL_EDGES ≠ 0) (s : Thread (List Yield)) :
    ∃ y0, y0.source = e.source ∧ y0.target = e.target ∧ y0.kind = what
      ∧ y0.values = e.values
      ∧ (yield_edge VISIT_ALL_EDGES (record_block p) e what s).user = s.user ++ [y0]
      ∧ (yield_edge VISIT_ALL_EDGES (record_block p) e what s).prune
        = (s.prune || p s.user y0) := by
  obtain ⟨pre, y0, h1, h2, h3, h4, h5, h6⟩ :=
    yield_edge_record_event VISIT_ALL_EDGES p e what s
  rcases h6 with h | h
  · exact absurd h.2.1 hw
  · refine ⟨y0, h1, h2, h3, ?_, by rw [h5, h.1], h.2.2⟩
    unfold Yield.values Edge.values
    rw [h1, h2, h4]

/-- What a walk of `each_dfs` under the mask `ALL` delivers from each vertex,
from any state of the loop, when the block prunes at tree edges only. -/
theorem each_dfs_loop_delivered (g : View) (hs : g.Sourced)
    (p : List Yield → Yield → Bool) (hp : ∀ A y, p A y = true → y.kind = VISIT_TREE_EDGES) :
    ∀ (fuel u : Nat) (es : List Edge) (stack : List (Nat × List Edge)) (color : ColorMap)
      (s : Thread (List Yield)), s.prune = false → color u = gray_color →
      (∀ f ∈ stack, color f.1 = gray_color) → (u :: stack.map Prod.fst).Nodup →
      (∀ e ∈ es, e ∈ g.out_edges u) → (∀ f ∈ stack, ∀ e ∈ f.2, e ∈ g.out_edges f.1) →
      ∃ N, DeliveredPost g p u es stack color s.user
        (depth_first_visit_loop g (ruby_dfs_visitor VISIT_ALL_EDGES (record_block p))
          search_terminator fuel u es stack color s) N := by
  intro fuel
  induction fuel with
  | zero =>
    intro u es stack color s hpr hcu hst _ _ _
    refine ⟨[], ?_⟩
    constructor
    · simp [depth_first_visit_loop]
    · exact hpr
    · intro h
      simp only [depth_first_visit_loop] at h
      rw [hcu] at h; cases h
    · intro f hf h
      simp only [depth_first_visit_loop] at h
      rw [hst f hf] at h; cases h
    · intro x hx h
      simp only [depth_first_visit_loop] at h
      rw [hx] at h; cases h
    · intro z hz; cases hz
    · intro A y B h; simp at h
  | succ n ih =>
    intro u es stack color s hpr hcu hst hnd hsub hfr
    have hcu2 : color u ≠ white_color := by rw [hcu]; decide
    have hst2 : ∀ f ∈ stack, color f.1 ≠ white_color := by
      intro f hf; rw [hst f hf]; decide
    cases es with
    | nil =>
      cases stack with
      | nil =>
        refine ⟨[], ?_⟩
        simp only [depth_first_visit_loop, ruby_visitor_finish]
        constructor
        · simp
        · exact hpr
        · intro _; rfl
        · intro f hf; cases hf
        · intro x hx h
          by_cases hxu : x = u
          · rw [hxu] at hx; exact absurd hx hcu2
          · simp only [put, if_neg hxu] at h
            rw [hx] at h; cases h
        · intro z hz; cases hz
        · intro A y B h; simp at h
      | cons f rest =>
        have hfu : f.1 ≠ u := by
          intro h
          have := (List.nodup_cons.1 hnd).1
          apply this; rw [← h]; simp
        have hrest_ne : ∀ f2 ∈ rest, f2.1 ≠ u := by
          intro f2 hf2 h
          have := (List.nodup_cons.1 hnd).1
          apply this; rw [← h]
          simp only [List.map_cons, List.mem_cons]
          exact Or.inr (List.mem_map_of_mem Prod.fst hf2)
        have hnd2 : (f.1 :: rest.map Prod.fst).Nodup := by
          simp only [List.map_cons] at hnd
          exact (List.nodup_cons.1 hnd).2
        have hc1 : put color u black_color f.1 = gray_color := by
          unfold put; rw [if_neg hfu]; exact hst f (List.mem_cons_self _ _)
        have hc2 : ∀ f2 ∈ rest, put color u black_color f2.1 = gray_color := by
          intro f2 hf2
          unfold put; rw [if_neg (hrest_ne f2 hf2)]
          exact hst f2 (List.mem_cons_of_mem _ hf2)
        obtain ⟨N, hN⟩ := ih f.1 f.2 rest (put color u black_color) s hpr hc1 hc2 hnd2
          (hfr f (List.mem_cons_self _ _))
          (fun f2 hf2 => hfr f2 (List.mem_cons_of_mem _ hf2))
        have hsrc := each_dfs_loop_sources_of g hs VISIT_ALL_EDGES p 0 n f.1 f.2 rest
          (put color u black_color) s (by rw [hc1]; decide)
          (fun f2 hf2 => by rw [hc2 f2 hf2]; decide)
          (hfr f (List.mem_cons_self _ _))
          (fun f2 hf2 => hfr f2 (List.mem_cons_of_mem _ hf2)) N hN.user
        simp only [depth_first_visit_loop, ruby_visitor_finish]
        exact ⟨N, hN.delivered_pop hsrc hnd hcu2⟩
    | cons e ei =>
      have he : e ∈ g.out_edges u := hsub e (List.mem_cons_self _ _)
      have hsrce : e.source = u := hs u e he
      have hsub2 : ∀ e2 ∈ ei, e2 ∈ g.out_edges u :=
        fun e2 he2 => hsub e2 (List.mem_cons_of_mem _ he2)
      simp only [depth_first_visit_loop, ruby_visitor_examine]
      cases hv : color e.target with
      | white_color =>
        simp only [ruby_visitor_tree, ruby_visitor_discover]
        obtain ⟨y0, hy0s, hy0t, hy0k, hy0v, hyu, hyp⟩ :=
          yield_edge_all p e VISIT_TREE_EDGES (by decide) s
        have hterm := search_terminator_user e.target
          (yield_edge VISIT_ALL_EDGES (record_block p) e VISIT_TREE_EDGES s)
        have hvu : e.target ≠ u := by
          intro h; rw [h] at hv; exact hcu2 hv
        have hvst : ∀ f ∈ stack, f.1 ≠ e.target := by
          intro f hf h
          have := hst2 f hf
          rw [h] at this; exact this hv
        have htp : (search_terminator e.target
            (yield_edge VISIT_ALL_EDGES (record_block p) e VISIT_TREE_EDGES s)).2.prune
            = false := by
          unfold search_terminator
          cases h : (yield_edge VISIT_ALL_EDGES (record_block p) e VISIT_TREE_EDGES s).prune
            <;> simp [h]
        have hc1 : ∀ f ∈ (u, ei) :: stack, put color e.target gray_color f.1 = gray_color := by
          intro f hf
          rcases List.mem_cons.1 hf with h | h
          · subst h
            unfold put; rw [if_neg (Ne.symm hvu)]; exact hcu
          · unfold put; rw [if_neg (hvst f h)]; exact hst f h
        have hnd2 : (e.target :: ((u, ei) :: stack).map Prod.fst).Nodup := by
          simp only [List.map_cons]
          refine List.nodup_cons.2 ⟨?_, hnd⟩
          intro hmem
          rcases List.mem_cons.1 hmem with h | h
          · exact hvu h
          · obtain ⟨f, hf, hfe⟩ := List.mem_map.1 h
            exact hvst f hf hfe
        have hsub3 : ∀ e2 ∈ (if (search_terminator e.target
              (yield_edge VISIT_ALL_EDGES (record_block p) e VISIT_TREE_EDGES s)).1 = true
              then [] else g.out_edges e.target), e2 ∈ g.out_edges e.target := by
          intro e2 he2
          split_ifs at he2
          · cases he2
          · exact he2
        have hfr2 : ∀ f ∈ (u, ei) :: stack, ∀ e2 ∈ f.2, e2 ∈ g.out_edges f.1 := by
          intro f hf
          rcases List.mem_cons.1 hf with h | h
          · subst h; exact hsub2
          · exact hfr f h
        obtain ⟨N, hN⟩ := ih e.target _ ((u, ei) :: stack) (put color e.target gray_color)
          (search_terminator e.target
            (yield_edge VISIT_ALL_EDGES (record_block p) e VISIT_TREE_EDGES s)).2
          htp (by simp [put]) hc1 hnd2 hsub3 hfr2
        have hsrc := each_dfs_loop_sources_of g hs VISIT_ALL_EDGES p 0 n e.target _
          ((u, ei) :: stack) (put color e.target gray_color)
          (search_terminator e.target
            (yield_edge VISIT_ALL_EDGES (record_block p) e VISIT_TREE_EDGES s)).2
          (by simp [put]) (fun f hf => by rw [hc1 f hf]; decide) hsub3 hfr2 N hN.user
        have hres := depth_first_visit_loop_nonwhite g
          (ruby_dfs_visitor VISIT_ALL_EDGES (record_block p)) search_terminator u n e.target
          (if (search_terminator e.target
              (yield_edge VISIT_ALL_EDGES (record_block p) e VISIT_TREE_EDGES s)).1 = true
            then [] else g.out_edges e.target)
          ((u, ei) :: stack) (put color e.target gray_color)
          (search_terminator e.target
            (yield_edge VISIT_ALL_EDGES (record_block p) e VISIT_TREE_EDGES s)).2
          (put_ne_white (by decide) hcu2)
        rw [hterm.1, hyu] at hN hsrc
        refine ⟨y0 :: N, DeliveredPost.delivered_tree hN hsrc (hy0s.trans hsrce) hy0t hy0v hy0k hv hnd
          hcu2 ?_ hres⟩
        rw [hterm.2, hyp, hpr]
        simp
      | gray_color =>
        simp only [ruby_visitor_back]
        obtain ⟨y0, hy0s, hy0t, hy0k, hy0v, hyu, hyp⟩ :=
          yield_edge_all p e VISIT_BACK_EDGES (by decide) s
        have hk : y0.kind ≠ VISIT_TREE_EDGES := by rw [hy0k]; decide
        have hpf : p s.user y0 = false := by
          cases h : p s.user y0 with
          | false => rfl
          | true => exact absurd (hp _ _ h) hk
        have hpr2 : (yield_edge VISIT_ALL_EDGES (record_block p) e VISIT_BACK_EDGES s).prune
            = false := by rw [hyp, hpr, hpf]; rfl
        obtain ⟨N, hN⟩ := ih u ei stack color
          (yield_edge VISIT_ALL_EDGES (record_block p) e VISIT_BACK_EDGES s)
          hpr2 hcu hst hnd hsub2 hfr
        have hres := depth_first_visit_loop_nonwhite g
          (ruby_dfs_visitor VISIT_ALL_EDGES (record_block p)) search_terminator u n u ei stack
          color (yield_edge VISIT_ALL_EDGES (record_block p) e VISIT_BACK_EDGES s) hcu2
        rw [hyu] at hN
        exact ⟨y0 :: N, DeliveredPost.delivered_non_tree hN (hy0s.trans hsrce) hy0v hk hnd hcu2 hres⟩
      | black_color =>
        simp only [ruby_visitor_forward]
        obtain ⟨y0, hy0s, hy0t, hy0k, hy0v, hyu, hyp⟩ :=
          yield_edge_all p e VISIT_FORWARD_OR_CROSS_EDGES (by decide) s
        have hk : y0.kind ≠ VISIT_TREE_EDGES := by rw [hy0k]; decide
        have hpf : p s.user y0 = false := by
          cases h : p s.user y0 with
          | false => rfl
          | true => exact absurd (hp _ _ h) hk
        have hpr2 : (yield_edge VISIT_ALL_EDGES (record_block p) e
            VISIT_FORWARD_OR_CROSS_EDGES s).prune = false := by rw [hyp, hpr, hpf]; rfl
        obtain ⟨N, hN⟩ := ih u ei stack color
          (yield_edge VISIT_ALL_EDGES (record_block p) e VISIT_FORWARD_OR_CROSS_EDGES s)
          hpr2 hcu hst hnd hsub2 hfr
        have hres := depth_first_visit_loop_nonwhite g
          (ruby_dfs_visitor VISIT_ALL_EDGES (record_block p)) search_terminator u n u ei stack
          color (yield_edge VISIT_ALL_EDGES (record_block p) e VISIT_FORWARD_OR_CROSS_EDGES s)
          hcu2
        rw [hyu] at hN
        exact ⟨y0 :: N, DeliveredPost.delivered_non_tree hN (hy0s.trans hsrce) hy0v hk hnd hcu2 hres⟩

/-! ## How far `prune` reaches in `each_dfs` -/

/-- What a run of `each_dfs` under the mask `ALL` delivers from each vertex,
when the block prunes at tree edges only. -/
theorem each_dfs_run_delivered (g : RubyGraph) (r : Nat) (p : List Yield → Yield → Bool)
    (hp : ∀ A y, p A y = true → y.kind = VISIT_TREE_EDGES) (hr : r ∈ g.vertices) :
    DeliveredPost (direct_graph g) p r ((direct_graph g).out_edges r) []
      (put ColorMap.empty r gray_color) [] (each_dfs_run g r VISIT_ALL_EDGES p)
      (each_dfs_run g r VISIT_ALL_EDGES p).2.user := by
  obtain ⟨N, hN⟩ := each_dfs_loop_delivered (direct_graph g) (direct_graph_sourced g) p hp
    (dfs_fuel (direct_graph g)) r ((direct_graph g).out_edges r) []
    (put ColorMap.empty r gray_color) { prune := false, user := [] }
    rfl (by simp [put]) (by simp) (by simp) (fun e he => he) (by simp)
  rw [each_dfs_run_eq g r VISIT_ALL_EDGES p hr]
  have hu := hN.user
  simp only [List.nil_append] at hu
  rw [hu]
  exact hN

/-- Two places of one event in a record, or another event of the record. -/
theorem split_unique {A B A2 B2 : List Yield} {y y2 : Yield}
    (h : A ++ y :: B = A2 ++ y2 :: B2) : (A = A2 ∧ y = y2 ∧ B = B2) ∨ y2 ∈ A ++ B := by
  induction A generalizing A2 with
  | nil =>
    cases A2 with
    | nil =>
      simp only [List.nil_append, List.cons.injEq] at h
      exact Or.inl ⟨rfl, h.1, h.2⟩
    | cons a A3 =>
      simp only [List.nil_append, List.cons_append, List.cons.injEq] at h
      right
      rw [List.nil_append, h.2]; simp
  | cons a A ih =>
    cases A2 with
    | nil =>
      simp only [List.nil_append, List.cons_append, List.cons.injEq] at h
      right
      rw [h.1]; simp
    | cons a2 A3 =>
      simp only [List.cons_append, List.cons.injEq] at h
      rcases ih h.2 with ⟨h1, h2, h3⟩ | h1
      · exact Or.inl ⟨by rw [h.1, h1], h2, h3⟩
      · right
        rw [List.cons_append]
        exact List.mem_cons_of_mem _ h1

/-- C18, amended: when the visitor calls `prune` at TREE events only during
`each_dfs(r, ALL)`, the cancellation stays with the targets of those events:
the root and every vertex discovered by a TREE event without `prune`, so the
source of a pruned edge, its ancestors and the siblings discovered later,
deliver all their out-edges, each once, in the order of the graph. -/
theorem each_dfs_prune_confined (g : RubyGraph) (hwf : g.WF) (r : Nat) (hr : r ∈ g.vertices)
    (p : List Yield → Yield → Bool)
    (hp : ∀ A y, p A y = true → y.kind = VISIT_TREE_EDGES) :
    delivered_from r (each_dfs_run g r VISIT_ALL_EDGES p).2.user
        = (g.out_edges r).map Edge.values
    ∧ ∀ A y B, (each_dfs_run g r VISIT_ALL_EDGES p).2.user = A ++ y :: B →
        y.kind = VISIT_TREE_EDGES → p A y = false →
        delivered_from y.target (each_dfs_run g r VISIT_ALL_EDGES p).2.user
          = (g.out_edges y.target).map Edge.values := by
  have hpost := each_dfs_run_delivered g r p hp hr
  have hsrc := each_dfs_run_sources g r VISIT_ALL_EDGES p hr
  have hng := each_dfs_run_no_gray g hwf r VISIT_ALL_EDGES p hr
  have hblack : ∀ x, (each_dfs_run g r VISIT_ALL_EDGES p).1 x ≠ white_color →
      (each_dfs_run g r VISIT_ALL_EDGES p).1 x = black_color := by
    intro x hx
    cases h : (each_dfs_run g r VISIT_ALL_EDGES p).1 x with
    | white_color => exact absurd h hx
    | gray_color => exact absurd h (hng x)
    | black_color => rfl
  constructor
  · apply hpost.current
    apply hblack
    rw [each_dfs_run_eq g r VISIT_ALL_EDGES p hr]
    apply depth_first_visit_loop_nonwhite
    simp [put]
  · intro A y B hsplit hkind hpf
    have hy : y ∈ (each_dfs_run g r VISIT_ALL_EDGES p).2.user := by rw [hsplit]; simp
    have hw := hsrc.tree_white y hy hkind
    have hb := hblack _ (hsrc.tree_visited y hy hkind)
    rcases hpost.fresh y.target hw hb with h | ⟨A2, y2, B2, h1, h2, h3, h4, -⟩
    · exact h
    · exfalso
      rw [hsplit] at h1
      rcases split_unique h1 with ⟨h5, h6, -⟩ | h5
      · rw [List.nil_append, ← h5, ← h6, hpf] at h4
        cases h4
      · exact hpost.tree_once A y B hsplit hkind y2 h5 h2 h3

/-- Witness of C18 as amended on R->V, R->W, V->X, W->X with `prune` at the
TREE event of (R, V): R and the later sibling W deliver all their out-edges. -/
theorem each_dfs_prune_confined_witness :
    (each_dfs_run diamondGraph 1 VISIT_ALL_EDGES (prune_at 1 2 VISIT_TREE_EDGES)).2.user
      = [{ source := 1, target := 2, info := 0, kind := 1 },
         { source := 1, target := 3, info := 0, kind := 1 },
         { source := 3, target := 4, info := 0, kind := 1 }]
    ∧ delivered_from 1 (each_dfs_run diamondGraph 1 VISIT_ALL_EDGES
        (prune_at 1 2 VISIT_TREE_EDGES)).2.user
      = (diamondGraph.out_edges 1).map Edge.values
    ∧ delivered_from 3 (each_dfs_run diamondGraph 1 VISIT_ALL_EDGES
        (prune_at 1 2 VISIT_TREE_EDGES)).2.user
      = (diamondGraph.out_edges 3).map Edge.values :=
  ⟨by decide,
    (each_dfs_prune_confined diamondGraph (by decide) 1 (by decide)
      (prune_at 1 2 VISIT_TREE_EDGES) (by
        intro A y h
        simp only [prune_at, decide_eq_true_eq] at h
        exact h.2.2)).1,
    (each_dfs_prune_confined diamondGraph (by decide) 1 (by decide)
      (prune_at 1 2 VISIT_TREE_EDGES) (by
        intro A y h
        simp only [prune_at, decide_eq_true_eq] at h
        exact h.2.2)).2 [{ source := 1, target := 2, info := 0, kind := 1 }]
      { source := 1, target := 3, info := 0, kind := 1 }
      [{ source := 3, target := 4, info := 0, kind := 1 }] (by decide) rfl (by decide)⟩

/-- C18 as stated fails. On A->B, B->A, A->C, C->D the block calls `prune`
during the BACK event of (B, A): `@prune` stays set until the later sibling C
is discovered, and C is not expanded, its edge to D is never examined, while
the run without `prune` delivers it. On R->V, R->W, V->X, W->X the block calls
`prune` during the TREE event of (R, V): the edge (W, X) of the later sibling is
delivered as a TREE edge, not as the FORWARD_OR_CROSS edge of the run without
`prune`. -/
theorem each_dfs_prune_leaks :
    (each_dfs_run siblingGraph 1 VISIT_ALL_EDGES (prune_at 2 1 VISIT_BACK_EDGES)).2.user
      = [{ source := 1, target := 2, info := 0, kind := 1 },
         { source := 2, target := 1, info := 0, kind := 2 },
         { source := 1, target := 3, info := 0, kind := 1 }]
    ∧ each_dfs_events siblingGraph 1 VISIT_ALL_EDGES
      = [{ source := 1, target := 2, info := 0, kind := 1 },
         { source := 2, target := 1, info := 0, kind := 2 },
         { source := 1, target := 3, info := 0, kind := 1 },
         { source := 3, target := 4, info := 0, kind := 1 }]
    ∧ (each_dfs_run diamondGraph 1 VISIT_ALL_EDGES (prune_at 1 2 VISIT_TREE_EDGES)).2.user
      = [{ source := 1, target := 2, info := 0, kind := 1 },
         { source := 1, target := 3, info := 0, kind := 1 },
         { source := 3, target := 4, info := 0, kind := 1 }]
    ∧ each_dfs_events diamondGraph 1 VISIT_ALL_EDGES
      = [{ source := 1, target := 2, info := 0, kind := 1 },
         { source := 2, target := 4, info := 0, kind := 1 },
         { source := 1, target := 3, info := 0, kind := 1 },
         { source := 3, target := 4, info := 0, kind := 4 }] := by
  decide

/-! ## The record of a run of `each_dfs` -/

theorem observed_examine {σ : Type} (vis : DFSVisitor σ) (e : Edge) (s : σ × List Event) :
    vis.observed.examine_edge e s = (vis.examine_edge e s.1, s.2) := rfl

theorem observed_tree {σ : Type} (vis : DFSVisitor σ) (e : Edge) (s : σ × List Event) :
    vis.observed.tree_edge e s = (vis.tree_edge e s.1, s.2 ++ [Event.tree_edge e]) := rfl

theorem observed_back {σ : Type} (vis : DFSVisitor σ) (e : Edge) (s : σ × List Event) :
    vis.observed.back_edge e s = (vis.back_edge e s.1, s.2 ++ [Event.back_edge e]) := rfl

theorem observed_forward {σ : Type} (vis : DFSVisitor σ) (e : Edge) (s : σ × List Event) :
    vis.observed.forward_or_cross_edge e s
      = (vis.forward_or_cross_edge e s.1, s.2 ++ [Event.forward_or_cross_edge e]) := rfl

theorem observed_discover {σ : Type} (vis : DFSVisitor σ) (v : Nat) (s : σ × List Event) :
    vis.observed.discover_vertex v s
      = (vis.discover_vertex v s.1, s.2 ++ [Event.discover_vertex v]) := rfl

theorem observed_finish {σ : Type} (vis : DFSVisitor σ) (v : Nat) (s : σ × List Event) :
    vis.observed.finish_vertex v s
      = (vis.finish_vertex v s.1, s.2 ++ [Event.finish_vertex v]) := rfl

theorem observed_start {σ : Type} (vis : DFSVisitor σ) (v : Nat) (s : σ × List Event) :
    vis.observed.start_vertex v s = (vis.start_vertex v s.1, s.2) := rfl

/-- The observed visitor acts like the visitor itself. -/
theorem observed_sim {σ : Type} (vis : DFSVisitor σ) (func : Nat → σ → Bool × σ) :
    DFSSim vis.observed (observed_func func) vis func (fun s t => s.1 = t) := by
  constructor
  · intro u s t h; rw [observed_start]; simp only; rw [h]
  · intro u s t h; rw [observed_discover]; simp only; rw [h]
  · intro e s t h; rw [observed_examine]; simp only; rw [h]
  · intro e s t h; rw [observed_tree]; simp only; rw [h]
  · intro e s t h; rw [observed_back]; simp only; rw [h]
  · intro e s t h; rw [observed_forward]; simp only; rw [h]
  · intro u s t h; rw [observed_finish]; simp only; rw [h]
  · intro u s t h
    unfold observed_func
    simp only
    rw [h]
    exact ⟨rfl, rfl⟩

/-- Under the mask `ALL` the recording block gets every event. -/
theorem yield_edge_all_user (p : List Yield → Yield → Bool) (e : Edge) (what : Nat)
    (hw : what &&& VISIT_ALL_EDGES ≠ 0) (s : Thread (List Yield)) :
    (yield_edge VISIT_ALL_EDGES (record_block p) e what s).user
      = s.user ++ [{ source := e.source, target := e.target, info := e.payload,
                     kind := what }] := by
  obtain ⟨pre, h1, h2⟩ := yield_edge_record VISIT_ALL_EDGES p e what s
  rcases h2 with h | h
  · exact absurd h.2.1 hw
  · rw [h1, h.1]

/-- The record of an observed walk of `each_dfs` under the mask `ALL` agrees
with the colours, and the block is given the events of the record. -/
theorem each_dfs_loop_record (g : View) (p : List Yield → Yield → Bool) :
    ∀ (fuel u : Nat) (es : List Edge) (stack : List (Nat × List Edge)) (color : ColorMap)
      (s : Thread (List Yield)) (T : List Event),
      ∃ Tn, (depth_first_visit_loop g
            (ruby_dfs_visitor VISIT_ALL_EDGES (record_block p)).observed
            (observed_func search_terminator) fuel u es stack color (s, T)).2.2 = T ++ Tn
        ∧ Classified color Tn
        ∧ (depth_first_visit_loop g
            (ruby_dfs_visitor VISIT_ALL_EDGES (record_block p)).observed
            (observed_func search_terminator) fuel u es stack color (s, T)).2.1.user
          = s.user ++ events_of Tn := by
  intro fuel
  induction fuel with
  | zero =>
    intro u es stack color s T
    exact ⟨[], by simp [depth_first_visit_loop], trivial, by simp [depth_first_visit_loop, events_of]⟩
  | succ n ih =>
    intro u es stack color s T
    cases es with
    | nil =>
      cases stack with
      | nil =>
        refine ⟨[Event.finish_vertex u], ?_, ?_, ?_⟩
        · simp only [depth_first_visit_loop, observed_finish]
        · simp only [Classified]
        · simp only [depth_first_visit_loop, observed_finish, ruby_visitor_finish, events_of,
            List.append_nil]
      | cons f rest =>
        simp only [depth_first_visit_loop, observed_finish, ruby_visitor_finish]
        obtain ⟨Tn, h1, h2, h3⟩ := ih f.1 f.2 rest (put color u black_color) s
          (T ++ [Event.finish_vertex u])
        refine ⟨Event.finish_vertex u :: Tn, ?_, ?_, ?_⟩
        · rw [h1]; simp
        · simp only [Classified]; exact h2
        · rw [h3]; simp only [events_of]
    | cons e ei =>
      simp only [depth_first_visit_loop, observed_examine, ruby_visitor_examine]
      cases hv : color e.target with
      | white_color =>
        simp only [observed_tree, observed_discover, ruby_visitor_tree, ruby_visitor_discover,
          observed_func]
        obtain ⟨Tn, h1, h2, h3⟩ := ih e.target
          (if (search_terminator e.target
              (yield_edge VISIT_ALL_EDGES (record_block p) e VISIT_TREE_EDGES s)).1 = true
            then [] else g.out_edges e.target)
          ((u, ei) :: stack) (put color e.target gray_color)
          (search_terminator e.target
            (yield_edge VISIT_ALL_EDGES (record_block p) e VISIT_TREE_EDGES s)).2
          (T ++ [Event.tree_edge e] ++ [Event.discover_vertex e.target])
        refine ⟨Event.tree_edge e :: Event.discover_vertex e.target :: Tn, ?_, ?_, ?_⟩
        · rw [h1]; simp
        · simp only [Classified]; exact ⟨hv, h2⟩
        · rw [h3, (search_terminator_user _ _).1,
            yield_edge_all_user p e VISIT_TREE_EDGES (by decide) s]
          simp only [events_of, List.append_assoc, List.singleton_append]
      | gray_color =>
        simp only [observed_back, ruby_visitor_back]
        obtain ⟨Tn, h1, h2, h3⟩ := ih u ei stack color
          (yield_edge VISIT_ALL_EDGES (record_block p) e VISIT_BACK_EDGES s)
          (T ++ [Event.back_edge e])
        refine ⟨Event.back_edge e :: Tn, ?_, ?_, ?_⟩
        · rw [h1]; simp
        · simp only [Classified]; exact ⟨hv, h2⟩
        · rw [h3, yield_edge_all_user p e VISIT_BACK_EDGES (by decide) s]
          simp only [events_of, List.append_assoc, List.singleton_append]
      | black_color =>
        simp only [observed_forward, ruby_visitor_forward]
        obtain ⟨Tn, h1, h2, h3⟩ := ih u ei stack color
          (yield_edge VISIT_ALL_EDGES (record_block p) e VISIT_FORWARD_OR_CROSS_EDGES s)
          (T ++ [Event.forward_or_cross_edge e])
        refine ⟨Event.forward_or_cross_edge e :: Tn, ?_, ?_, ?_⟩
        · rw [h1]; simp
        · simp only [Classified]; exact ⟨hv, h2⟩
        · rw [h3, yield_edge_all_user p e VISIT_FORWARD_OR_CROSS_EDGES (by decide) s]
          simp only [events_of, List.append_assoc, List.singleton_append]

/-! ## The events of `each_dfs` under the mask `ALL` -/

/-- The recording block that never prunes walks like `vertex_recorder` without
a terminator. -/
theorem ruby_dfs_visitor_quiet_sim (m : Nat) :
    DFSSim (ruby_dfs_visitor m (record_block never)) search_terminator
      vertex_recorder nontruth2 (fun s _ => s.prune = false) := by
  have hy : ∀ (e : Edge) (what : Nat) (s : Thread (List Yield)), s.prune = false →
      (yield_edge m (record_block never) e what s).prune = false := by
    intro e what s hs
    rw [yield_edge_record_never]
    split_ifs
    · exact hs
    · exact hs
  constructor
  · intro u s t h; exact h
  · intro u s t h; exact h
  · intro e s t h; exact h
  · intro e s t h; exact hy e _ s h
  · intro e s t h; exact hy e _ s h
  · intro e s t h; exact hy e _ s h
  · intro u s t h; exact h
  · intro u s t h
    rw [search_terminator_false u s h]
    exact ⟨rfl, h⟩

/-- The colours at the end of `each_dfs` with a block that never prunes: black
on what the root reaches, white elsewhere. -/
theorem each_dfs_run_colors (g : RubyGraph) (hwf : g.WF) (r m : Nat) (hr : r ∈ g.vertices) :
    ColorsOf (direct_graph g) [r] (each_dfs_run g r m never).1 := by
  have hva : r ∈ (direct_graph g).vertices := hr
  obtain ⟨D, -, -, -, hcol⟩ := dfs_from_visited (direct_graph g) vertex_recorder
    vertex_recorder_quiet (direct_graph_wf g hwf) [] r ColorMap.empty [] (ColorsOf.empty _)
    hva rfl
  have hsim := (depth_first_visit_impl_sim (direct_graph g) (ruby_dfs_visitor_quiet_sim m) r
    ColorMap.empty { prune := false, user := [] } [] rfl).1
  have heq : each_dfs_run g r m never
      = depth_first_visit_impl (direct_graph g) r (ruby_dfs_visitor m (record_block never))
          ColorMap.empty search_terminator { prune := false, user := [] } := by
    unfold each_dfs_run graph_direct_each_dfs graph_each_dfs
    simp only [rb_to_vertex, if_pos hva]
    rfl
  rw [heq, hsim]
  exact hcol

/-- The record of a run of `each_dfs` from a vertex of the graph under the
mask `ALL`: it agrees with the colours, and its events are those given to the
block. -/
theorem each_dfs_trace_spec (g : RubyGraph) (r : Nat) (p : List Yield → Yield → Bool)
    (hr : r ∈ g.vertices) :
    Classified ColorMap.empty (each_dfs_trace g r VISIT_ALL_EDGES p)
    ∧ (each_dfs_run g r VISIT_ALL_EDGES p).2.user
      = events_of (each_dfs_trace g r VISIT_ALL_EDGES p) := by
  have hva : r ∈ (direct_graph g).vertices := hr
  obtain ⟨Tn, h1, h2, h3⟩ := each_dfs_loop_record (direct_graph g) p
    (dfs_fuel (direct_graph g)) r ((direct_graph g).out_edges r) []
    (put ColorMap.empty r gray_color) { prune := false, user := [] }
    [Event.discover_vertex r]
  have htrace : each_dfs_trace g r VISIT_ALL_EDGES p
      = (depth_first_visit_loop (direct_graph g)
          (ruby_dfs_visitor VISIT_ALL_EDGES (record_block p)).observed
          (observed_func search_terminator) (dfs_fuel (direct_graph g)) r
          ((direct_graph g).out_edges r) [] (put ColorMap.empty r gray_color)
          ({ prune := false, user := [] }, [Event.discover_vertex r])).2.2 := rfl
  have hproj := (depth_first_visit_loop_sim (direct_graph g)
    (observed_sim (ruby_dfs_visitor VISIT_ALL_EDGES (record_block p)) search_terminator)
    (dfs_fuel (direct_graph g)) r ((direct_graph g).out_edges r) []
    (put ColorMap.empty r gray_color)
    (({ prune := false, user := [] } : Thread (List Yield)), [Event.discover_vertex r])
    { prune := false, user := [] } rfl).2
  rw [htrace, h1]
  constructor
  · simp only [List.singleton_append, Classified]
    exact h2
  · rw [each_dfs_run_eq g r VISIT_ALL_EDGES p hr, ← hproj, h3]
    simp [events_of]

/-- C15: for every well-formed graph, root `r` of it and a visitor that
never prunes, `each_dfs(r, ALL)` delivers from every vertex that `r` reaches
exactly its stored out-edges, each once and in the order of the graph, and
delivers no edge whose source `r` does not reach. Every event has one kind, the
one of its event point in the record of the walk, and the record agrees with
the colours: a TREE edge leads to a vertex not discovered before, a BACK edge
to a vertex discovered and not finished, a FORWARD_OR_CROSS edge to a finished
vertex. -/
theorem each_dfs_all_edges (g : RubyGraph) (hwf : g.WF) (r : Nat) (hr : r ∈ g.vertices) :
    (∀ x, (direct_graph g).Reach r x →
      delivered_from x (each_dfs_events g r VISIT_ALL_EDGES)
        = (g.out_edges x).map Edge.values)
    ∧ (∀ z ∈ each_dfs_events g r VISIT_ALL_EDGES, (direct_graph g).Reach r z.source)
    ∧ each_dfs_events g r VISIT_ALL_EDGES
      = events_of (each_dfs_trace g r VISIT_ALL_EDGES never)
    ∧ Classified ColorMap.empty (each_dfs_trace g r VISIT_ALL_EDGES never) := by
  have hev : each_dfs_events g r VISIT_ALL_EDGES
      = (each_dfs_run g r VISIT_ALL_EDGES never).2.user := rfl
  have hpost := each_dfs_run_delivered g r never (by intro A y h; cases h) hr
  have hcol := each_dfs_run_colors g hwf r VISIT_ALL_EDGES hr
  have htr := each_dfs_trace_spec g r never hr
  rw [hev]
  refine ⟨?_, ?_, htr.2, htr.1⟩
  · intro x hx
    have hb : (each_dfs_run g r VISIT_ALL_EDGES never).1 x = black_color :=
      ((hcol x).1).2 ⟨r, List.mem_singleton_self r, hx⟩
    by_cases hxr : x = r
    · rw [hxr] at hb ⊢
      exact hpost.current hb
    · have hw : put ColorMap.empty r gray_color x = white_color := by
        unfold put ColorMap.empty; rw [if_neg hxr]
      rcases hpost.fresh x hw hb with h | ⟨A, y, B, -, -, -, h, -⟩
      · exact h
      · cases h
  · intro z hz
    have h1 := hpost.visited z hz
    have h2 := (hcol z.source).2
    have hb : (each_dfs_run g r VISIT_ALL_EDGES never).1 z.source = black_color := by
      cases h : (each_dfs_run g r VISIT_ALL_EDGES never).1 z.source with
      | white_color => exact absurd h h1
      | gray_color => exact absurd h h2
      | black_color => rfl
    obtain ⟨q, hq, hreach⟩ := ((hcol z.source).1).1 hb
    rw [List.mem_singleton] at hq
    rw [hq] at hreach
    exact hreach

/-- Witness of C15: on A->B, B->A from A the events are (A, B, TREE), then
(B, A, BACK). -/
theorem each_dfs_all_edges_witness :
    each_dfs_events cycleGraph 1 VISIT_ALL_EDGES
      = [{ source := 1, target := 2, info := 0, kind := 1 },
         { source := 2, target := 1, info := 0, kind := 2 }]
    ∧ (∀ z ∈ each_dfs_events cycleGraph 1 VISIT_ALL_EDGES,
        (direct_graph cycleGraph).Reach 1 z.source)
    ∧ Classified ColorMap.empty (each_dfs_trace cycleGraph 1 VISIT_ALL_EDGES never) :=
  ⟨by decide, (each_dfs_all_edges cycleGraph (by decide) 1 (by decide)).2.1,
    (each_dfs_all_edges cycleGraph (by decide) 1 (by decide)).2.2.2⟩

/-! ## The constants and the absent root -/

/-- C24: the event-kind constants are TREE = 1, BACK = 2, FORWARD_OR_CROSS = 4,
NON_TREE = 6 and ALL = 7; NON_TREE is the bitwise or of BACK and
FORWARD_OR_CROSS, ALL the bitwise or of TREE, BACK and FORWARD_OR_CROSS; the
three basic kinds have no bit in common, two by two; and these values are the
ones that `Init_graph_algorithms` registers as the constants of `BGL::Graph`. -/
theorem event_kind_constants :
    VISIT_TREE_EDGES = 1 ∧ VISIT_BACK_EDGES = 2 ∧ VISIT_FORWARD_OR_CROSS_EDGES = 4
    ∧ VISIT_NON_TREE_EDGES = 6 ∧ VISIT_ALL_EDGES = 7
    ∧ VISIT_NON_TREE_EDGES = VISIT_BACK_EDGES ||| VISIT_FORWARD_OR_CROSS_EDGES
    ∧ VISIT_ALL_EDGES
      = VISIT_TREE_EDGES ||| VISIT_BACK_EDGES ||| VISIT_FORWARD_OR_CROSS_EDGES
    ∧ VISIT_TREE_EDGES &&& VISIT_BACK_EDGES = 0
    ∧ VISIT_TREE_EDGES &&& VISIT_FORWARD_OR_CROSS_EDGES = 0
    ∧ VISIT_BACK_EDGES &&& VISIT_FORWARD_OR_CROSS_EDGES = 0
    ∧ Init_graph_algorithms
      = [("TREE", 1), ("FORWARD_OR_CROSS", 4), ("BACK", 2), ("NON_TREE", 6), ("ALL", 7)] := by
  decide

/-- C23: when the root is not a vertex of the graph, `each_dfs` (on any
view), the undirected `each_dfs` and `each_bfs` with a valid mask (on any view)
return normally and the block is not called: the state of the block is the one
before the call, `each_dfs` has only reset `@prune`, the two others have
changed nothing. And `reachable?(a, b)` is false whenever `a` or `b` is not a
vertex. No outcome is an error. -/
theorem absent_root_ignored {β : Type} (g : RubyGraph) (view : View) (root mode : Nat)
    (block : Block β) (edge_color : EdgeColorMap) (s : Thread β)
    (hg : root ∉ g.vertices) (hview : root ∉ view.vertices) :
    graph_each_dfs view root mode block s = (ColorMap.empty, { s with prune := false })
    ∧ graph_direct_each_dfs g root mode block s = (ColorMap.empty, { s with prune := false })
    ∧ graph_undirected_each_dfs g root mode block edge_color s
      = (ColorMap.empty, edge_color, s)
    ∧ (¬ ((mode &&& VISIT_NON_TREE_EDGES) ≠ 0
          ∧ (mode &&& VISIT_NON_TREE_EDGES) ≠ VISIT_NON_TREE_EDGES) →
      graph_each_bfs view root mode block s = (Except.ok ColorMap.empty, s)
      ∧ graph_direct_each_bfs g root mode block s = (Except.ok ColorMap.empty, s))
    ∧ (∀ b, graph_reachable_p g root b = false)
    ∧ (∀ a, graph_reachable_p g a root = false) := by
  have hd : root ∉ (direct_graph g).vertices := hg
  have hu : root ∉ (make_undirected_graph g).vertices := hg
  refine ⟨?_, ?_, ?_, ?_, ?_, ?_⟩
  · unfold graph_each_dfs
    simp [rb_to_vertex, hview]
  · unfold graph_direct_each_dfs graph_each_dfs
    simp [rb_to_vertex, hd]
  · unfold graph_undirected_each_dfs
    simp [rb_to_vertex, hu]
  · intro hmask
    constructor
    · unfold graph_each_bfs
      simp only [if_neg hmask]
      simp [rb_to_vertex, hview]
    · unfold graph_direct_each_bfs graph_each_bfs
      simp only [if_neg hmask]
      simp [rb_to_vertex, hd]
  · intro b
    unfold graph_reachable_p
    simp [rb_to_vertex, hd]
  · intro a
    unfold graph_reachable_p
    by_cases ha : a ∈ (direct_graph g).vertices
    · simp [rb_to_vertex, ha, hd]
    · simp [rb_to_vertex, ha]

/-- Witness of C23 on the path graph with the root 9, which is no vertex. -/
theorem absent_root_ignored_witness :
    graph_direct_each_dfs pathGraph 9 VISIT_ALL_EDGES (record_block never)
        { prune := true, user := [] } = (ColorMap.empty, { prune := false, user := [] })
    ∧ graph_undirected_each_dfs pathGraph 9 VISIT_ALL_EDGES (record_block never)
        ColorMap.empty { prune := true, user := [] }
      = (ColorMap.empty, ColorMap.empty, { prune := true, user := [] })
    ∧ graph_reachable_p pathGraph 9 1 = false :=
  ⟨(absent_root_ignored pathGraph (direct_graph pathGraph) 9 VISIT_ALL_EDGES
      (record_block never) ColorMap.empty { prune := true, user := [] }
      (by decide) (by decide)).2.1,
    (absent_root_ignored pathGraph (direct_graph pathGraph) 9 VISIT_ALL_EDGES
      (record_block never) ColorMap.empty { prune := true, user := [] }
      (by decide) (by decide)).2.2.1,
    (absent_root_ignored pathGraph (direct_graph pathGraph) 9 VISIT_ALL_EDGES
      (record_block never) ColorMap.empty { prune := true, user := [] }
      (by decide) (by decide)).2.2.2.2.1 1⟩

/-! ## The undirected visit -/

/-- The undirected loop is the directed loop of the visitor that carries the
edge colours. -/
theorem undir_dfv_loop_eq {σ : Type} (g : View) (vis : DFSVisitor σ)
    (func : Nat → σ → Bool × σ) :
    ∀ (fuel u : Nat) (es : List Edge) (stack : List (Nat × List Edge)) (vc : ColorMap)
      (ec : EdgeColorMap) (uv : default_color_type) (s : σ),
      undir_dfv_loop g vis func fuel u es stack vc ec s
        = ((depth_first_visit_loop g vis.with_edge_color (edge_color_func func) fuel u es
              stack vc (ec, uv, s)).1,
           (depth_first_visit_loop g vis.with_edge_color (edge_color_func func) fuel u es
              stack vc (ec, uv, s)).2.1,
           (depth_first_visit_loop g vis.with_edge_color (edge_color_func func) fuel u es
              stack vc (ec, uv, s)).2.2.2) := by
  intro fuel
  induction fuel with
  | zero => intro u es stack vc ec uv s; rfl
  | succ n ih =>
    intro u es stack vc ec uv s
    cases es with
    | nil =>
      cases stack with
      | nil => rfl
      | cons f rest =>
        simp only [undir_dfv_loop, depth_first_visit_loop]
        exact ih _ _ _ _ _ uv _
    | cons e ei =>
      simp only [undir_dfv_loop, depth_first_visit_loop]
      cases hv : vc e.target with
      | white_color => exact ih _ _ _ _ _ (ec e.id) _
      | gray_color => exact ih _ _ _ _ _ (ec e.id) _
      | black_color => exact ih _ _ _ _ _ (ec e.id) _

/-- A walk that has enough fuel has ended: more fuel does not change what it
returns, whatever the visitor and the terminator do. -/
theorem depth_first_visit_loop_fuel {σ : Type} (g : View) (vis : DFSVisitor σ)
    (func : Nat → σ → Bool × σ) (hwf : g.WF) (k : Nat) :
    ∀ (fuel u : Nat) (es : List Edge) (stack : List (Nat × List Edge)) (color : ColorMap)
      (s : σ), wsum g color g.vertices + es.length + 1 + stackWeight stack ≤ fuel →
      (∀ e ∈ es, e.target ∈ g.vertices) →
      (∀ f ∈ stack, ∀ e ∈ f.2, e.target ∈ g.vertices) →
      depth_first_visit_loop g vis func (fuel + k) u es stack color s
        = depth_first_visit_loop g vis func fuel u es stack color s := by
  intro fuel
  induction fuel with
  | zero => intro u es stack color s h; omega
  | succ n ih =>
    intro u es stack color s hfuel hes hst
    have hk : n + 1 + k = (n + k) + 1 := by omega
    rw [hk]
    cases es with
    | nil =>
      cases stack with
      | nil => rfl
      | cons f rest =>
        simp only [depth_first_visit_loop]
        have hfuel2 : wsum g (put color u black_color) g.vertices + f.2.length + 1
            + stackWeight rest ≤ n := by
          have := wsum_put_le g color u black_color (by decide) g.vertices
          simp only [stackWeight, List.length_nil] at hfuel
          omega
        exact ih _ _ _ _ _ hfuel2
          (fun e he => hst f (List.mem_cons_self _ _) e he)
          (fun f2 hf2 e he => hst f2 (List.mem_cons_of_mem _ hf2) e he)
    | cons e ei =>
      simp only [depth_first_visit_loop]
      cases hc : color e.target with
      | white_color =>
        simp only []
        have hv : e.target ∈ g.vertices := hes e (List.mem_cons_self _ _)
        have hlen : (if (func e.target (vis.discover_vertex e.target
            (vis.tree_edge e (vis.examine_edge e s)))).1 = true then []
            else g.out_edges e.target).length ≤ (g.out_edges e.target).length := by
          split_ifs <;> simp
        have hfuel2 : wsum g (put color e.target gray_color) g.vertices
            + (if (func e.target (vis.discover_vertex e.target
                (vis.tree_edge e (vis.examine_edge e s)))).1 = true then []
                else g.out_edges e.target).length + 1
            + stackWeight ((u, ei) :: stack) ≤ n := by
          have := wsum_put_lt g color e.target gray_color (by decide) g.vertices hv hc
          simp only [stackWeight, List.length_cons] at hfuel ⊢
          omega
        apply ih _ _ _ _ _ hfuel2
        · intro e2 he2
          split_ifs at he2
          · cases he2
          · exact hwf.2 e.target hv e2 he2
        · intro f hf e2 he2
          rcases List.mem_cons.1 hf with h | h
          · subst h; exact hes e2 (List.mem_cons_of_mem _ he2)
          · exact hst f h e2 he2
      | gray_color =>
        have hfuel2 : wsum g color g.vertices + ei.length + 1 + stackWeight stack ≤ n := by
          simp only [List.length_cons] at hfuel
          omega
        exact ih _ _ _ _ _ hfuel2 (fun e2 he2 => hes e2 (List.mem_cons_of_mem _ he2)) hst
      | black_color =>
        have hfuel2 : wsum g color g.vertices + ei.length + 1 + stackWeight stack ≤ n := by
          simp only [List.length_cons] at hfuel
          omega
        exact ih _ _ _ _ _ hfuel2 (fun e2 he2 => hes e2 (List.mem_cons_of_mem _ he2)) hst

/-- The start of a visit has enough fuel. -/
theorem visit_fuel {σ : Type} (g : View) (func : Nat → σ → Bool × σ) (r : Nat)
    (hr : r ∈ g.vertices) (s : σ) :
    wsum g (put ColorMap.empty r gray_color) g.vertices
      + (if (func r s).1 = true then [] else g.out_edges r).length + 1
      + stackWeight [] ≤ dfs_fuel g := by
  have hlen : (if (func r s).1 = true then [] else g.out_edges r).length
      ≤ (g.out_edges r).length := by
    split_ifs <;> simp
  have h1 := wsum_put_lt g ColorMap.empty r gray_color (by decide) g.vertices hr rfl
  have h2 := wsum_le_fuel g ColorMap.empty g.vertices
  simp only [stackWeight, dfs_fuel]
  omega

/-- The edges that a visit starts with lead to vertices. -/
theorem visit_edges {σ : Type} (g : View) (hwf : g.WF) (func : Nat → σ → Bool × σ) (r : Nat)
    (hr : r ∈ g.vertices) (s : σ) :
    ∀ e ∈ (if (func r s).1 = true then [] else g.out_edges r), e.target ∈ g.vertices := by
  intro e he
  split_ifs at he
  · cases he
  · exact hwf.2 r hr e he

/-- The undirected visit from fresh vertex colours ends within the fuel of the
model: more fuel gives the same result. -/
theorem undir_dfv_impl_term_fuel {σ : Type} (g : View) (vis : DFSVisitor σ)
    (func : Nat → σ → Bool × σ) (hwf : g.WF) (r : Nat) (hr : r ∈ g.vertices)
    (ec : EdgeColorMap) (s : σ) (k : Nat) :
    undir_dfv_loop g vis func (dfs_fuel g + k) r
        (if (func r (vis.discover_vertex r s)).1 then [] else g.out_edges r) []
        (put ColorMap.empty r gray_color) ec (func r (vis.discover_vertex r s)).2
      = undir_dfv_impl_term g r vis ColorMap.empty ec func s := by
  unfold undir_dfv_impl_term
  simp only []
  rw [undir_dfv_loop_eq g vis func _ _ _ _ _ _ white_color,
    undir_dfv_loop_eq g vis func _ _ _ _ _ _ white_color]
  rw [depth_first_visit_loop_fuel g vis.with_edge_color (edge_color_func func) hwf k
    (dfs_fuel g) r _ [] _ _ (visit_fuel g func r hr _) (visit_edges g hwf func r hr _)
    (by simp)]

/-- The undirected visit from fresh vertex colours leaves no vertex gray. -/
theorem undir_dfv_impl_term_no_gray {σ : Type} (g : View) (vis : DFSVisitor σ)
    (func : Nat → σ → Bool × σ) (hwf : g.WF) (r : Nat) (hr : r ∈ g.vertices)
    (ec : EdgeColorMap) (s : σ) :
    ∀ v, (undir_dfv_impl_term g r vis ColorMap.empty ec func s).1 v ≠ gray_color := by
  unfold undir_dfv_impl_term
  simp only []
  rw [undir_dfv_loop_eq g vis func _ _ _ _ _ _ white_color]
  simp only []
  apply depth_first_visit_loop_no_gray g vis.with_edge_color (edge_color_func func) hwf
  · exact visit_fuel g func r hr _
  · exact visit_edges g hwf func r hr _
  · simp
  · intro v hv
    unfold put ColorMap.empty at hv
    by_cases hvr : v = r
    · exact Or.inl hvr
    · rw [if_neg hvr] at hv; cases hv

/-- Without a stop the vertex colours of the undirected visit are those of the
directed visit of the same view with the default visitor. -/
theorem undir_dfv_impl_term_colors {σ : Type} (g : View) (vis : DFSVisitor σ)
    (func : Nat → σ → Bool × σ) (hfunc : ∀ v s, (func v s).1 = false) (r : Nat)
    (vc : ColorMap) (ec : EdgeColorMap) (s : σ) :
    (undir_dfv_impl_term g r vis vc ec func s).1
      = (depth_first_visit_impl g r (default_dfs_visitor Unit) vc nontruth2 ()).1 := by
  unfold undir_dfv_impl_term depth_first_visit_impl
  simp only [hfunc, nontruth2]
  rw [undir_dfv_loop_eq g vis func _ _ _ _ _ _ white_color]
  simp only []
  have hsim : DFSSim vis.with_edge_color (edge_color_func func) (default_dfs_visitor Unit)
      nontruth2 (fun _ _ => True) := by
    constructor <;> intros <;> first | trivial | exact ⟨hfunc _ _, trivial⟩
  exact (depth_first_visit_loop_sim g hsim _ _ _ _ _ _ _ trivial).1

/-- The steps written down do not change the walk: the undirected loop with
the traced visitor returns the colours and the visitor state of the loop with
the visitor itself. -/
theorem undir_dfv_loop_traced {σ : Type} (g : View) (vis : DFSVisitor σ)
    (func : Nat → σ → Bool × σ) :
    ∀ (fuel u : Nat) (es : List Edge) (stack : List (Nat × List Edge)) (vc : ColorMap)
      (ec : EdgeColorMap) (s : σ) (T : List Step),
      ((undir_dfv_loop g vis.traced (traced_func func) fuel u es stack vc ec (s, T)).1,
       (undir_dfv_loop g vis.traced (traced_func func) fuel u es stack vc ec (s, T)).2.1,
       (undir_dfv_loop g vis.traced (traced_func func) fuel u es stack vc ec (s, T)).2.2.1)
        = undir_dfv_loop g vis func fuel u es stack vc ec s := by
  intro fuel
  induction fuel with
  | zero => intro u es stack vc ec s T; rfl
  | succ n ih =>
    intro u es stack vc ec s T
    cases es with
    | nil =>
      cases stack with
      | nil => rfl
      | cons f rest =>
        simp only [undir_dfv_loop]
        exact ih _ _ _ _ _ _ _
    | cons e ei =>
      simp only [undir_dfv_loop]
      cases hv : vc e.target with
      | white_color => exact ih _ _ _ _ _ _ _
      | gray_color =>
        simp only []
        by_cases hc : ec e.id = white_color
        · simp only [if_pos hc]; exact ih _ _ _ _ _ _ _
        · simp only [if_neg hc]; exact ih _ _ _ _ _ _ _
      | black_color => exact ih _ _ _ _ _ _ _

theorem put_same (c : ColorMap) (v : Nat) (k : default_color_type) : put c v k v = k := by
  simp [put]

theorem put_other (c : ColorMap) (v x : Nat) (k : default_color_type) (h : x ≠ v) :
    put c v k x = c x := by
  simp [put, h]

/-- The steps of the undirected loop, from a state whose current vertex and
suspended vertices are gray and distinct: they are a history of the colours,
the colours returned are the colours after them, and every tree edge comes
with the discovery of a vertex. -/
theorem undir_dfv_loop_walk {σ : Type} (g : View) (vis : DFSVisitor σ)
    (func : Nat → σ → Bool × σ) :
    ∀ (fuel u : Nat) (es : List Edge) (stack : List (Nat × List Edge)) (vc : ColorMap)
      (ec : EdgeColorMap) (s : σ) (T : List Step),
      (u :: stack.map Prod.fst).Nodup → vc u = gray_color →
      (∀ f ∈ stack, vc f.1 = gray_color) →
      ∃ Tn : List Step,
        (undir_dfv_loop g vis.traced (traced_func func) fuel u es stack vc ec (s, T)).2.2.2
          = T ++ Tn ∧
        (∀ last, Walk vc ec last Tn) ∧
        (undir_dfv_loop g vis.traced (traced_func func) fuel u es stack vc ec (s, T)).1
          = vertex_colors_after vc Tn ∧
        (undir_dfv_loop g vis.traced (traced_func func) fuel u es stack vc ec (s, T)).2.1
          = edge_colors_after ec Tn ∧
        tree_edges Tn = (discovered Tn).length := by
  intro fuel
  induction fuel with
  | zero =>
    intro u es stack vc ec s T _ _ _
    exact ⟨[], by simp [undir_dfv_loop], fun _ => trivial, rfl, rfl, rfl⟩
  | succ n ih =>
    intro u es stack vc ec s T hnd hu hst
    cases es with
    | nil =>
      cases stack with
      | nil =>
        exact ⟨[Step.finish u], rfl, fun _ => ⟨hu, trivial⟩, rfl, rfl, rfl⟩
      | cons f rest =>
        simp only [undir_dfv_loop]
        have hnd2 : (f.1 :: rest.map Prod.fst).Nodup := by
          simp only [List.map_cons] at hnd
          exact (List.nodup_cons.1 hnd).2
        have hfu : f.1 ≠ u := by
          intro h
          simp only [List.map_cons] at hnd
          exact (List.nodup_cons.1 hnd).1 (by simp [h])
        have hf : put vc u black_color f.1 = gray_color := by
          rw [put_other _ _ _ _ hfu]; exact hst f (List.mem_cons_self _ _)
        have hrest : ∀ f2 ∈ rest, put vc u black_color f2.1 = gray_color := by
          intro f2 hf2
          have hne : f2.1 ≠ u := by
            intro h
            simp only [List.map_cons] at hnd
            apply (List.nodup_cons.1 hnd).1
            simp only [List.mem_cons, List.mem_map]
            exact Or.inr ⟨f2, hf2, h⟩
          rw [put_other _ _ _ _ hne]; exact hst f2 (List.mem_cons_of_mem _ hf2)
        obtain ⟨Tn, h1, h2, h3, h4, h5⟩ := ih f.1 f.2 rest (put vc u black_color) ec
          (vis.finish_vertex u s) (T ++ [Step.finish u]) hnd2 hf hrest
        refine ⟨Step.finish u :: Tn, ?_, ?_, ?_, ?_, ?_⟩
        · show (undir_dfv_loop g vis.traced (traced_func func) n f.1 f.2 rest
            (put vc u black_color) ec (vis.finish_vertex u s, T ++ [Step.finish u])).2.2.2 = _
          rw [h1]; simp
        · intro last; exact ⟨hu, h2 none⟩
        · show (undir_dfv_loop g vis.traced (traced_func func) n f.1 f.2 rest
            (put vc u black_color) ec (vis.finish_vertex u s, T ++ [Step.finish u])).1 = _
          rw [h3]; rfl
        · show (undir_dfv_loop g vis.traced (traced_func func) n f.1 f.2 rest
            (put vc u black_color) ec (vis.finish_vertex u s, T ++ [Step.finish u])).2.1 = _
          rw [h4]; rfl
        · exact h5
    | cons e ei =>
      simp only [undir_dfv_loop]
      cases hv : vc e.target with
      | white_color =>
        simp only []
        have hvu : e.target ≠ u := by
          intro h; rw [h, hu] at hv; cases hv
        have hvst : ∀ f ∈ stack, f.1 ≠ e.target := by
          intro f hf h
          have := hst f hf
          rw [h, hv] at this; cases this
        have hnd2 : (e.target :: ((u, ei) :: stack).map Prod.fst).Nodup := by
          simp only [List.map_cons]
          refine List.nodup_cons.2 ⟨?_, hnd⟩
          simp only [List.mem_cons, List.mem_map, not_or]
          refine ⟨hvu, ?_⟩
          rintro ⟨f, hf, h⟩
          exact hvst f hf h
        have hst2 : ∀ f ∈ (u, ei) :: stack, put vc e.target gray_color f.1 = gray_color := by
          intro f hf
          rcases List.mem_cons.1 hf with h | h
          · subst h
            show put vc e.target gray_color u = gray_color
            rw [put_other _ _ _ _ (Ne.symm hvu)]; exact hu
          · rw [put_other _ _ _ _ (hvst f h)]; exact hst f h
        have hb : (func e.target (vis.discover_vertex e.target
            (vis.tree_edge e (vis.examine_edge e s)))).1 = true ∨
            (func e.target (vis.discover_vertex e.target
            (vis.tree_edge e (vis.examine_edge e s)))).1 = false := by
          cases (func e.target (vis.discover_vertex e.target
            (vis.tree_edge e (vis.examine_edge e s)))).1 <;> simp
        rcases hb with hb | hb
        · obtain ⟨Tn, h1, h2, h3, h4, h5⟩ := ih e.target [] ((u, ei) :: stack)
            (put vc e.target gray_color) (put ec e.id black_color)
            (func e.target (vis.discover_vertex e.target
              (vis.tree_edge e (vis.examine_edge e s)))).2
            (T ++ [Step.examine e] ++ [Step.tree e] ++ [Step.discover e.target]
              ++ [Step.stop e.target]) hnd2 (put_same _ _ _) hst2
          refine ⟨Step.examine e :: Step.tree e :: Step.discover e.target
            :: Step.stop e.target :: Tn, ?_, ?_, ?_, ?_, ?_⟩
          · simp only [DFSVisitor.traced, traced_func, hb, if_true] at h1 ⊢
            rw [h1]; simp
          · intro last
            exact ⟨⟨_, rfl⟩, hv, hv, h2 none⟩
          · simp only [DFSVisitor.traced, traced_func, hb, if_true] at h3 ⊢
            rw [h3]; rfl
          · simp only [DFSVisitor.traced, traced_func, hb, if_true] at h4 ⊢
            rw [h4]; rfl
          · simp only [tree_edges, discovered, List.length_cons]; omega
        · obtain ⟨Tn, h1, h2, h3, h4, h5⟩ := ih e.target (g.out_edges e.target)
            ((u, ei) :: stack)
            (put vc e.target gray_color) (put ec e.id black_color)
            (func e.target (vis.discover_vertex e.target
              (vis.tree_edge e (vis.examine_edge e s)))).2
            (T ++ [Step.examine e] ++ [Step.tree e] ++ [Step.discover e.target])
            hnd2 (put_same _ _ _) hst2
          refine ⟨Step.examine e :: Step.tree e :: Step.discover e.target :: Tn,
            ?_, ?_, ?_, ?_, ?_⟩
          · simp only [DFSVisitor.traced, traced_func, hb] at h1 ⊢
            simp only [Bool.false_eq_true, if_false] at h1 ⊢
            rw [h1]; simp
          · intro last
            exact ⟨⟨_, rfl⟩, hv, hv, h2 none⟩
          · simp only [DFSVisitor.traced, traced_func, hb] at h3 ⊢
            simp only [Bool.false_eq_true, if_false] at h3 ⊢
            rw [h3]; rfl
          · simp only [DFSVisitor.traced, traced_func, hb] at h4 ⊢
            simp only [Bool.false_eq_true, if_false] at h4 ⊢
            rw [h4]; rfl
          · simp only [tree_edges, discovered, List.length_cons]; omega
      | gray_color =>
        simp only []
        by_cases hc : ec e.id = white_color
        · obtain ⟨Tn, h1, h2, h3, h4, h5⟩ := ih u ei stack vc (put ec e.id black_color)
            (vis.back_edge e (vis.examine_edge e s))
            (T ++ [Step.examine e] ++ [Step.back e]) hnd hu hst
          refine ⟨Step.examine e :: Step.back e :: Tn, ?_, ?_, ?_, ?_, ?_⟩
          · simp only [DFSVisitor.traced, if_pos hc] at h1 ⊢
            rw [h1]; simp
          · intro last
            refine ⟨?_, hv, h2 none⟩
            rw [hc]
          · simp only [DFSVisitor.traced, if_pos hc] at h3 ⊢
            rw [h3]; rfl
          · simp only [DFSVisitor.traced, if_pos hc] at h4 ⊢
            rw [h4]; rfl
          · exact h5
        · obtain ⟨Tn, h1, h2, h3, h4, h5⟩ := ih u ei stack vc (put ec e.id black_color)
            (vis.examine_edge e s) (T ++ [Step.examine e]) hnd hu hst
          refine ⟨Step.examine e :: Tn, ?_, ?_, ?_, ?_, ?_⟩
          · simp only [DFSVisitor.traced, if_neg hc] at h1 ⊢
            rw [h1]; simp
          · intro last
            exact h2 _
          · simp only [DFSVisitor.traced, if_neg hc] at h3 ⊢
            rw [h3]; rfl
          · simp only [DFSVisitor.traced, if_neg hc] at h4 ⊢
            rw [h4]; rfl
          · exact h5
      | black_color =>
        simp only []
        obtain ⟨Tn, h1, h2, h3, h4, h5⟩ := ih u ei stack vc (put ec e.id black_color)
          (vis.forward_or_cross_edge e (vis.examine_edge e s))
          (T ++ [Step.examine e] ++ [Step.forward_or_cross e]) hnd hu hst
        refine ⟨Step.examine e :: Step.forward_or_cross e :: Tn, ?_, ?_, ?_, ?_, ?_⟩
        · simp only [DFSVisitor.traced] at h1 ⊢
          rw [h1]; simp
        · intro last
          exact ⟨⟨_, rfl⟩, hv, h2 none⟩
        · simp only [DFSVisitor.traced] at h3 ⊢
          rw [h3]; rfl
        · simp only [DFSVisitor.traced] at h4 ⊢
          rw [h4]; rfl
        · exact h5

/-- After one step of a history the rest is a history, and the edge that
awaits its classification is black. -/
theorem walk_tail {vc : ColorMap} {ec : EdgeColorMap} {last : Option (Nat × default_color_type)}
    {x : Step} {T : List Step} (h : Walk vc ec last (x :: T))
    (hl : ∀ i c, last = some (i, c) → ec i = black_color) :
    ∃ vc2 ec2 last2, Walk vc2 ec2 last2 T ∧
      (∀ i c, last2 = some (i, c) → ec2 i = black_color) ∧
      (∀ i, ec i = black_color → ec2 i = black_color) := by
  cases x with
  | discover v => exact ⟨_, _, _, h.2, by simp, fun _ hi => hi⟩
  | finish v => exact ⟨_, _, _, h.2, by simp, fun _ hi => hi⟩
  | examine e =>
    refine ⟨_, _, _, h, ?_, ?_⟩
    · intro i c hic
      simp only [Option.some.injEq, Prod.mk.injEq] at hic
      rw [← hic.1]; simp [put]
    · intro i hi
      simp only [put]
      split_ifs
      · rfl
      · exact hi
  | tree e => exact ⟨_, _, _, h.2.2, by simp, fun _ hi => hi⟩
  | back e => exact ⟨_, _, _, h.2.2, by simp, fun _ hi => hi⟩
  | forward_or_cross e => exact ⟨_, _, _, h.2.2, by simp, fun _ hi => hi⟩
  | stop v => exact ⟨_, _, _, h, hl, fun _ hi => hi⟩

/-- In a history no edge is reported as a back edge twice, and the edges
reported as back edges are white at its start or await their classification. -/
theorem walk_back_edges : ∀ (T : List Step) (vc : ColorMap) (ec : EdgeColorMap)
    (last : Option (Nat × default_color_type)), Walk vc ec last T →
    (∀ i c, last = some (i, c) → ec i = black_color) →
    (back_edges T).Nodup ∧
      ∀ i ∈ back_edges T, ec i = white_color ∨ last = some (i, white_color) := by
  intro T
  induction T with
  | nil => intro vc ec last _ _; simp [back_edges]
  | cons x T ih =>
    intro vc ec last h hl
    cases x with
    | discover v =>
      obtain ⟨h1, h2⟩ := ih _ _ _ h.2 (by simp)
      refine ⟨h1, fun i hi => ?_⟩
      rcases h2 i hi with h3 | h3
      · exact Or.inl h3
      · cases h3
    | finish v =>
      obtain ⟨h1, h2⟩ := ih _ _ _ h.2 (by simp)
      refine ⟨h1, fun i hi => ?_⟩
      rcases h2 i hi with h3 | h3
      · exact Or.inl h3
      · cases h3
    | examine e =>
      have hl2 : ∀ i c, some (e.id, ec e.id) = some (i, c) →
          put ec e.id black_color i = black_color := by
        intro i c hic
        simp only [Option.some.injEq, Prod.mk.injEq] at hic
        rw [← hic.1]; simp [put]
      obtain ⟨h1, h2⟩ := ih _ _ _ h hl2
      refine ⟨h1, fun i hi => ?_⟩
      left
      rcases h2 i hi with h3 | h3
      · simp only [put] at h3
        split_ifs at h3
        exact h3
      · simp only [Option.some.injEq, Prod.mk.injEq] at h3
        rw [← h3.1]; exact h3.2
    | tree e =>
      obtain ⟨h1, h2⟩ := ih _ _ _ h.2.2 (by simp)
      refine ⟨h1, fun i hi => ?_⟩
      rcases h2 i hi with h3 | h3
      · exact Or.inl h3
      · cases h3
    | back e =>
      obtain ⟨h1, h2⟩ := ih _ _ _ h.2.2 (by simp)
      have hblack : ec e.id = black_color := hl _ _ h.1
      have hwhite : ∀ i ∈ back_edges T, ec i = white_color := by
        intro i hi
        rcases h2 i hi with h3 | h3
        · exact h3
        · cases h3
      refine ⟨?_, ?_⟩
      · show (e.id :: back_edges T).Nodup
        refine List.nodup_cons.2 ⟨?_, h1⟩
        intro hmem
        have := hwhite _ hmem
        rw [hblack] at this; cases this
      · intro i hi
        have hi2 : i ∈ e.id :: back_edges T := hi
        rcases List.mem_cons.1 hi2 with h3 | h3
        · right; rw [h3]; exact h.1
        · exact Or.inl (hwhite i h3)
    | forward_or_cross e =>
      obtain ⟨h1, h2⟩ := ih _ _ _ h.2.2 (by simp)
      refine ⟨h1, fun i hi => ?_⟩
      rcases h2 i hi with h3 | h3
      · exact Or.inl h3
      · cases h3
    | stop v => exact ih _ _ _ h hl

/-- In a history an edge reported as a tree edge is not reported as a back
edge afterwards. -/
theorem walk_tree_then_back : ∀ (A : List Step) (e : Edge) (B : List Step) (vc : ColorMap)
    (ec : EdgeColorMap) (last : Option (Nat × default_color_type)),
    Walk vc ec last (A ++ Step.tree e :: B) →
    (∀ i c, last = some (i, c) → ec i = black_color) →
    e.id ∉ back_edges B := by
  intro A
  induction A with
  | nil =>
    intro e B vc ec last h hl hmem
    simp only [List.nil_append] at h
    obtain ⟨c, hc⟩ := h.1
    have hblack := hl _ _ hc
    have h2 := (walk_back_edges B vc ec none h.2.2 (by simp)).2 _ hmem
    rcases h2 with h3 | h3
    · rw [hblack] at h3; cases h3
    · cases h3
  | cons x A ih =>
    intro e B vc ec last h hl
    obtain ⟨vc2, ec2, last2, h2, hl2, _⟩ := walk_tail h hl
    exact ih e B vc2 ec2 last2 h2 hl2

/-- An edge that is black stays black. -/
theorem edge_colors_after_black : ∀ (T : List Step) (ec : EdgeColorMap) (i : Nat),
    ec i = black_color → edge_colors_after ec T i = black_color := by
  intro T
  induction T with
  | nil => intro ec i h; exact h
  | cons x T ih =>
    intro ec i h
    cases x with
    | examine e =>
      apply ih
      simp only [put]
      split_ifs
      · rfl
      · exact h
    | discover v => exact ih _ _ h
    | finish v => exact ih _ _ h
    | tree e => exact ih _ _ h
    | back e => exact ih _ _ h
    | forward_or_cross e => exact ih _ _ h
    | stop v => exact ih _ _ h

/-- An examined edge is black after the steps. -/
theorem edge_colors_after_examined : ∀ (T : List Step) (ec : EdgeColorMap) (e : Edge),
    Step.examine e ∈ T → edge_colors_after ec T e.id = black_color := by
  intro T
  induction T with
  | nil => intro ec e h; cases h
  | cons x T ih =>
    intro ec e h
    rcases List.mem_cons.1 h with h1 | h1
    · subst h1
      exact edge_colors_after_black T _ _ (by simp [put])
    · cases x with
      | examine e2 => exact ih _ _ h1
      | discover v => exact ih _ _ h1
      | finish v => exact ih _ _ h1
      | tree e2 => exact ih _ _ h1
      | back e2 => exact ih _ _ h1
      | forward_or_cross e2 => exact ih _ _ h1
      | stop v => exact ih _ _ h1

/-- In a history no vertex is discovered twice, and the vertices discovered
are white at its start. -/
theorem walk_discovered : ∀ (T : List Step) (vc : ColorMap) (ec : EdgeColorMap)
    (last : Option (Nat × default_color_type)), Walk vc ec last T →
    (discovered T).Nodup ∧ ∀ v ∈ discovered T, vc v = white_color := by
  intro T
  induction T with
  | nil => intro vc ec last _; simp [discovered]
  | cons x T ih =>
    intro vc ec last h
    cases x with
    | discover v =>
      obtain ⟨h1, h2⟩ := ih _ _ _ h.2
      have hne : ∀ x ∈ discovered T, x ≠ v := by
        intro x hx hxv
        have := h2 x hx
        rw [hxv, put_same] at this; cases this
      refine ⟨?_, ?_⟩
      · show (v :: discovered T).Nodup
        exact List.nodup_cons.2 ⟨fun hm => hne v hm rfl, h1⟩
      · intro x hx
        have hx2 : x ∈ v :: discovered T := hx
        rcases List.mem_cons.1 hx2 with h3 | h3
        · rw [h3]; exact h.1
        · have := h2 x h3
          rwa [put_other _ _ _ _ (hne x h3)] at this
    | finish v =>
      obtain ⟨h1, h2⟩ := ih _ _ _ h.2
      refine ⟨h1, fun x hx => ?_⟩
      have := h2 x hx
      by_cases hxv : x = v
      · rw [hxv, put_same] at this; cases this
      · rwa [put_other _ _ _ _ hxv] at this
    | examine e => exact ih _ _ _ h
    | tree e => exact ih _ _ _ h.2.2
    | back e => exact ih _ _ _ h.2.2
    | forward_or_cross e => exact ih _ _ _ h.2.2
    | stop v => exact ih _ _ _ h

/-- After a history the vertices that are not white are those that were not
white before and those discovered. -/
theorem walk_nonwhite : ∀ (T : List Step) (vc : ColorMap) (ec : EdgeColorMap)
    (last : Option (Nat × default_color_type)), Walk vc ec last T →
    ∀ v, vertex_colors_after vc T v ≠ white_color ↔ (vc v ≠ white_color ∨ v ∈ discovered T) := by
  intro T
  induction T with
  | nil => intro vc ec last _ v; simp [discovered, vertex_colors_after]
  | cons x T ih =>
    intro vc ec last h v
    cases x with
    | discover x =>
      show vertex_colors_after (put vc x gray_color) T v ≠ white_color ↔
        (vc v ≠ white_color ∨ v ∈ x :: discovered T)
      rw [ih _ _ _ h.2 v]
      by_cases hvx : v = x
      · subst hvx; simp [put_same]
      · rw [put_other _ _ _ _ hvx]; simp [hvx]
    | finish x =>
      show vertex_colors_after (put vc x black_color) T v ≠ white_color ↔
        (vc v ≠ white_color ∨ v ∈ discovered T)
      rw [ih _ _ _ h.2 v]
      by_cases hvx : v = x
      · subst hvx; simp [put_same, h.1]
      · rw [put_other _ _ _ _ hvx]
    | examine e => exact ih _ _ _ h v
    | tree e => exact ih _ _ _ h.2.2 v
    | back e => exact ih _ _ _ h.2.2 v
    | forward_or_cross e => exact ih _ _ _ h.2.2 v
    | stop x => exact ih _ _ _ h v

/-- The steps of the undirected visit from a white vertex are a history of the
colours it is given; the colours it returns are the colours after the steps,
and the discoveries number one more than the tree edges. -/
theorem undir_dfv_impl_term_walk {σ : Type} (g : View) (vis : DFSVisitor σ)
    (func : Nat → σ → Bool × σ) (r : Nat) (vc : ColorMap) (ec : EdgeColorMap) (s : σ)
    (hw : vc r = white_color) :
    Walk vc ec none
        (undir_dfv_impl_term g r vis.traced vc ec (traced_func func) (s, [])).2.2.2 ∧
      (undir_dfv_impl_term g r vis.traced vc ec (traced_func func) (s, [])).1
        = vertex_colors_after vc
          (undir_dfv_impl_term g r vis.traced vc ec (traced_func func) (s, [])).2.2.2 ∧
      (undir_dfv_impl_term g r vis.traced vc ec (traced_func func) (s, [])).2.1
        = edge_colors_after ec
          (undir_dfv_impl_term g r vis.traced vc ec (traced_func func) (s, [])).2.2.2 ∧
      tree_edges (undir_dfv_impl_term g r vis.traced vc ec (traced_func func) (s, [])).2.2.2
          + 1
        = (discovered
          (undir_dfv_impl_term g r vis.traced vc ec (traced_func func) (s, [])).2.2.2).length
      := by
  unfold undir_dfv_impl_term
  simp only []
  have hb : (func r (vis.discover_vertex r s)).1 = true ∨
      (func r (vis.discover_vertex r s)).1 = false := by
    cases (func r (vis.discover_vertex r s)).1 <;> simp
  rcases hb with hb | hb
  · obtain ⟨Tn, h1, h2, h3, h4, h5⟩ := undir_dfv_loop_walk g vis func (dfs_fuel g) r []
      [] (put vc r gray_color) ec (func r (vis.discover_vertex r s)).2
      ([Step.discover r] ++ [Step.stop r]) (by simp) (put_same _ _ _) (by simp)
    simp only [DFSVisitor.traced, traced_func, hb, if_true, List.nil_append] at h1 h3 h4 ⊢
    rw [h1, h3, h4]
    refine ⟨⟨hw, h2 none⟩, rfl, rfl, ?_⟩
    simp [tree_edges, discovered]
    omega
  · obtain ⟨Tn, h1, h2, h3, h4, h5⟩ := undir_dfv_loop_walk g vis func (dfs_fuel g) r
      (g.out_edges r) [] (put vc r gray_color) ec (func r (vis.discover_vertex r s)).2
      [Step.discover r] (by simp) (put_same _ _ _) (by simp)
    simp only [DFSVisitor.traced, traced_func, hb, List.nil_append] at h1 h3 h4 ⊢
    simp only [Bool.false_eq_true, if_false] at h1 h3 h4 ⊢
    rw [h1, h3, h4]
    refine ⟨⟨hw, h2 none⟩, rfl, rfl, ?_⟩
    simp [tree_edges, discovered]
    omega

theorem undirected_sourced (g : RubyGraph) : (make_undirected_graph g).Sourced := by
  intro x e he
  simp only [make_undirected_graph, RubyGraph.out_edges, RubyGraph.in_edges,
    List.mem_append, List.mem_filter, List.mem_map, decide_eq_true_eq] at he
  rcases he with ⟨_, h⟩ | ⟨e2, ⟨_, h⟩, rfl⟩
  · exact h
  · exact h

theorem mem_discovered : ∀ (T : List Step) (v : Nat), Step.discover v ∈ T → v ∈ discovered T := by
  intro T
  induction T with
  | nil => intro v h; cases h
  | cons x T ih =>
    intro v h
    rcases List.mem_cons.1 h with h1 | h1
    · subst h1; simp [discovered]
    · cases x with
      | discover w => simp only [discovered, List.mem_cons]; exact Or.inr (ih v h1)
      | examine e => exact ih v h1
      | finish w => exact ih v h1
      | tree e => exact ih v h1
      | back e => exact ih v h1
      | forward_or_cross e => exact ih v h1
      | stop w => exact ih v h1

/-- Where the edges are examined from, and where the terminator stops the
walk: an edge is examined from the current vertex, a suspended vertex or a
vertex still white; a stop is at a vertex still white, which is discovered,
and no edge is examined from it. -/
theorem undir_dfv_loop_stops {σ : Type} (g : View) (hs : g.Sourced) (vis : DFSVisitor σ)
    (func : Nat → σ → Bool × σ) :
    ∀ (fuel u : Nat) (es : List Edge) (stack : List (Nat × List Edge)) (vc : ColorMap)
      (ec : EdgeColorMap) (s : σ) (T : List Step),
      (∀ e ∈ es, e.source = u) → (∀ f ∈ stack, ∀ e ∈ f.2, e.source = f.1) →
      vc u ≠ white_color → (∀ f ∈ stack, vc f.1 ≠ white_color) →
      ∃ Tn : List Step,
        (undir_dfv_loop g vis.traced (traced_func func) fuel u es stack vc ec (s, T)).2.2.2
          = T ++ Tn ∧
        (∀ e, Step.examine e ∈ Tn →
          (e.source = u ∧ es ≠ []) ∨ e.source ∈ stack.map Prod.fst
            ∨ vc e.source = white_color) ∧
        (∀ v, Step.stop v ∈ Tn → vc v = white_color ∧ Step.discover v ∈ Tn) ∧
        (∀ v, Step.stop v ∈ Tn → ∀ e, Step.examine e ∈ Tn → e.source ≠ v) := by
  intro fuel
  induction fuel with
  | zero =>
    intro u es stack vc ec s T _ _ _ _
    exact ⟨[], by simp [undir_dfv_loop], by simp, by simp, by simp⟩
  | succ n ih =>
    intro u es stack vc ec s T hes hstk hu hst
    cases es with
    | nil =>
      cases stack with
      | nil =>
        exact ⟨[Step.finish u], rfl, by simp, by simp, by simp⟩
      | cons f rest =>
        simp only [undir_dfv_loop]
        obtain ⟨Tn, h1, h2, h3, h4⟩ := ih f.1 f.2 rest (put vc u black_color) ec
          (vis.finish_vertex u s) (T ++ [Step.finish u])
          (hstk f (List.mem_cons_self _ _))
          (fun f2 hf2 => hstk f2 (List.mem_cons_of_mem _ hf2))
          (put_ne_white (by decide) (hst f (List.mem_cons_self _ _)))
          (fun f2 hf2 => put_ne_white (by decide) (hst f2 (List.mem_cons_of_mem _ hf2)))
        refine ⟨Step.finish u :: Tn, ?_, ?_, ?_, ?_⟩
        · show (undir_dfv_loop g vis.traced (traced_func func) n f.1 f.2 rest
            (put vc u black_color) ec (vis.finish_vertex u s, T ++ [Step.finish u])).2.2.2 = _
          rw [h1]; simp
        · intro e he
          simp only [List.mem_cons, reduceCtorEq, false_or] at he
          rcases h2 e he with h | h | h
          · right; left; simp [h.1]
          · right; left; simp only [List.map_cons, List.mem_cons]; exact Or.inr h
          · right; right
            simp only [put] at h
            split_ifs at h
            exact h
        · intro v hv
          simp only [List.mem_cons, reduceCtorEq, false_or] at hv
          obtain ⟨h5, h6⟩ := h3 v hv
          refine ⟨?_, List.mem_cons_of_mem _ h6⟩
          simp only [put] at h5
          split_ifs at h5
          exact h5
        · intro v hv e he
          simp only [List.mem_cons, reduceCtorEq, false_or] at hv he
          exact h4 v hv e he
    | cons e ei =>
      simp only [undir_dfv_loop]
      have hesrc : e.source = u := hes e (List.mem_cons_self _ _)
      have hei : ∀ e2 ∈ ei, e2.source = u := fun e2 h => hes e2 (List.mem_cons_of_mem _ h)
      cases hv : vc e.target with
      | white_color =>
        simp only []
        have hvu : u ≠ e.target := by
          intro h; rw [h] at hu; exact hu hv
        have hvst : ∀ f ∈ stack, f.1 ≠ e.target := by
          intro f hf h
          have := hst f hf
          rw [h] at this; exact this hv
        have hstk2 : ∀ f ∈ (u, ei) :: stack, ∀ e2 ∈ f.2, e2.source = f.1 := by
          intro f hf e2 he2
          rcases List.mem_cons.1 hf with h | h
          · subst h; exact hei e2 he2
          · exact hstk f h e2 he2
        have hst2 : ∀ f ∈ (u, ei) :: stack, put vc e.target gray_color f.1 ≠ white_color := by
          intro f hf
          rcases List.mem_cons.1 hf with h | h
          · subst h; exact put_ne_white (by decide) hu
          · exact put_ne_white (by decide) (hst f h)
        have hwhite : ∀ x, put vc e.target gray_color x = white_color →
            x ≠ e.target ∧ vc x = white_color := by
          intro x hx
          simp only [put] at hx
          split_ifs at hx with hxe
          exact ⟨hxe, hx⟩
        have hb : (func e.target (vis.discover_vertex e.target
            (vis.tree_edge e (vis.examine_edge e s)))).1 = true ∨
            (func e.target (vis.discover_vertex e.target
            (vis.tree_edge e (vis.examine_edge e s)))).1 = false := by
          cases (func e.target (vis.discover_vertex e.target
            (vis.tree_edge e (vis.examine_edge e s)))).1 <;> simp
        rcases hb with hb | hb
        · obtain ⟨Tn, h1, h2, h3, h4⟩ := ih e.target [] ((u, ei) :: stack)
            (put vc e.target gray_color) (put ec e.id black_color)
            (func e.target (vis.discover_vertex e.target
              (vis.tree_edge e (vis.examine_edge e s)))).2
            (T ++ [Step.examine e] ++ [Step.tree e] ++ [Step.discover e.target]
              ++ [Step.stop e.target]) (by simp) hstk2
            (by rw [put_same]; decide) hst2
          have hS1 : ∀ e2, Step.examine e2 ∈ Tn →
              (e2.source = u ∨ e2.source ∈ stack.map Prod.fst ∨ vc e2.source = white_color)
              ∧ e2.source ≠ e.target := by
            intro e2 he2
            rcases h2 e2 he2 with h | h | h
            · exact absurd rfl h.2
            · simp only [List.map_cons, List.mem_cons] at h
              rcases h with h | h
              · exact ⟨Or.inl h, by rw [h]; exact hvu⟩
              · refine ⟨Or.inr (Or.inl h), ?_⟩
                obtain ⟨f, hf, hfe⟩ := List.mem_map.1 h
                rw [← hfe]; exact hvst f hf
            · exact ⟨Or.inr (Or.inr (hwhite _ h).2), (hwhite _ h).1⟩
          refine ⟨Step.examine e :: Step.tree e :: Step.discover e.target
            :: Step.stop e.target :: Tn, ?_, ?_, ?_, ?_⟩
          · simp only [DFSVisitor.traced, traced_func, hb, if_true] at h1 ⊢
            rw [h1]; simp
          · intro e2 he2
            simp only [List.mem_cons, Step.examine.injEq, reduceCtorEq, false_or] at he2
            rcases he2 with h | h
            · left; rw [h]; exact ⟨hesrc, by simp⟩
            · rcases (hS1 e2 h).1 with h5 | h5 | h5
              · left; exact ⟨h5, by simp⟩
              · right; left; exact h5
              · right; right; exact h5
          · intro v hv2
            simp only [List.mem_cons, Step.stop.injEq, reduceCtorEq, false_or] at hv2
            rcases hv2 with h | h
            · rw [h]; exact ⟨hv, by simp⟩
            · obtain ⟨h5, h6⟩ := h3 v h
              exact ⟨(hwhite v h5).2, by simp [h6]⟩
          · intro v hv2 e2 he2
            simp only [List.mem_cons, Step.stop.injEq, Step.examine.injEq, reduceCtorEq, false_or] at hv2 he2
            rcases hv2 with hx | hx
            · rcases he2 with h | h
              · rw [h, hx, hesrc]; exact hvu
              · rw [hx]; exact (hS1 e2 h).2
            · rcases he2 with h | h
              · rw [h, hesrc]
                intro hcon
                have := (hwhite v (h3 v hx).1).2
                rw [← hcon] at this; exact hu this
              · exact h4 v hx e2 h
        · obtain ⟨Tn, h1, h2, h3, h4⟩ := ih e.target (g.out_edges e.target)
            ((u, ei) :: stack)
            (put vc e.target gray_color) (put ec e.id black_color)
            (func e.target (vis.discover_vertex e.target
              (vis.tree_edge e (vis.examine_edge e s)))).2
            (T ++ [Step.examine e] ++ [Step.tree e] ++ [Step.discover e.target])
            (hs e.target) hstk2 (by rw [put_same]; decide) hst2
          refine ⟨Step.examine e :: Step.tree e :: Step.discover e.target :: Tn,
            ?_, ?_, ?_, ?_⟩
          · simp only [DFSVisitor.traced, traced_func, hb] at h1 ⊢
            simp only [Bool.false_eq_true, if_false] at h1 ⊢
            rw [h1]; simp
          · intro e2 he2
            simp only [List.mem_cons, Step.examine.injEq, reduceCtorEq, false_or] at he2
            rcases he2 with h | h
            · left; rw [h]; exact ⟨hesrc, by simp⟩
            · rcases h2 e2 h with h5 | h5 | h5
              · right; right; rw [h5.1]; exact hv
              · simp only [List.map_cons, List.mem_cons] at h5
                rcases h5 with h5 | h5
                · left; exact ⟨h5, by simp⟩
                · right; left; exact h5
              · right; right; exact (hwhite _ h5).2
          · intro v hv2
            simp only [List.mem_cons, reduceCtorEq, false_or] at hv2
            obtain ⟨h5, h6⟩ := h3 v hv2
            exact ⟨(hwhite v h5).2, by simp [h6]⟩
          · intro v hv2 e2 he2
            simp only [List.mem_cons, Step.examine.injEq, reduceCtorEq, false_or] at hv2 he2
            rcases he2 with h | h
            · rw [h, hesrc]
              intro hcon
              have := (hwhite v (h3 v hv2).1).2
              rw [← hcon] at this; exact hu this
            · exact h4 v hv2 e2 h
      | gray_color =>
        simp only []
        by_cases hc : ec e.id = white_color
        · obtain ⟨Tn, h1, h2, h3, h4⟩ := ih u ei stack vc (put ec e.id black_color)
            (vis.back_edge e (vis.examine_edge e s))
            (T ++ [Step.examine e] ++ [Step.back e]) hei hstk hu hst
          refine ⟨Step.examine e :: Step.back e :: Tn, ?_, ?_, ?_, ?_⟩
          · simp only [DFSVisitor.traced, if_pos hc] at h1 ⊢
            rw [h1]; simp
          · intro e2 he2
            simp only [List.mem_cons, Step.examine.injEq, reduceCtorEq, false_or] at he2
            rcases he2 with h | h
            · left; rw [h]; exact ⟨hesrc, by simp⟩
            · rcases h2 e2 h with h5 | h5 | h5
              · left; exact ⟨h5.1, by simp⟩
              · right; left; exact h5
              · right; right; exact h5
          · intro v hv2
            simp only [List.mem_cons, reduceCtorEq, false_or] at hv2
            obtain ⟨h5, h6⟩ := h3 v hv2
            exact ⟨h5, by simp [h6]⟩
          · intro v hv2 e2 he2
            simp only [List.mem_cons, Step.examine.injEq, reduceCtorEq, false_or] at hv2 he2
            rcases he2 with h | h
            · rw [h, hesrc]
              intro hcon
              have := (h3 v hv2).1
              rw [← hcon] at this; exact hu this
            · exact h4 v hv2 e2 h
        · obtain ⟨Tn, h1, h2, h3, h4⟩ := ih u ei stack vc (put ec e.id black_color)
            (vis.examine_edge e s) (T ++ [Step.examine e]) hei hstk hu hst
          refine ⟨Step.examine e :: Tn, ?_, ?_, ?_, ?_⟩
          · simp only [DFSVisitor.traced, if_neg hc] at h1 ⊢
            rw [h1]; simp
          · intro e2 he2
            simp only [List.mem_cons, Step.examine.injEq, reduceCtorEq, false_or] at he2
            rcases he2 with h | h
            · left; rw [h]; exact ⟨hesrc, by simp⟩
            · rcases h2 e2 h with h5 | h5 | h5
              · left; exact ⟨h5.1, by simp⟩
              · right; left; exact h5
              · right; right; exact h5
          · intro v hv2
            simp only [List.mem_cons, reduceCtorEq, false_or] at hv2
            obtain ⟨h5, h6⟩ := h3 v hv2
            exact ⟨h5, by simp [h6]⟩
          · intro v hv2 e2 he2
            simp only [List.mem_cons, Step.examine.injEq, reduceCtorEq, false_or] at hv2 he2
            rcases he2 with h | h
            · rw [h, hesrc]
              intro hcon
              have := (h3 v hv2).1
              rw [← hcon] at this; exact hu this
            · exact h4 v hv2 e2 h
      | black_color =>
        simp only []
        obtain ⟨Tn, h1, h2, h3, h4⟩ := ih u ei stack vc (put ec e.id black_color)
          (vis.forward_or_cross_edge e (vis.examine_edge e s))
          (T ++ [Step.examine e] ++ [Step.forward_or_cross e]) hei hstk hu hst
        refine ⟨Step.examine e :: Step.forward_or_cross e :: Tn, ?_, ?_, ?_, ?_⟩
        · simp only [DFSVisitor.traced] at h1 ⊢
          rw [h1]; simp
        · intro e2 he2
          simp only [List.mem_cons, Step.examine.injEq, reduceCtorEq, false_or] at he2
          rcases he2 with h | h
          · left; rw [h]; exact ⟨hesrc, by simp⟩
          · rcases h2 e2 h with h5 | h5 | h5
            · left; exact ⟨h5.1, by simp⟩
            · right; left; exact h5
            · right; right; exact h5
        · intro v hv2
          simp only [List.mem_cons, reduceCtorEq, false_or] at hv2
          obtain ⟨h5, h6⟩ := h3 v hv2
          exact ⟨h5, by simp [h6]⟩
        · intro v hv2 e2 he2
          simp only [List.mem_cons, Step.examine.injEq, reduceCtorEq, false_or] at hv2 he2
          rcases he2 with h | h
          · rw [h, hesrc]
            intro hcon
            have := (h3 v hv2).1
            rw [← hcon] at this; exact hu this
          · exact h4 v hv2 e2 h

/-- The steps written down do not change the visit. -/
theorem undir_dfv_impl_term_traced {σ : Type} (g : View) (vis : DFSVisitor σ)
    (func : Nat → σ → Bool × σ) (r : Nat) (vc : ColorMap) (ec : EdgeColorMap) (s : σ) :
    ((undir_dfv_impl_term g r vis.traced vc ec (traced_func func) (s, [])).1,
     (undir_dfv_impl_term g r vis.traced vc ec (traced_func func) (s, [])).2.1,
     (undir_dfv_impl_term g r vis.traced vc ec (traced_func func) (s, [])).2.2.1)
      = undir_dfv_impl_term g r vis vc ec func s := by
  unfold undir_dfv_impl_term
  exact undir_dfv_loop_traced g vis func _ _ _ _ _ _ _ _

/-- In the undirected visit of a view whose out-edges start at their vertex, a
vertex at which the terminator stops is discovered, and no edge is examined
from it. -/
theorem undir_dfv_impl_term_stops {σ : Type} (g : View) (hs : g.Sourced) (vis : DFSVisitor σ)
    (func : Nat → σ → Bool × σ) (r : Nat) (vc : ColorMap) (ec : EdgeColorMap) (s : σ) :
    ∀ v, Step.stop v ∈
        (undir_dfv_impl_term g r vis.traced vc ec (traced_func func) (s, [])).2.2.2 →
      Step.discover v ∈
        (undir_dfv_impl_term g r vis.traced vc ec (traced_func func) (s, [])).2.2.2 ∧
      ∀ e, Step.examine e ∈
        (undir_dfv_impl_term g r vis.traced vc ec (traced_func func) (s, [])).2.2.2 →
        e.source ≠ v := by
  unfold undir_dfv_impl_term
  simp only []
  have hb : (func r (vis.discover_vertex r s)).1 = true ∨
      (func r (vis.discover_vertex r s)).1 = false := by
    cases (func r (vis.discover_vertex r s)).1 <;> simp
  rcases hb with hb | hb
  · obtain ⟨Tn, h1, h2, h3, h4⟩ := undir_dfv_loop_stops g hs vis func (dfs_fuel g) r []
      [] (put vc r gray_color) ec (func r (vis.discover_vertex r s)).2
      ([Step.discover r] ++ [Step.stop r]) (by simp) (by simp)
      (by rw [put_same]; decide) (by simp)
    simp only [DFSVisitor.traced, traced_func, hb, if_true, List.nil_append] at h1 ⊢
    rw [h1]
    intro v hv
    simp only [List.cons_append, List.nil_append, List.mem_cons, Step.stop.injEq,
      reduceCtorEq, false_or] at hv
    have hw : ∀ x, put vc r gray_color x = white_color → x ≠ r := by
      intro x hx hxr
      rw [hxr, put_same] at hx; cases hx
    rcases hv with hv | hv
    · refine ⟨by simp [hv], ?_⟩
      intro e he
      simp only [List.cons_append, List.nil_append, List.mem_cons, reduceCtorEq,
        false_or] at he
      rcases h2 e he with h | h | h
      · exact absurd rfl h.2
      · simp at h
      · rw [hv]; exact hw _ h
    · refine ⟨by simp [(h3 v hv).2], ?_⟩
      intro e he
      simp only [List.cons_append, List.nil_append, List.mem_cons, reduceCtorEq,
        false_or] at he
      exact h4 v hv e he
  · obtain ⟨Tn, h1, h2, h3, h4⟩ := undir_dfv_loop_stops g hs vis func (dfs_fuel g) r
      (g.out_edges r) [] (put vc r gray_color) ec (func r (vis.discover_vertex r s)).2
      [Step.discover r] (hs r) (by simp) (by rw [put_same]; decide) (by simp)
    simp only [DFSVisitor.traced, traced_func, hb, List.nil_append] at h1 ⊢
    simp only [Bool.false_eq_true, if_false] at h1 ⊢
    rw [h1]
    intro v hv
    simp only [List.cons_append, List.nil_append, List.mem_cons, reduceCtorEq,
      false_or] at hv
    refine ⟨by simp [(h3 v hv).2], ?_⟩
    intro e he
    simp only [List.cons_append, List.nil_append, List.mem_cons, reduceCtorEq,
      false_or] at he
    exact h4 v hv e he

/-- The vertex colours that the undirected visit of a stored graph returns are
the colours after its steps. -/
theorem undirected_steps_colors {σ : Type} (g : RubyGraph) (r : Nat) (vis : DFSVisitor σ)
    (ec : EdgeColorMap) (func : Nat → σ → Bool × σ) (s : σ) :
    (undir_dfv_impl_term (make_undirected_graph g) r vis ColorMap.empty ec func s).1
        = vertex_colors_after ColorMap.empty (undirected_steps g r vis ec func s) ∧
      (undir_dfv_impl_term (make_undirected_graph g) r vis ColorMap.empty ec func s).2.1
        = edge_colors_after ec (undirected_steps g r vis ec func s) := by
  have h1 := undir_dfv_impl_term_walk (make_undirected_graph g) vis func r ColorMap.empty
    ec s rfl
  have h2 := undir_dfv_impl_term_traced (make_undirected_graph g) vis func r
    ColorMap.empty ec s
  rw [← h2]
  exact ⟨h1.2.1, h1.2.2.1⟩

/-- The vertices that the undirected visit of a stored graph leaves black are
those it discovers. -/
theorem undirected_steps_black {σ : Type} (g : RubyGraph) (hwf : g.WF) (r : Nat)
    (hr : r ∈ g.vertices) (vis : DFSVisitor σ) (ec : EdgeColorMap)
    (func : Nat → σ → Bool × σ) (s : σ) (v : Nat) :
    v ∈ discovered (undirected_steps g r vis ec func s) ↔
      (undir_dfv_impl_term (make_undirected_graph g) r vis ColorMap.empty ec func s).1 v
        = black_color := by
  have h1 := undir_dfv_impl_term_walk (make_undirected_graph g) vis func r ColorMap.empty
    ec s rfl
  have h2 := (undirected_steps_colors g r vis ec func s).1
  have h3 := undir_dfv_impl_term_no_gray (make_undirected_graph g) vis func
    (undirected_wf g hwf) r hr ec s v
  have h4 := walk_nonwhite _ _ _ _ h1.1 v
  rw [h2] at h3 ⊢
  have h5 : v ∈ discovered (undirected_steps g r vis ec func s) ↔
      vertex_colors_after ColorMap.empty (undirected_steps g r vis ec func s) v
        ≠ white_color := by
    unfold undirected_steps
    rw [h4]
    simp [ColorMap.empty]
  rw [h5]
  cases hc : vertex_colors_after ColorMap.empty (undirected_steps g r vis ec func s) v with
  | white_color => simp
  | gray_color => exact absurd hc h3
  | black_color => simp

/-! ## The claims on the undirected visit -/

/-- C25: in the undirected depth-first visit of a stored graph, whatever the
visitor, the terminator and the edge colours at the start (all unused
included), no edge is reported as a back edge twice, an edge reported as a
tree edge is not reported as a back edge afterwards, and every examined edge
is black in the edge colours returned, whatever its classification. -/
theorem undirected_back_edge_once {σ : Type} (g : RubyGraph) (r : Nat) (vis : DFSVisitor σ)
    (ec : EdgeColorMap) (func : Nat → σ → Bool × σ) (s : σ) :
    (back_edges (undirected_steps g r vis ec func s)).Nodup
    ∧ (∀ A e B, undirected_steps g r vis ec func s = A ++ Step.tree e :: B →
        e.id ∉ back_edges B)
    ∧ (∀ e, Step.examine e ∈ undirected_steps g r vis ec func s →
        (undir_dfv_impl_term (make_undirected_graph g) r vis ColorMap.empty ec func s).2.1
          e.id = black_color) := by
  have h1 := undir_dfv_impl_term_walk (make_undirected_graph g) vis func r ColorMap.empty
    ec s rfl
  refine ⟨(walk_back_edges _ _ _ _ h1.1 (by simp)).1, ?_, ?_⟩
  · intro A e B hT
    have h2 := h1.1
    unfold undirected_steps at hT
    rw [hT] at h2
    exact walk_tree_then_back A e B _ _ _ h2 (by simp)
  · intro e he
    rw [(undirected_steps_colors g r vis ec func s).2]
    exact edge_colors_after_examined _ _ _ he

/-- C26: the undirected visit of a well-formed stored graph from one of its
vertices, on fresh vertex colours, with any visitor, terminator and edge
colours: the loop ends within the fuel of the model (more fuel gives the same
result); its steps are a history of the colours, so that a vertex is
discovered when white and finished when gray, and no vertex is discovered
twice; no vertex is gray in the colours returned, and the black vertices are
the discovered ones; when the terminator never fires the black vertices are
those connected to the root without regard to direction, and the tree edges
number one less than the black vertices. -/
theorem undirected_visit_complete {σ : Type} (g : RubyGraph) (hwf : g.WF) (r : Nat)
    (hr : r ∈ g.vertices) (vis : DFSVisitor σ) (ec : EdgeColorMap)
    (func : Nat → σ → Bool × σ) (s : σ) :
    (∀ k, undir_dfv_loop (make_undirected_graph g) vis func
        (dfs_fuel (make_undirected_graph g) + k) r
        (if (func r (vis.discover_vertex r s)).1 then []
          else (make_undirected_graph g).out_edges r) []
        (put ColorMap.empty r gray_color) ec (func r (vis.discover_vertex r s)).2
      = undir_dfv_impl_term (make_undirected_graph g) r vis ColorMap.empty ec func s)
    ∧ Walk ColorMap.empty ec none (undirected_steps g r vis ec func s)
    ∧ (undir_dfv_impl_term (make_undirected_graph g) r vis ColorMap.empty ec func s).1
        = vertex_colors_after ColorMap.empty (undirected_steps g r vis ec func s)
    ∧ (discovered (undirected_steps g r vis ec func s)).Nodup
    ∧ (∀ v, (undir_dfv_impl_term (make_undirected_graph g) r vis ColorMap.empty ec func
        s).1 v ≠ gray_color)
    ∧ (∀ v, v ∈ discovered (undirected_steps g r vis ec func s) ↔
        (undir_dfv_impl_term (make_undirected_graph g) r vis ColorMap.empty ec func s).1 v
          = black_color)
    ∧ ((∀ v t, (func v t).1 = false) →
        (∀ v, (undir_dfv_impl_term (make_undirected_graph g) r vis ColorMap.empty ec func
            s).1 v = black_color ↔ g.Connected r v)
        ∧ tree_edges (undirected_steps g r vis ec func s) + 1
          = (discovered (undirected_steps g r vis ec func s)).length) := by
  have hwf2 := undirected_wf g hwf
  have h1 := undir_dfv_impl_term_walk (make_undirected_graph g) vis func r ColorMap.empty
    ec s rfl
  refine ⟨fun k => undir_dfv_impl_term_fuel _ vis func hwf2 r hr ec s k, h1.1,
    (undirected_steps_colors g r vis ec func s).1, (walk_discovered _ _ _ _ h1.1).1,
    undir_dfv_impl_term_no_gray _ vis func hwf2 r hr ec s,
    undirected_steps_black g hwf r hr vis ec func s, ?_⟩
  intro hfunc
  refine ⟨?_, h1.2.2.2⟩
  intro v
  rw [undir_dfv_impl_term_colors _ vis func hfunc r ColorMap.empty ec s]
  obtain ⟨D, -, -, -, hD⟩ := dfs_from_visited (make_undirected_graph g)
    (default_dfs_visitor Unit) (by constructor <;> intros <;> rfl) hwf2 [] r
    ColorMap.empty () (ColorsOf.empty _) hr rfl
  rw [(hD v).1, ← undirected_reach_iff]
  simp [Visited]

/-- Witness of C26: the triangle A->B, B->C, C->A from A, with the default
visitor and no stop. -/
theorem undirected_visit_complete_witness :
    (∀ v, (undir_dfv_impl_term (make_undirected_graph triangleGraph) 1
        (default_dfs_visitor Unit) ColorMap.empty ColorMap.empty nontruth2 ()).1 v
          = black_color ↔ triangleGraph.Connected 1 v)
    ∧ tree_edges (undirected_steps triangleGraph 1 (default_dfs_visitor Unit)
        ColorMap.empty nontruth2 ()) + 1 = 3 :=
  ⟨((undirected_visit_complete triangleGraph (by decide) 1 (by decide)
      (default_dfs_visitor Unit) ColorMap.empty nontruth2 ()).2.2.2.2.2.2
      (fun _ _ => rfl)).1, by decide⟩

/-- C27: in the undirected visit of a well-formed stored graph, when the
terminator answers true at the root the visit returns at once with the root
black, the edge colours untouched and the visitor told the discovery and the
finish only; when it answers true at a vertex just discovered through the
edge `e`, two iterations later the loop is where it was, with the rest `ei`
of the edges of the parent `u`, the same stack, the vertex black and the edge
black; and in the steps of the whole visit a vertex at which the terminator
stops is discovered, is never the source of an examined edge, and is black at
the end. -/
theorem undirected_stop_at_discovery {σ : Type} (g : RubyGraph) (hwf : g.WF) (r : Nat)
    (hr : r ∈ g.vertices) (vis : DFSVisitor σ) (ec : EdgeColorMap)
    (func : Nat → σ → Bool × σ) (s : σ) :
    ((func r (vis.discover_vertex r s)).1 = true →
      undir_dfv_impl_term (make_undirected_graph g) r vis ColorMap.empty ec func s
        = (put (put ColorMap.empty r gray_color) r black_color, ec,
            vis.finish_vertex r (func r (vis.discover_vertex r s)).2))
    ∧ (∀ (fuel u : Nat) (e : Edge) (ei : List Edge) (stack : List (Nat × List Edge))
        (vc : ColorMap) (ec0 : EdgeColorMap) (s0 : σ), vc e.target = white_color →
        (func e.target (vis.discover_vertex e.target
          (vis.tree_edge e (vis.examine_edge e s0)))).1 = true →
        undir_dfv_loop (make_undirected_graph g) vis func (fuel + 2) u (e :: ei) stack vc
            ec0 s0
          = undir_dfv_loop (make_undirected_graph g) vis func fuel u ei stack
              (put (put vc e.target gray_color) e.target black_color)
              (put ec0 e.id black_color)
              (vis.finish_vertex e.target (func e.target (vis.discover_vertex e.target
                (vis.tree_edge e (vis.examine_edge e s0)))).2))
    ∧ (∀ v, Step.stop v ∈ undirected_steps g r vis ec func s →
        Step.discover v ∈ undirected_steps g r vis ec func s
        ∧ (∀ e, Step.examine e ∈ undirected_steps g r vis ec func s → e.source ≠ v)
        ∧ (undir_dfv_impl_term (make_undirected_graph g) r vis ColorMap.empty ec func s).1 v
            = black_color) := by
  refine ⟨?_, ?_, ?_⟩
  · intro hb
    simp only [undir_dfv_impl_term, hb, if_true, dfs_fuel, undir_dfv_loop]
  · intro fuel u e ei stack vc ec0 s0 hv hb
    simp only [undir_dfv_loop, hv, hb, if_true]
  · intro v hv
    have h1 := undir_dfv_impl_term_stops (make_undirected_graph g) (undirected_sourced g)
      vis func r ColorMap.empty ec s v hv
    exact ⟨h1.1, h1.2,
      (undirected_steps_black g hwf r hr vis ec func s v).1 (mem_discovered _ _ h1.1)⟩

/-- Witness of C27: on A->B, B->C, C->D from B with a stop at C, the vertex C
is discovered and finished at once, no edge is examined from it, and the visit
goes on with the next edge of B, the one to A. -/
theorem undirected_stop_at_discovery_witness :
    undirected_steps pathGraph 2 (default_dfs_visitor Unit) ColorMap.empty
        (fun u s => (decide (u = 3), s)) ()
      = [Step.discover 2, Step.examine (mkEdge 1 2 3), Step.tree (mkEdge 1 2 3),
         Step.discover 3, Step.stop 3, Step.finish 3,
         Step.examine (mkEdge 0 1 2).flip, Step.tree (mkEdge 0 1 2).flip,
         Step.discover 1, Step.examine (mkEdge 0 1 2), Step.finish 1, Step.finish 2]
    ∧ (∀ e, Step.examine e ∈ undirected_steps pathGraph 2 (default_dfs_visitor Unit)
        ColorMap.empty (fun u s => (decide (u = 3), s)) () → e.source ≠ 3) :=
  ⟨by decide, ((undirected_stop_at_discovery pathGraph (by decide) 2 (by decide)
    (default_dfs_visitor Unit) ColorMap.empty (fun u s => (decide (u = 3), s)) ()).2.2 3
    (by decide)).2.1⟩

/-- Edge colours that agree on the edges of the view give the same walk: the
same vertex colours, the same visitor state, and edge colours that agree on
these edges again. -/
theorem undir_dfv_loop_edge_colors {σ : Type} (g : View) (vis : DFSVisitor σ)
    (func : Nat → σ → Bool × σ) (S : Nat → Prop) (hS : ∀ x, ∀ e ∈ g.out_edges x, S e.id) :
    ∀ (fuel u : Nat) (es : List Edge) (stack : List (Nat × List Edge)) (vc : ColorMap)
      (ec1 ec2 : EdgeColorMap) (s : σ), (∀ i, S i → ec1 i = ec2 i) →
      (∀ e ∈ es, S e.id) → (∀ f ∈ stack, ∀ e ∈ f.2, S e.id) →
      (undir_dfv_loop g vis func fuel u es stack vc ec1 s).1
          = (undir_dfv_loop g vis func fuel u es stack vc ec2 s).1
        ∧ (undir_dfv_loop g vis func fuel u es stack vc ec1 s).2.2
          = (undir_dfv_loop g vis func fuel u es stack vc ec2 s).2.2
        ∧ ∀ i, S i → (undir_dfv_loop g vis func fuel u es stack vc ec1 s).2.1 i
          = (undir_dfv_loop g vis func fuel u es stack vc ec2 s).2.1 i := by
  intro fuel
  induction fuel with
  | zero => intro u es stack vc ec1 ec2 s h _ _; exact ⟨rfl, rfl, h⟩
  | succ n ih =>
    intro u es stack vc ec1 ec2 s h hes hst
    cases es with
    | nil =>
      cases stack with
      | nil => exact ⟨rfl, rfl, h⟩
      | cons f rest =>
        simp only [undir_dfv_loop]
        exact ih _ _ _ _ _ _ _ h (hst f (List.mem_cons_self _ _))
          (fun f2 hf2 => hst f2 (List.mem_cons_of_mem _ hf2))
    | cons e ei =>
      simp only [undir_dfv_loop]
      have he : ec1 e.id = ec2 e.id := h _ (hes e (List.mem_cons_self _ _))
      have hei : ∀ e2 ∈ ei, S e2.id := fun e2 h2 => hes e2 (List.mem_cons_of_mem _ h2)
      have hput : ∀ i, S i → put ec1 e.id black_color i = put ec2 e.id black_color i := by
        intro i hi
        simp only [put]
        split_ifs
        · rfl
        · exact h i hi
      cases hv : vc e.target with
      | white_color =>
        simp only []
        apply ih _ _ _ _ _ _ _ hput
        · intro e2 he2
          split_ifs at he2
          · cases he2
          · exact hS _ e2 he2
        · intro f hf e2 he2
          rcases List.mem_cons.1 hf with h3 | h3
          · subst h3; exact hei e2 he2
          · exact hst f h3 e2 he2
      | gray_color =>
        simp only []
        rw [he]
        exact ih _ _ _ _ _ _ _ hput hei hst
      | black_color => exact ih _ _ _ _ _ _ _ hput hei hst

/-- Painting the edges of a list white: the identities of the list are white,
the other ones keep their colour. -/
theorem foldl_put_white : ∀ (l : List Edge) (ec : EdgeColorMap) (i : Nat),
    l.foldl (fun c e => put c e.id white_color) ec i
      = if i ∈ l.map Edge.id then white_color else ec i := by
  intro l
  induction l with
  | nil => intro ec i; simp
  | cons e l ih =>
    intro ec i
    simp only [List.foldl_cons, List.map_cons, List.mem_cons]
    rw [ih]
    by_cases h1 : i ∈ l.map Edge.id
    · simp [h1]
    · by_cases h2 : i = e.id
      · simp [h1, h2, put]
      · simp [h1, h2, put]

theorem undirected_edge_ids (g : RubyGraph) (x : Nat) :
    ∀ e ∈ (make_undirected_graph g).out_edges x, e.id ∈ g.edges.map Edge.id := by
  intro e he
  simp only [make_undirected_graph, RubyGraph.out_edges, RubyGraph.in_edges,
    List.mem_append, List.mem_filter, List.mem_map] at he
  rcases he with ⟨he, _⟩ | ⟨e2, ⟨he2, _⟩, rfl⟩
  · exact List.mem_map.2 ⟨e, he, rfl⟩
  · exact List.mem_map.2 ⟨e2, he2, rfl⟩

/-- C28: two calls of the undirected `each_dfs` on the same graph, root, mask
and block that differ only in the edge colours and in the prune flag they
find return the same vertex colours and the same state of the block (the same
events delivered), and edge colours that agree on the edges of the graph. -/
theorem undirected_each_dfs_deterministic {β : Type} (g : RubyGraph) (root mode : Nat)
    (block : Block β) (ec1 ec2 : EdgeColorMap) (p1 p2 : Bool) (a : β) :
    (graph_undirected_each_dfs g root mode block ec1 { prune := p1, user := a }).1
        = (graph_undirected_each_dfs g root mode block ec2 { prune := p2, user := a }).1
    ∧ (graph_undirected_each_dfs g root mode block ec1 { prune := p1, user := a }).2.2.user
        = (graph_undirected_each_dfs g root mode block ec2 { prune := p2, user := a }).2.2.user
    ∧ (root ∈ g.vertices →
        (∀ e ∈ g.edges,
          (graph_undirected_each_dfs g root mode block ec1 { prune := p1, user := a }).2.1 e.id
            = (graph_undirected_each_dfs g root mode block ec2
                { prune := p2, user := a }).2.1 e.id)
        ∧ (graph_undirected_each_dfs g root mode block ec1 { prune := p1, user := a }).2.2
          = (graph_undirected_each_dfs g root mode block ec2 { prune := p2, user := a }).2.2)
    := by
  unfold graph_undirected_each_dfs
  simp only []
  by_cases hr : (rb_to_vertex root (make_undirected_graph g)).2 = true
  · simp only [hr, Bool.not_true, Bool.false_eq_true, if_false]
    have hagree : ∀ i, i ∈ g.edges.map Edge.id →
        g.edges.foldl (fun c e => put c e.id white_color) ec1 i
          = g.edges.foldl (fun c e => put c e.id white_color) ec2 i := by
      intro i hi
      rw [foldl_put_white, foldl_put_white, if_pos hi, if_pos hi]
    have hes : ∀ e ∈ (if (search_terminator (rb_to_vertex root (make_undirected_graph g)).1
        ((ruby_dfs_visitor mode block).discover_vertex
          (rb_to_vertex root (make_undirected_graph g)).1
          ({ prune := false, user := a } : Thread β))).1 = true then []
        else (make_undirected_graph g).out_edges
          (rb_to_vertex root (make_undirected_graph g)).1), e.id ∈ g.edges.map Edge.id := by
      intro e he
      split_ifs at he
      · cases he
      · exact undirected_edge_ids g _ e he
    have h := undir_dfv_loop_edge_colors (make_undirected_graph g)
      (ruby_dfs_visitor mode block) search_terminator (fun i => i ∈ g.edges.map Edge.id)
      (undirected_edge_ids g) (dfs_fuel (make_undirected_graph g))
      (rb_to_vertex root (make_undirected_graph g)).1 _ []
      (put ColorMap.empty (rb_to_vertex root (make_undirected_graph g)).1 gray_color)
      _ _ (search_terminator (rb_to_vertex root (make_undirected_graph g)).1
        ((ruby_dfs_visitor mode block).discover_vertex
          (rb_to_vertex root (make_undirected_graph g)).1
          ({ prune := false, user := a } : Thread β))).2 hagree hes (by simp)
    unfold undirected_depth_first_visit undir_dfv_impl_term
    simp only []
    refine ⟨h.1, by rw [h.2.1], fun _ => ⟨fun e he => h.2.2 e.id (List.mem_map.2 ⟨e, he, rfl⟩),
      h.2.1⟩⟩
  · simp only [hr, Bool.not_false, if_true]
    refine ⟨trivial, trivial, ?_⟩
    intro hroot
    exfalso
    apply hr
    have hroot2 : root ∈ (make_undirected_graph g).vertices := hroot
    simp only [rb_to_vertex, hroot2]
    split_ifs <;> simp_all

/-- C22 as stated fails: on the stored graph A->B, B->C, C->A the undirected
`each_dfs` from A with the mask ALL and a block that never prunes delivers
four events for the three stored edges: the edge C->A is delivered as
(C, A, BACK) from C and again as (A, C, FORWARD_OR_CROSS) from A. -/
theorem undirected_edge_classified_twice :
    (graph_undirected_each_dfs triangleGraph 1 VISIT_ALL_EDGES (record_block never)
        ColorMap.empty { prune := false, user := [] }).2.2.user
      = [{ source := 1, target := 2, info := 0, kind := 1 },
         { source := 2, target := 3, info := 0, kind := 1 },
         { source := 3, target := 1, info := 0, kind := 2 },
         { source := 1, target := 3, info := 0, kind := 4 }]
    ∧ triangleGraph.edges = [mkEdge 0 1 2, mkEdge 1 2 3, mkEdge 2 3 1]
    ∧ undirected_steps triangleGraph 1 (default_dfs_visitor Unit) ColorMap.empty nontruth2 ()
      = [Step.discover 1, Step.examine (mkEdge 0 1 2), Step.tree (mkEdge 0 1 2),
         Step.discover 2, Step.examine (mkEdge 1 2 3), Step.tree (mkEdge 1 2 3),
         Step.discover 3, Step.examine (mkEdge 2 3 1), Step.back (mkEdge 2 3 1),
         Step.examine (mkEdge 1 2 3).flip, Step.finish 3,
         Step.examine (mkEdge 0 1 2).flip, Step.finish 2,
         Step.examine (mkEdge 2 3 1).flip, Step.forward_or_cross (mkEdge 2 3 1).flip,
         Step.finish 1] := by
  refine ⟨by decide, by decide, by decide⟩

/-- Witness of C25: on the triangle A->B, B->C, C->A from A the only back edge
is the stored edge C->A, reported once. -/
theorem undirected_back_edge_once_witness :
    back_edges (undirected_steps triangleGraph 1 (default_dfs_visitor Unit) ColorMap.empty
        nontruth2 ()) = [2]
    ∧ (back_edges (undirected_steps triangleGraph 1 (default_dfs_visitor Unit)
        ColorMap.empty nontruth2 ())).Nodup :=
  ⟨by decide, (undirected_back_edge_once triangleGraph 1 (default_dfs_visitor Unit)
    ColorMap.empty nontruth2 ()).1⟩

/-- Witness of C28: on the triangle A->B, B->C, C->A from A, a call that finds
every edge colour black and the prune flag set delivers the events of a call
that finds every edge colour white and the flag clear. -/
theorem undirected_each_dfs_deterministic_witness :
    (graph_undirected_each_dfs triangleGraph 1 VISIT_ALL_EDGES (record_block never)
        (fun _ => black_color) { prune := true, user := [] }).2.2.user
      = (graph_undirected_each_dfs triangleGraph 1 VISIT_ALL_EDGES (record_block never)
        ColorMap.empty { prune := false, user := [] }).2.2.user :=
  (undirected_each_dfs_deterministic triangleGraph 1 VISIT_ALL_EDGES (record_block never)
    (fun _ => black_color) ColorMap.empty true false []).2.1

/-! ## The events of `each_bfs` -/

theorem bfs_visitor_examine {β : Type} (m : Nat) (b : Block β) (e : Edge) (s : Thread β) :
    (ruby_bfs_visitor m b).examine_edge e s = s := rfl

theorem bfs_visitor_discover {β : Type} (m : Nat) (b : Block β) (u : Nat) (s : Thread β) :
    (ruby_bfs_visitor m b).discover_vertex u s = s := rfl

theorem bfs_visitor_examine_vertex {β : Type} (m : Nat) (b : Block β) (u : Nat)
    (s : Thread β) : (ruby_bfs_visitor m b).examine_vertex u s = s := rfl

theorem bfs_visitor_finish {β : Type} (m : Nat) (b : Block β) (u : Nat) (s : Thread β) :
    (ruby_bfs_visitor m b).finish_vertex u s = s := rfl

theorem bfs_visitor_gray {β : Type} (m : Nat) (b : Block β) (e : Edge) (s : Thread β) :
    (ruby_bfs_visitor m b).gray_target e s = s := rfl

theorem bfs_visitor_black {β : Type} (m : Nat) (b : Block β) (e : Edge) (s : Thread β) :
    (ruby_bfs_visitor m b).black_target e s = s := rfl

theorem bfs_visitor_initialize {β : Type} (m : Nat) (b : Block β) (u : Nat) (s : Thread β) :
    (ruby_bfs_visitor m b).initialize_vertex u s = s := rfl

theorem bfs_visitor_tree {β : Type} (m : Nat) (b : Block β) (e : Edge) (s : Thread β) :
    (ruby_bfs_visitor m b).tree_edge e s = yield_edge m b e VISIT_TREE_EDGES s := rfl

theorem bfs_visitor_non_tree {β : Type} (m : Nat) (b : Block β) (e : Edge) (s : Thread β) :
    (ruby_bfs_visitor m b).non_tree_edge e s = yield_edge m b e VISIT_NON_TREE_EDGES s := rfl

theorem tree_events_cons_tree (y : Yield) (N : List Yield) (h : y.kind = VISIT_TREE_EDGES) :
    tree_events (y :: N) = y :: tree_events N := by
  simp [tree_events, h]

theorem tree_events_cons_other (y : Yield) (N : List Yield) (h : y.kind ≠ VISIT_TREE_EDGES) :
    tree_events (y :: N) = tree_events N := by
  simp [tree_events, h]

theorem tree_events_append (A B : List Yield) :
    tree_events (A ++ B) = tree_events A ++ tree_events B := by
  simp [tree_events]

/-- What the loop over the out-edges delivers under the mask `ALL`: one event
for each edge, in order, a TREE event for each vertex `W` that it discovers
and pushes, a NON_TREE event for any other edge. -/
theorem each_bfs_edges_spec (p : List Yield → Yield → Bool) :
    ∀ (es : List Edge) (Q : List Nat) (color : ColorMap) (s : Thread (List Yield)),
      ∃ (N : List Yield) (W : List Nat),
        (breadth_first_visit_edges (ruby_bfs_visitor VISIT_ALL_EDGES (record_block p)) es Q
          color s).2.2.user = s.user ++ N ∧
        (breadth_first_visit_edges (ruby_bfs_visitor VISIT_ALL_EDGES (record_block p)) es Q
          color s).1 = Q ++ W ∧
        W.Nodup ∧ (∀ w ∈ W, color w = white_color) ∧
        (∀ v, (breadth_first_visit_edges (ruby_bfs_visitor VISIT_ALL_EDGES (record_block p))
          es Q color s).2.1 v = if v ∈ W then gray_color else color v) ∧
        N.map Yield.values = es.map Edge.values ∧
        (∀ w ∈ W, ∃ e ∈ es, e.target = w) ∧
        (∀ e ∈ es, e.target ∈ W ∨ color e.target ≠ white_color) ∧
        (tree_events N).length = W.length ∧
        (∀ c : ColorMap, (∀ v, c v = white_color ↔ color v = white_color) →
          ∃ c2 : ColorMap,
            (∀ v, c2 v = white_color ↔
              (breadth_first_visit_edges (ruby_bfs_visitor VISIT_ALL_EDGES (record_block p))
                es Q color s).2.1 v = white_color) ∧
            ∀ M, BFSClassified c2 M → BFSClassified c (N ++ M)) := by
  intro es
  induction es with
  | nil =>
    intro Q color s
    refine ⟨[], [], by simp [breadth_first_visit_edges], by simp [breadth_first_visit_edges],
      List.nodup_nil, by simp, by simp [breadth_first_visit_edges], rfl, by simp, by simp,
      rfl, ?_⟩
    intro c hc
    exact ⟨c, by simpa [breadth_first_visit_edges] using hc, fun M hM => hM⟩
  | cons e ei ih =>
    intro Q color s
    simp only [breadth_first_visit_edges, bfs_visitor_examine, bfs_visitor_discover,
      bfs_visitor_gray, bfs_visitor_black, bfs_visitor_tree, bfs_visitor_non_tree]
    cases hv : color e.target with
    | white_color =>
      simp only []
      obtain ⟨y0, hy1, hy2, hy3, hy4, hy5, -⟩ := yield_edge_all p e VISIT_TREE_EDGES
        (by decide) s
      obtain ⟨N, W, h1, h2, h3, h4, h5, h6, h7, h8, h9, h10⟩ := ih (Q ++ [e.target])
        (put color e.target gray_color)
        (yield_edge VISIT_ALL_EDGES (record_block p) e VISIT_TREE_EDGES s)
      have hW : ∀ w ∈ W, w ≠ e.target ∧ color w = white_color := by
        intro w hw
        have := h4 w hw
        simp only [put] at this
        split_ifs at this with hwe
        exact ⟨hwe, this⟩
      refine ⟨y0 :: N, e.target :: W, ?_, ?_, ?_, ?_, ?_, ?_, ?_, ?_, ?_, ?_⟩
      · rw [h1, hy5]; simp
      · rw [h2]; simp
      · exact List.nodup_cons.2 ⟨fun hm => (hW _ hm).1 rfl, h3⟩
      · intro w hw
        rcases List.mem_cons.1 hw with h | h
        · rw [h]; exact hv
        · exact (hW w h).2
      · intro v
        rw [h5 v]
        by_cases hvW : v ∈ W
        · simp [hvW]
        · by_cases hve : v = e.target
          · simp [hve, put]
          · simp [hvW, hve, put]
      · simp only [List.map_cons, h6, hy4]
      · intro w hw
        rcases List.mem_cons.1 hw with h | h
        · exact ⟨e, List.mem_cons_self _ _, h.symm⟩
        · obtain ⟨e2, he2, ht⟩ := h7 w h
          exact ⟨e2, List.mem_cons_of_mem _ he2, ht⟩
      · intro e2 he2
        rcases List.mem_cons.1 he2 with h | h
        · left; rw [h]; exact List.mem_cons_self _ _
        · rcases h8 e2 h with h11 | h11
          · left; exact List.mem_cons_of_mem _ h11
          · by_cases hte : e2.target = e.target
            · left; rw [hte]; exact List.mem_cons_self _ _
            · right; rwa [put_other _ _ _ _ hte] at h11
      · rw [tree_events_cons_tree _ _ hy3]
        simp [h9]
      · intro c hc
        have hc1 : ∀ v, put c e.target gray_color v = white_color ↔
            put color e.target gray_color v = white_color := by
          intro v
          by_cases hve : v = e.target
          · simp [hve, put]
          · rw [put_other _ _ _ _ hve, put_other _ _ _ _ hve]; exact hc v
        obtain ⟨c2, hc2, hM⟩ := h10 _ hc1
        refine ⟨c2, hc2, fun M hMc => ?_⟩
        show BFSClassified c (y0 :: (N ++ M))
        left
        rw [hy2]
        exact ⟨(hc _).2 hv, hy3, hM M hMc⟩
    | gray_color =>
      simp only []
      obtain ⟨y0, hy1, hy2, hy3, hy4, hy5, -⟩ := yield_edge_all p e VISIT_NON_TREE_EDGES
        (by decide) s
      obtain ⟨N, W, h1, h2, h3, h4, h5, h6, h7, h8, h9, h10⟩ := ih Q color
        (yield_edge VISIT_ALL_EDGES (record_block p) e VISIT_NON_TREE_EDGES s)
      refine ⟨y0 :: N, W, ?_, h2, h3, h4, h5, ?_, ?_, ?_, ?_, ?_⟩
      · rw [h1, hy5]; simp
      · simp only [List.map_cons, h6, hy4]
      · intro w hw
        obtain ⟨e2, he2, ht⟩ := h7 w hw
        exact ⟨e2, List.mem_cons_of_mem _ he2, ht⟩
      · intro e2 he2
        rcases List.mem_cons.1 he2 with h | h
        · right; rw [h, hv]; decide
        · exact h8 e2 h
      · rw [tree_events_cons_other _ _ (by rw [hy3]; decide)]
        exact h9
      · intro c hc
        obtain ⟨c2, hc2, hM⟩ := h10 c hc
        refine ⟨c2, hc2, fun M hMc => ?_⟩
        show BFSClassified c (y0 :: (N ++ M))
        right
        rw [hy2]
        refine ⟨?_, hy3, hM M hMc⟩
        rw [Ne, hc, hv]; decide
    | black_color =>
      simp only []
      obtain ⟨y0, hy1, hy2, hy3, hy4, hy5, -⟩ := yield_edge_all p e VISIT_NON_TREE_EDGES
        (by decide) s
      obtain ⟨N, W, h1, h2, h3, h4, h5, h6, h7, h8, h9, h10⟩ := ih Q color
        (yield_edge VISIT_ALL_EDGES (record_block p) e VISIT_NON_TREE_EDGES s)
      refine ⟨y0 :: N, W, ?_, h2, h3, h4, h5, ?_, ?_, ?_, ?_, ?_⟩
      · rw [h1, hy5]; simp
      · simp only [List.map_cons, h6, hy4]
      · intro w hw
        obtain ⟨e2, he2, ht⟩ := h7 w hw
        exact ⟨e2, List.mem_cons_of_mem _ he2, ht⟩
      · intro e2 he2
        rcases List.mem_cons.1 he2 with h | h
        · right; rw [h, hv]; decide
        · exact h8 e2 h
      · rw [tree_events_cons_other _ _ (by rw [hy3]; decide)]
        exact h9
      · intro c hc
        obtain ⟨c2, hc2, hM⟩ := h10 c hc
        refine ⟨c2, hc2, fun M hMc => ?_⟩
        show BFSClassified c (y0 :: (N ++ M))
        right
        rw [hy2]
        refine ⟨?_, hy3, hM M hMc⟩
        rw [Ne, hc, hv]; decide

/-- The events whose values are those of edges with the source `u` have the
source `u`. -/
theorem sources_of_values {N : List Yield} {es : List Edge} {u : Nat}
    (h : N.map Yield.values = es.map Edge.values) (hes : ∀ e ∈ es, e.source = u) :
    ∀ z ∈ N, z.source = u := by
  intro z hz
  have h1 : z.values ∈ N.map Yield.values := List.mem_map.2 ⟨z, hz, rfl⟩
  rw [h] at h1
  obtain ⟨e, he, hev⟩ := List.mem_map.1 h1
  have h2 : e.source = z.source := by
    have := congrArg Prod.fst hev
    exact this
  rw [← h2]; exact hes e he

/-- Events that all have the source `u` are all delivered from `u`. -/
theorem delivered_from_all {N : List Yield} {u : Nat} (h : ∀ z ∈ N, z.source = u) :
    delivered_from u N = N.map Yield.values := by
  unfold delivered_from
  rw [List.filter_eq_self.2]
  intro z hz
  simpa using h z hz

theorem delivered_from_append (x : Nat) (A B : List Yield) :
    delivered_from x (A ++ B) = delivered_from x A ++ delivered_from x B := by
  simp [delivered_from]

/-- Colours with fewer white vertices, `W` of the list among those lost. -/
theorem white_count_drop (c1 c2 : ColorMap) (W : List Nat)
    (h : ∀ v, c2 v = white_color → c1 v = white_color ∧ v ∉ W)
    (hW : ∀ w ∈ W, c1 w = white_color) :
    ∀ l : List Nat, white_count c2 l + (l.filter (fun v => decide (v ∈ W))).length
      ≤ white_count c1 l := by
  intro l
  induction l with
  | nil => simp [white_count]
  | cons x l ih =>
    simp only [white_count, List.filter_cons]
    by_cases hx : x ∈ W
    · have h1 : c1 x = white_color := hW x hx
      have h2 : c2 x ≠ white_color := fun hc => (h x hc).2 hx
      simp only [hx, decide_True, if_true, h1, if_neg h2, List.length_cons]
      omega
    · simp only [hx, decide_False, Bool.false_eq_true, if_false]
      by_cases h2 : c2 x = white_color
      · simp only [h2, if_true, (h x h2).1]
        omega
      · simp only [if_neg h2]
        split_ifs <;> omega

theorem white_count_push (c1 c2 : ColorMap) (W l : List Nat) (hnd : W.Nodup)
    (hsub : ∀ w ∈ W, w ∈ l)
    (h : ∀ v, c2 v = white_color → c1 v = white_color ∧ v ∉ W)
    (hW : ∀ w ∈ W, c1 w = white_color) :
    white_count c2 l + W.length ≤ white_count c1 l := by
  have h1 := white_count_drop c1 c2 W h hW l
  have h2 : W.length ≤ (l.filter (fun v => decide (v ∈ W))).length := by
    apply List.Subperm.length_le
    apply List.Nodup.subperm hnd
    intro w hw
    exact List.mem_filter.2 ⟨hsub w hw, by simpa using hw⟩
  omega

/-- What the breadth-first loop delivers under the mask `ALL`, with enough
fuel, from a queue of distinct vertices that are not white. -/
theorem each_bfs_loop_spec (g : View) (hwf : g.WF) (hs : g.Sourced)
    (p : List Yield → Yield → Bool) :
    ∀ (fuel : Nat) (Q : List Nat) (color : ColorMap) (s : Thread (List Yield)),
      white_count color g.vertices + Q.length + 1 ≤ fuel → Q.Nodup →
      (∀ q ∈ Q, color q ≠ white_color ∧ q ∈ g.vertices) →
      ∃ (N : List Yield) (V : List Nat),
        (breadth_first_visit_loop g (ruby_bfs_visitor VISIT_ALL_EDGES (record_block p)) fuel
          Q color s).2.user = s.user ++ N ∧
        BFSPost g Q color N V := by
  intro fuel
  induction fuel with
  | zero => intro Q color s h; omega
  | succ n ih =>
    intro Q color s hfuel hnd hQ
    cases Q with
    | nil =>
      refine ⟨[], [], by simp [breadth_first_visit_loop], ?_⟩
      exact
        { nodup := List.nodup_nil
          queue := by simp
          fresh := by simp
          delivered := by simp
          sources := by simp
          closed := by simp
          sound := by simp
          kinds := fun _ _ => trivial
          trees := rfl }
    | cons u Q =>
      simp only [breadth_first_visit_loop, bfs_visitor_examine_vertex, bfs_visitor_finish]
      obtain ⟨N1, W, h1, h2, h3, h4, h5, h6, h7, h8, h9, h10⟩ :=
        each_bfs_edges_spec p (g.out_edges u) Q color s
      have hu : color u ≠ white_color := (hQ u (List.mem_cons_self _ _)).1
      have huv : u ∈ g.vertices := (hQ u (List.mem_cons_self _ _)).2
      have huQ : u ∉ Q := (List.nodup_cons.1 hnd).1
      have hQnd : Q.Nodup := (List.nodup_cons.1 hnd).2
      have huW : u ∉ W := fun hm => hu (h4 u hm)
      have hQW : ∀ q ∈ Q, q ∉ W := fun q hq hm =>
        (hQ q (List.mem_cons_of_mem _ hq)).1 (h4 q hm)
      have hWv : ∀ w ∈ W, w ∈ g.vertices := by
        intro w hw
        obtain ⟨e, he, ht⟩ := h7 w hw
        rw [← ht]; exact hwf.2 u huv e he
      have hwhite1 : ∀ v, put (breadth_first_visit_edges
          (ruby_bfs_visitor VISIT_ALL_EDGES (record_block p)) (g.out_edges u) Q color s).2.1
          u black_color v = white_color → v ≠ u ∧ v ∉ W ∧ color v = white_color := by
        intro v hv
        simp only [put] at hv
        split_ifs at hv with hvu
        rw [h5 v] at hv
        split_ifs at hv with hvW
        exact ⟨hvu, hvW, hv⟩
      have hfuel2 : white_count (put (breadth_first_visit_edges
          (ruby_bfs_visitor VISIT_ALL_EDGES (record_block p)) (g.out_edges u) Q color s).2.1
          u black_color) g.vertices
          + (breadth_first_visit_edges (ruby_bfs_visitor VISIT_ALL_EDGES (record_block p))
            (g.out_edges u) Q color s).1.length + 1 ≤ n := by
        have := white_count_push color _ W g.vertices h3 hWv
          (fun v hv => ⟨(hwhite1 v hv).2.2, (hwhite1 v hv).2.1⟩) h4
        rw [h2]
        simp only [List.length_append, List.length_cons] at hfuel ⊢
        omega
      have hnd2 : (breadth_first_visit_edges
          (ruby_bfs_visitor VISIT_ALL_EDGES (record_block p)) (g.out_edges u) Q color s).1.Nodup
          := by
        rw [h2]
        exact List.nodup_append.2 ⟨hQnd, h3, fun q hq hw => hQW q hq hw⟩
      have hQ2 : ∀ q ∈ (breadth_first_visit_edges
          (ruby_bfs_visitor VISIT_ALL_EDGES (record_block p)) (g.out_edges u) Q color s).1,
          put (breadth_first_visit_edges
            (ruby_bfs_visitor VISIT_ALL_EDGES (record_block p)) (g.out_edges u) Q color s).2.1
            u black_color q ≠ white_color ∧ q ∈ g.vertices := by
        intro q hq
        rw [h2] at hq
        rcases List.mem_append.1 hq with hq1 | hq1
        · refine ⟨fun hc => ?_, (hQ q (List.mem_cons_of_mem _ hq1)).2⟩
          exact (hQ q (List.mem_cons_of_mem _ hq1)).1 (hwhite1 q hc).2.2
        · exact ⟨fun hc => (hwhite1 q hc).2.1 hq1, hWv q hq1⟩
      obtain ⟨N2, V2, hN2, P⟩ := ih _ _ _ hfuel2 hnd2 hQ2
      rw [h2] at P
      have huV2 : u ∉ V2 := by
        intro hm
        rcases P.fresh u hm with h | h
        · rcases List.mem_append.1 h with h | h
          · exact huQ h
          · exact huW h
        · exact (hwhite1 u h).1 rfl
      have hsrc1 : ∀ z ∈ N1, z.source = u := sources_of_values h6 (hs u)
      refine ⟨N1 ++ N2, u :: V2, ?_, ?_⟩
      · rw [hN2, h1]; simp
      · exact
          { nodup := List.nodup_cons.2 ⟨huV2, P.nodup⟩
            queue := by
              intro q hq
              rcases List.mem_cons.1 hq with h | h
              · rw [h]; exact List.mem_cons_self _ _
              · exact List.mem_cons_of_mem _ (P.queue q (List.mem_append_left _ h))
            fresh := by
              intro v hv
              rcases List.mem_cons.1 hv with h | h
              · left; rw [h]; exact List.mem_cons_self _ _
              · rcases P.fresh v h with h11 | h11
                · rcases List.mem_append.1 h11 with h12 | h12
                  · left; exact List.mem_cons_of_mem _ h12
                  · right; exact h4 v h12
                · right; exact (hwhite1 v h11).2.2
            delivered := by
              intro x hx
              rw [delivered_from_append]
              rcases List.mem_cons.1 hx with h | h
              · have hnil : delivered_from u N2 = [] :=
                  delivered_from_nil_of (fun z hz hzu => huV2 (by
                    rw [← hzu]; exact P.sources z hz))
                rw [h, delivered_from_all hsrc1, h6, hnil, List.append_nil]
              · have hxu : x ≠ u := fun hxu => huV2 (hxu ▸ h)
                have hnil : delivered_from x N1 = [] :=
                  delivered_from_nil_of (fun z hz hzx => hxu (by
                    rw [← hzx]; exact hsrc1 z hz))
                rw [hnil, List.nil_append]
                exact P.delivered x h
            sources := by
              intro z hz
              rcases List.mem_append.1 hz with h | h
              · rw [hsrc1 z h]; exact List.mem_cons_self _ _
              · exact List.mem_cons_of_mem _ (P.sources z h)
            closed := by
              intro x hx e he
              rcases List.mem_cons.1 hx with h | h
              · rw [h] at he
                rcases h8 e he with h11 | h11
                · left
                  exact List.mem_cons_of_mem _ (P.queue _ (List.mem_append_right _ h11))
                · right; exact h11
              · rcases P.closed x h e he with h11 | h11
                · left; exact List.mem_cons_of_mem _ h11
                · by_cases hteu : e.target = u
                  · left; rw [hteu]; exact List.mem_cons_self _ _
                  · by_cases htW : e.target ∈ W
                    · left
                      exact List.mem_cons_of_mem _ (P.queue _ (List.mem_append_right _ htW))
                    · right
                      intro hc
                      apply h11
                      rw [put_other _ _ _ _ hteu, h5, if_neg htW]
                      exact hc
            sound := by
              intro v hv
              rcases List.mem_cons.1 hv with h | h
              · exact ⟨u, List.mem_cons_self _ _, by rw [h]; exact Relation.ReflTransGen.refl⟩
              · obtain ⟨q, hq, hreach⟩ := P.sound v h
                rcases List.mem_append.1 hq with h11 | h11
                · exact ⟨q, List.mem_cons_of_mem _ h11, hreach⟩
                · obtain ⟨e, he, ht⟩ := h7 q h11
                  refine ⟨u, List.mem_cons_self _ _, ?_⟩
                  exact Relation.ReflTransGen.head ⟨e, he, ht⟩ hreach
            kinds := by
              intro c hc
              obtain ⟨c2, hc2, hM⟩ := h10 c hc
              apply hM
              apply P.kinds
              intro v
              rw [hc2 v]
              by_cases hvu : v = u
              · rw [hvu, put_same, h5, if_neg huW]
                simp [hu]
              · rw [put_other _ _ _ _ hvu]
            trees := by
              rw [tree_events_append, List.length_append, h9]
              have := P.trees
              simp only [List.length_append, List.length_cons] at this ⊢
              omega }

theorem white_count_le_length (c : ColorMap) (l : List Nat) : white_count c l ≤ l.length := by
  induction l with
  | nil => simp [white_count]
  | cons x l ih =>
    simp only [white_count, List.length_cons]
    split_ifs <;> omega

/-- The kinds of classified events are TREE and NON_TREE. -/
theorem bfs_classified_kinds : ∀ (N : List Yield) (c : ColorMap), BFSClassified c N →
    ∀ z ∈ N, z.kind = VISIT_TREE_EDGES ∨ z.kind = VISIT_NON_TREE_EDGES := by
  intro N
  induction N with
  | nil => intro c _ z hz; cases hz
  | cons y N ih =>
    intro c h z hz
    rcases h with ⟨-, h1, h2⟩ | ⟨-, h1, h2⟩
    · rcases List.mem_cons.1 hz with h3 | h3
      · left; rw [h3]; exact h1
      · exact ih _ h2 z h3
    · rcases List.mem_cons.1 hz with h3 | h3
      · right; rw [h3]; exact h1
      · exact ih _ h2 z h3

/-- The initialisation of the search with the visitor of `each_bfs`: every
vertex of the list is white, the other colours and the thread are kept. -/
theorem bfs_initialize {β : Type} (m : Nat) (b : Block β) :
    ∀ (l : List Nat) (c : ColorMap) (s : Thread β),
      (l.foldl (fun (a : ColorMap × Thread β) u =>
        (put a.1 u white_color, (ruby_bfs_visitor m b).initialize_vertex u a.2)) (c, s)).2 = s
      ∧ ∀ v, (l.foldl (fun (a : ColorMap × Thread β) u =>
        (put a.1 u white_color, (ruby_bfs_visitor m b).initialize_vertex u a.2)) (c, s)).1 v
          = if v ∈ l then white_color else c v := by
  intro l
  induction l with
  | nil => intro c s; simp
  | cons x l ih =>
    intro c s
    simp only [List.foldl_cons]
    obtain ⟨h1, h2⟩ := ih (put c x white_color)
      ((ruby_bfs_visitor m b).initialize_vertex x s)
    refine ⟨h1, fun v => ?_⟩
    rw [h2 v]
    by_cases hvl : v ∈ l
    · simp [hvl]
    · by_cases hvx : v = x
      · simp [hvx, put]
      · simp [hvl, hvx, put]

/-- The run of `each_bfs` under the mask `ALL` from a vertex of the graph: the
events delivered and the vertices taken from the queue. -/
theorem each_bfs_run_spec (g : RubyGraph) (hwf : g.WF) (r : Nat) (hr : r ∈ g.vertices)
    (p : List Yield → Yield → Bool) :
    ∃ (V : List Nat) (color : ColorMap),
      (∀ v, color v = white_color ↔ v ≠ r) ∧
      BFSPost (direct_graph g) [r] color
        (graph_direct_each_bfs g r VISIT_ALL_EDGES (record_block p)
          { prune := false, user := [] }).2.user V := by
  have hr2 : r ∈ (direct_graph g).vertices := hr
  unfold graph_direct_each_bfs graph_each_bfs
  have hmask : ¬ ((VISIT_ALL_EDGES &&& VISIT_NON_TREE_EDGES) ≠ 0
      ∧ (VISIT_ALL_EDGES &&& VISIT_NON_TREE_EDGES) ≠ VISIT_NON_TREE_EDGES) := by decide
  simp only [if_neg hmask, rb_to_vertex, if_pos hr2, Bool.not_true, Bool.false_eq_true,
    if_false]
  unfold breadth_first_search breadth_first_visit
  simp only [bfs_visitor_discover]
  obtain ⟨hi1, hi2⟩ := bfs_initialize VISIT_ALL_EDGES (record_block p)
    (direct_graph g).vertices ColorMap.empty ({ prune := false, user := [] } : Thread (List Yield))
  rw [hi1]
  have hwhite : ∀ v, (List.foldl (fun (a : ColorMap × Thread (List Yield)) u =>
      (put a.1 u white_color,
        (ruby_bfs_visitor VISIT_ALL_EDGES (record_block p)).initialize_vertex u a.2))
      (ColorMap.empty, ({ prune := false, user := [] } : Thread (List Yield)))
      (direct_graph g).vertices).1 v = white_color := by
    intro v
    rw [hi2 v]
    split_ifs <;> rfl
  have hcol : ∀ v, put (List.foldl (fun (a : ColorMap × Thread (List Yield)) u =>
      (put a.1 u white_color,
        (ruby_bfs_visitor VISIT_ALL_EDGES (record_block p)).initialize_vertex u a.2))
      (ColorMap.empty, ({ prune := false, user := [] } : Thread (List Yield)))
      (direct_graph g).vertices).1 r gray_color v = white_color ↔ v ≠ r := by
    intro v
    by_cases hvr : v = r
    · simp [hvr, put]
    · rw [put_other _ _ _ _ hvr, hwhite v]; simp [hvr]
  have hfuel : white_count (put (List.foldl (fun (a : ColorMap × Thread (List Yield)) u =>
      (put a.1 u white_color,
        (ruby_bfs_visitor VISIT_ALL_EDGES (record_block p)).initialize_vertex u a.2))
      (ColorMap.empty, ({ prune := false, user := [] } : Thread (List Yield)))
      (direct_graph g).vertices).1 r gray_color) (direct_graph g).vertices
      + [r].length + 1 ≤ bfs_fuel (direct_graph g) := by
    have h1 := white_count_push _ (put (List.foldl
      (fun (a : ColorMap × Thread (List Yield)) u =>
      (put a.1 u white_color,
        (ruby_bfs_visitor VISIT_ALL_EDGES (record_block p)).initialize_vertex u a.2))
      (ColorMap.empty, ({ prune := false, user := [] } : Thread (List Yield)))
      (direct_graph g).vertices).1 r gray_color) [r] (direct_graph g).vertices
      (List.nodup_singleton r) (by simpa using hr2)
      (fun v hv => ⟨hwhite v, by simpa using (hcol v).1 hv⟩)
      (fun w _ => hwhite w)
    have h2 := white_count_le_length (List.foldl
      (fun (a : ColorMap × Thread (List Yield)) u =>
      (put a.1 u white_color,
        (ruby_bfs_visitor VISIT_ALL_EDGES (record_block p)).initialize_vertex u a.2))
      (ColorMap.empty, ({ prune := false, user := [] } : Thread (List Yield)))
      (direct_graph g).vertices).1 (direct_graph g).vertices
    simp only [List.length_singleton, bfs_fuel] at h1 ⊢
    omega
  obtain ⟨N, V, hN, P⟩ := each_bfs_loop_spec (direct_graph g) (direct_graph_wf g hwf)
    (direct_graph_sourced g) p (bfs_fuel (direct_graph g)) [r] _
    ({ prune := false, user := [] } : Thread (List Yield)) hfuel (List.nodup_singleton r)
    (by
      intro q hq
      rw [List.mem_singleton] at hq
      rw [hq]
      exact ⟨by rw [put_same]; decide, hr2⟩)
  refine ⟨V, _, hcol, ?_⟩
  simp only [List.nil_append] at hN
  rw [hN]
  exact P

/-- C21: on a well-formed stored graph, `each_bfs` from a vertex `r` under the
mask `ALL`, with a block that never prunes, delivers from every vertex that
`r` reaches its stored out-edges, each once and in their order, and nothing
from any other vertex; replayed from the colours where the root alone is
visited, an event whose target is unvisited has the kind TREE (1) and visits
it, any other event has the kind NON_TREE (6); no event has the kind 2 or 4;
and the TREE events number one less than the vertices that `r` reaches. -/
theorem each_bfs_all_edges (g : RubyGraph) (hwf : g.WF) (r : Nat) (hr : r ∈ g.vertices) :
    (∀ x, (direct_graph g).Reach r x →
      delivered_from x (each_bfs_events g r VISIT_ALL_EDGES)
        = (g.out_edges x).map Edge.values)
    ∧ (∀ z ∈ each_bfs_events g r VISIT_ALL_EDGES, (direct_graph g).Reach r z.source)
    ∧ BFSClassified (put ColorMap.empty r gray_color) (each_bfs_events g r VISIT_ALL_EDGES)
    ∧ (∀ z ∈ each_bfs_events g r VISIT_ALL_EDGES,
        (z.kind = VISIT_TREE_EDGES ∨ z.kind = VISIT_NON_TREE_EDGES)
        ∧ z.kind ≠ VISIT_BACK_EDGES ∧ z.kind ≠ VISIT_FORWARD_OR_CROSS_EDGES)
    ∧ ∃ V : List Nat, V.Nodup ∧ (∀ x, x ∈ V ↔ (direct_graph g).Reach r x)
        ∧ (tree_events (each_bfs_events g r VISIT_ALL_EDGES)).length + 1 = V.length := by
  obtain ⟨V, color, hcol, P⟩ := each_bfs_run_spec g hwf r hr never
  have hev : each_bfs_events g r VISIT_ALL_EDGES
      = (graph_direct_each_bfs g r VISIT_ALL_EDGES (record_block never)
          { prune := false, user := [] }).2.user := rfl
  rw [hev]
  have hV : ∀ x, x ∈ V ↔ (direct_graph g).Reach r x := by
    intro x
    constructor
    · intro hx
      obtain ⟨q, hq, hreach⟩ := P.sound x hx
      rw [List.mem_singleton] at hq
      rw [hq] at hreach
      exact hreach
    · intro hreach
      induction hreach with
      | refl => exact P.queue r (List.mem_singleton_self r)
      | tail _ hbc ih =>
        obtain ⟨e, he, ht⟩ := hbc
        rcases P.closed _ ih e he with h | h
        · rw [← ht]; exact h
        · have : e.target = r := by
            by_contra hne
            exact h ((hcol _).2 hne)
          rw [← ht, this]
          exact P.queue r (List.mem_singleton_self r)
  have hkinds := P.kinds (put ColorMap.empty r gray_color) (by
    intro v
    rw [hcol v]
    by_cases hvr : v = r
    · simp [hvr, put]
    · rw [put_other _ _ _ _ hvr]; simp [hvr, ColorMap.empty])
  refine ⟨fun x hx => P.delivered x ((hV x).2 hx), fun z hz => (hV _).1 (P.sources z hz),
    hkinds, ?_, V, P.nodup, hV, ?_⟩
  · intro z hz
    rcases bfs_classified_kinds _ _ hkinds z hz with h | h
    · exact ⟨Or.inl h, by rw [h]; decide, by rw [h]; decide⟩
    · exact ⟨Or.inr h, by rw [h]; decide, by rw [h]; decide⟩
  · have := P.trees
    simpa using this

/-- Witness of C21: on A->B, B->C, A->C, C->D with E isolated, from A the
events are (A, B, TREE), (A, C, TREE), (B, C, NON_TREE) and (C, D, TREE). -/
theorem each_bfs_all_edges_witness :
    each_bfs_events exampleGraph 1 VISIT_ALL_EDGES
      = [{ source := 1, target := 2, info := 0, kind := 1 },
         { source := 1, target := 3, info := 0, kind := 1 },
         { source := 2, target := 3, info := 0, kind := 6 },
         { source := 3, target := 4, info := 0, kind := 1 }]
    ∧ (∀ z ∈ each_bfs_events exampleGraph 1 VISIT_ALL_EDGES,
        (direct_graph exampleGraph).Reach 1 z.source)
    ∧ BFSClassified (put ColorMap.empty 1 gray_color)
        (each_bfs_events exampleGraph 1 VISIT_ALL_EDGES) :=
  ⟨by decide, (each_bfs_all_edges exampleGraph (by decide) 1 (by decide)).2.1,
    (each_bfs_all_edges exampleGraph (by decide) 1 (by decide)).2.2.1⟩

/-! ## The undirected `each_dfs` delivers an edge once per kind of sighting -/

theorem mem_forward_or_cross_edges {T : List Step} {i : Nat}
    (h : i ∈ forward_or_cross_edges T) : ∃ e, Step.forward_or_cross e ∈ T ∧ e.id = i := by
  unfold forward_or_cross_edges at h
  obtain ⟨x, hx, hxi⟩ := List.mem_filterMap.1 h
  cases x with
  | forward_or_cross e =>
    simp only [Option.some.injEq] at hxi
    exact ⟨e, hx, hxi⟩
  | discover v => cases hxi
  | examine e => cases hxi
  | tree e => cases hxi
  | back e => cases hxi
  | finish v => cases hxi
  | stop v => cases hxi

/-- Painting an examined edge black keeps the link between the edge colours
and the vertex colours: the ends of an edge that is not white are not white. -/
theorem joins_examined {E : Nat → Nat → Prop} {e : Edge} (he : Joins E e) {vc vc2 : ColorMap}
    {ec : EdgeColorMap}
    (hJ : ∀ i y, E i y → ec i ≠ white_color → vc y ≠ white_color)
    (hmono : ∀ y, vc y ≠ white_color → vc2 y ≠ white_color)
    (hs : vc2 e.source ≠ white_color) (ht : vc2 e.target ≠ white_color) :
    ∀ i y, E i y → put ec e.id black_color i ≠ white_color → vc2 y ≠ white_color := by
  intro i y hE hi
  by_cases hie : i = e.id
  · rw [hie] at hE
    rcases he.2.2 y hE with h | h
    · rw [h]; exact hs
    · rw [h]; exact ht
  · rw [put_other _ _ _ _ hie] at hi
    exact hmono y (hJ i y hE hi)

/-- In the undirected loop over a view whose edges join the ends of their
identities, from a state where the ends of every edge that is not white are
not white: no identity is reported twice as a tree edge or a back edge, the
identities so reported are white at the start, and no identity is reported
twice as a forward-or-cross edge. -/
theorem undir_dfv_loop_once {σ : Type} (g : View) (vis : DFSVisitor σ)
    (func : Nat → σ → Bool × σ) (E : Nat → Nat → Prop)
    (hview : ∀ x, ∀ e ∈ g.out_edges x, e.source = x ∧ Joins E e)
    (hpair : ∀ x, (g.out_edges x).Pairwise LoopTwice) :
    ∀ (fuel u : Nat) (es : List Edge) (stack : List (Nat × List Edge)) (vc : ColorMap)
      (ec : EdgeColorMap) (s : σ) (T : List Step),
      (u :: stack.map Prod.fst).Nodup → vc u = gray_color →
      (∀ f ∈ stack, vc f.1 = gray_color) →
      (∀ e ∈ es, e.source = u ∧ Joins E e) →
      (∀ f ∈ stack, ∀ e ∈ f.2, e.source = f.1 ∧ Joins E e) →
      es.Pairwise LoopTwice → (∀ f ∈ stack, f.2.Pairwise LoopTwice) →
      (∀ i y, E i y → ec i ≠ white_color → vc y ≠ white_color) →
      ∃ Tn : List Step,
        (undir_dfv_loop g vis.traced (traced_func func) fuel u es stack vc ec (s, T)).2.2.2
          = T ++ Tn ∧
        (tree_back_edges Tn).Nodup ∧
        (∀ i ∈ tree_back_edges Tn, ec i = white_color) ∧
        (forward_or_cross_edges Tn).Nodup ∧
        (∀ e2, Step.forward_or_cross e2 ∈ Tn →
          Joins E e2 ∧
          (e2 ∈ es ∨ (∃ f ∈ stack, e2 ∈ f.2) ∨ vc e2.source = white_color)) := by
  intro fuel
  induction fuel with
  | zero =>
    intro u es stack vc ec s T _ _ _ _ _ _ _ _
    exact ⟨[], by simp [undir_dfv_loop], List.nodup_nil, by simp [tree_back_edges],
      List.nodup_nil, by simp⟩
  | succ n ih =>
    intro u es stack vc ec s T hnd hu hst hes hstk hpw hpws hJ
    cases es with
    | nil =>
      cases stack with
      | nil =>
        exact ⟨[Step.finish u], rfl, List.nodup_nil, by simp [tree_back_edges],
          List.nodup_nil, by simp⟩
      | cons f rest =>
        simp only [undir_dfv_loop]
        have hnd2 : (f.1 :: rest.map Prod.fst).Nodup := by
          simp only [List.map_cons] at hnd
          exact (List.nodup_cons.1 hnd).2
        have hne : ∀ f2 ∈ f :: rest, f2.1 ≠ u := by
          intro f2 hf2 h
          apply (List.nodup_cons.1 hnd).1
          exact List.mem_map.2 ⟨f2, hf2, h⟩
        have hf : put vc u black_color f.1 = gray_color := by
          rw [put_other _ _ _ _ (hne f (List.mem_cons_self _ _))]
          exact hst f (List.mem_cons_self _ _)
        have hrest : ∀ f2 ∈ rest, put vc u black_color f2.1 = gray_color := by
          intro f2 hf2
          rw [put_other _ _ _ _ (hne f2 (List.mem_cons_of_mem _ hf2))]
          exact hst f2 (List.mem_cons_of_mem _ hf2)
        obtain ⟨Tn, h1, h2, h3, h4, h5⟩ := ih f.1 f.2 rest (put vc u black_color) ec
          (vis.finish_vertex u s) (T ++ [Step.finish u]) hnd2 hf hrest
          (hstk f (List.mem_cons_self _ _))
          (fun f2 hf2 => hstk f2 (List.mem_cons_of_mem _ hf2))
          (hpws f (List.mem_cons_self _ _))
          (fun f2 hf2 => hpws f2 (List.mem_cons_of_mem _ hf2))
          (fun i y hE hi => put_ne_white (by decide) (hJ i y hE hi))
        refine ⟨Step.finish u :: Tn, ?_, h2, h3, h4, ?_⟩
        · show (undir_dfv_loop g vis.traced (traced_func func) n f.1 f.2 rest
            (put vc u black_color) ec (vis.finish_vertex u s, T ++ [Step.finish u])).2.2.2 = _
          rw [h1]; simp
        · intro e2 he2
          simp only [List.mem_cons, reduceCtorEq, false_or] at he2
          obtain ⟨h6, h7⟩ := h5 e2 he2
          refine ⟨h6, ?_⟩
          rcases h7 with h | ⟨f2, hf2, h⟩ | h
          · right; left; exact ⟨f, List.mem_cons_self _ _, h⟩
          · right; left; exact ⟨f2, List.mem_cons_of_mem _ hf2, h⟩
          · right; right
            simp only [put] at h
            split_ifs at h
            exact h
    | cons e ei =>
      simp only [undir_dfv_loop]
      have hesrc : e.source = u := (hes e (List.mem_cons_self _ _)).1
      have hej : Joins E e := (hes e (List.mem_cons_self _ _)).2
      have hei : ∀ e2 ∈ ei, e2.source = u ∧ Joins E e2 :=
        fun e2 h => hes e2 (List.mem_cons_of_mem _ h)
      have hpw2 : ei.Pairwise LoopTwice := (List.pairwise_cons.1 hpw).2
      have hloop : ∀ e2 ∈ ei, LoopTwice e e2 := (List.pairwise_cons.1 hpw).1
      have hsrcnw : vc e.source ≠ white_color := by rw [hesrc, hu]; decide
      have hwhite_of : ∀ i, put ec e.id black_color i = white_color →
          i ≠ e.id ∧ ec i = white_color := by
        intro i hi
        simp only [put] at hi
        split_ifs at hi with hie
        exact ⟨hie, hi⟩
      cases hv : vc e.target with
      | white_color =>
        simp only []
        have hvu : e.target ≠ u := by
          intro h; rw [h, hu] at hv; cases hv
        have hvst : ∀ f ∈ stack, f.1 ≠ e.target := by
          intro f hf h
          have := hst f hf
          rw [h, hv] at this; cases this
        have hnd2 : (e.target :: ((u, ei) :: stack).map Prod.fst).Nodup := by
          simp only [List.map_cons]
          refine List.nodup_cons.2 ⟨?_, hnd⟩
          simp only [List.mem_cons, List.mem_map, not_or]
          refine ⟨hvu, ?_⟩
          rintro ⟨f, hf, h⟩
          exact hvst f hf h
        have hst2 : ∀ f ∈ (u, ei) :: stack, put vc e.target gray_color f.1 = gray_color := by
          intro f hf
          rcases List.mem_cons.1 hf with h | h
          · subst h
            show put vc e.target gray_color u = gray_color
            rw [put_other _ _ _ _ (Ne.symm hvu)]; exact hu
          · rw [put_other _ _ _ _ (hvst f h)]; exact hst f h
        have hstk2 : ∀ f ∈ (u, ei) :: stack, ∀ e2 ∈ f.2, e2.source = f.1 ∧ Joins E e2 := by
          intro f hf e2 he2
          rcases List.mem_cons.1 hf with h | h
          · subst h; exact hei e2 he2
          · exact hstk f h e2 he2
        have hpws2 : ∀ f ∈ (u, ei) :: stack, f.2.Pairwise LoopTwice := by
          intro f hf
          rcases List.mem_cons.1 hf with h | h
          · subst h; exact hpw2
          · exact hpws f h
        have hJ2 := joins_examined hej hJ
          (fun y hy => @put_ne_white vc e.target y gray_color (by decide) hy)
          (put_ne_white (by decide) hsrcnw) (by rw [put_same]; decide)
        have hecw : ec e.id = white_color := by
          by_contra hcon
          exact hJ e.id e.target hej.2.1 hcon hv
        have hwhite : ∀ x, put vc e.target gray_color x = white_color →
            x ≠ e.target ∧ vc x = white_color := by
          intro x hx
          simp only [put] at hx
          split_ifs at hx with hxe
          exact ⟨hxe, hx⟩
        have hloc : ∀ (es2 : List Edge) (e2 : Edge),
            (∀ e3 ∈ es2, e3.source = e.target) →
            (e2 ∈ es2 ∨ (∃ f ∈ (u, ei) :: stack, e2 ∈ f.2)
              ∨ put vc e.target gray_color e2.source = white_color) →
            (e2 ∈ e :: ei ∨ (∃ f ∈ stack, e2 ∈ f.2) ∨ vc e2.source = white_color) := by
          intro es2 e2 hsrc h
          rcases h with h | ⟨f, hf, h⟩ | h
          · right; right; rw [hsrc e2 h]; exact hv
          · rcases List.mem_cons.1 hf with h2 | h2
            · subst h2; left; exact List.mem_cons_of_mem _ h
            · right; left; exact ⟨f, h2, h⟩
          · right; right; exact (hwhite _ h).2
        have hb : (func e.target (vis.discover_vertex e.target
            (vis.tree_edge e (vis.examine_edge e s)))).1 = true ∨
            (func e.target (vis.discover_vertex e.target
            (vis.tree_edge e (vis.examine_edge e s)))).1 = false := by
          cases (func e.target (vis.discover_vertex e.target
            (vis.tree_edge e (vis.examine_edge e s)))).1 <;> simp
        rcases hb with hb | hb
        · obtain ⟨Tn, h1, h2, h3, h4, h5⟩ := ih e.target [] ((u, ei) :: stack)
            (put vc e.target gray_color) (put ec e.id black_color)
            (func e.target (vis.discover_vertex e.target
              (vis.tree_edge e (vis.examine_edge e s)))).2
            (T ++ [Step.examine e] ++ [Step.tree e] ++ [Step.discover e.target]
              ++ [Step.stop e.target]) hnd2 (put_same _ _ _) hst2 (by simp) hstk2
            List.Pairwise.nil hpws2 hJ2
          refine ⟨Step.examine e :: Step.tree e :: Step.discover e.target
            :: Step.stop e.target :: Tn, ?_, ?_, ?_, h4, ?_⟩
          · simp only [DFSVisitor.traced, traced_func, hb, if_true] at h1 ⊢
            rw [h1]; simp
          · show (e.id :: tree_back_edges Tn).Nodup
            exact List.nodup_cons.2 ⟨fun hm => (hwhite_of _ (h3 _ hm)).1 rfl, h2⟩
          · intro i hi
            have hi2 : i ∈ e.id :: tree_back_edges Tn := hi
            rcases List.mem_cons.1 hi2 with h | h
            · rw [h]; exact hecw
            · exact (hwhite_of _ (h3 i h)).2
          · intro e2 he2
            simp only [List.mem_cons, reduceCtorEq, false_or] at he2
            obtain ⟨h6, h7⟩ := h5 e2 he2
            exact ⟨h6, hloc [] e2 (by simp) h7⟩
        · obtain ⟨Tn, h1, h2, h3, h4, h5⟩ := ih e.target (g.out_edges e.target)
            ((u, ei) :: stack)
            (put vc e.target gray_color) (put ec e.id black_color)
            (func e.target (vis.discover_vertex e.target
              (vis.tree_edge e (vis.examine_edge e s)))).2
            (T ++ [Step.examine e] ++ [Step.tree e] ++ [Step.discover e.target])
            hnd2 (put_same _ _ _) hst2 (hview e.target) hstk2 (hpair e.target) hpws2 hJ2
          refine ⟨Step.examine e :: Step.tree e :: Step.discover e.target :: Tn,
            ?_, ?_, ?_, h4, ?_⟩
          · simp only [DFSVisitor.traced, traced_func, hb] at h1 ⊢
            simp only [Bool.false_eq_true, if_false] at h1 ⊢
            rw [h1]; simp
          · show (e.id :: tree_back_edges Tn).Nodup
            exact List.nodup_cons.2 ⟨fun hm => (hwhite_of _ (h3 _ hm)).1 rfl, h2⟩
          · intro i hi
            have hi2 : i ∈ e.id :: tree_back_edges Tn := hi
            rcases List.mem_cons.1 hi2 with h | h
            · rw [h]; exact hecw
            · exact (hwhite_of _ (h3 i h)).2
          · intro e2 he2
            simp only [List.mem_cons, reduceCtorEq, false_or] at he2
            obtain ⟨h6, h7⟩ := h5 e2 he2
            exact ⟨h6, hloc _ e2 (fun e3 he3 => (hview e.target e3 he3).1) h7⟩
      | gray_color =>
        simp only []
        have hJ2 := joins_examined hej hJ (fun y hy => hy) hsrcnw (by rw [hv]; decide)
        have hloc : ∀ e2 : Edge,
            (e2 ∈ ei ∨ (∃ f ∈ stack, e2 ∈ f.2) ∨ vc e2.source = white_color) →
            (e2 ∈ e :: ei ∨ (∃ f ∈ stack, e2 ∈ f.2) ∨ vc e2.source = white_color) := by
          intro e2 h
          rcases h with h | h | h
          · left; exact List.mem_cons_of_mem _ h
          · right; left; exact h
          · right; right; exact h
        by_cases hc : ec e.id = white_color
        · obtain ⟨Tn, h1, h2, h3, h4, h5⟩ := ih u ei stack vc (put ec e.id black_color)
            (vis.back_edge e (vis.examine_edge e s))
            (T ++ [Step.examine e] ++ [Step.back e]) hnd hu hst hei hstk hpw2 hpws hJ2
          refine ⟨Step.examine e :: Step.back e :: Tn, ?_, ?_, ?_, h4, ?_⟩
          · simp only [DFSVisitor.traced, if_pos hc] at h1 ⊢
            rw [h1]; simp
          · show (e.id :: tree_back_edges Tn).Nodup
            exact List.nodup_cons.2 ⟨fun hm => (hwhite_of _ (h3 _ hm)).1 rfl, h2⟩
          · intro i hi
            have hi2 : i ∈ e.id :: tree_back_edges Tn := hi
            rcases List.mem_cons.1 hi2 with h | h
            · rw [h]; exact hc
            · exact (hwhite_of _ (h3 i h)).2
          · intro e2 he2
            simp only [List.mem_cons, reduceCtorEq, false_or] at he2
            obtain ⟨h6, h7⟩ := h5 e2 he2
            exact ⟨h6, hloc e2 h7⟩
        · obtain ⟨Tn, h1, h2, h3, h4, h5⟩ := ih u ei stack vc (put ec e.id black_color)
            (vis.examine_edge e s) (T ++ [Step.examine e]) hnd hu hst hei hstk hpw2 hpws hJ2
          refine ⟨Step.examine e :: Tn, ?_, h2, ?_, h4, ?_⟩
          · simp only [DFSVisitor.traced, if_neg hc] at h1 ⊢
            rw [h1]; simp
          · intro i hi
            exact (hwhite_of _ (h3 i hi)).2
          · intro e2 he2
            simp only [List.mem_cons, reduceCtorEq, false_or] at he2
            obtain ⟨h6, h7⟩ := h5 e2 he2
            exact ⟨h6, hloc e2 h7⟩
      | black_color =>
        simp only []
        have hJ2 := joins_examined hej hJ (fun y hy => hy) hsrcnw (by rw [hv]; decide)
        obtain ⟨Tn, h1, h2, h3, h4, h5⟩ := ih u ei stack vc (put ec e.id black_color)
          (vis.forward_or_cross_edge e (vis.examine_edge e s))
          (T ++ [Step.examine e] ++ [Step.forward_or_cross e]) hnd hu hst hei hstk hpw2
          hpws hJ2
        have hends : ∀ y, E e.id y → vc y = white_color → False := by
          intro y hy hw
          rcases hej.2.2 y hy with h | h
          · rw [h] at hw; exact hsrcnw hw
          · rw [h, hv] at hw; cases hw
        have hfresh : e.id ∉ forward_or_cross_edges Tn := by
          intro hm
          obtain ⟨e2, he2, hid⟩ := mem_forward_or_cross_edges hm
          obtain ⟨h6, h7⟩ := h5 e2 he2
          have hE2 : E e.id e2.source := by rw [← hid]; exact h6.1
          rcases h7 with h | ⟨f, hf, h⟩ | h
          · have := hloop e2 h hid.symm
            rw [← this, hesrc, hu] at hv; cases hv
          · have hsrc2 : e2.source = f.1 := (hstk f hf e2 h).1
            rcases hej.2.2 _ hE2 with h8 | h8
            · apply (List.nodup_cons.1 hnd).1
              refine List.mem_map.2 ⟨f, hf, ?_⟩
              rw [← hsrc2, h8, hesrc]
            · have := hst f hf
              rw [← hsrc2, h8, hv] at this; cases this
          · exact hends _ hE2 h
        refine ⟨Step.examine e :: Step.forward_or_cross e :: Tn, ?_, h2, ?_, ?_, ?_⟩
        · simp only [DFSVisitor.traced] at h1 ⊢
          rw [h1]; simp
        · intro i hi
          exact (hwhite_of _ (h3 i hi)).2
        · show (e.id :: forward_or_cross_edges Tn).Nodup
          exact List.nodup_cons.2 ⟨hfresh, h4⟩
        · intro e2 he2
          simp only [List.mem_cons, Step.forward_or_cross.injEq, reduceCtorEq,
            false_or] at he2
          rcases he2 with h | h
          · rw [h]; exact ⟨hej, Or.inl (List.mem_cons_self _ _)⟩
          · obtain ⟨h6, h7⟩ := h5 e2 h
            refine ⟨h6, ?_⟩
            rcases h7 with h8 | h8 | h8
            · left; exact List.mem_cons_of_mem _ h8
            · right; left; exact h8
            · right; right; exact h8

/-- Stored edges with distinct identities: two of one identity are one edge. -/
theorem edge_of_id (g : RubyGraph) (hids : (g.edges.map Edge.id).Nodup) {a b : Edge}
    (ha : a ∈ g.edges) (hb : b ∈ g.edges) (h : a.id = b.id) : a = b :=
  List.inj_on_of_nodup_map hids ha hb h

/-- An edge of the undirected view starts at its vertex and joins the two ends
of the stored edge of its identity. -/
theorem undirected_joins (g : RubyGraph) (hids : (g.edges.map Edge.id).Nodup) :
    ∀ x, ∀ e ∈ (make_undirected_graph g).out_edges x, e.source = x ∧ Joins g.Ends e := by
  intro x e he
  refine ⟨undirected_sourced g x e he, ?_⟩
  simp only [make_undirected_graph, RubyGraph.out_edges, RubyGraph.in_edges,
    List.mem_append, List.mem_filter, List.mem_map] at he
  rcases he with ⟨he, _⟩ | ⟨e0, ⟨he0, _⟩, rfl⟩
  · refine ⟨⟨e, he, rfl, Or.inl rfl⟩, ⟨e, he, rfl, Or.inr rfl⟩, ?_⟩
    rintro y ⟨e1, he1, hid, hy⟩
    have := edge_of_id g hids he1 he hid
    rw [this] at hy
    exact hy
  · refine ⟨⟨e0, he0, rfl, Or.inr rfl⟩, ⟨e0, he0, rfl, Or.inl rfl⟩, ?_⟩
    rintro y ⟨e1, he1, hid, hy⟩
    have hid2 : e1.id = e0.id := hid
    have := edge_of_id g hids he1 he0 hid2
    rw [this] at hy
    rcases hy with h | h
    · right; exact h
    · left; exact h

/-- In the out-edges of a vertex in the undirected view only a loop comes
twice. -/
theorem undirected_loop_twice (g : RubyGraph) (hids : (g.edges.map Edge.id).Nodup) :
    ∀ x, ((make_undirected_graph g).out_edges x).Pairwise LoopTwice := by
  intro x
  have hpw : g.edges.Pairwise (fun a b => a.id ≠ b.id) := by
    have := hids
    unfold List.Nodup at this
    exact List.pairwise_map.1 this
  show (g.out_edges x ++ (g.in_edges x).map Edge.flip).Pairwise LoopTwice
  rw [List.pairwise_append]
  refine ⟨?_, ?_, ?_⟩
  · unfold RubyGraph.out_edges
    exact (hpw.sublist (List.filter_sublist _)).imp (fun h1 h2 => absurd h2 h1)
  · rw [List.pairwise_map]
    unfold RubyGraph.in_edges
    exact (hpw.sublist (List.filter_sublist _)).imp (fun h1 h2 => absurd h2 h1)
  · intro a ha b hb hid
    simp only [RubyGraph.out_edges, RubyGraph.in_edges, List.mem_filter, List.mem_map,
      decide_eq_true_eq] at ha hb
    obtain ⟨c, ⟨hc, hct⟩, rfl⟩ := hb
    have hid2 : a.id = c.id := hid
    have := edge_of_id g hids ha.1 hc hid2
    rw [this, hct]
    rw [← this]
    exact ha.2

theorem step_events_append (A B : List Step) :
    step_events (A ++ B) = step_events A ++ step_events B := by
  simp [step_events]

/-- The record of the block is the events of the steps: in the undirected
loop with the visitor of `each_dfs` under the mask `ALL`. -/
theorem undir_each_dfs_loop_events (g : View) (p : List Yield → Yield → Bool) :
    ∀ (fuel u : Nat) (es : List Edge) (stack : List (Nat × List Edge)) (vc : ColorMap)
      (ec : EdgeColorMap) (s : Thread (List Yield)) (T : List Step) (A : List Yield),
      s.user = A ++ step_events T →
      (undir_dfv_loop g (ruby_dfs_visitor VISIT_ALL_EDGES (record_block p)).traced
          (traced_func search_terminator) fuel u es stack vc ec (s, T)).2.2.1.user
        = A ++ step_events
          (undir_dfv_loop g (ruby_dfs_visitor VISIT_ALL_EDGES (record_block p)).traced
            (traced_func search_terminator) fuel u es stack vc ec (s, T)).2.2.2 := by
  intro fuel
  induction fuel with
  | zero => intro u es stack vc ec s T A h; exact h
  | succ n ih =>
    intro u es stack vc ec s T A h
    have hskip : ∀ x : Step, x.event = none → s.user = A ++ step_events (T ++ [x]) := by
      intro x hx
      rw [step_events_append, h]
      simp [step_events, hx]
    cases es with
    | nil =>
      cases stack with
      | nil =>
        simp only [undir_dfv_loop]
        exact hskip (Step.finish u) rfl
      | cons f rest =>
        simp only [undir_dfv_loop]
        exact ih _ _ _ _ _ _ _ A (hskip (Step.finish u) rfl)
    | cons e ei =>
      simp only [undir_dfv_loop]
      have hyield : ∀ (what : Nat) (x : Step), what &&& VISIT_ALL_EDGES ≠ 0 →
          x.event = some { source := e.source, target := e.target, info := e.payload,
                           kind := what } →
          (yield_edge VISIT_ALL_EDGES (record_block p) e what s).user
            = A ++ step_events (T ++ [Step.examine e] ++ [x]) := by
        intro what x hw hx
        rw [yield_edge_all_user p e what hw s, h, step_events_append, step_events_append]
        have hex : (Step.examine e).event = none := rfl
        simp [step_events, List.filterMap_cons, hx, hex]
      cases hv : vc e.target with
      | white_color =>
        simp only []
        have h1 := hyield VISIT_TREE_EDGES (Step.tree e) (by decide) rfl
        have hb : (search_terminator e.target
            (yield_edge VISIT_ALL_EDGES (record_block p) e VISIT_TREE_EDGES s)).1 = true ∨
            (search_terminator e.target
            (yield_edge VISIT_ALL_EDGES (record_block p) e VISIT_TREE_EDGES s)).1 = false := by
          cases (search_terminator e.target
            (yield_edge VISIT_ALL_EDGES (record_block p) e VISIT_TREE_EDGES s)).1 <;> simp
        have hu2 := (search_terminator_user e.target
          (yield_edge VISIT_ALL_EDGES (record_block p) e VISIT_TREE_EDGES s)).1
        rcases hb with hb | hb
        · simp only [DFSVisitor.traced, traced_func, ruby_visitor_examine,
            ruby_visitor_tree, ruby_visitor_discover, hb, if_true]
          apply ih
          rw [hu2, h1, step_events_append, step_events_append, step_events_append,
            step_events_append]
          simp [step_events, Step.event]
        · simp only [DFSVisitor.traced, traced_func, ruby_visitor_examine,
            ruby_visitor_tree, ruby_visitor_discover, hb]
          simp only [Bool.false_eq_true, if_false]
          apply ih
          rw [hu2, h1, step_events_append, step_events_append, step_events_append]
          simp [step_events, Step.event]
      | gray_color =>
        simp only []
        by_cases hc : ec e.id = white_color
        · simp only [if_pos hc, DFSVisitor.traced, ruby_visitor_examine, ruby_visitor_back]
          apply ih
          exact hyield VISIT_BACK_EDGES (Step.back e) (by decide) rfl
        · simp only [if_neg hc, DFSVisitor.traced, ruby_visitor_examine]
          apply ih
          exact hskip (Step.examine e) rfl
      | black_color =>
        simp only [DFSVisitor.traced, ruby_visitor_examine, ruby_visitor_forward]
        apply ih
        exact hyield VISIT_FORWARD_OR_CROSS_EDGES (Step.forward_or_cross e) (by decide) rfl

/-- In the undirected visit from fresh vertex colours and white edge colours,
over a view whose edges join the ends of their identities: no identity is
reported twice as a tree edge or a back edge, nor twice as a forward-or-cross
edge. -/
theorem undir_dfv_impl_term_once {σ : Type} (g : View) (vis : DFSVisitor σ)
    (func : Nat → σ → Bool × σ) (E : Nat → Nat → Prop)
    (hview : ∀ x, ∀ e ∈ g.out_edges x, e.source = x ∧ Joins E e)
    (hpair : ∀ x, (g.out_edges x).Pairwise LoopTwice) (r : Nat) (ec : EdgeColorMap)
    (hec : ∀ i y, E i y → ec i = white_color) (s : σ) :
    (tree_back_edges
        (undir_dfv_impl_term g r vis.traced ColorMap.empty ec (traced_func func)
          (s, [])).2.2.2).Nodup
    ∧ (forward_or_cross_edges
        (undir_dfv_impl_term g r vis.traced ColorMap.empty ec (traced_func func)
          (s, [])).2.2.2).Nodup := by
  unfold undir_dfv_impl_term
  simp only []
  have hJ : ∀ i y, E i y → ec i ≠ white_color →
      put ColorMap.empty r gray_color y ≠ white_color :=
    fun i y hE hi => absurd (hec i y hE) hi
  have hb : (func r (vis.discover_vertex r s)).1 = true ∨
      (func r (vis.discover_vertex r s)).1 = false := by
    cases (func r (vis.discover_vertex r s)).1 <;> simp
  rcases hb with hb | hb
  · obtain ⟨Tn, h1, h2, -, h4, -⟩ := undir_dfv_loop_once g vis func E hview hpair
      (dfs_fuel g) r [] [] (put ColorMap.empty r gray_color) ec
      (func r (vis.discover_vertex r s)).2 ([Step.discover r] ++ [Step.stop r])
      (by simp) (put_same _ _ _) (by simp) (by simp) (by simp) List.Pairwise.nil (by simp) hJ
    simp only [DFSVisitor.traced, traced_func, hb, if_true, List.nil_append] at h1 ⊢
    rw [h1]
    exact ⟨h2, h4⟩
  · obtain ⟨Tn, h1, h2, -, h4, -⟩ := undir_dfv_loop_once g vis func E hview hpair
      (dfs_fuel g) r (g.out_edges r) [] (put ColorMap.empty r gray_color) ec
      (func r (vis.discover_vertex r s)).2 [Step.discover r]
      (by simp) (put_same _ _ _) (by simp) (hview r) (by simp) (hpair r) (by simp) hJ
    simp only [DFSVisitor.traced, traced_func, hb, List.nil_append] at h1 ⊢
    simp only [Bool.false_eq_true, if_false] at h1 ⊢
    rw [h1]
    exact ⟨h2, h4⟩

/-- The record of the block after the undirected visit with the visitor of
`each_dfs` under the mask `ALL` is the events of its steps. -/
theorem undir_each_dfs_impl_events (g : View) (p : List Yield → Yield → Bool) (r : Nat)
    (vc : ColorMap) (ec : EdgeColorMap) (s : Thread (List Yield)) :
    (undir_dfv_impl_term g r (ruby_dfs_visitor VISIT_ALL_EDGES (record_block p)) vc ec
        search_terminator s).2.2.user
      = s.user ++ step_events
        (undir_dfv_impl_term g r (ruby_dfs_visitor VISIT_ALL_EDGES (record_block p)).traced
          vc ec (traced_func search_terminator) (s, [])).2.2.2 := by
  have h0 := undir_dfv_impl_term_traced g (ruby_dfs_visitor VISIT_ALL_EDGES (record_block p))
    search_terminator r vc ec s
  rw [← h0]
  simp only []
  unfold undir_dfv_impl_term
  simp only []
  have hu := (search_terminator_user r s).1
  have hb : (search_terminator r s).1 = true ∨ (search_terminator r s).1 = false := by
    cases (search_terminator r s).1 <;> simp
  rcases hb with hb | hb
  · simp only [DFSVisitor.traced, traced_func, ruby_visitor_discover, hb, if_true,
      List.nil_append]
    apply undir_each_dfs_loop_events
    rw [hu]
    simp [step_events, Step.event]
  · simp only [DFSVisitor.traced, traced_func, ruby_visitor_discover, hb, List.nil_append]
    simp only [Bool.false_eq_true, if_false]
    apply undir_each_dfs_loop_events
    rw [hu]
    simp [step_events, Step.event]

/-- C22, amended: on a stored graph whose edges have distinct identities, the
undirected `each_dfs` from a vertex `r` of the graph, under the mask `ALL` and
with a block that never prunes, whatever edge colours and prune flag it finds:
the events delivered are those of the steps of the walk, in order; no stored
edge is delivered twice with the kind TREE or BACK, be it once as TREE and
once as BACK; and no stored edge is delivered twice with the kind
FORWARD_OR_CROSS. -/
theorem undirected_each_dfs_once (g : RubyGraph) (hids : (g.edges.map Edge.id).Nodup)
    (r : Nat) (hr : r ∈ g.vertices) (ec : EdgeColorMap) (b : Bool) :
    (graph_undirected_each_dfs g r VISIT_ALL_EDGES (record_block never) ec
        { prune := b, user := [] }).2.2.user
      = step_events (undirected_each_dfs_steps g r VISIT_ALL_EDGES never ec)
    ∧ (tree_back_edges (undirected_each_dfs_steps g r VISIT_ALL_EDGES never ec)).Nodup
    ∧ (forward_or_cross_edges
        (undirected_each_dfs_steps g r VISIT_ALL_EDGES never ec)).Nodup := by
  have hec : ∀ i y, g.Ends i y →
      g.edges.foldl (fun c e => put c e.id white_color) ec i = white_color := by
    rintro i y ⟨e, he, hid, -⟩
    rw [foldl_put_white, if_pos (List.mem_map.2 ⟨e, he, hid⟩)]
  have honce := undir_dfv_impl_term_once (make_undirected_graph g)
    (ruby_dfs_visitor VISIT_ALL_EDGES (record_block never)) search_terminator g.Ends
    (undirected_joins g hids) (undirected_loop_twice g hids) r
    (g.edges.foldl (fun c e => put c e.id white_color) ec) hec
    ({ prune := false, user := [] } : Thread (List Yield))
  refine ⟨?_, honce.1, honce.2⟩
  have hr2 : r ∈ (make_undirected_graph g).vertices := hr
  have hev := undir_each_dfs_impl_events (make_undirected_graph g) never r ColorMap.empty
    (g.edges.foldl (fun c e => put c e.id white_color) ec)
    ({ prune := false, user := [] } : Thread (List Yield))
  simp only [List.nil_append] at hev
  unfold graph_undirected_each_dfs undirected_depth_first_visit
  simp only [rb_to_vertex, if_pos hr2, Bool.not_true, Bool.false_eq_true, if_false]
  exact hev

/-- Witness of C22, amended: on the triangle A->B, B->C, C->A from A, after a
call that left every edge black and the prune flag set, the three stored edges
are delivered once each as TREE or BACK, and the edge C->A once more as
FORWARD_OR_CROSS. -/
theorem undirected_each_dfs_once_witness :
    tree_back_edges (undirected_each_dfs_steps triangleGraph 1 VISIT_ALL_EDGES never
        (fun _ => black_color)) = [0, 1, 2]
    ∧ forward_or_cross_edges (undirected_each_dfs_steps triangleGraph 1 VISIT_ALL_EDGES never
        (fun _ => black_color)) = [2]
    ∧ (graph_undirected_each_dfs triangleGraph 1 VISIT_ALL_EDGES (record_block never)
        (fun _ => black_color) { prune := true, user := [] }).2.2.user
      = step_events (undirected_each_dfs_steps triangleGraph 1 VISIT_ALL_EDGES never
        (fun _ => black_color))
    ∧ (tree_back_edges (undirected_each_dfs_steps triangleGraph 1 VISIT_ALL_EDGES never
        (fun _ => black_color))).Nodup :=
  ⟨by decide, by decide,
    (undirected_each_dfs_once triangleGraph (by decide) 1 (by decide)
      (fun _ => black_color) true).1,
    (undirected_each_dfs_once triangleGraph (by decide) 1 (by decide)
      (fun _ => black_color) true).2.1⟩

end RobyBGL
